import Mathlib

/-!
# QuantFlow: backtest engine, accounting, order management, replay and metrics

A shallow embedding of the simulation kernel of QuantFlow
(`core/types.hpp`, `portfolio/portfolio_manager.hpp`,
`backtest/backtest_engine.{hpp,cpp}`, `strategy/strategy_base.hpp`), of
`execution/order_manager.{hpp,cpp}`, of
`backtest/performance_analyzer.{hpp,cpp}`, of the replay of
`market_data/historical_feed.{hpp,cpp}`, of the ring buffer of
`utils/lockfree_queue.hpp` and of the in-memory store of
`data/timeseries_db.{hpp,cpp}`.

Conventions of the embedding.

* `double` is embedded as `ℚ`: arithmetic is exact, rounding is abstracted
  away.  A division by zero is NaN or infinity in C++ and `0` in `ℚ`; the
  theorems that speak about a quotient assume what makes the divisor non-zero
  (positive or non-zero equity samples, for instance).
* `OrderID`/`FillID` (`uint64_t`) are embedded as `Nat`.  The only arithmetic
  on them is `next_order_id_++` starting from 1, which does not wrap in any run
  of fewer than `2^64` orders and fills.
* `std::map<OrderID, Order>` is an association list kept in ascending key
  order; the `std::unordered_map`s are association lists.
* A strategy is a state together with its callbacks; the strategies of one
  engine share the type `S` of their states.  A callback sees what
  `StrategyContext` exposes (the portfolio, and the ids `buy`/`sell` will
  return) and yields the context calls it makes, in order.  `buy`, `sell` and
  `cancel_order` leave the portfolio as it is and hand out consecutive ids, so
  the calls a callback makes are a function of what it sees on entry.
* `TimeUtils::now()`, the indeterminate content of default-initialised locals
  (`Order order;`, `Fill fill;`) and the result of `std::sort` are read from an
  environment `Env`.  The methods of `OrderManager` take the clock reading of
  the call as an argument.  `std::sqrt` and `event_queue_.top()` are arguments
  of the functions that call them.
* A callback may submit orders while the loop of `process_bar` runs, so that
  loop need not end; it is embedded with a step bound (`fuel`).  So are the
  loops of `HistoricalFeed`.
* A data file is the list of its lines after the header, each either the six
  fields `read_next_event` parses or a line it skips.  The replay thread is run
  to its end inside `start`; callbacks installed on a feed or an order manager
  only observe.
* The engine and the feed carry an observation log (`log`) of the calls they
  make.  The log is write-only: no definition reads it.
* `SPSCQueue` is embedded for sequential calls: the atomics are plain
  indices, and the array is the function from a slot to its content.
* Where a scenario needs the `std::sort` of a toolchain, it is the introsort of
  libstdc++ (`StdSort`), embedded from GCC's `bits/stl_algo.h`; on ranges of at
  most 16 elements that sort is a stable insertion sort, as is the sort of the
  environment `Scenario.env`.
* `std::lower_bound` and `std::upper_bound` are the partition point of a range
  partitioned by the comparison, which a sorted series is; `std::merge` and
  `std::unique` are the loops the standard describes.  A call whose behaviour
  is undefined (the range constructor of `std::vector` on a reversed range)
  yields `none`.
-/

namespace QuantFlow

/-! ## core/types.hpp -/

abbrev Symbol := String
abbrev OrderID := Nat
abbrev FillID := Nat
abbrev Timestamp := Int
abbrev Duration := Int

/-- OHLCV bar (`struct Bar`). -/
structure Bar where
  symbol : Symbol
  timestamp : Timestamp
  open_ : ℚ
  high : ℚ
  low : ℚ
  close : ℚ
  volume : Nat
  period : Duration

inductive OrderType where
  | MARKET | LIMIT | STOP | STOP_LIMIT
  deriving DecidableEq, Repr

inductive OrderSide where
  | BUY | SELL | SHORT | COVER
  deriving DecidableEq, Repr

inductive OrderStatus where
  | PENDING | SUBMITTED | ACCEPTED | PARTIALLY_FILLED
  | FILLED | CANCELLED | REJECTED | EXPIRED
  deriving DecidableEq, Repr

inductive TimeInForce where
  | DAY | GTC | IOC | FOK
  deriving DecidableEq, Repr

/-- Order record (`struct Order`); the string members that no modelled
function reads or writes are left out. -/
structure Order where
  id : OrderID
  symbol : Symbol
  type : OrderType
  side : OrderSide
  quantity : ℚ
  price : ℚ
  stop_price : ℚ
  tif : TimeInForce
  status : OrderStatus
  filled_quantity : ℚ
  remaining_quantity : ℚ
  avg_fill_price : ℚ
  created_at : Timestamp
  submitted_at : Timestamp
  updated_at : Timestamp
  filled_at : Timestamp

def Order.is_buy (o : Order) : Bool :=
  o.side == OrderSide.BUY || o.side == OrderSide.COVER

def Order.is_sell (o : Order) : Bool :=
  o.side == OrderSide.SELL || o.side == OrderSide.SHORT

def Order.is_filled (o : Order) : Bool :=
  o.status == OrderStatus.FILLED

def Order.is_open (o : Order) : Bool :=
  o.status == OrderStatus.SUBMITTED ||
  o.status == OrderStatus.ACCEPTED ||
  o.status == OrderStatus.PARTIALLY_FILLED

/-- Fill record (`struct Fill`), without the `exchange_id` string. -/
structure Fill where
  id : FillID
  order_id : OrderID
  symbol : Symbol
  side : OrderSide
  quantity : ℚ
  price : ℚ
  commission : ℚ
  slippage : ℚ
  timestamp : Timestamp

def Fill.notional (f : Fill) : ℚ := f.quantity * f.price

def Fill.total_cost (f : Fill) : ℚ := f.notional + f.commission

/-- Position record (`struct Position`). -/
structure Position where
  symbol : Symbol
  quantity : ℚ
  avg_entry_price : ℚ
  current_price : ℚ
  realized_pnl : ℚ
  unrealized_pnl : ℚ
  total_pnl : ℚ
  total_commission : ℚ
  opened_at : Timestamp
  last_updated : Timestamp

/-- The value-initialised `Position` that `positions[symbol]` inserts for a
symbol that has no entry yet. -/
def Position.zero : Position :=
  { symbol := "", quantity := 0, avg_entry_price := 0, current_price := 0,
    realized_pnl := 0, unrealized_pnl := 0, total_pnl := 0,
    total_commission := 0, opened_at := 0, last_updated := 0 }

def Position.is_long (p : Position) : Bool := decide (p.quantity > 0)

def Position.is_short (p : Position) : Bool := decide (p.quantity < 0)

def Position.is_flat (p : Position) : Bool := decide (p.quantity = 0)

def Position.market_value (p : Position) : ℚ := p.quantity * p.current_price

def Position.cost_basis (p : Position) : ℚ := p.quantity * p.avg_entry_price

/-- The `unordered_map<Symbol, Position>` of a portfolio. -/
abbrev Positions := List (Symbol × Position)

/-- Lookup, as `positions.find(symbol)`. -/
def Positions.find (m : Positions) (s : Symbol) : Option Position :=
  (List.find? (fun e => e.1 == s) m).map Prod.snd

/-- The position `positions[symbol]` refers to: the stored one, or the
value-initialised one that the subscript inserts. -/
def Positions.get (m : Positions) (s : Symbol) : Position :=
  (m.find s).getD Position.zero

/-- Write `p` through the reference obtained from `positions[symbol]`. -/
def Positions.assign : Positions → Symbol → Position → Positions
  | [], s, p => [(s, p)]
  | e :: m, s, p => if e.1 == s then (s, p) :: m else e :: Positions.assign m s p

/-- Sum of `market_value()` over all positions. -/
def Positions.total_market_value (m : Positions) : ℚ :=
  (m.map (fun e => e.2.market_value)).sum

/-- Portfolio record (`struct PortfolioState`); the margin members, which no
modelled function reads or writes, are left out. -/
structure PortfolioState where
  cash : ℚ
  equity : ℚ
  buying_power : ℚ
  positions : Positions

def PortfolioState.total_value (s : PortfolioState) : ℚ := s.equity

/-! ## portfolio/portfolio_manager.hpp -/

namespace PortfolioManager

/-- Constructor `PortfolioManager(initial_cash)`. -/
def init (initial_cash : ℚ) : PortfolioState :=
  { cash := initial_cash, equity := initial_cash, buying_power := initial_cash,
    positions := [] }

/-- The position part of `update_position`: the new content of
`positions[fill.symbol]`. -/
def fill_position (pos : Position) (fill : Fill) : Position :=
  let pos1 :=
    if fill.side = OrderSide.BUY then
      let new_qty := pos.quantity + fill.quantity
      { pos with
        avg_entry_price :=
          ((pos.avg_entry_price * pos.quantity) + (fill.price * fill.quantity)) / new_qty
        quantity := new_qty }
    else
      let qty := pos.quantity - fill.quantity
      let pnl := (fill.price - pos.avg_entry_price) * fill.quantity
      { pos with quantity := qty, realized_pnl := pos.realized_pnl + pnl }
  { pos1 with total_commission := pos1.total_commission + fill.commission }

/-- Method `PortfolioManager::update_position`. -/
def update_position (state : PortfolioState) (fill : Fill) : PortfolioState :=
  let pos := fill_position (state.positions.get fill.symbol) fill
  let cash :=
    if fill.side = OrderSide.BUY then state.cash - fill.total_cost
    else state.cash + (fill.notional - fill.commission)
  { state with cash := cash, positions := state.positions.assign fill.symbol pos }

/-- Lookup in the `unordered_map<Symbol, double>` argument of
`update_prices`, as `prices.find(symbol)`. -/
def price_of (prices : List (Symbol × ℚ)) (s : Symbol) : Option ℚ :=
  (List.find? (fun q => q.1 == s) prices).map Prod.snd

/-- Method `PortfolioManager::update_prices`. -/
def update_prices (state : PortfolioState) (prices : List (Symbol × ℚ)) : PortfolioState :=
  let positions : Positions := state.positions.map (fun e =>
    match price_of prices e.1 with
    | some price =>
        (e.1, { e.2 with
                current_price := price
                unrealized_pnl := (price - e.2.avg_entry_price) * e.2.quantity })
    | none => e)
  { state with
    positions := positions
    equity := positions.foldl (fun total e => total + e.2.market_value) state.cash }

def get_position (state : PortfolioState) (symbol : Symbol) : Option Position :=
  state.positions.find symbol

end PortfolioManager

/-! ## strategy/strategy_base.hpp -/

/-- What a callback can read through `StrategyContext`: the portfolio
(`get_portfolio`, `get_position`, `get_cash`) and the id the next `buy`/`sell`
returns. -/
structure View where
  portfolio : PortfolioState
  next_order_id : OrderID

/-- A call on `StrategyContext` made from inside a callback. -/
inductive Action where
  | buy (symbol : Symbol) (quantity : ℚ) (price : ℚ)
  | sell (symbol : Symbol) (quantity : ℚ) (price : ℚ)
  | cancel_order (order_id : OrderID)

/-- A strategy object (`class Strategy`): its private state and its
callbacks.  A callback returns the new private state and the context calls it
made, in the order it made them. -/
structure Strategy (S : Type) where
  state : S
  on_init : S → View → S × List Action
  on_bar : S → Bar → View → S × List Action
  on_fill : S → Fill → View → S × List Action

/-! ## backtest/backtest_engine.{hpp,cpp} -/

structure BacktestConfig where
  initial_cash : ℚ
  commission_rate : ℚ
  slippage_bps : ℚ
  start_time : Timestamp
  end_time : Timestamp

/-- The defaults of `struct BacktestConfig`. -/
def BacktestConfig.default : BacktestConfig :=
  { initial_cash := 100000, commission_rate := 1 / 1000, slippage_bps := 5,
    start_time := 0, end_time := 0 }

/-- What the engine reads from outside the program: the wall clock and the
indeterminate content of default-initialised locals, both indexed by the id
that the reading call allocates; and the result of `std::sort`. -/
structure Env where
  now : Nat → Timestamp
  junk_order : Nat → Order
  junk_fill : Nat → Fill
  sort : List Bar → List Bar

/-- One entry of the observation log. -/
inductive Event where
  | init_enter (strategy : Nat)
  | init_return (strategy : Nat)
  | bar_enter (strategy : Nat) (bar : Bar)
  | bar_return (strategy : Nat) (bar : Bar)
  | submitted (order_id : OrderID)
  | cancel_called (order_id : OrderID)
  | execute_enter (order_id : OrderID) (before : PortfolioState)
  | settled (fill : Fill) (after : PortfolioState)
  | fill_enter (strategy : Nat) (fill : Fill)
  | fill_return (strategy : Nat) (fill : Fill)

/-- The `std::map<OrderID, Order>` of the engine, in ascending key order. -/
abbrev OrderMap := List (OrderID × Order)

/-- Lookup, as `orders_.find(id)`. -/
def OrderMap.find (m : OrderMap) (k : OrderID) : Option Order :=
  (List.find? (fun e => e.1 == k) m).map Prod.snd

/-- Insert or overwrite, as `orders_[k] = v`. -/
def OrderMap.assign : OrderMap → OrderID → Order → OrderMap
  | [], k, v => [(k, v)]
  | e :: m, k, v =>
      if k < e.1 then (k, v) :: e :: m
      else if k = e.1 then (k, v) :: m
      else e :: OrderMap.assign m k v

/-- Write through a reference to the order stored under `k`. -/
def OrderMap.modify (m : OrderMap) (k : OrderID) (f : Order → Order) : OrderMap :=
  m.map (fun e => if e.1 = k then (e.1, f e.2) else e)

/-- Iterator step of the range-for over `orders_`: the first entry when the
loop starts (`none`), the entry after the key just visited otherwise. -/
def OrderMap.next (m : OrderMap) (visited : Option OrderID) : Option (OrderID × Order) :=
  match visited with
  | none => m.head?
  | some k => List.find? (fun e => decide (k < e.1)) m

/-- The members of `class BacktestEngine`, and the observation log. -/
structure Engine (S : Type) where
  config_ : BacktestConfig
  portfolio_ : PortfolioState
  strategies_ : List (Strategy S)
  bars_ : List Bar
  orders_ : OrderMap
  next_order_id_ : OrderID
  log : List Event

namespace Engine

variable {S : Type}

/-- Constructor `BacktestEngine(config)`. -/
def init (config : BacktestConfig) : Engine S :=
  { config_ := config
    portfolio_ := { cash := config.initial_cash, equity := config.initial_cash,
                    buying_power := config.initial_cash, positions := [] }
    strategies_ := []
    bars_ := []
    orders_ := []
    next_order_id_ := 1
    log := [] }

/-- Method `BacktestEngine::add_strategy`. -/
def add_strategy (e : Engine S) (strategy : Strategy S) : Engine S :=
  { e with strategies_ := e.strategies_ ++ [strategy] }

/-- Method `BacktestEngine::add_data`. -/
def add_data (env : Env) (e : Engine S) (bars : List Bar) : Engine S :=
  { e with bars_ := env.sort bars }

def view (e : Engine S) : View :=
  { portfolio := e.portfolio_, next_order_id := e.next_order_id_ }

/-- Method `BacktestEngine::buy`. -/
def buy (env : Env) (e : Engine S) (symbol : Symbol) (quantity price : ℚ) :
    Engine S × OrderID :=
  let id := e.next_order_id_
  let order : Order :=
    { env.junk_order id with
      id := id
      symbol := symbol
      type := if price > 0 then OrderType.LIMIT else OrderType.MARKET
      side := OrderSide.BUY
      quantity := quantity
      price := price
      status := OrderStatus.SUBMITTED
      created_at := env.now id }
  ({ e with
     next_order_id_ := id + 1
     orders_ := e.orders_.assign order.id order
     log := e.log ++ [Event.submitted order.id] }, order.id)

/-- Method `BacktestEngine::sell`. -/
def sell (env : Env) (e : Engine S) (symbol : Symbol) (quantity price : ℚ) :
    Engine S × OrderID :=
  let id := e.next_order_id_
  let order : Order :=
    { env.junk_order id with
      id := id
      symbol := symbol
      type := if price > 0 then OrderType.LIMIT else OrderType.MARKET
      side := OrderSide.SELL
      quantity := quantity
      price := price
      status := OrderStatus.SUBMITTED
      created_at := env.now id }
  ({ e with
     next_order_id_ := id + 1
     orders_ := e.orders_.assign order.id order
     log := e.log ++ [Event.submitted order.id] }, order.id)

/-- Method `BacktestEngine::cancel_order`. -/
def cancel_order (e : Engine S) (order_id : OrderID) : Engine S :=
  let e1 := { e with log := e.log ++ [Event.cancel_called order_id] }
  match e1.orders_.find order_id with
  | some _ =>
      { e1 with
        orders_ := e1.orders_.modify order_id
          (fun o => { o with status := OrderStatus.CANCELLED }) }
  | none => e1

def get_position (e : Engine S) (symbol : Symbol) : Option Position :=
  e.portfolio_.positions.find symbol

def get_portfolio (e : Engine S) : PortfolioState := e.portfolio_

def get_cash (e : Engine S) : ℚ := e.portfolio_.cash

/-- Perform one context call made by a callback. -/
def perform (env : Env) (e : Engine S) : Action → Engine S
  | Action.buy symbol quantity price => (e.buy env symbol quantity price).1
  | Action.sell symbol quantity price => (e.sell env symbol quantity price).1
  | Action.cancel_order order_id => e.cancel_order order_id

/-- Run one callback of the strategy at index `i`: the callback sees the
engine as it is on entry, its context calls are performed in order, and its
private state is replaced. -/
def call (env : Env) (e : Engine S) (i : Nat)
    (callback : Strategy S → View → S × List Action)
    (enter leave : Event) : Engine S :=
  match e.strategies_[i]? with
  | none => e
  | some strategy =>
      let r := callback strategy e.view
      let e1 := { e with
                  strategies_ := e.strategies_.set i { strategy with state := r.1 }
                  log := e.log ++ [enter] }
      let e2 := r.2.foldl (perform env) e1
      { e2 with log := e2.log ++ [leave] }

/-- The loop `for (auto& strategy : strategies_) strategy->on_fill(fill);`. -/
def dispatch_fill (env : Env) (e : Engine S) (fill : Fill) : Engine S :=
  (List.range e.strategies_.length).foldl
    (fun e i => e.call env i (fun s v => s.on_fill s.state fill v)
      (Event.fill_enter i fill) (Event.fill_return i fill)) e

/-- The loop `for (auto& strategy : strategies_) strategy->on_bar(bar);`. -/
def dispatch_bar (env : Env) (e : Engine S) (bar : Bar) : Engine S :=
  (List.range e.strategies_.length).foldl
    (fun e i => e.call env i (fun s v => s.on_bar s.state bar v)
      (Event.bar_enter i bar) (Event.bar_return i bar)) e

/-- The loop `for (auto& strategy : strategies_) strategy->on_init();`. -/
def dispatch_init (env : Env) (e : Engine S) : Engine S :=
  (List.range e.strategies_.length).foldl
    (fun e i => e.call env i (fun s v => s.on_init s.state v)
      (Event.init_enter i) (Event.init_return i)) e

/-- The fill that `execute_order` builds for `order` at reference `price`. -/
def make_fill (env : Env) (e : Engine S) (order : Order) (price : ℚ) : Fill :=
  let fill_price := price * (1 + e.config_.slippage_bps / 10000)
  let commission := order.quantity * fill_price * e.config_.commission_rate
  let id := e.next_order_id_
  { env.junk_fill id with
    id := id
    order_id := order.id
    symbol := order.symbol
    side := order.side
    quantity := order.quantity
    price := fill_price
    commission := commission
    timestamp := order.created_at }

/-- The portfolio after the `// Update position` block of `execute_order`. -/
def settle (portfolio : PortfolioState) (order : Order) (fill : Fill) : PortfolioState :=
  let pos := portfolio.positions.get order.symbol
  if order.is_buy then
    let quantity := pos.quantity + order.quantity
    let pos1 :=
      { pos with
        quantity := quantity
        avg_entry_price :=
          ((pos.avg_entry_price * (quantity - order.quantity)) +
            (fill.price * order.quantity)) / quantity }
    { portfolio with
      positions := portfolio.positions.assign order.symbol pos1
      cash := portfolio.cash - fill.total_cost }
  else
    let pos1 := { pos with quantity := pos.quantity - order.quantity }
    { portfolio with
      positions := portfolio.positions.assign order.symbol pos1
      cash := portfolio.cash + (fill.notional - fill.commission) }

/-- Method `BacktestEngine::execute_order`, applied to the order stored under key
`k` (the reference the caller passes). -/
def execute_order (env : Env) (e : Engine S) (k : OrderID) (order : Order) (price : ℚ) :
    Engine S :=
  let fill := e.make_fill env order price
  let portfolio := settle e.portfolio_ order fill
  let e1 : Engine S :=
    { e with
      next_order_id_ := e.next_order_id_ + 1
      orders_ := e.orders_.modify k (fun o =>
        { o with
          status := OrderStatus.FILLED
          filled_quantity := o.quantity
          avg_fill_price := fill.price })
      portfolio_ := portfolio
      log := e.log ++ [Event.execute_enter order.id e.portfolio_, Event.settled fill portfolio] }
  e1.dispatch_fill env fill

/-- Method `BacktestEngine::update_portfolio`. -/
def update_portfolio (e : Engine S) (bar : Bar) : Engine S :=
  let positions :=
    match e.portfolio_.positions.find bar.symbol with
    | some pos =>
        e.portfolio_.positions.assign bar.symbol
          { pos with
            current_price := bar.close
            unrealized_pnl := (bar.close - pos.avg_entry_price) * pos.quantity }
    | none => e.portfolio_.positions
  let total_value := positions.foldl (fun total p => total + p.2.market_value) e.portfolio_.cash
  { e with portfolio_ := { e.portfolio_ with positions := positions, equity := total_value } }

/-- The loop `for (auto& [id, order] : orders_)` of `process_bar`.  `visited`
is the key the iterator stands on (`none` before the first step).  A callback
run by `execute_order` may add orders while the loop runs, so the number of
steps is not bounded by the size of the map at entry: `fuel` bounds it, and
`none` means the bound was reached. -/
def execute_pending (env : Env) (bar : Bar) :
    Nat → Option OrderID → Engine S → Option (Engine S)
  | 0, _, _ => none
  | fuel + 1, visited, e =>
      match e.orders_.next visited with
      | none => some e
      | some (id, order) =>
          if order.is_open && order.symbol == bar.symbol then
            execute_pending env bar fuel (some id) (e.execute_order env id order bar.close)
          else
            execute_pending env bar fuel (some id) e

/-- Method `BacktestEngine::process_bar`. -/
def process_bar (env : Env) (fuel : Nat) (e : Engine S) (bar : Bar) : Option (Engine S) :=
  execute_pending env bar fuel none ((e.update_portfolio bar).dispatch_bar env bar)

/-- The loop `for (const auto& bar : bars_) process_bar(bar);`. -/
def run_bars (env : Env) (fuel : Nat) : List Bar → Engine S → Option (Engine S)
  | [], e => some e
  | bar :: bars, e =>
      match e.process_bar env fuel bar with
      | some e1 => run_bars env fuel bars e1
      | none => none

/-- Method `BacktestEngine::run`. -/
def run (env : Env) (fuel : Nat) (e : Engine S) : Option (Engine S) :=
  run_bars env fuel e.bars_ (e.dispatch_init env)

end Engine

/-! ## Observations and scenarios used by the theorems -/

/-- The fills an engine has emitted, oldest first, read off the log. -/
def fills_of (log : List Event) : List Fill :=
  log.filterMap (fun ev => match ev with
    | Event.settled fill _ => some fill
    | _ => none)

/-- Number of entries the iterator of the loop of `process_bar` has still to
reach when it stands on `visited`. -/
def OrderMap.remaining (m : OrderMap) : Option OrderID → Nat
  | none => m.length
  | some k => m.countP (fun e => decide (k < e.1))

namespace Engine

variable {S : Type}

/-- The value of `portfolio_.equity` after each `process_bar` of the loop of
`run`. -/
def equity_after_each_bar (env : Env) (fuel : Nat) : List Bar → Engine S → Option (List ℚ)
  | [], _ => some []
  | bar :: bars, e =>
      match e.process_bar env fuel bar with
      | some e1 => (equity_after_each_bar env fuel bars e1).map (fun l => e1.portfolio_.equity :: l)
      | none => none

/-- The equity samples of a whole `run`. -/
def equity_curve (env : Env) (fuel : Nat) (e : Engine S) : Option (List ℚ) :=
  equity_after_each_bar env fuel e.bars_ (e.dispatch_init env)

/-- A strategy whose `on_fill` submits no order (it may cancel). -/
def FillQuiet (s : Strategy S) : Prop :=
  ∀ st fill v a, a ∈ (s.on_fill st fill v).2 → ∃ id, a = Action.cancel_order id

end Engine

/-! ## Reading the observation log -/

/-- The id of a `submitted` entry. -/
def Event.submitted_id : Event → Option OrderID
  | Event.submitted id => some id
  | _ => none

/-- The ids `buy` and `sell` handed out, oldest first. -/
def submitted_ids (log : List Event) : List OrderID :=
  log.filterMap Event.submitted_id

/-- Entries written by a context call (`buy`, `sell`, `cancel_order`). -/
def Event.is_context_call : Event → Bool
  | Event.submitted _ => true
  | Event.cancel_called _ => true
  | _ => false

/-- Entries written by `execute_order` itself. -/
def Event.is_execution : Event → Bool
  | Event.execute_enter _ _ => true
  | Event.settled _ _ => true
  | _ => false

/-- The log of one callback: it is entered, makes context calls, returns. -/
def CallbackLog (enter leave : Event) (l : List Event) : Prop :=
  ∃ calls, l = enter :: calls ++ [leave] ∧ ∀ ev ∈ calls, ev.is_context_call = true

/-- The log of a loop that runs one callback on each of the strategies
`0, ..., n-1`, in that order. -/
inductive DispatchLog (enter leave : Nat → Event) : Nat → List Event → Prop where
  | none : DispatchLog enter leave 0 []
  | more {n : Nat} {l c : List Event} :
      DispatchLog enter leave n l → CallbackLog (enter n) (leave n) c →
      DispatchLog enter leave (n + 1) (l ++ c)

/-- The log of one `execute_order` with `n` strategies registered: the order
is taken up, the portfolio is settled, then the fill goes to `on_fill` of the
strategies `0, ..., n-1` in that order. -/
def ExecBlock (n : Nat) (l : List Event) : Prop :=
  ∃ id before fill after deliveries,
    l = Event.execute_enter id before :: Event.settled fill after :: deliveries ∧
    fill.order_id = id ∧
    DispatchLog (fun i => Event.fill_enter i fill) (fun i => Event.fill_return i fill) n
      deliveries

/-- The log of the execution loop of `process_bar`: one block per order
executed. -/
inductive ExecPhase (n : Nat) : List Event → Prop where
  | none : ExecPhase n []
  | more {b l : List Event} : ExecBlock n b → ExecPhase n l → ExecPhase n (b ++ l)

/-- Reading an execution log from a portfolio `p` and a last executed id:
every order taken up has a larger id than the one before and sees the
portfolio as the fill before it left it; every fill moves cash by its cost or
proceeds and the position of its symbol by its quantity.  The last argument is
the portfolio at the end of the log. -/
def Sequential : PortfolioState → Option OrderID → List Event → PortfolioState → Prop
  | p, _, [], q => q = p
  | p, last, Event.execute_enter id before :: l, q =>
      before = p ∧ (∀ k, last = some k → k < id) ∧ Sequential p (some id) l q
  | p, last, Event.settled fill after :: l, q =>
      after.cash
          = (if fill.side = OrderSide.BUY ∨ fill.side = OrderSide.COVER
              then p.cash - fill.total_cost
              else p.cash + (fill.notional - fill.commission)) ∧
        (after.positions.get fill.symbol).quantity
          = (if fill.side = OrderSide.BUY ∨ fill.side = OrderSide.COVER
              then (p.positions.get fill.symbol).quantity + fill.quantity
              else (p.positions.get fill.symbol).quantity - fill.quantity) ∧
        Sequential after last l q
  | p, last, _ :: l, q => Sequential p last l q

namespace Engine

variable {S : Type}

/-- The order map of a state the engine can be in: keys ascending, every key
below `next_order_id_`, every order stored under its own id. -/
def WF (e : Engine S) : Prop :=
  e.orders_.Pairwise (fun a b => a.1 < b.1) ∧
  ∀ en ∈ e.orders_, en.1 < e.next_order_id_ ∧ en.2.id = en.1

/-- The order stored under `id` is open and is on `symbol`. -/
def OpenOn (e : Engine S) (id : OrderID) (symbol : Symbol) : Prop :=
  ∃ o, e.orders_.find id = some o ∧ o.is_open = true ∧ o.symbol = symbol

/-- What one operation of the engine does to the order book and the log:
`suffix` is what it appends to the log. -/
structure Step (e e' : Engine S) (suffix : List Event) : Prop where
  log : e'.log = e.log ++ suffix
  config : e'.config_ = e.config_
  strategies : e'.strategies_.length = e.strategies_.length
  next_le : e.next_order_id_ ≤ e'.next_order_id_
  wf : e.WF → e'.WF
  keys : ∀ id, id ∈ e.orders_.map Prod.fst → id ∈ e'.orders_.map Prod.fst
  submitted : ∀ id, Event.submitted id ∈ suffix →
    id ∈ e'.orders_.map Prod.fst ∧ e.next_order_id_ ≤ id ∧ id < e'.next_order_id_
  ascending : (submitted_ids suffix).Pairwise (fun a b => a < b)
  open_on : e.WF → ∀ id symbol, e.OpenOn id symbol →
    e'.OpenOn id symbol ∨ Event.cancel_called id ∈ suffix ∨
      ∃ p, Event.execute_enter id p ∈ suffix

end Engine

namespace Scenario

/-- An all-zero order, standing for the content of an uninitialised local. -/
def blank_order : Order :=
  { id := 0, symbol := "", type := OrderType.MARKET, side := OrderSide.BUY, quantity := 0,
    price := 0, stop_price := 0, tif := TimeInForce.DAY, status := OrderStatus.PENDING,
    filled_quantity := 0, remaining_quantity := 0, avg_fill_price := 0, created_at := 0,
    submitted_at := 0, updated_at := 0, filled_at := 0 }

/-- An all-zero fill, standing for the content of an uninitialised local. -/
def blank_fill : Fill :=
  { id := 0, order_id := 0, symbol := "", side := OrderSide.BUY, quantity := 0, price := 0,
    commission := 0, slippage := 0, timestamp := 0 }

/-- An environment: the clock stands at 0, uninitialised locals are zero and
`std::sort` is an insertion sort. -/
def env : Env :=
  { now := fun _ => 0
    junk_order := fun _ => blank_order
    junk_fill := fun _ => blank_fill
    sort := List.insertionSort (fun a b => a.timestamp ≤ b.timestamp) }

/-- A bar of symbol "X" with all four prices equal to `price`. -/
def bar (timestamp : Timestamp) (price : ℚ) : Bar :=
  { symbol := "X", timestamp := timestamp, open_ := price, high := price, low := price,
    close := price, volume := 0, period := 1 }

def config (cash commission_rate slippage_bps : ℚ) : BacktestConfig :=
  { initial_cash := cash, commission_rate := commission_rate, slippage_bps := slippage_bps,
    start_time := 0, end_time := 0 }

/-- Buys 10 units of "X" on the first bar it sees; the state counts bars. -/
def buy_and_hold : Strategy Nat :=
  { state := 0
    on_init := fun n _ => (n, [])
    on_bar := fun n _ _ => (n + 1, if n = 0 then [Action.buy "X" 10 0] else [])
    on_fill := fun n _ _ => (n, []) }

/-- Buys 10 units of "X" on the first bar and sells 10 on the second. -/
def buy_then_sell : Strategy Nat :=
  { state := 0
    on_init := fun n _ => (n, [])
    on_bar := fun n _ _ =>
      (n + 1, if n = 0 then [Action.buy "X" 10 0]
              else if n = 1 then [Action.sell "X" 10 0] else [])
    on_fill := fun n _ _ => (n, []) }

/-- An engine built as a driver program builds it: constructor,
`add_strategy`, `add_data`. -/
def engine (cfg : BacktestConfig) (strategy : Strategy Nat) (bars : List Bar) : Engine Nat :=
  ((Engine.init cfg).add_strategy strategy).add_data env bars

/-- A portfolio holding 5 units of "X" entered at 90, with 1000 in cash. -/
def long_portfolio : PortfolioState :=
  { cash := 1000, equity := 1450, buying_power := 1000
    positions := [("X", { Position.zero with quantity := 5, avg_entry_price := 90,
                                             current_price := 90 })] }

/-- A fill of `quantity` units of "X" at `price`, paying `commission`. -/
def fill (side : OrderSide) (quantity price commission : ℚ) : Fill :=
  { blank_fill with
    id := 2, order_id := 1, symbol := "X", side := side, quantity := quantity, price := price,
    commission := commission }

/-- An open market order for `quantity` units of "X" stored under id 1. -/
def order (side : OrderSide) (quantity : ℚ) : Order :=
  { blank_order with
    id := 1, symbol := "X", side := side, quantity := quantity,
    status := OrderStatus.SUBMITTED }

/-- An engine that holds `long_portfolio` and the order `order side quantity`. -/
def holding_engine (cfg : BacktestConfig) (side : OrderSide) (quantity : ℚ) : Engine Nat :=
  { (Engine.init cfg : Engine Nat) with
    portfolio_ := long_portfolio
    orders_ := [(1, order side quantity)]
    next_order_id_ := 2 }

end Scenario

/-! ## Further observations and scenarios -/

/-- The terms of an order, which nothing changes once the order is stored. -/
def Order.SameTerms (o o' : Order) : Prop :=
  o'.id = o.id ∧ o'.symbol = o.symbol ∧ o'.type = o.type ∧ o'.side = o.side ∧
  o'.quantity = o.quantity ∧ o'.price = o.price ∧ o'.created_at = o.created_at

/-- Entries that mark the entry to and the return from a callback. -/
def Event.is_marker (ev : Event) : Bool :=
  !ev.is_context_call && !ev.is_execution

namespace Engine

variable {S : Type}

/-- How the status of the order stored under `id` can have moved while
`suffix` was appended to the log: not at all, or to CANCELLED by a
`cancel_order(id)`, or from open to FILLED by a fill of that order. -/
def Moved (id : OrderID) (suffix : List Event) (o o' : Order) : Prop :=
  o'.status = o.status ∨
  (o'.status = OrderStatus.CANCELLED ∧ Event.cancel_called id ∈ suffix) ∨
  (o.is_open = true ∧ o'.status = OrderStatus.FILLED ∧
    ∃ fill p, Event.settled fill p ∈ suffix ∧ fill.order_id = id ∧ fill.symbol = o.symbol)

/-- What one operation of the engine does to the orders it finds stored. -/
structure Keeps (e e' : Engine S) (suffix : List Event) : Prop where
  step : Step e e' suffix
  orders : e.WF → ∀ id o, e.orders_.find id = some o →
    ∃ o', e'.orders_.find id = some o' ∧ o.SameTerms o' ∧ Moved id suffix o o'
  fills : e.WF → ∀ id o, e.orders_.find id = some o → o.is_open = false →
    ∀ fill p, Event.settled fill p ∈ suffix → fill.order_id ≠ id
  after_cancel : e.WF → ∀ id L1 L2, suffix = L1 ++ Event.cancel_called id :: L2 →
    (id ∈ e.orders_.map Prod.fst ∨ Event.submitted id ∈ L1) →
    (∃ o', e'.orders_.find id = some o' ∧ o'.status = OrderStatus.CANCELLED) ∧
    ∀ fill p, Event.settled fill p ∈ L2 → fill.order_id ≠ id

/-- A call made on the engine from outside or from a callback, or the
processing of one bar. -/
inductive Command where
  | buy (symbol : Symbol) (quantity : ℚ) (price : ℚ)
  | sell (symbol : Symbol) (quantity : ℚ) (price : ℚ)
  | cancel_order (order_id : OrderID)
  | process_bar (bar : Bar)

/-- Run one command. -/
def exec (env : Env) (fuel : Nat) (e : Engine S) : Command → Option (Engine S)
  | Command.buy symbol quantity price => some (e.buy env symbol quantity price).1
  | Command.sell symbol quantity price => some (e.sell env symbol quantity price).1
  | Command.cancel_order order_id => some (e.cancel_order order_id)
  | Command.process_bar bar => e.process_bar env fuel bar

/-- Run commands one after the other. -/
def exec_all (env : Env) (fuel : Nat) : List Command → Engine S → Option (Engine S)
  | [], e => some e
  | c :: cs, e =>
      match e.exec env fuel c with
      | some e1 => exec_all env fuel cs e1
      | none => none

end Engine

/-- The statuses the spec calls terminal. -/
def OrderStatus.is_terminal : OrderStatus → Bool
  | OrderStatus.FILLED => true
  | OrderStatus.CANCELLED => true
  | OrderStatus.REJECTED => true
  | OrderStatus.EXPIRED => true
  | _ => false

/-- The bars handed to `on_bar` of the strategy at index `i`, oldest first,
read off the log. -/
def bars_delivered (i : Nat) (log : List Event) : List Bar :=
  log.filterMap (fun ev => match ev with
    | Event.bar_enter j bar => if j = i then some bar else none
    | _ => none)

/-- What the C++ standard promises of `std::sort` with the comparator of
`add_data`: the result is a rearrangement of the input in which no bar comes
after a bar with a larger timestamp. -/
def SortContract (sort : List Bar → List Bar) : Prop :=
  ∀ bars, (sort bars).Perm bars ∧
    (sort bars).Pairwise (fun a b => a.timestamp ≤ b.timestamp)

namespace Scenario

/-- A strategy that makes the context calls `script n` on the bar number `n`
it sees (counting from 0); the state counts bars. -/
def scripted (script : Nat → List Action) : Strategy Nat :=
  { state := 0
    on_init := fun n _ => (n, [])
    on_bar := fun n _ _ => (n + 1, script n)
    on_fill := fun n _ _ => (n, []) }

/-- A bar of `symbol` with all four prices equal to `price`. -/
def bar_of (symbol : Symbol) (timestamp : Timestamp) (price : ℚ) : Bar :=
  { symbol := symbol, timestamp := timestamp, open_ := price, high := price, low := price,
    close := price, volume := 0, period := 1 }

/-- A bar of "X" with the four prices given. -/
def ohlc (timestamp : Timestamp) (open_ high low close : ℚ) : Bar :=
  { symbol := "X", timestamp := timestamp, open_ := open_, high := high, low := low,
    close := close, volume := 0, period := 1 }

/-- An environment whose clock stands at `t`. -/
def env_at (t : Timestamp) : Env :=
  { env with now := fun _ => t }

/-- An environment in which uninitialised `double`s hold `x`. -/
def env_junk (x : ℚ) : Env :=
  { env with
    junk_order := fun _ =>
      { blank_order with filled_quantity := x, remaining_quantity := x, avg_fill_price := x } }

end Scenario

/-! ## Runs at different wall-clock times -/

/-- A fill with the member that `execute_order` copies from the clock reading
of the order blanked. -/
def Fill.untimed (f : Fill) : Fill := { f with timestamp := 0 }

/-- An order with the member that `buy` and `sell` read from the wall clock
blanked. -/
def Order.untimed (o : Order) : Order := { o with created_at := 0 }

def OrderMap.untimed (m : OrderMap) : OrderMap := m.map (fun en => (en.1, en.2.untimed))

def Event.untimed : Event → Event
  | Event.settled fill after => Event.settled fill.untimed after
  | Event.fill_enter i fill => Event.fill_enter i fill.untimed
  | Event.fill_return i fill => Event.fill_return i fill.untimed
  | ev => ev

/-- The environment with the wall clock stopped at 0. -/
def Env.untimed (env : Env) : Env := { env with now := fun _ => 0 }

/-- The engine with every clock reading it stores or has logged blanked. -/
def Engine.untimed {S : Type} (e : Engine S) : Engine S :=
  { e with orders_ := e.orders_.untimed, log := e.log.map Event.untimed }

/-- A strategy whose `on_fill` does not read the timestamp of the fill. -/
def Engine.TimeBlind {S : Type} (s : Strategy S) : Prop :=
  ∀ st fill v, s.on_fill st fill v = s.on_fill st fill.untimed v

/-! ## execution/order_manager.{hpp,cpp} -/

/-- A call of one of the two callbacks of `OrderManager`. -/
inductive OrderManager.Notice where
  | order_update (order : Order)
  | fill (fill : Fill)

/-- The members of `class OrderManager`.  The map `orders_` is kept as an
association list; `order_callback_` and `fill_callback_` say whether a callback
is installed, and `notices` lists the calls made to the callbacks. -/
structure OrderManager where
  orders_ : OrderMap
  fills_ : List Fill
  order_callback_ : Bool
  fill_callback_ : Bool
  next_order_id_ : OrderID
  notices : List OrderManager.Notice

namespace OrderManager

/-- Constructor `OrderManager()`. -/
def init : OrderManager :=
  { orders_ := [], fills_ := [], order_callback_ := false, fill_callback_ := false,
    next_order_id_ := 1, notices := [] }

/-- The statement `if (order_callback_) order_callback_(order);`. -/
def notify_order (m : OrderManager) (order : Order) : OrderManager :=
  if m.order_callback_ then { m with notices := m.notices ++ [Notice.order_update order] }
  else m

/-- The statement `if (fill_callback_) fill_callback_(fill);`. -/
def notify_fill (m : OrderManager) (fill : Fill) : OrderManager :=
  if m.fill_callback_ then { m with notices := m.notices ++ [Notice.fill fill] }
  else m

/-- Method `OrderManager::submit_order`; `now` is what `TimeUtils::now()`
returns in this call. -/
def submit_order (now : Timestamp) (m : OrderManager) (order : Order) :
    OrderManager × OrderID :=
  let order1 : Order :=
    { order with
      id := m.next_order_id_
      created_at := now
      status := OrderStatus.SUBMITTED
      filled_quantity := 0
      remaining_quantity := order.quantity }
  let m1 : OrderManager :=
    { m with
      next_order_id_ := m.next_order_id_ + 1
      orders_ := m.orders_.assign order1.id order1 }
  (m1.notify_order order1, order1.id)

/-- Method `OrderManager::cancel_order`. -/
def cancel_order (now : Timestamp) (m : OrderManager) (order_id : OrderID) : OrderManager :=
  match m.orders_.find order_id with
  | some o =>
      if o.is_open then
        let o1 : Order := { o with status := OrderStatus.CANCELLED, updated_at := now }
        let m1 : OrderManager :=
          { m with
            orders_ := m.orders_.modify order_id (fun o =>
              { o with status := OrderStatus.CANCELLED, updated_at := now }) }
        m1.notify_order o1
      else m
  | none => m

/-- Method `OrderManager::modify_order`. -/
def modify_order (now : Timestamp) (m : OrderManager) (order_id : OrderID)
    (new_price new_quantity : ℚ) : OrderManager :=
  match m.orders_.find order_id with
  | some o =>
      if o.is_open then
        let o1 : Order :=
          { o with
            price := new_price
            quantity := new_quantity
            remaining_quantity := new_quantity - o.filled_quantity
            updated_at := now }
        let m1 : OrderManager :=
          { m with
            orders_ := m.orders_.modify order_id (fun o =>
              { o with
                price := new_price
                quantity := new_quantity
                remaining_quantity := new_quantity - o.filled_quantity
                updated_at := now }) }
        m1.notify_order o1
      else m
  | none => m

/-- Method `OrderManager::update_order`. -/
def update_order (m : OrderManager) (order : Order) : OrderManager :=
  ({ m with orders_ := m.orders_.assign order.id order } : OrderManager).notify_order order

/-- What `add_fill` writes through `Order& order = it->second`. -/
def apply_fill (fill : Fill) (order : Order) : Order :=
  let filled_quantity := order.filled_quantity + fill.quantity
  let remaining_quantity := order.quantity - filled_quantity
  let total_value :=
    order.avg_fill_price * (filled_quantity - fill.quantity) + fill.price * fill.quantity
  let order1 : Order :=
    { order with
      filled_quantity := filled_quantity
      remaining_quantity := remaining_quantity
      avg_fill_price := total_value / filled_quantity }
  let order2 : Order :=
    if remaining_quantity ≤ 0 then
      { order1 with status := OrderStatus.FILLED, filled_at := fill.timestamp }
    else
      { order1 with status := OrderStatus.PARTIALLY_FILLED }
  { order2 with updated_at := fill.timestamp }

/-- Method `OrderManager::add_fill`. -/
def add_fill (m : OrderManager) (fill : Fill) : OrderManager :=
  let m1 : OrderManager := { m with fills_ := m.fills_ ++ [fill] }
  let m2 : OrderManager :=
    match m1.orders_.find fill.order_id with
    | some o =>
        ({ m1 with orders_ := m1.orders_.modify fill.order_id (apply_fill fill) } :
          OrderManager).notify_order (apply_fill fill o)
    | none => m1
  m2.notify_fill fill

/-- Method `OrderManager::get_order`. -/
def get_order (m : OrderManager) (order_id : OrderID) : Option Order :=
  m.orders_.find order_id

/-- One call of a method that changes the orders held; each carries the
clock reading of its call where the method reads the clock. -/
inductive Call where
  | submit_order (now : Timestamp) (order : Order)
  | cancel_order (now : Timestamp) (order_id : OrderID)
  | modify_order (now : Timestamp) (order_id : OrderID) (new_price new_quantity : ℚ)
  | add_fill (fill : Fill)

def call (m : OrderManager) : Call → OrderManager
  | Call.submit_order now order => (m.submit_order now order).1
  | Call.cancel_order now order_id => m.cancel_order now order_id
  | Call.modify_order now order_id new_price new_quantity =>
      m.modify_order now order_id new_price new_quantity
  | Call.add_fill fill => m.add_fill fill

/-- A sequence of calls, in order. -/
def calls (m : OrderManager) (cs : List Call) : OrderManager := cs.foldl call m

end OrderManager

/-! ## backtest/performance_analyzer.{hpp,cpp} -/

/-- Record `struct PerformanceMetrics`. -/
structure PerformanceMetrics where
  total_return : ℚ
  annualized_return : ℚ
  sharpe_ratio : ℚ
  sortino_ratio : ℚ
  max_drawdown : ℚ
  max_drawdown_duration : ℚ
  total_trades : Int
  winning_trades : Int
  losing_trades : Int
  win_rate : ℚ
  avg_win : ℚ
  avg_loss : ℚ
  profit_factor : ℚ
  expectancy : ℚ
  total_commission : ℚ
  total_slippage : ℚ

namespace PerformanceAnalyzer

/-- The value-initialised `PerformanceMetrics metrics{}`. -/
def no_metrics : PerformanceMetrics :=
  { total_return := 0, annualized_return := 0, sharpe_ratio := 0, sortino_ratio := 0,
    max_drawdown := 0, max_drawdown_duration := 0, total_trades := 0, winning_trades := 0,
    losing_trades := 0, win_rate := 0, avg_win := 0, avg_loss := 0, profit_factor := 0,
    expectancy := 0, total_commission := 0, total_slippage := 0 }

/-- Method `PerformanceAnalyzer::calculate_sharpe_ratio`; `sqrt` stands for
`std::sqrt`. -/
def calculate_sharpe_ratio (sqrt : ℚ → ℚ) (returns : List ℚ) (risk_free_rate : ℚ) : ℚ :=
  if returns.isEmpty then 0
  else
    let mean := returns.foldl (fun acc ret => acc + ret) (0 : ℚ) / returns.length
    let sq_sum :=
      returns.foldl (fun sq_sum ret => sq_sum + (ret - mean) * (ret - mean)) (0 : ℚ)
    let std_dev := sqrt (sq_sum / returns.length)
    if std_dev < 1 / 1000000000 then 0
    else
      let daily_rf := risk_free_rate / 252
      ((mean - daily_rf) / std_dev) * sqrt 252

/-- One pass of the loop of `calculate_max_drawdown`; the state is
`(max_dd, peak)`. -/
def drawdown_step (state : ℚ × ℚ) (equity : ℚ) : ℚ × ℚ :=
  let peak := if equity > state.2 then equity else state.2
  let dd := (peak - equity) / peak
  (max state.1 dd, peak)

/-- Method `PerformanceAnalyzer::calculate_max_drawdown`. -/
def calculate_max_drawdown (equity_curve : List ℚ) : ℚ :=
  match equity_curve with
  | [] => 0
  | first :: _ => (equity_curve.foldl drawdown_step (0, first)).1 * 100

/-- The loop of `calculate` that fills `returns`. -/
def returns_of (equity_curve : List ℚ) : List ℚ :=
  (List.range' 1 (equity_curve.length - 1)).foldl
    (fun returns i =>
      returns ++ [(equity_curve.getD i 0 - equity_curve.getD (i - 1) 0)
        / equity_curve.getD (i - 1) 0])
    []

/-- The locals and counters that the loop of `calculate` over the fills
updates. -/
structure Tally where
  total_pnl : ℚ
  total_wins : ℚ
  total_losses : ℚ
  winning_trades : Int
  losing_trades : Int
  total_commission : ℚ
  total_slippage : ℚ

/-- One pass of the loop of `calculate` over the fills. -/
def tally_fill (t : Tally) (fill : Fill) : Tally :=
  let pnl := fill.notional
  let t1 := { t with total_pnl := t.total_pnl + pnl }
  let t2 :=
    if pnl > 0 then
      { t1 with winning_trades := t1.winning_trades + 1, total_wins := t1.total_wins + pnl }
    else if pnl < 0 then
      { t1 with losing_trades := t1.losing_trades + 1, total_losses := t1.total_losses + |pnl| }
    else t1
  { t2 with
    total_commission := t2.total_commission + fill.commission
    total_slippage := t2.total_slippage + fill.slippage }

/-- Method `PerformanceAnalyzer::calculate`. -/
def calculate (sqrt : ℚ → ℚ) (equity_curve : List ℚ) (fills : List Fill)
    (initial_capital risk_free_rate : ℚ) : PerformanceMetrics :=
  if equity_curve.isEmpty then no_metrics
  else
    let final_equity := equity_curve.getLastD 0
    let returns := returns_of equity_curve
    let total_trades : Int := fills.length
    let t := fills.foldl tally_fill
      { total_pnl := 0, total_wins := 0, total_losses := 0, winning_trades := 0,
        losing_trades := 0, total_commission := 0, total_slippage := 0 }
    { no_metrics with
      total_return := ((final_equity - initial_capital) / initial_capital) * 100
      sharpe_ratio := calculate_sharpe_ratio sqrt returns risk_free_rate
      max_drawdown := calculate_max_drawdown equity_curve
      total_trades := total_trades
      winning_trades := t.winning_trades
      losing_trades := t.losing_trades
      total_commission := t.total_commission
      total_slippage := t.total_slippage
      win_rate := if total_trades > 0 then ((t.winning_trades : ℚ) / total_trades) * 100 else 0
      avg_win := if t.winning_trades > 0 then t.total_wins / t.winning_trades else 0
      avg_loss := if t.losing_trades > 0 then t.total_losses / t.losing_trades else 0
      profit_factor := if t.total_losses > 0 then t.total_wins / t.total_losses else 0 }

/-- The returns `returns[i] = equity[i]/equity[i−1] − 1` of the
specification. -/
def simple_returns (equity : List ℚ) : List ℚ :=
  (List.range' 1 (equity.length - 1)).map
    (fun i => equity.getD i 0 / equity.getD (i - 1) 0 - 1)

def mean (xs : List ℚ) : ℚ := xs.sum / xs.length

/-- The standard deviation of the specification, read as the population
standard deviation. -/
def stddev (sqrt : ℚ → ℚ) (xs : List ℚ) : ℚ :=
  sqrt ((xs.map (fun x => (x - mean xs) ^ 2)).sum / xs.length)

/-- The `sharpe` of the specification, with 0 where it is undefined. -/
def sharpe (sqrt : ℚ → ℚ) (equity : List ℚ) (rf_annual : ℚ) : ℚ :=
  if simple_returns equity = [] ∨ stddev sqrt (simple_returns equity) < 1 / 1000000000 then 0
  else
    (mean (simple_returns equity) - rf_annual / 252) / stddev sqrt (simple_returns equity)
      * sqrt 252

end PerformanceAnalyzer

/-! ## market_data/historical_feed.{hpp,cpp} -/

deriving instance DecidableEq for Bar

/-- Record `struct HistoricalFeedConfig`: the members the feed reads. -/
structure HistoricalFeedConfig where
  start_date : Timestamp
  end_date : Timestamp
  replay_speed : ℚ
  loop : Bool

/-- The six fields of a line of a data file that `read_next_event` parses. -/
structure CsvRecord where
  timestamp : Timestamp
  open_ : ℚ
  high : ℚ
  low : ℚ
  close : ℚ
  volume : Nat

/-- A line of a data file after the header: a record, or (`none`) a line that
`read_next_event` skips because it has fewer than six fields or a field that
does not parse. -/
abbrev CsvLine := Option CsvRecord

/-- A `DataFile`: the lines of the file after the header, the lines that the
file position has not passed yet, and the `eof` flag. -/
structure DataFile where
  lines : List CsvLine
  rest : List CsvLine
  eof : Bool

/-- An entry of `event_queue_`; only bars are ever pushed. -/
abbrev TimedEvent := Timestamp × Bar

/-- One entry of the observation log of a feed: a bar handed to
`bar_callback_`, or the content of `event_queue_` right after a push. -/
inductive FeedEvent where
  | delivered (bar : Bar)
  | queued (queue : List TimedEvent)

/-- The members of `class HistoricalFeed` that replaying bars reads or writes,
and the observation log.  The map `data_files_` is kept as an association
list and the priority queue `event_queue_` as the list of its entries. -/
structure HistoricalFeed where
  config_ : HistoricalFeedConfig
  data_files_ : List (Symbol × DataFile)
  bar_callback_ : Bool
  connected_ : Bool
  running_ : Bool
  current_time_ : Timestamp
  start_time_ : Timestamp
  end_time_ : Timestamp
  event_queue_ : List TimedEvent
  log : List FeedEvent

namespace HistoricalFeed

/-- Constructor `HistoricalFeed(config)`. -/
def init (config : HistoricalFeedConfig) : HistoricalFeed :=
  { config_ := config
    data_files_ := []
    bar_callback_ := false
    connected_ := false
    running_ := false
    current_time_ := config.start_date
    start_time_ := config.start_date
    end_time_ := config.end_date
    event_queue_ := []
    log := [] }

/-- Lookup, as `data_files_.find(symbol)`. -/
def find_file (f : HistoricalFeed) (symbol : Symbol) : Option DataFile :=
  (List.find? (fun e => e.1 == symbol) f.data_files_).map Prod.snd

/-- Replace the content of the entry that `find_file` returns. -/
def replace_file : List (Symbol × DataFile) → Symbol → DataFile → List (Symbol × DataFile)
  | [], _, _ => []
  | e :: files, symbol, df =>
      if e.1 == symbol then (e.1, df) :: files else e :: replace_file files symbol df

/-- Write through the reference `DataFile& df = it->second`. -/
def set_file (f : HistoricalFeed) (symbol : Symbol) (df : DataFile) : HistoricalFeed :=
  { f with data_files_ := replace_file f.data_files_ symbol df }

/-- Method `HistoricalFeed::load_data_file`, given the lines that follow the
header in the file of `symbol`. -/
def load_data_file (f : HistoricalFeed) (symbol : Symbol) (content : List CsvLine) :
    HistoricalFeed :=
  let df : DataFile := { lines := content, rest := content, eof := false }
  match f.find_file symbol with
  | some _ => f.set_file symbol df
  | none => { f with data_files_ := f.data_files_ ++ [(symbol, df)] }

/-- Method `HistoricalFeed::subscribe`. -/
def subscribe (f : HistoricalFeed) (symbol : Symbol) (content : List CsvLine) :
    HistoricalFeed :=
  f.load_data_file symbol content

/-- Method `HistoricalFeed::on_bar`. -/
def on_bar (f : HistoricalFeed) : HistoricalFeed := { f with bar_callback_ := true }

/-- The lines one call of `read_next_event` consumes: it skips lines up to the
first record and returns it with the lines left, or finds no line left. -/
def next_record : List CsvLine → Option (CsvRecord × List CsvLine)
  | [] => none
  | none :: rest => next_record rest
  | some r :: rest => some (r, rest)

/-- Method `HistoricalFeed::read_next_event`. -/
def read_next_event (f : HistoricalFeed) (symbol : Symbol) : HistoricalFeed × Bool :=
  match f.find_file symbol with
  | none => (f, false)
  | some df =>
      if df.eof then (f, false)
      else
        match next_record df.rest with
        | none => (f.set_file symbol { df with rest := [], eof := true }, false)
        | some (r, rest) =>
            let bar : Bar :=
              { symbol := symbol, timestamp := r.timestamp, open_ := r.open_, high := r.high,
                low := r.low, close := r.close, volume := r.volume,
                period := 60 * 1000000000 }
            let f1 := f.set_file symbol { df with rest := rest }
            if bar.timestamp ≥ f1.start_time_ ∧ bar.timestamp ≤ f1.end_time_ then
              ({ f1 with
                 event_queue_ := f1.event_queue_ ++ [(bar.timestamp, bar)]
                 log := f1.log ++ [FeedEvent.queued (f1.event_queue_ ++ [(bar.timestamp, bar)])] },
               true)
            else (f1, true)

/-- One pass of the `while` loop of `replay_events`; `top` stands for
`event_queue_.top()`. -/
def replay_one (top : List TimedEvent → TimedEvent) (f : HistoricalFeed) : HistoricalFeed :=
  let ev := top f.event_queue_
  let f1 := { f with event_queue_ := f.event_queue_.erase ev, current_time_ := ev.1 }
  let f2 :=
    if f1.bar_callback_ then { f1 with log := f1.log ++ [FeedEvent.delivered ev.2] } else f1
  (f2.read_next_event ev.2.symbol).1

/-- The statements of `seek` that rewind one file. -/
def rewind (f : HistoricalFeed) (symbol : Symbol) : HistoricalFeed :=
  match f.find_file symbol with
  | some df => f.set_file symbol { df with rest := df.lines, eof := false }
  | none => f

/-- The `while (read_next_event(symbol))` loop of `seek`; `none` when `fuel`
passes are not enough. -/
def seek_file (top : List TimedEvent → TimedEvent) (timestamp : Timestamp) (symbol : Symbol) :
    Nat → HistoricalFeed → Option HistoricalFeed
  | 0, _ => none
  | fuel + 1, f =>
      let r := f.read_next_event symbol
      if r.2 then
        if !r.1.event_queue_.isEmpty && decide ((top r.1.event_queue_).1 ≥ timestamp) then
          some r.1
        else seek_file top timestamp symbol fuel r.1
      else some r.1

/-- Method `HistoricalFeed::seek`. -/
def seek (top : List TimedEvent → TimedEvent) (fuel : Nat) (f : HistoricalFeed)
    (timestamp : Timestamp) : Option HistoricalFeed :=
  let f0 := { f with event_queue_ := [] }
  ((f0.data_files_.map Prod.fst).foldl
    (fun acc symbol =>
      acc.bind (fun f => seek_file top timestamp symbol fuel (f.rewind symbol)))
    (some f0)).map (fun f => { f with current_time_ := timestamp })

/-- Method `HistoricalFeed::replay_events`: the `while` loop, then the restart
when `config_.loop` is set; `none` when `fuel` steps are not enough. -/
def replay_events (top : List TimedEvent → TimedEvent) :
    Nat → HistoricalFeed → Option HistoricalFeed
  | 0, _ => none
  | fuel + 1, f =>
      if f.running_ && !f.event_queue_.isEmpty then
        replay_events top fuel (f.replay_one top)
      else if f.config_.loop && f.running_ then
        (f.seek top fuel f.start_time_).bind (replay_events top fuel)
      else some f

/-- Method `HistoricalFeed::start`, with the replay thread run to its end. -/
def start (top : List TimedEvent → TimedEvent) (fuel : Nat) (f : HistoricalFeed) :
    Option HistoricalFeed :=
  if f.running_ then some f
  else
    let f1 := { f with running_ := true }
    let f2 := (f1.data_files_.map Prod.fst).foldl
      (fun f symbol => (f.read_next_event symbol).1) f1
    f2.replay_events top fuel

end HistoricalFeed

/-- The bars handed to `bar_callback_`, oldest first, read off the log. -/
def bars_replayed (log : List FeedEvent) : List Bar :=
  log.filterMap (fun ev => match ev with
    | FeedEvent.delivered bar => some bar
    | _ => none)

/-- Number of entries of the queue that are events of `symbol`. -/
def pending (queue : List TimedEvent) (symbol : Symbol) : Nat :=
  queue.countP (fun ev => ev.2.symbol == symbol)

/-- The timestamps of the records among the lines of a file. -/
def record_times (lines : List CsvLine) : List Timestamp :=
  lines.filterMap (fun l => l.map (fun r => r.timestamp))

/-- What `std::priority_queue` with `std::greater` promises of `top()` on a
queue that is not empty: an entry of the queue, with no entry of a smaller
timestamp. -/
def TopContract (top : List TimedEvent → TimedEvent) : Prop :=
  ∀ q, q ≠ [] → top q ∈ q ∧ ∀ ev ∈ q, (top q).1 ≤ ev.1

/-- What holds of a feed between two passes of the replay loop: the files
have distinct symbols and their unread records are in timestamp order; every
queued event carries the timestamp of its bar and is not later than any unread
record of its symbol; the queue holds at most one event per symbol, now and at
every push logged; and the bars handed out so far are in timestamp order and
not later than any queued event. -/
structure HistoricalFeed.Replaying (f : HistoricalFeed) : Prop where
  keys : (f.data_files_.map Prod.fst).Nodup
  sorted : ∀ en ∈ f.data_files_, (record_times en.2.rest).Pairwise (fun a b => a ≤ b)
  ahead : ∀ ev ∈ f.event_queue_, ev.2.timestamp = ev.1 ∧
    ∀ df, f.find_file ev.2.symbol = some df → ∀ t ∈ record_times df.rest, ev.1 ≤ t
  single : ∀ s, pending f.event_queue_ s ≤ 1
  snapshots : ∀ q, FeedEvent.queued q ∈ f.log → ∀ s, pending q s ≤ 1
  delivered_sorted : ((bars_replayed f.log).map (fun b => b.timestamp)).Pairwise
    (fun a b => a ≤ b)
  delivered_before : ∀ b ∈ bars_replayed f.log, ∀ ev ∈ f.event_queue_, b.timestamp ≤ ev.1

/-- What is left for the replay loop to do: the queued events and the unread
lines. -/
def HistoricalFeed.backlog (f : HistoricalFeed) : Nat :=
  f.event_queue_.length + (f.data_files_.map (fun en => en.2.rest.length)).sum

namespace Scenario

/-- A `top()` that returns the first of the entries with the least
timestamp. -/
def top (q : List TimedEvent) : TimedEvent :=
  q.foldl (fun best ev => if ev.1 < best.1 then ev else best) (q.headD (0, bar 0 0))

/-- A record with all four prices equal to `price`. -/
def record (timestamp : Timestamp) (price : ℚ) : CsvLine :=
  some { timestamp := timestamp, open_ := price, high := price, low := price, close := price,
         volume := 0 }

/-- A feed over the window `[start_date, end_date]` with a bar callback
installed and the files given subscribed in order. -/
def feed (start_date end_date : Timestamp) (files : List (Symbol × List CsvLine)) :
    HistoricalFeed :=
  files.foldl (fun f file => f.subscribe file.1 file.2)
    (HistoricalFeed.init
      { start_date := start_date, end_date := end_date, replay_speed := 0,
        loop := false }).on_bar

end Scenario

/-! ## utils/lockfree_queue.hpp -/

/-- The members of `class SPSCQueue<T>`; `buffer_` gives the content of each
slot of the array. -/
structure SPSCQueue (T : Type) where
  capacity_ : Nat
  buffer_ : Nat → T
  head_ : Nat
  tail_ : Nat

namespace SPSCQueue

variable {T : Type}

/-- Constructor `SPSCQueue(capacity)`; `junk` is the content of the slots of
`new T[capacity]`.  The `assert` that `capacity` is a power of two is a
hypothesis of the theorems. -/
def init (capacity : Nat) (junk : Nat → T) : SPSCQueue T :=
  { capacity_ := capacity, buffer_ := junk, head_ := 0, tail_ := 0 }

/-- Method `SPSCQueue::push`. -/
def push (q : SPSCQueue T) (item : T) : SPSCQueue T × Bool :=
  let current_tail := q.tail_
  let next_tail := (current_tail + 1) &&& (q.capacity_ - 1)
  if next_tail = q.head_ then (q, false)
  else
    ({ q with buffer_ := Function.update q.buffer_ current_tail item, tail_ := next_tail },
     true)

/-- Method `SPSCQueue::pop`; the item handed back through the reference
argument is the second component, `none` when the call returns `false`. -/
def pop (q : SPSCQueue T) : SPSCQueue T × Option T :=
  let current_head := q.head_
  if current_head = q.tail_ then (q, none)
  else
    ({ q with head_ := (current_head + 1) &&& (q.capacity_ - 1) },
     some (q.buffer_ current_head))

/-- Method `SPSCQueue::empty`. -/
def empty (q : SPSCQueue T) : Bool := q.head_ == q.tail_

/-- The items a queue stores, oldest first: the slots from `head_` up to
`tail_`, around the end of the array. -/
def stored (q : SPSCQueue T) : List T :=
  (List.range ((q.tail_ + q.capacity_ - q.head_) % q.capacity_)).map
    (fun i => q.buffer_ ((q.head_ + i) % q.capacity_))

/-- A call of `push` or of `pop`. -/
inductive Op (T : Type) where
  | push (item : T)
  | pop

/-- A queue together with the items its successful pushes accepted and the
items its successful pops returned, both oldest first. -/
structure Trace (T : Type) where
  queue : SPSCQueue T
  accepted : List T
  returned : List T

/-- One call, recorded. -/
def Trace.step (t : Trace T) : Op T → Trace T
  | Op.push item =>
      let r := t.queue.push item
      { t with queue := r.1, accepted := if r.2 then t.accepted ++ [item] else t.accepted }
  | Op.pop =>
      let r := t.queue.pop
      { t with
        queue := r.1
        returned := match r.2 with
          | some item => t.returned ++ [item]
          | none => t.returned }

/-- A sequence of calls on a queue fresh from the constructor. -/
def run (capacity : Nat) (junk : Nat → T) (ops : List (Op T)) : Trace T :=
  ops.foldl Trace.step { queue := init capacity junk, accepted := [], returned := [] }

/-- The indices of a queue in use point into the array. -/
def InBounds (q : SPSCQueue T) : Prop :=
  2 ≤ q.capacity_ ∧ (∃ k, q.capacity_ = 2 ^ k) ∧ q.head_ < q.capacity_ ∧ q.tail_ < q.capacity_

/-- What holds of a recorded queue after every call. -/
def Trace.Fifo (t : Trace T) : Prop :=
  InBounds t.queue ∧ t.accepted = t.returned ++ stored t.queue

end SPSCQueue

/-! ## data/timeseries_db -/

/-- Record `struct Tick` of `core/types.hpp`. -/
structure Tick where
  symbol : Symbol
  timestamp : Timestamp
  last : ℚ
  bid : ℚ
  ask : ℚ
  volume : Nat
  bid_size : Nat
  ask_size : Nat
  exchange_id : Nat

/-- Constant `constants::NANOSECONDS_PER_SECOND`. -/
def NANOSECONDS_PER_SECOND : Duration := 1000000000

/-- The content of a `std::unordered_map<Symbol, std::vector<Bar>>`: one
entry per key. -/
abbrev SeriesMap := List (Symbol × List Bar)

namespace SeriesMap

/-- Lookup `m.find(symbol)`: `none` for `m.end()`. -/
def find : SeriesMap → Symbol → Option (List Bar)
  | [], _ => none
  | (k, v) :: rest, symbol => if k = symbol then some v else find rest symbol

/-- The vector `m[symbol]` refers to: empty when the access creates it. -/
def get (m : SeriesMap) (symbol : Symbol) : List Bar :=
  (m.find symbol).getD []

/-- The map after `m[symbol] = bars`. -/
def assign : SeriesMap → Symbol → List Bar → SeriesMap
  | [], symbol, bars => [(symbol, bars)]
  | (k, v) :: rest, symbol, bars =>
      if k = symbol then (k, bars) :: rest else (k, v) :: assign rest symbol bars

end SeriesMap

/-- The member of `class MemoryTimeSeriesDB` (the mutex apart). -/
structure MemoryTimeSeriesDB where
  data_ : SeriesMap

namespace MemoryTimeSeriesDB

/-- The defaulted constructor. -/
def init : MemoryTimeSeriesDB := { data_ := [] }

/-- Call `std::lower_bound(bars.begin(), bars.end(), ts, comp)` with
`comp(bar, ts) = bar.timestamp < ts`, as an index.  The standard requires the
range to be partitioned by `comp(., ts)`, which a series sorted by timestamp
is, and returns the partition point: the number of leading bars with a
timestamp below `ts`. -/
def lower_bound (bars : List Bar) (ts : Timestamp) : Nat :=
  (bars.takeWhile (fun b => decide (b.timestamp < ts))).length

/-- Call `std::upper_bound(bars.begin(), bars.end(), ts, comp)` with
`comp(ts, bar) = ts < bar.timestamp`, as an index: on a range partitioned by
`!comp(ts, .)`, the number of leading bars with a timestamp not above `ts`. -/
def upper_bound (bars : List Bar) (ts : Timestamp) : Nat :=
  (bars.takeWhile (fun b => !decide (ts < b.timestamp))).length

/-- Call `bars.insert(it, bar)` with `it` at index `i`. -/
def insert_at (bars : List Bar) (i : Nat) (bar : Bar) : List Bar :=
  bars.take i ++ bar :: bars.drop i

/-- The statements of `write_bar` on the vector `bars = data_[bar.symbol]`:
the vector they leave. -/
def place (bars : List Bar) (bar : Bar) : List Bar :=
  let it := lower_bound bars bar.timestamp
  match bars[it]? with
  | some found =>
      if found.timestamp = bar.timestamp then bars.set it bar else insert_at bars it bar
  | none => insert_at bars it bar

/-- Method `MemoryTimeSeriesDB::write_bar`. -/
def write_bar (db : MemoryTimeSeriesDB) (bar : Bar) : MemoryTimeSeriesDB :=
  { data_ := db.data_.assign bar.symbol (place (db.data_.get bar.symbol) bar) }

/-- Method `MemoryTimeSeriesDB::write_tick`. -/
def write_tick (db : MemoryTimeSeriesDB) (tick : Tick) : MemoryTimeSeriesDB :=
  db.write_bar
    { symbol := tick.symbol
      timestamp := tick.timestamp
      open_ := tick.last
      high := tick.last
      low := tick.last
      close := tick.last
      volume := tick.volume
      period := NANOSECONDS_PER_SECOND }

/-- The loop `grouped[bar.symbol].push_back(bar)` of `write_batch`. -/
def group (bars : List Bar) : SeriesMap :=
  bars.foldl (fun grouped bar => grouped.assign bar.symbol (grouped.get bar.symbol ++ [bar])) []

/-- The loop of `std::merge` while `x` is the next bar of the first range:
a bar of the second range is written first only when it compares below `x`;
`rest` merges what follows `x` in the first range with what is left of the
second, and copies the first range when the second is exhausted. -/
def merge_next (x : Bar) (rest : List Bar → List Bar) : List Bar → List Bar
  | [] => x :: rest []
  | y :: ys =>
      if y.timestamp < x.timestamp then y :: merge_next x rest ys
      else x :: rest (y :: ys)

/-- Call `std::merge(xs, ys, out, comp)` with
`comp(a, b) = a.timestamp < b.timestamp`: the next bar comes from the second
range only when it compares below the next bar of the first. -/
def merge : List Bar → List Bar → List Bar
  | [], ys => ys
  | x :: xs, ys => merge_next x (merge xs) ys

/-- The loop of `std::unique` after the bar `kept` was kept: a bar with the
timestamp of the last bar kept is dropped. -/
def unique_from (kept : Bar) : List Bar → List Bar
  | [] => []
  | b :: rest =>
      if kept.timestamp = b.timestamp then unique_from kept rest
      else b :: unique_from b rest

/-- Calls `std::unique(merged.begin(), merged.end(), pred)` with
`pred(a, b) = a.timestamp == b.timestamp` and `merged.erase(last, merged.end())`:
the first bar of every run of equal timestamps stays. -/
def unique : List Bar → List Bar
  | [] => []
  | b :: rest => b :: unique_from b rest

/-- One iteration of the loop over `grouped` in `write_batch`; `sort` is
`std::sort` with the comparator on timestamps. -/
def write_group (sort : List Bar → List Bar) (data : SeriesMap)
    (entry : Symbol × List Bar) : SeriesMap :=
  let symbol_bars := sort entry.2
  let existing := data.get entry.1
  let merged := merge existing symbol_bars
  data.assign entry.1 (unique merged)

/-- Method `MemoryTimeSeriesDB::write_batch`.  The loop visits the groups in
the order of their first bar in the batch; the order an `unordered_map` is
iterated in is unspecified, and no series depends on it, as an iteration
reads and writes the series of its own symbol only. -/
def write_batch (sort : List Bar → List Bar) (db : MemoryTimeSeriesDB)
    (bars : List Bar) : MemoryTimeSeriesDB :=
  if bars.isEmpty then db
  else { data_ := (group bars).foldl (write_group sort) db.data_ }

/-- Method `MemoryTimeSeriesDB::find_range`. -/
def find_range (bars : List Bar) (start end_ : Timestamp) : Nat × Nat :=
  (lower_bound bars start, upper_bound bars end_)

/-- The range constructor `std::vector<Bar>(bars.begin() + i, bars.begin() + j)`:
defined when `i ≤ j ≤ bars.size()`, undefined behaviour (`none`) otherwise. -/
def copy_range (bars : List Bar) (i j : Nat) : Option (List Bar) :=
  if i ≤ j ∧ j ≤ bars.length then some ((bars.drop i).take (j - i)) else none

/-- Method `MemoryTimeSeriesDB::read_bars`; `none` is undefined behaviour. -/
def read_bars (db : MemoryTimeSeriesDB) (symbol : Symbol) (start end_ : Timestamp) :
    Option (List Bar) :=
  match db.data_.find symbol with
  | none => some []
  | some bars =>
      let range := find_range bars start end_
      let start_idx := range.1
      let end_idx := range.2
      if start_idx ≥ bars.length then some []
      else copy_range bars start_idx (min end_idx bars.length)

/-- Method `MemoryTimeSeriesDB::read_latest_bar`. -/
def read_latest_bar (db : MemoryTimeSeriesDB) (symbol : Symbol) : Option Bar :=
  match db.data_.find symbol with
  | none => none
  | some bars => if bars.isEmpty then none else bars.getLast?

/-- Method `MemoryTimeSeriesDB::get_bar_count`. -/
def get_bar_count (db : MemoryTimeSeriesDB) (symbol : Symbol) : Nat :=
  match db.data_.find symbol with
  | none => 0
  | some bars => bars.length

/-- A call of one of the three writers. -/
inductive Write where
  | bar (bar : Bar)
  | tick (tick : Tick)
  | batch (bars : List Bar)

/-- The store after one writing call. -/
def write (sort : List Bar → List Bar) (db : MemoryTimeSeriesDB) : Write → MemoryTimeSeriesDB
  | Write.bar bar => db.write_bar bar
  | Write.tick tick => db.write_tick tick
  | Write.batch bars => db.write_batch sort bars

/-- The store after a sequence of writing calls. -/
def writes (sort : List Bar → List Bar) (db : MemoryTimeSeriesDB) (calls : List Write) :
    MemoryTimeSeriesDB :=
  calls.foldl (write sort) db

/-- The bars of a series are strictly increasing by timestamp. -/
def Increasing (bars : List Bar) : Prop :=
  bars.Pairwise (fun a b => a.timestamp < b.timestamp)

/-- The bars of a series are sorted by timestamp: none comes after a bar with
a larger timestamp. -/
def Sorted (bars : List Bar) : Prop :=
  bars.Pairwise (fun a b => a.timestamp ≤ b.timestamp)

/-- Every group holds bars of its own symbol only. -/
def Keyed (m : SeriesMap) : Prop :=
  ∀ e ∈ m, ∀ b ∈ e.2, b.symbol = e.1

/-- Every series of the store is strictly increasing by timestamp and holds
bars of its own symbol only. -/
def Sound (db : MemoryTimeSeriesDB) : Prop :=
  ∀ symbol bars, db.data_.find symbol = some bars →
    Increasing bars ∧ ∀ b ∈ bars, b.symbol = symbol

end MemoryTimeSeriesDB

/-! ## `std::sort` as libstdc++ implements it

The introsort of GCC's `bits/stl_algo.h`, with the comparator of `add_data`,
on the range `[first, last)` as the list of its elements, indices counted
from `first`.  A read outside the range is undefined and yields `none`; the
median-of-three pivot and the sorted head of the range keep the unguarded
loops inside it.  The heap sort `std::__partial_sort` that takes over when
the depth limit is used up is an argument. -/

namespace StdSort

/-- Constant `_S_threshold`. -/
def threshold : Nat := 16

/-- The loop behind `std::__lg`. -/
def lg_loop : Nat → Nat → Nat
  | 0, _ => 0
  | fuel + 1, n => if n < 2 then 0 else lg_loop fuel (n / 2) + 1

/-- Function `std::__lg`: the floor of the binary logarithm. -/
def lg (n : Nat) : Nat := lg_loop n n

/-- Call `comp(a[i], a[j])` with `comp(x, y) = x.timestamp < y.timestamp`. -/
def comp_at (a : List Bar) (i j : Nat) : Option Bool :=
  match a[i]?, a[j]? with
  | some x, some y => some (decide (x.timestamp < y.timestamp))
  | _, _ => none

/-- Call `std::iter_swap(a + i, a + j)`. -/
def iter_swap (a : List Bar) (i j : Nat) : Option (List Bar) :=
  match a[i]?, a[j]? with
  | some x, some y => some ((a.set i y).set j x)
  | _, _ => none

/-- Function `std::__move_median_to_first(result, x, y, z, comp)`. -/
def move_median_to_first (a : List Bar) (result x y z : Nat) : Option (List Bar) :=
  (comp_at a x y).bind fun xy =>
  (comp_at a y z).bind fun yz =>
  (comp_at a x z).bind fun xz =>
    if xy then
      if yz then iter_swap a result y
      else if xz then iter_swap a result z
      else iter_swap a result x
    else if xz then iter_swap a result x
    else if yz then iter_swap a result z
    else iter_swap a result y

/-- The loop `while (comp(first, pivot)) ++first;` of
`std::__unguarded_partition`: the index it stops at. -/
def scan_up : Nat → List Bar → Nat → Nat → Option Nat
  | 0, _, _, _ => none
  | fuel + 1, a, first, pivot =>
      (comp_at a first pivot).bind fun below =>
        if below then scan_up fuel a (first + 1) pivot else some first

/-- The loop `while (comp(pivot, last)) --last;` of
`std::__unguarded_partition`: the index it stops at. -/
def scan_down : Nat → List Bar → Nat → Nat → Option Nat
  | 0, _, _, _ => none
  | fuel + 1, a, pivot, last =>
      (comp_at a pivot last).bind fun above =>
        if above then (if last = 0 then none else scan_down fuel a pivot (last - 1))
        else some last

/-- Function `std::__unguarded_partition(first, last, pivot, comp)`: the range
after the swaps and the index returned. -/
def unguarded_partition : Nat → List Bar → Nat → Nat → Nat → Option (List Bar × Nat)
  | 0, _, _, _, _ => none
  | fuel + 1, a, first, last, pivot =>
      (scan_up (a.length + 1) a first pivot).bind fun first =>
        if last = 0 then none
        else
          (scan_down (a.length + 1) a pivot (last - 1)).bind fun last =>
            if ¬ first < last then some (a, first)
            else (iter_swap a first last).bind fun a =>
              unguarded_partition fuel a (first + 1) last pivot

/-- Function `std::__unguarded_partition_pivot(first, last, comp)`. -/
def unguarded_partition_pivot (a : List Bar) : Option (List Bar × Nat) :=
  let mid := a.length / 2
  (move_median_to_first a 0 1 mid (a.length - 1)).bind fun a =>
    unguarded_partition (a.length + 1) a 1 a.length 0

/-- Function `std::__introsort_loop(first, last, depth_limit, comp)`: the loop
goes on with the part before the cut after the call on the part from the
cut. -/
def introsort_loop (partial_sort : List Bar → List Bar) : Nat → List Bar → Option (List Bar)
  | 0, a => if a.length > threshold then some (partial_sort a) else some a
  | depth_limit + 1, a =>
      if a.length > threshold then
        (unguarded_partition_pivot a).bind fun r =>
          (introsort_loop partial_sort depth_limit (r.1.drop r.2)).bind fun right =>
            (introsort_loop partial_sort depth_limit (r.1.take r.2)).bind fun left =>
              some (left ++ right)
      else some a

/-- The loop of `std::__unguarded_linear_insert(last, comp)` with `val` taken
out of the slot `last`. -/
def unguarded_linear_insert_loop : Nat → List Bar → Bar → Nat → Option (List Bar)
  | 0, _, _, _ => none
  | fuel + 1, a, val, last =>
      if last = 0 then none
      else
        match a[last - 1]? with
        | none => none
        | some next =>
            if val.timestamp < next.timestamp then
              unguarded_linear_insert_loop fuel (a.set last next) val (last - 1)
            else some (a.set last val)

/-- Function `std::__unguarded_linear_insert(last, comp)`. -/
def unguarded_linear_insert (a : List Bar) (last : Nat) : Option (List Bar) :=
  match a[last]? with
  | none => none
  | some val => unguarded_linear_insert_loop (a.length + 1) a val last

/-- The loop of `std::__insertion_sort(first, last, comp)` from the index `i`
on, `count` elements to go. -/
def insertion_sort_loop : Nat → List Bar → Nat → Option (List Bar)
  | 0, a, _ => some a
  | count + 1, a, i =>
      match a[i]?, a[0]? with
      | some val, some front =>
          if val.timestamp < front.timestamp then
            insertion_sort_loop count (val :: (a.take i ++ a.drop (i + 1))) (i + 1)
          else
            (unguarded_linear_insert a i).bind fun a => insertion_sort_loop count a (i + 1)
      | _, _ => none

/-- Function `std::__insertion_sort(first, first + last, comp)`. -/
def insertion_sort (a : List Bar) (last : Nat) : Option (List Bar) :=
  if last = 0 then some a else insertion_sort_loop (last - 1) a 1

/-- Function `std::__unguarded_insertion_sort(first + i, last, comp)`,
`count` elements to go. -/
def unguarded_insertion_sort : Nat → List Bar → Nat → Option (List Bar)
  | 0, a, _ => some a
  | count + 1, a, i =>
      (unguarded_linear_insert a i).bind fun a => unguarded_insertion_sort count a (i + 1)

/-- Function `std::__final_insertion_sort(first, last, comp)`. -/
def final_insertion_sort (a : List Bar) : Option (List Bar) :=
  if a.length > threshold then
    (insertion_sort a threshold).bind fun a =>
      unguarded_insertion_sort (a.length - threshold) a threshold
  else insertion_sort a a.length

/-- Function `std::__sort(first, last, comp)`, which `std::sort` calls. -/
def sort (partial_sort : List Bar → List Bar) (a : List Bar) : Option (List Bar) :=
  if a.length = 0 then some a
  else (introsort_loop partial_sort (lg a.length * 2) a).bind final_insertion_sort

end StdSort

namespace Scenario

/-- An environment whose `std::sort` is the one of libstdc++, with
`partial_sort` for its heap sort.  Where `StdSort.sort` yields `none`, a read
outside the range that the algorithm excludes, the bars stay as given; the
scenarios evaluate the sort to `some` result. -/
def env_libstdcxx (partial_sort : List Bar → List Bar) : Env :=
  { env with sort := fun bars => (StdSort.sort partial_sort bars).getD bars }

/-- Seventeen bars with the timestamp 100: the symbols, in the order given to
`add_data`, are "A", "S1", ..., "S7", "B", "S9", ..., "S16". -/
def tied_bars : List Bar :=
  ["A", "S1", "S2", "S3", "S4", "S5", "S6", "S7", "B", "S9", "S10", "S11", "S12", "S13",
    "S14", "S15", "S16"].map (fun symbol => bar_of symbol 100 10)

end Scenario

/-! # Theorems -/

/-! ## Association-list facts -/

theorem Positions.find_assign_self (m : Positions) (s : Symbol) (p : Position) :
    (m.assign s p).find s = some p := by
  induction m with
  | nil => simp [Positions.assign, Positions.find]
  | cons e m ih =>
      by_cases h : e.1 = s
      · simp [Positions.assign, Positions.find, h]
      · simp only [Positions.find] at ih
        simp [Positions.assign, Positions.find, h, ih]

theorem Positions.find_assign_ne (m : Positions) (s t : Symbol) (p : Position) (h : t ≠ s) :
    (m.assign s p).find t = m.find t := by
  induction m with
  | nil => simp [Positions.assign, Positions.find, Ne.symm h]
  | cons e m ih =>
      by_cases hs : e.1 = s
      · have ht : ¬ e.1 = t := fun he => h (he.symm.trans hs)
        simp [Positions.assign, Positions.find, hs, ht, Ne.symm h]
      · simp only [Positions.find] at ih
        by_cases ht : e.1 = t
        · have hs1 : ¬ t = s := h
          simp [Positions.assign, Positions.find, hs, ht, hs1]
        · simp [Positions.assign, Positions.find, hs, ht, ih]

theorem Positions.get_assign_self (m : Positions) (s : Symbol) (p : Position) :
    (m.assign s p).get s = p := by
  simp [Positions.get, Positions.find_assign_self]

theorem Positions.keys_assign (m : Positions) (s : Symbol) (p q : Position)
    (h : m.find s = some q) : (m.assign s p).map Prod.fst = m.map Prod.fst := by
  induction m with
  | nil => simp [Positions.find] at h
  | cons e m ih =>
      by_cases hs : e.1 = s
      · simp [Positions.assign, hs]
      · have h1 : Positions.find m s = some q := by
          simpa [Positions.find, hs] using h
        simp [Positions.assign, hs, ih h1]

theorem Positions.foldl_market_value (m : Positions) (c : ℚ) :
    m.foldl (fun total e => total + e.2.market_value) c = c + m.total_market_value := by
  induction m generalizing c with
  | nil => simp [Positions.total_market_value]
  | cons e m ih =>
      simp only [List.foldl_cons, ih, Positions.total_market_value, List.map_cons, List.sum_cons]
      ring

namespace Engine
variable {S : Type}

/-! ## Callbacks cannot touch the portfolio or the configuration -/

theorem perform_portfolio (env : Env) (e : Engine S) (a : Action) :
    (e.perform env a).portfolio_ = e.portfolio_ := by
  cases a with
  | buy s q p => rfl
  | sell s q p => rfl
  | cancel_order id =>
      simp only [perform, cancel_order]
      split <;> rfl

theorem perform_config (env : Env) (e : Engine S) (a : Action) :
    (e.perform env a).config_ = e.config_ := by
  cases a with
  | buy s q p => rfl
  | sell s q p => rfl
  | cancel_order id =>
      simp only [perform, cancel_order]
      split <;> rfl

theorem perform_strategies (env : Env) (e : Engine S) (a : Action) :
    (e.perform env a).strategies_ = e.strategies_ := by
  cases a with
  | buy s q p => rfl
  | sell s q p => rfl
  | cancel_order id =>
      simp only [perform, cancel_order]
      split <;> rfl

theorem foldl_perform_portfolio (env : Env) (acts : List Action) (e : Engine S) :
    (acts.foldl (perform env) e).portfolio_ = e.portfolio_ := by
  induction acts generalizing e with
  | nil => rfl
  | cons a acts ih => simp [List.foldl_cons, ih, perform_portfolio]

theorem foldl_perform_config (env : Env) (acts : List Action) (e : Engine S) :
    (acts.foldl (perform env) e).config_ = e.config_ := by
  induction acts generalizing e with
  | nil => rfl
  | cons a acts ih => simp [List.foldl_cons, ih, perform_config]

theorem foldl_perform_strategies (env : Env) (acts : List Action) (e : Engine S) :
    (acts.foldl (perform env) e).strategies_ = e.strategies_ := by
  induction acts generalizing e with
  | nil => rfl
  | cons a acts ih => simp [List.foldl_cons, ih, perform_strategies]

theorem call_portfolio (env : Env) (e : Engine S) (i : Nat)
    (cb : Strategy S → View → S × List Action) (enter leave : Event) :
    (e.call env i cb enter leave).portfolio_ = e.portfolio_ := by
  unfold call
  split
  · rfl
  · simp [foldl_perform_portfolio]

theorem call_config (env : Env) (e : Engine S) (i : Nat)
    (cb : Strategy S → View → S × List Action) (enter leave : Event) :
    (e.call env i cb enter leave).config_ = e.config_ := by
  unfold call
  split
  · rfl
  · simp [foldl_perform_config]

theorem call_strategies_length (env : Env) (e : Engine S) (i : Nat)
    (cb : Strategy S → View → S × List Action) (enter leave : Event) :
    (e.call env i cb enter leave).strategies_.length = e.strategies_.length := by
  unfold call
  split
  · rfl
  · simp [foldl_perform_strategies]

/-- A loop over strategy indices that runs one callback per index. -/
theorem foldl_call_portfolio (env : Env) (is : List Nat)
    (cb : Nat → Strategy S → View → S × List Action) (enter leave : Nat → Event)
    (e : Engine S) :
    (is.foldl (fun e i => e.call env i (cb i) (enter i) (leave i)) e).portfolio_
      = e.portfolio_ := by
  induction is generalizing e with
  | nil => rfl
  | cons i is ih => simp [List.foldl_cons, ih, call_portfolio]

theorem foldl_call_config (env : Env) (is : List Nat)
    (cb : Nat → Strategy S → View → S × List Action) (enter leave : Nat → Event)
    (e : Engine S) :
    (is.foldl (fun e i => e.call env i (cb i) (enter i) (leave i)) e).config_
      = e.config_ := by
  induction is generalizing e with
  | nil => rfl
  | cons i is ih => simp [List.foldl_cons, ih, call_config]

theorem dispatch_fill_portfolio (env : Env) (e : Engine S) (fill : Fill) :
    (e.dispatch_fill env fill).portfolio_ = e.portfolio_ :=
  foldl_call_portfolio env _ (fun _ s v => s.on_fill s.state fill v)
    (fun i => Event.fill_enter i fill) (fun i => Event.fill_return i fill) e

theorem dispatch_bar_portfolio (env : Env) (e : Engine S) (bar : Bar) :
    (e.dispatch_bar env bar).portfolio_ = e.portfolio_ :=
  foldl_call_portfolio env _ (fun _ s v => s.on_bar s.state bar v)
    (fun i => Event.bar_enter i bar) (fun i => Event.bar_return i bar) e

theorem dispatch_fill_config (env : Env) (e : Engine S) (fill : Fill) :
    (e.dispatch_fill env fill).config_ = e.config_ :=
  foldl_call_config env _ (fun _ s v => s.on_fill s.state fill v)
    (fun i => Event.fill_enter i fill) (fun i => Event.fill_return i fill) e

theorem dispatch_bar_config (env : Env) (e : Engine S) (bar : Bar) :
    (e.dispatch_bar env bar).config_ = e.config_ :=
  foldl_call_config env _ (fun _ s v => s.on_bar s.state bar v)
    (fun i => Event.bar_enter i bar) (fun i => Event.bar_return i bar) e

theorem execute_order_portfolio (env : Env) (e : Engine S) (k : OrderID) (order : Order)
    (price : ℚ) :
    (e.execute_order env k order price).portfolio_
      = settle e.portfolio_ order (e.make_fill env order price) := by
  simp [execute_order, dispatch_fill_portfolio]

theorem execute_order_config (env : Env) (e : Engine S) (k : OrderID) (order : Order)
    (price : ℚ) :
    (e.execute_order env k order price).config_ = e.config_ := by
  simp [execute_order, dispatch_fill_config]

end Engine

theorem Positions.find_map_keep (m : Positions) (f : Symbol × Position → Symbol × Position)
    (hf : ∀ e, (f e).1 = e.1) (s : Symbol) :
    Positions.find (m.map f) s = (List.find? (fun e => e.1 == s) m).map (fun e => (f e).2) := by
  have hp : ((fun e : Symbol × Position => e.1 == s) ∘ f) = (fun e => e.1 == s) := by
    funext en
    simp [hf]
  simp only [Positions.find, List.find?_map, hp, Option.map_map]
  rfl

theorem Positions.find_eq_some (m : Positions) (s : Symbol) (p : Position)
    (h : m.find s = some p) : List.find? (fun e => e.1 == s) m = some (s, p) := by
  simp only [Positions.find, Option.map_eq_some'] at h
  obtain ⟨a, ha, hp⟩ := h
  have := List.find?_some ha
  simp only [beq_iff_eq] at this
  rw [ha, ← this, ← hp]

theorem Positions.find_eq_none (m : Positions) (s : Symbol)
    (h : m.find s = none) : List.find? (fun e => e.1 == s) m = none := by
  simpa [Positions.find] using h


/-! ## The order map -/

theorem OrderMap.modify_keys (m : OrderMap) (k : OrderID) (f : Order → Order) :
    (m.modify k f).map Prod.fst = m.map Prod.fst := by
  simp only [OrderMap.modify, List.map_map]
  apply List.map_congr_left
  intro en _
  simp only [Function.comp]
  split <;> rfl

theorem OrderMap.next_mem (m : OrderMap) (visited : Option OrderID) (en : OrderID × Order)
    (h : m.next visited = some en) : en ∈ m := by
  cases visited with
  | none => exact List.mem_of_mem_head? h
  | some k => exact List.mem_of_find?_eq_some h

theorem OrderMap.next_gt (m : OrderMap) (k : OrderID) (en : OrderID × Order)
    (h : m.next (some k) = some en) : k < en.1 := by
  have := List.find?_some h
  simpa using this

namespace Engine
variable {S : Type}

theorem settle_equity (portfolio : PortfolioState) (order : Order) (fill : Fill) :
    (settle portfolio order fill).equity = portfolio.equity := by
  unfold settle
  split <;> rfl

theorem execute_order_equity (env : Env) (e : Engine S) (k : OrderID) (order : Order)
    (price : ℚ) :
    (e.execute_order env k order price).portfolio_.equity = e.portfolio_.equity := by
  rw [execute_order_portfolio, settle_equity]

theorem execute_pending_equity (env : Env) (bar : Bar) (fuel : Nat) :
    ∀ (visited : Option OrderID) (e e' : Engine S),
      execute_pending env bar fuel visited e = some e' →
      e'.portfolio_.equity = e.portfolio_.equity := by
  induction fuel with
  | zero => intro visited e e' h; simp [execute_pending] at h
  | succ fuel ih =>
      intro visited e e' h
      unfold execute_pending at h
      split at h
      · cases h; rfl
      · split at h
        · rw [ih _ _ _ h, execute_order_equity]
        · exact ih _ _ _ h

end Engine

theorem countP_lt_of_imp {α : Type} (p q : α → Bool) (l : List α)
    (himp : ∀ x ∈ l, p x = true → q x = true)
    (hex : ∃ x ∈ l, q x = true ∧ p x = false) : l.countP p < l.countP q := by
  induction l with
  | nil => obtain ⟨x, hx, _⟩ := hex; cases hx
  | cons a l ih =>
      have hmono : l.countP p ≤ l.countP q :=
        List.countP_mono_left (fun x hx => himp x (List.mem_cons_of_mem _ hx))
      obtain ⟨x, hx, hqx, hpx⟩ := hex
      rcases List.mem_cons.mp hx with rfl | hxl
      · rw [List.countP_cons, List.countP_cons, hqx, hpx]
        simp only [if_true, Bool.false_eq_true, if_false]
        omega
      · have hlt := ih (fun y hy => himp y (List.mem_cons_of_mem _ hy)) ⟨x, hxl, hqx, hpx⟩
        rw [List.countP_cons, List.countP_cons]
        by_cases hpa : p a = true
        · have hqa := himp a (List.mem_cons_self _ _) hpa
          simp only [hpa, hqa, if_true]
          omega
        · by_cases hqa : q a = true
          · simp only [hpa, hqa, if_true, if_false, Bool.false_eq_true]
            omega
          · simp only [hpa, hqa, if_false, Bool.false_eq_true]
            omega

theorem OrderMap.remaining_congr (m m' : OrderMap) (visited : Option OrderID)
    (h : m'.map Prod.fst = m.map Prod.fst) : m'.remaining visited = m.remaining visited := by
  cases visited with
  | none =>
      simp only [OrderMap.remaining]
      rw [← List.length_map m' Prod.fst, h, List.length_map]
  | some k =>
      simp only [OrderMap.remaining]
      have h1 : ∀ l : OrderMap, l.countP (fun e => decide (k < e.1))
          = (l.map Prod.fst).countP (fun x => decide (k < x)) := by
        intro l
        rw [List.countP_map]
        rfl
      rw [h1 m', h1 m, h]

theorem OrderMap.remaining_next (m : OrderMap) (visited : Option OrderID)
    (en : OrderID × Order) (h : m.next visited = some en) :
    m.remaining (some en.1) < m.remaining visited := by
  cases visited with
  | none =>
      cases m with
      | nil => simp [OrderMap.next] at h
      | cons a tl =>
          simp only [OrderMap.next, List.head?_cons, Option.some.injEq] at h
          subst h
          simp only [OrderMap.remaining, List.length_cons]
          have : List.countP (fun e : OrderID × Order => decide (a.1 < e.1)) (a :: tl)
              = List.countP (fun e : OrderID × Order => decide (a.1 < e.1)) tl := by
            simp [List.countP_cons]
          rw [this]
          exact Nat.lt_succ_of_le (List.countP_le_length _)
  | some k =>
      have hk := OrderMap.next_gt m k en h
      have hmem := OrderMap.next_mem m (some k) en h
      simp only [OrderMap.remaining]
      apply countP_lt_of_imp
      · intro x _ hx
        exact decide_eq_true (lt_trans hk (of_decide_eq_true hx))
      · exact ⟨en, hmem, by simpa using hk, by simp⟩

namespace Engine
variable {S : Type}

theorem cancel_order_keys (e : Engine S) (id : OrderID) :
    (e.cancel_order id).orders_.map Prod.fst = e.orders_.map Prod.fst := by
  simp only [cancel_order]
  split
  · simp [OrderMap.modify_keys]
  · rfl

theorem foldl_perform_keys (env : Env) (acts : List Action) (e : Engine S)
    (h : ∀ a ∈ acts, ∃ id, a = Action.cancel_order id) :
    (acts.foldl (perform env) e).orders_.map Prod.fst = e.orders_.map Prod.fst := by
  induction acts generalizing e with
  | nil => rfl
  | cons a acts ih =>
      obtain ⟨id, rfl⟩ := h a (List.mem_cons_self _ _)
      rw [List.foldl_cons, ih _ (fun b hb => h b (List.mem_cons_of_mem _ hb))]
      exact cancel_order_keys e id

theorem call_fill_keys (env : Env) (e : Engine S) (i : Nat) (fill : Fill)
    (hq : ∀ s ∈ e.strategies_, FillQuiet s) :
    (e.call env i (fun s v => s.on_fill s.state fill v) (Event.fill_enter i fill)
        (Event.fill_return i fill)).orders_.map Prod.fst = e.orders_.map Prod.fst := by
  unfold call
  split
  · rfl
  · rename_i strategy hs
    have hmem : strategy ∈ e.strategies_ := List.getElem?_mem hs
    simp only
    rw [foldl_perform_keys]
    exact fun a ha => hq strategy hmem _ _ _ a ha

theorem call_quiet (env : Env) (e : Engine S) (i : Nat)
    (cb : Strategy S → View → S × List Action) (enter leave : Event)
    (hq : ∀ s ∈ e.strategies_, FillQuiet s) :
    ∀ s ∈ (e.call env i cb enter leave).strategies_, FillQuiet s := by
  unfold call
  split
  · exact hq
  · rename_i strategy hs
    have hmem : strategy ∈ e.strategies_ := List.getElem?_mem hs
    simp only [foldl_perform_strategies]
    intro s hs'
    rcases List.mem_or_eq_of_mem_set hs' with h | h
    · exact hq s h
    · subst h
      exact hq strategy hmem

theorem dispatch_fill_keys_quiet (env : Env) (fill : Fill) (is : List Nat) (e : Engine S)
    (hq : ∀ s ∈ e.strategies_, FillQuiet s) :
    (is.foldl (fun e i => e.call env i (fun s v => s.on_fill s.state fill v)
        (Event.fill_enter i fill) (Event.fill_return i fill)) e).orders_.map Prod.fst
      = e.orders_.map Prod.fst ∧
    ∀ s ∈ (is.foldl (fun e i => e.call env i (fun s v => s.on_fill s.state fill v)
        (Event.fill_enter i fill) (Event.fill_return i fill)) e).strategies_, FillQuiet s := by
  induction is generalizing e with
  | nil => exact ⟨rfl, hq⟩
  | cons i is ih =>
      simp only [List.foldl_cons]
      have h1 := call_fill_keys env e i fill hq
      have h2 := call_quiet env e i (fun s v => s.on_fill s.state fill v)
        (Event.fill_enter i fill) (Event.fill_return i fill) hq
      obtain ⟨h3, h4⟩ := ih _ h2
      exact ⟨h3.trans h1, h4⟩

theorem execute_order_keys_quiet (env : Env) (e : Engine S) (k : OrderID) (order : Order)
    (price : ℚ) (hq : ∀ s ∈ e.strategies_, FillQuiet s) :
    (e.execute_order env k order price).orders_.map Prod.fst = e.orders_.map Prod.fst ∧
    ∀ s ∈ (e.execute_order env k order price).strategies_, FillQuiet s := by
  unfold execute_order dispatch_fill
  simp only
  have h := dispatch_fill_keys_quiet env (e.make_fill env order price)
    (List.range e.strategies_.length)
    { e with
      next_order_id_ := e.next_order_id_ + 1
      orders_ := e.orders_.modify k (fun o =>
        { o with
          status := OrderStatus.FILLED
          filled_quantity := o.quantity
          avg_fill_price := (e.make_fill env order price).price })
      portfolio_ := settle e.portfolio_ order (e.make_fill env order price)
      log := e.log ++ [Event.execute_enter order.id e.portfolio_,
        Event.settled (e.make_fill env order price)
          (settle e.portfolio_ order (e.make_fill env order price))] } hq
  refine ⟨?_, h.2⟩
  rw [h.1]
  simp [OrderMap.modify_keys]

/-- With strategies whose `on_fill` submits nothing, the loop of `process_bar`
ends within as many steps as it has entries to reach. -/
theorem execute_pending_terminates (env : Env) (bar : Bar) (fuel : Nat) :
    ∀ (visited : Option OrderID) (e : Engine S),
      (∀ s ∈ e.strategies_, FillQuiet s) → e.orders_.remaining visited < fuel →
      ∃ e', execute_pending env bar fuel visited e = some e' := by
  induction fuel with
  | zero => intro visited e _ h; omega
  | succ fuel ih =>
      intro visited e hq hfuel
      unfold execute_pending
      cases hn : e.orders_.next visited with
      | none => exact ⟨e, rfl⟩
      | some en =>
          obtain ⟨id, order⟩ := en
          have hlt := OrderMap.remaining_next _ _ _ hn
          simp only
          split
          · obtain ⟨hk, hq'⟩ := execute_order_keys_quiet env e id order bar.close hq
            apply ih _ _ hq'
            rw [OrderMap.remaining_congr _ _ _ hk]
            simp only at hlt
            omega
          · apply ih _ _ hq
            simp only at hlt
            omega


theorem update_portfolio_equity (e : Engine S) (bar : Bar) :
    (e.update_portfolio bar).portfolio_.equity
      = e.portfolio_.cash
        + ((e.update_portfolio bar).portfolio_.positions.map
            (fun p => p.2.quantity * p.2.current_price)).sum := by
  simp only [update_portfolio, Positions.foldl_market_value]
  rfl


theorem dispatch_bar_quiet (env : Env) (e : Engine S) (bar : Bar)
    (hq : ∀ s ∈ e.strategies_, FillQuiet s) :
    ∀ s ∈ (e.dispatch_bar env bar).strategies_, FillQuiet s := by
  unfold dispatch_bar
  generalize List.range e.strategies_.length = is
  induction is generalizing e with
  | nil => exact hq
  | cons i is ih =>
      simp only [List.foldl_cons]
      exact ih _ (call_quiet env e i _ _ _ hq)

end Engine


/-! ## More on the order map -/

theorem OrderMap.assign_fresh (m : OrderMap) (k : OrderID) (v : Order)
    (h : ∀ en ∈ m, en.1 < k) : m.assign k v = m ++ [(k, v)] := by
  induction m with
  | nil => rfl
  | cons a m ih =>
      have ha : a.1 < k := h a (List.mem_cons_self _ _)
      have h1 : ¬ k < a.1 := Nat.lt_asymm ha
      have h2 : ¬ k = a.1 := Nat.ne_of_gt ha
      simp only [OrderMap.assign, h1, h2, if_false, List.cons_append]
      rw [ih (fun en hen => h en (List.mem_cons_of_mem _ hen))]

theorem OrderMap.assign_keys (m : OrderMap) (k : OrderID) (v : Order) (id : OrderID) :
    id ∈ (m.assign k v).map Prod.fst ↔ id = k ∨ id ∈ m.map Prod.fst := by
  induction m with
  | nil => simp [OrderMap.assign]
  | cons a m ih =>
      simp only [OrderMap.assign]
      split
      · simp
      · split
        · rename_i h
          simp [← h]
        · simp only [List.map_cons, List.mem_cons, ih]
          tauto

theorem OrderMap.find_mem (m : OrderMap) (k : OrderID) (o : Order)
    (h : m.find k = some o) : (k, o) ∈ m := by
  simp only [OrderMap.find, Option.map_eq_some'] at h
  obtain ⟨a, ha, hp⟩ := h
  have h1 := List.find?_some ha
  have h2 := List.mem_of_find?_eq_some ha
  simp only [beq_iff_eq] at h1
  rw [← h1, ← hp]
  exact h2

theorem OrderMap.find_keys (m : OrderMap) (k : OrderID) (o : Order)
    (h : m.find k = some o) : k ∈ m.map Prod.fst :=
  List.mem_map.mpr ⟨(k, o), OrderMap.find_mem m k o h, rfl⟩

theorem OrderMap.find_append_left (m m' : OrderMap) (k : OrderID) (o : Order)
    (h : m.find k = some o) : (m ++ m').find k = some o := by
  simp only [OrderMap.find, Option.map_eq_some'] at h ⊢
  obtain ⟨a, ha, hp⟩ := h
  exact ⟨a, by simp [List.find?_append, ha], hp⟩

theorem OrderMap.find_modify_ne (m : OrderMap) (k id : OrderID) (f : Order → Order)
    (h : id ≠ k) : (m.modify k f).find id = m.find id := by
  induction m with
  | nil => rfl
  | cons a m ih =>
      simp only [OrderMap.find, OrderMap.modify] at ih ⊢
      rw [List.map_cons, List.find?_cons, List.find?_cons]
      by_cases ha : a.1 = id
      · subst ha
        have hk : ¬ a.1 = k := h
        simp only [hk, if_false, beq_self_eq_true]
      · have hg : (if a.1 = k then (a.1, f a.2) else a).1 = a.1 := by
          split <;> rfl
        have hb : (a.1 == id) = false := beq_false_of_ne ha
        simp only [hg, hb]
        exact ih

theorem OrderMap.modify_pairwise (m : OrderMap) (k : OrderID) (f : Order → Order)
    (h : m.Pairwise (fun a b => a.1 < b.1)) :
    (m.modify k f).Pairwise (fun a b => a.1 < b.1) := by
  simp only [OrderMap.modify]
  rw [List.pairwise_map]
  refine h.imp ?_
  intro a b hab
  split <;> split <;> exact hab

theorem OrderMap.modify_mem (m : OrderMap) (k : OrderID) (f : Order → Order)
    (en : OrderID × Order) (h : en ∈ m.modify k f) :
    ∃ o, (en.1, o) ∈ m ∧ (en.2 = o ∨ en.2 = f o) := by
  simp only [OrderMap.modify, List.mem_map] at h
  obtain ⟨a, ha, rfl⟩ := h
  split
  · exact ⟨a.2, ha, Or.inr rfl⟩
  · exact ⟨a.2, ha, Or.inl rfl⟩

/-- With ascending keys, the entry found under a key is the only one. -/
theorem OrderMap.find_of_mem (m : OrderMap) (k : OrderID) (o : Order)
    (hp : m.Pairwise (fun a b => a.1 < b.1)) (h : (k, o) ∈ m) : m.find k = some o := by
  induction m with
  | nil => cases h
  | cons a m ih =>
      rw [List.pairwise_cons] at hp
      rcases List.mem_cons.mp h with rfl | hm
      · simp [OrderMap.find]
      · have hlt := hp.1 _ hm
        have hne : ¬ a.1 = k := Nat.ne_of_lt hlt
        have := ih hp.2 hm
        simp only [OrderMap.find] at this ⊢
        simp [hne, this]

theorem mem_submitted_ids (l : List Event) (id : OrderID) :
    id ∈ submitted_ids l ↔ Event.submitted id ∈ l := by
  simp only [submitted_ids, List.mem_filterMap]
  constructor
  · rintro ⟨ev, hev, h⟩
    cases ev <;> simp [Event.submitted_id] at h
    subst h
    exact hev
  · intro h
    exact ⟨_, h, rfl⟩

theorem submitted_ids_append (l l' : List Event) :
    submitted_ids (l ++ l') = submitted_ids l ++ submitted_ids l' := by
  simp [submitted_ids]

namespace Engine
variable {S : Type}

/-! ## Steps of the engine -/

theorem Step.refl (e : Engine S) : Step e e [] where
  log := by simp
  config := rfl
  strategies := rfl
  next_le := Nat.le_refl _
  wf := fun h => h
  keys := fun _ h => h
  submitted := fun _ h => by cases h
  ascending := List.Pairwise.nil
  open_on := fun _ _ _ h => Or.inl h

theorem Step.trans {e e1 e2 : Engine S} {s1 s2 : List Event}
    (h1 : Step e e1 s1) (h2 : Step e1 e2 s2) : Step e e2 (s1 ++ s2) where
  log := by rw [h2.log, h1.log, List.append_assoc]
  config := h2.config.trans h1.config
  strategies := h2.strategies.trans h1.strategies
  next_le := Nat.le_trans h1.next_le h2.next_le
  wf := fun h => h2.wf (h1.wf h)
  keys := fun id h => h2.keys id (h1.keys id h)
  submitted := by
    intro id h
    rcases List.mem_append.mp h with h | h
    · obtain ⟨a, b, c⟩ := h1.submitted id h
      exact ⟨h2.keys id a, b, Nat.lt_of_lt_of_le c h2.next_le⟩
    · obtain ⟨a, b, c⟩ := h2.submitted id h
      exact ⟨a, Nat.le_trans h1.next_le b, c⟩
  ascending := by
    rw [submitted_ids_append, List.pairwise_append]
    refine ⟨h1.ascending, h2.ascending, ?_⟩
    intro a ha b hb
    have h1' := (h1.submitted a ((mem_submitted_ids _ _).mp ha)).2.2
    have h2' := (h2.submitted b ((mem_submitted_ids _ _).mp hb)).2.1
    exact Nat.lt_of_lt_of_le h1' h2'
  open_on := by
    intro hwf id symbol h
    rcases h1.open_on hwf id symbol h with h | h | ⟨p, h⟩
    · rcases h2.open_on (h1.wf hwf) id symbol h with h | h | ⟨p, h⟩
      · exact Or.inl h
      · exact Or.inr (Or.inl (List.mem_append_right _ h))
      · exact Or.inr (Or.inr ⟨p, List.mem_append_right _ h⟩)
    · exact Or.inr (Or.inl (List.mem_append_left _ h))
    · exact Or.inr (Or.inr ⟨p, List.mem_append_left _ h⟩)

/-- Storing a new order under the next id, as `buy` and `sell` do. -/
theorem step_submit (e : Engine S) (order : Order) (h : order.id = e.next_order_id_) :
    Step e
      { e with
        next_order_id_ := e.next_order_id_ + 1
        orders_ := e.orders_.assign order.id order
        log := e.log ++ [Event.submitted order.id] }
      [Event.submitted order.id] where
  log := rfl
  config := rfl
  strategies := rfl
  next_le := Nat.le_succ _
  wf := by
    intro hwf
    have hfresh : ∀ en ∈ e.orders_, en.1 < order.id := fun en hen => h ▸ (hwf.2 en hen).1
    constructor
    · show (e.orders_.assign order.id order).Pairwise _
      rw [OrderMap.assign_fresh _ _ _ hfresh, List.pairwise_append]
      refine ⟨hwf.1, List.pairwise_singleton _ _, ?_⟩
      intro a ha b hb
      rw [List.mem_singleton.mp hb]
      exact hfresh a ha
    · intro en hen
      have hen' : en ∈ e.orders_ ++ [(order.id, order)] := by
        rw [← OrderMap.assign_fresh _ _ _ hfresh]; exact hen
      rcases List.mem_append.mp hen' with hm | hm
      · exact ⟨Nat.lt_succ_of_lt (hwf.2 en hm).1, (hwf.2 en hm).2⟩
      · rw [List.mem_singleton.mp hm]
        exact ⟨by show order.id < e.next_order_id_ + 1; rw [h]; exact Nat.lt_succ_self _, rfl⟩
  keys := fun id hid => (OrderMap.assign_keys _ _ _ _).mpr (Or.inr hid)
  submitted := by
    intro id hid
    have : id = order.id := by simpa using hid
    subst this
    refine ⟨(OrderMap.assign_keys _ _ _ _).mpr (Or.inl rfl), Nat.le_of_eq h.symm, ?_⟩
    show order.id < e.next_order_id_ + 1
    rw [h]; exact Nat.lt_succ_self _
  ascending := by simp [submitted_ids, Event.submitted_id]
  open_on := by
    intro hwf id symbol hopen
    have hfresh : ∀ en ∈ e.orders_, en.1 < order.id := fun en hen => h ▸ (hwf.2 en hen).1
    obtain ⟨o, ho, h1, h2⟩ := hopen
    refine Or.inl ⟨o, ?_, h1, h2⟩
    show (e.orders_.assign order.id order).find id = some o
    rw [OrderMap.assign_fresh _ _ _ hfresh]
    exact OrderMap.find_append_left _ _ _ _ ho

/-- A write to the order stored under `k` that keeps its id and symbol. -/
theorem wf_modify (e : Engine S) (k : OrderID) (f : Order → Order) (n : Nat)
    (hf : ∀ o, (f o).id = o.id) (hn : e.next_order_id_ ≤ n) (hwf : e.WF) :
    (e.orders_.modify k f).Pairwise (fun a b => a.1 < b.1) ∧
    ∀ en ∈ e.orders_.modify k f, en.1 < n ∧ en.2.id = en.1 := by
  refine ⟨OrderMap.modify_pairwise _ _ _ hwf.1, ?_⟩
  intro en hen
  obtain ⟨o, ho, hor⟩ := OrderMap.modify_mem _ _ _ _ hen
  have h := hwf.2 _ ho
  refine ⟨Nat.lt_of_lt_of_le h.1 hn, ?_⟩
  rcases hor with hor | hor
  · rw [hor]; exact h.2
  · rw [hor, hf]; exact h.2

theorem step_cancel (e : Engine S) (id : OrderID) :
    Step e (e.cancel_order id) [Event.cancel_called id] := by
  simp only [cancel_order]
  split
  · exact
      { log := rfl
        config := rfl
        strategies := rfl
        next_le := Nat.le_refl _
        wf := fun hwf =>
          wf_modify e id (fun o => { o with status := OrderStatus.CANCELLED }) _
            (fun _ => rfl) (Nat.le_refl _) hwf
        keys := fun k hk => by
          simp only [OrderMap.modify_keys]; exact hk
        submitted := fun k hk => by simp at hk
        ascending := by simp [submitted_ids, Event.submitted_id]
        open_on := by
          intro _ k symbol hopen
          by_cases hk : k = id
          · subst hk
            exact Or.inr (Or.inl (List.mem_singleton.mpr rfl))
          · obtain ⟨o, ho, h1, h2⟩ := hopen
            refine Or.inl ⟨o, ?_, h1, h2⟩
            simp only [OrderMap.find_modify_ne _ _ _ _ hk]
            exact ho }
  · exact
      { log := rfl
        config := rfl
        strategies := rfl
        next_le := Nat.le_refl _
        wf := fun h => h
        keys := fun _ h => h
        submitted := fun k hk => by simp at hk
        ascending := by simp [submitted_ids, Event.submitted_id]
        open_on := fun _ _ _ h => Or.inl h }

theorem step_perform (env : Env) (e : Engine S) (a : Action) :
    ∃ ev, ev.is_context_call = true ∧ Step e (e.perform env a) [ev] := by
  cases a with
  | buy symbol quantity price =>
      exact ⟨Event.submitted e.next_order_id_, rfl, step_submit e _ rfl⟩
  | sell symbol quantity price =>
      exact ⟨Event.submitted e.next_order_id_, rfl, step_submit e _ rfl⟩
  | cancel_order id =>
      exact ⟨Event.cancel_called id, rfl, step_cancel e id⟩

theorem step_foldl_perform (env : Env) (acts : List Action) (e : Engine S) :
    ∃ calls, (∀ ev ∈ calls, ev.is_context_call = true) ∧
      Step e (acts.foldl (perform env) e) calls := by
  induction acts generalizing e with
  | nil => exact ⟨[], by simp, Step.refl e⟩
  | cons a acts ih =>
      obtain ⟨ev, hev, h1⟩ := step_perform env e a
      obtain ⟨calls, hcalls, h2⟩ := ih (e.perform env a)
      refine ⟨ev :: calls, ?_, h1.trans h2⟩
      intro x hx
      rcases List.mem_cons.mp hx with rfl | hx
      · exact hev
      · exact hcalls x hx


/-- Appending log entries that are not `submitted`, and replacing the
strategies by as many. -/
theorem step_mark (e : Engine S) (strategies : List (Strategy S)) (evs : List Event)
    (hlen : strategies.length = e.strategies_.length)
    (hev : ∀ ev ∈ evs, ev.submitted_id = none) :
    Step e { e with strategies_ := strategies, log := e.log ++ evs } evs where
  log := rfl
  config := rfl
  strategies := hlen
  next_le := Nat.le_refl _
  wf := fun h => h
  keys := fun _ h => h
  submitted := fun id h => by
    have := hev _ h
    simp [Event.submitted_id] at this
  ascending := by
    have : submitted_ids evs = [] := by
      simp only [submitted_ids, List.filterMap_eq_nil_iff]
      exact hev
    rw [this]
    exact List.Pairwise.nil
  open_on := fun _ _ _ h => Or.inl h

theorem step_call (env : Env) (e : Engine S) (i : Nat)
    (cb : Strategy S → View → S × List Action) (enter leave : Event)
    (hi : i < e.strategies_.length)
    (henter : enter.submitted_id = none) (hleave : leave.submitted_id = none) :
    ∃ c, CallbackLog enter leave c ∧ Step e (e.call env i cb enter leave) c := by
  unfold call
  have hs : e.strategies_[i]? = some e.strategies_[i] := List.getElem?_eq_getElem hi
  rw [hs]
  simp only
  have h1 := step_mark e
    (e.strategies_.set i { e.strategies_[i] with state := (cb e.strategies_[i] e.view).1 })
    [enter] (by simp) (by simpa using henter)
  obtain ⟨calls, hcalls, h2⟩ := step_foldl_perform env (cb e.strategies_[i] e.view).2
    { e with
      strategies_ :=
        e.strategies_.set i { e.strategies_[i] with state := (cb e.strategies_[i] e.view).1 }
      log := e.log ++ [enter] }
  have h3 := step_mark
    (List.foldl (perform env)
      { e with
        strategies_ :=
          e.strategies_.set i { e.strategies_[i] with state := (cb e.strategies_[i] e.view).1 }
        log := e.log ++ [enter] } (cb e.strategies_[i] e.view).2)
    (List.foldl (perform env)
      { e with
        strategies_ :=
          e.strategies_.set i { e.strategies_[i] with state := (cb e.strategies_[i] e.view).1 }
        log := e.log ++ [enter] } (cb e.strategies_[i] e.view).2).strategies_
    [leave] rfl (by simpa using hleave)
  refine ⟨[enter] ++ calls ++ [leave], ⟨calls, by simp, hcalls⟩, ?_⟩
  exact (h1.trans h2).trans h3

/-- A loop that runs one callback on each of the first `k` strategies. -/
theorem step_dispatch (env : Env)
    (cb : Strategy S → View → S × List Action) (enter leave : Nat → Event)
    (henter : ∀ i, (enter i).submitted_id = none)
    (hleave : ∀ i, (leave i).submitted_id = none) (k : Nat) :
    ∀ e : Engine S, k ≤ e.strategies_.length →
    ∃ l, DispatchLog enter leave k l ∧
      Step e ((List.range k).foldl (fun e i => e.call env i cb (enter i) (leave i)) e) l := by
  induction k with
  | zero => intro e _; exact ⟨[], DispatchLog.none, Step.refl e⟩
  | succ k ih =>
      intro e hk
      obtain ⟨l, hl, h1⟩ := ih e (Nat.le_of_succ_le hk)
      rw [List.range_succ, List.foldl_append]
      simp only [List.foldl_cons, List.foldl_nil]
      obtain ⟨c, hc, h2⟩ := step_call env
        ((List.range k).foldl (fun e i => e.call env i cb (enter i) (leave i)) e) k cb
        (enter k) (leave k) (by rw [h1.strategies]; exact hk) (henter k) (hleave k)
      exact ⟨l ++ c, DispatchLog.more hl hc, h1.trans h2⟩

theorem step_dispatch_bar (env : Env) (e : Engine S) (bar : Bar) :
    ∃ l, DispatchLog (fun i => Event.bar_enter i bar) (fun i => Event.bar_return i bar)
        e.strategies_.length l ∧
      Step e (e.dispatch_bar env bar) l :=
  step_dispatch env (fun s v => s.on_bar s.state bar v)
    (fun i => Event.bar_enter i bar) (fun i => Event.bar_return i bar)
    (fun _ => rfl) (fun _ => rfl) e.strategies_.length e (Nat.le_refl _)

theorem step_dispatch_fill (env : Env) (e : Engine S) (fill : Fill) :
    ∃ l, DispatchLog (fun i => Event.fill_enter i fill) (fun i => Event.fill_return i fill)
        e.strategies_.length l ∧
      Step e (e.dispatch_fill env fill) l :=
  step_dispatch env (fun s v => s.on_fill s.state fill v)
    (fun i => Event.fill_enter i fill) (fun i => Event.fill_return i fill)
    (fun _ => rfl) (fun _ => rfl) e.strategies_.length e (Nat.le_refl _)

end Engine

/-! ## Reading execution logs -/

theorem sequential_skip (l l' : List Event) (h : ∀ ev ∈ l, ev.is_execution = false)
    (p q : PortfolioState) (last : Option OrderID) :
    Sequential p last (l ++ l') q ↔ Sequential p last l' q := by
  induction l with
  | nil => rfl
  | cons ev l ih =>
      have ih' := ih (fun x hx => h x (List.mem_cons_of_mem _ hx))
      have hev := h ev (List.mem_cons_self _ _)
      cases ev <;> first
        | (simp [Event.is_execution] at hev; done)
        | (simpa [Sequential] using ih')

theorem sequential_weaken (l : List Event) (p q : PortfolioState) (k : OrderID)
    (last : Option OrderID) (hlast : ∀ j, last = some j → j ≤ k)
    (h : Sequential p (some k) l q) : Sequential p last l q := by
  induction l generalizing p with
  | nil => exact h
  | cons ev l ih =>
      cases ev with
      | execute_enter id before =>
          simp only [Sequential] at h ⊢
          refine ⟨h.1, ?_, h.2.2⟩
          intro j hj
          exact Nat.lt_of_le_of_lt (hlast j hj) (h.2.1 k rfl)
      | settled fill after =>
          simp only [Sequential] at h ⊢
          exact ⟨h.1, h.2.1, ih _ h.2.2⟩
      | init_enter i => simp only [Sequential] at h ⊢; exact ih _ h
      | init_return i => simp only [Sequential] at h ⊢; exact ih _ h
      | bar_enter i b => simp only [Sequential] at h ⊢; exact ih _ h
      | bar_return i b => simp only [Sequential] at h ⊢; exact ih _ h
      | submitted id => simp only [Sequential] at h ⊢; exact ih _ h
      | cancel_called id => simp only [Sequential] at h ⊢; exact ih _ h
      | fill_enter i f => simp only [Sequential] at h ⊢; exact ih _ h
      | fill_return i f => simp only [Sequential] at h ⊢; exact ih _ h

theorem callback_log_no_execution (enter leave : Event) (c : List Event)
    (henter : enter.is_execution = false) (hleave : leave.is_execution = false)
    (h : CallbackLog enter leave c) : ∀ ev ∈ c, ev.is_execution = false := by
  obtain ⟨calls, rfl, hcalls⟩ := h
  intro ev hev
  simp only [List.cons_append, List.mem_cons, List.mem_append, List.mem_singleton,
    List.not_mem_nil, or_false] at hev
  rcases hev with rfl | hev | rfl
  · exact henter
  · have := hcalls ev hev
    cases ev <;> simp [Event.is_context_call] at this <;> rfl
  · exact hleave

theorem dispatch_log_no_execution (enter leave : Nat → Event) (n : Nat) (l : List Event)
    (henter : ∀ i, (enter i).is_execution = false)
    (hleave : ∀ i, (leave i).is_execution = false)
    (h : DispatchLog enter leave n l) : ∀ ev ∈ l, ev.is_execution = false := by
  induction h with
  | none => intro ev hev; cases hev
  | more _ hc ih =>
      intro ev hev
      rcases List.mem_append.mp hev with hev | hev
      · exact ih ev hev
      · exact callback_log_no_execution _ _ _ (henter _) (hleave _) hc ev hev

/-! ## The iterator over the order map -/

theorem OrderMap.next_none (m : OrderMap) (visited : Option OrderID)
    (h : m.next visited = none) (id : OrderID) (hid : id ∈ m.map Prod.fst)
    (hv : ∀ k, visited = some k → k < id) : False := by
  obtain ⟨en, hen, rfl⟩ := List.mem_map.mp hid
  cases visited with
  | none =>
      cases m with
      | nil => cases hen
      | cons a tl => simp [OrderMap.next] at h
  | some k =>
      simp only [OrderMap.next, List.find?_eq_none] at h
      have := h en hen
      simp only [decide_eq_true_eq] at this
      exact this (hv k rfl)

theorem OrderMap.next_le (m : OrderMap) (visited : Option OrderID) (en : OrderID × Order)
    (hp : m.Pairwise (fun a b => a.1 < b.1)) (h : m.next visited = some en)
    (id : OrderID) (hid : id ∈ m.map Prod.fst)
    (hv : ∀ k, visited = some k → k < id) : en.1 ≤ id := by
  obtain ⟨x, hx, rfl⟩ := List.mem_map.mp hid
  cases visited with
  | none =>
      cases m with
      | nil => cases hx
      | cons a tl =>
          simp only [OrderMap.next, List.head?_cons, Option.some.injEq] at h
          subst h
          rw [List.pairwise_cons] at hp
          rcases List.mem_cons.mp hx with rfl | hx
          · exact Nat.le_refl _
          · exact Nat.le_of_lt (hp.1 x hx)
  | some k =>
      have hk : k < x.1 := hv k rfl
      simp only [OrderMap.next] at h
      clear hid
      induction m with
      | nil => cases hx
      | cons a tl ih =>
          rw [List.pairwise_cons] at hp
          rw [List.find?_cons] at h
          by_cases ha : k < a.1
          · simp only [ha, decide_True, Option.some.injEq] at h
            subst h
            rcases List.mem_cons.mp hx with rfl | hx
            · exact Nat.le_refl _
            · exact Nat.le_of_lt (hp.1 x hx)
          · simp only [ha, decide_False] at h
            rcases List.mem_cons.mp hx with rfl | hx
            · exact absurd hk ha
            · exact ih hp.2 hx h

namespace Engine
variable {S : Type}

/-! ## `execute_order` and the loop of `process_bar` -/

theorem settle_effects (p : PortfolioState) (order : Order) (fill : Fill)
    (hside : fill.side = order.side) (hsym : fill.symbol = order.symbol)
    (hqty : fill.quantity = order.quantity) :
    (settle p order fill).cash
        = (if fill.side = OrderSide.BUY ∨ fill.side = OrderSide.COVER
            then p.cash - fill.total_cost
            else p.cash + (fill.notional - fill.commission)) ∧
    ((settle p order fill).positions.get fill.symbol).quantity
        = (if fill.side = OrderSide.BUY ∨ fill.side = OrderSide.COVER
            then (p.positions.get fill.symbol).quantity + fill.quantity
            else (p.positions.get fill.symbol).quantity - fill.quantity) := by
  by_cases hb : order.side = OrderSide.BUY ∨ order.side = OrderSide.COVER
  · have hbuy : order.is_buy = true := by
      rcases hb with h | h <;> simp [Order.is_buy, h]
    simp [settle, hbuy, hside, hsym, hqty, hb, Positions.get_assign_self]
  · have hbuy : order.is_buy = false := by
      simp only [not_or] at hb
      simp [Order.is_buy, hb.1, hb.2]
    simp [settle, hbuy, hside, hsym, hqty, hb, Positions.get_assign_self]

/-- The part of `execute_order` before the fill is handed to the strategies. -/
theorem step_fill_order (e : Engine S) (k : OrderID) (order : Order)
    (fill : Fill) (hmem : (k, order) ∈ e.orders_) :
    Step e
      { e with
        next_order_id_ := e.next_order_id_ + 1
        orders_ := e.orders_.modify k (fun o =>
          { o with
            status := OrderStatus.FILLED
            filled_quantity := o.quantity
            avg_fill_price := fill.price })
        portfolio_ := settle e.portfolio_ order fill
        log := e.log ++ [Event.execute_enter order.id e.portfolio_,
          Event.settled fill (settle e.portfolio_ order fill)] }
      [Event.execute_enter order.id e.portfolio_,
        Event.settled fill (settle e.portfolio_ order fill)] where
  log := rfl
  config := rfl
  strategies := rfl
  next_le := Nat.le_succ _
  wf := fun hwf =>
    wf_modify e k (fun o =>
      { o with
        status := OrderStatus.FILLED
        filled_quantity := o.quantity
        avg_fill_price := fill.price }) _ (fun _ => rfl) (Nat.le_succ _) hwf
  keys := fun id hid => by simp only [OrderMap.modify_keys]; exact hid
  submitted := fun id hid => by simp at hid
  ascending := by simp [submitted_ids, Event.submitted_id]
  open_on := by
    intro hwf id symbol hopen
    by_cases hk : id = k
    · subst hk
      have hid : order.id = id := (hwf.2 _ hmem).2
      exact Or.inr (Or.inr ⟨e.portfolio_, by simp [hid]⟩)
    · obtain ⟨o, ho, h1, h2⟩ := hopen
      refine Or.inl ⟨o, ?_, h1, h2⟩
      simp only [OrderMap.find_modify_ne _ _ _ _ hk]
      exact ho

theorem step_execute_order (env : Env) (e : Engine S) (k : OrderID) (order : Order)
    (price : ℚ) (hmem : (k, order) ∈ e.orders_) :
    ∃ deliveries,
      DispatchLog (fun i => Event.fill_enter i (e.make_fill env order price))
        (fun i => Event.fill_return i (e.make_fill env order price))
        e.strategies_.length deliveries ∧
      Step e (e.execute_order env k order price)
        (Event.execute_enter order.id e.portfolio_ ::
          Event.settled (e.make_fill env order price)
            (settle e.portfolio_ order (e.make_fill env order price)) :: deliveries) := by
  have h1 := step_fill_order e k order (e.make_fill env order price) hmem
  obtain ⟨l, hl, h2⟩ := step_dispatch_fill env
    { e with
      next_order_id_ := e.next_order_id_ + 1
      orders_ := e.orders_.modify k (fun o =>
        { o with
          status := OrderStatus.FILLED
          filled_quantity := o.quantity
          avg_fill_price := (e.make_fill env order price).price })
      portfolio_ := settle e.portfolio_ order (e.make_fill env order price)
      log := e.log ++ [Event.execute_enter order.id e.portfolio_,
        Event.settled (e.make_fill env order price)
          (settle e.portfolio_ order (e.make_fill env order price))] }
    (e.make_fill env order price)
  exact ⟨l, hl, h1.trans h2⟩

/-- What the loop of `process_bar` appends to the log, and what it does to the
orders it finds open on the symbol of the bar. -/
theorem execute_pending_log (env : Env) (bar : Bar) (fuel : Nat) :
    ∀ (visited : Option OrderID) (e e' : Engine S), e.WF →
      execute_pending env bar fuel visited e = some e' →
      ∃ B, ExecPhase e.strategies_.length B ∧ Step e e' B ∧
        Sequential e.portfolio_ visited B e'.portfolio_ ∧
        ∀ id, (∀ k, visited = some k → k < id) → e.OpenOn id bar.symbol →
          Event.cancel_called id ∈ B ∨ ∃ p, Event.execute_enter id p ∈ B := by
  induction fuel with
  | zero => intro visited e e' _ h; simp [execute_pending] at h
  | succ fuel ih =>
      intro visited e e' hwf h
      unfold execute_pending at h
      cases hn : e.orders_.next visited with
      | none =>
          rw [hn] at h
          simp only [Option.some.injEq] at h
          subst h
          refine ⟨[], ExecPhase.none, Step.refl e, rfl, ?_⟩
          intro id hv hopen
          obtain ⟨o, ho, _, _⟩ := hopen
          exact (OrderMap.next_none _ _ hn id (OrderMap.find_keys _ _ _ ho) hv).elim
      | some en =>
          obtain ⟨id0, order⟩ := en
          rw [hn] at h
          simp only at h
          have hmem : (id0, order) ∈ e.orders_ := OrderMap.next_mem _ _ _ hn
          have hfind : e.orders_.find id0 = some order := OrderMap.find_of_mem _ _ _ hwf.1 hmem
          have hid0 : order.id = id0 := (hwf.2 _ hmem).2
          have hgt : ∀ k, visited = some k → k < id0 := by
            intro k hk
            subst hk
            exact OrderMap.next_gt _ _ _ hn
          split at h
          · -- the order is executed
            obtain ⟨deliveries, hdel, hstep⟩ :=
              step_execute_order env e id0 order bar.close hmem
            obtain ⟨B, hB, hstepB, hseq, hrest⟩ := ih (some id0) _ e' (hstep.wf hwf) h
            have hnoexec := dispatch_log_no_execution
              (fun i => Event.fill_enter i (e.make_fill env order bar.close))
              (fun i => Event.fill_return i (e.make_fill env order bar.close)) _ _
              (fun _ => rfl) (fun _ => rfl) hdel
            have heff := settle_effects e.portfolio_ order (e.make_fill env order bar.close)
              rfl rfl rfl
            refine ⟨(Event.execute_enter order.id e.portfolio_ ::
              Event.settled (e.make_fill env order bar.close)
                (settle e.portfolio_ order (e.make_fill env order bar.close)) :: deliveries)
                ++ B, ?_, hstep.trans hstepB, ?_, ?_⟩
            · refine ExecPhase.more ⟨_, _, _, _, _, rfl, rfl, hdel⟩ ?_
              rw [← hstep.strategies]
              exact hB
            · simp only [List.cons_append, Sequential]
              refine ⟨trivial, ?_, heff.1, heff.2, ?_⟩
              · intro k hk
                rw [hid0]
                exact hgt k hk
              · show Sequential _ _ (deliveries ++ B) _
                rw [sequential_skip _ _ hnoexec, hid0]
                rw [execute_order_portfolio] at hseq
                exact hseq
            · intro id hv hopen
              obtain ⟨o, ho, _, _⟩ := hopen
              have hle := OrderMap.next_le _ _ _ hwf.1 hn id (OrderMap.find_keys _ _ _ ho) hv
              rcases Nat.eq_or_lt_of_le hle with heq | hlt
              · simp only at heq
                subst heq
                exact Or.inr ⟨e.portfolio_, by simp [hid0]⟩
              · rcases hstep.open_on hwf id bar.symbol ⟨o, ho, ‹_›, ‹_›⟩ with h1 | h1 | ⟨p, h1⟩
                · rcases hrest id (fun k hk => by cases hk; exact hlt) h1 with h2 | ⟨p, h2⟩
                  · exact Or.inl (List.mem_append_right _ h2)
                  · exact Or.inr ⟨p, List.mem_append_right _ h2⟩
                · exact Or.inl (List.mem_append_left _ h1)
                · exact Or.inr ⟨p, List.mem_append_left _ h1⟩
          · -- the order is passed over
            rename_i hcond
            obtain ⟨B, hB, hstepB, hseq, hrest⟩ := ih (some id0) e e' hwf h
            refine ⟨B, hB, hstepB, sequential_weaken _ _ _ id0 visited ?_ hseq, ?_⟩
            · intro j hj
              exact Nat.le_of_lt (hgt j hj)
            · intro id hv hopen
              obtain ⟨o, ho, hopen1, hsym⟩ := hopen
              have hle := OrderMap.next_le _ _ _ hwf.1 hn id (OrderMap.find_keys _ _ _ ho) hv
              rcases Nat.eq_or_lt_of_le hle with heq | hlt
              · simp only at heq
                subst heq
                rw [hfind] at ho
                cases ho
                simp [hopen1, hsym] at hcond
              · exact hrest id (fun k hk => by cases hk; exact hlt) ⟨o, ho, hopen1, hsym⟩

end Engine

theorem OrderMap.find_of_key (m : OrderMap) (k : OrderID) (h : k ∈ m.map Prod.fst) :
    ∃ o, m.find k = some o := by
  obtain ⟨en, hen, rfl⟩ := List.mem_map.mp h
  cases hf : List.find? (fun e : OrderID × Order => e.1 == en.1) m with
  | none =>
      rw [List.find?_eq_none] at hf
      have := hf en hen
      simp at this
  | some x => exact ⟨x.2, by simp [OrderMap.find, hf]⟩

namespace Engine
variable {S : Type}

/-! ## States the engine can be in -/

theorem wf_init (config : BacktestConfig) : (Engine.init config : Engine S).WF :=
  ⟨List.Pairwise.nil, fun _ h => by cases h⟩

theorem wf_add_strategy (e : Engine S) (s : Strategy S) (h : e.WF) : (e.add_strategy s).WF := h

theorem wf_add_data (env : Env) (e : Engine S) (bars : List Bar) (h : e.WF) :
    (e.add_data env bars).WF := h

theorem wf_update_portfolio (e : Engine S) (bar : Bar) (h : e.WF) :
    (e.update_portfolio bar).WF := h

theorem wf_process_bar (env : Env) (fuel : Nat) (e e' : Engine S) (bar : Bar) (hwf : e.WF)
    (h : e.process_bar env fuel bar = some e') : e'.WF := by
  obtain ⟨A, _, hA⟩ := step_dispatch_bar env (e.update_portfolio bar) bar
  obtain ⟨B, _, hB, _⟩ := execute_pending_log env bar fuel none _ e'
    (hA.wf (wf_update_portfolio e bar hwf)) h
  exact hB.wf (hA.wf (wf_update_portfolio e bar hwf))

theorem wf_run_bars (env : Env) (fuel : Nat) (bars : List Bar) :
    ∀ e e' : Engine S, e.WF → run_bars env fuel bars e = some e' → e'.WF := by
  induction bars with
  | nil => intro e e' hwf h; cases h; exact hwf
  | cons bar bars ih =>
      intro e e' hwf h
      unfold run_bars at h
      cases h1 : e.process_bar env fuel bar with
      | none => rw [h1] at h; cases h
      | some e1 =>
          rw [h1] at h
          exact ih e1 e' (wf_process_bar env fuel e e1 bar hwf h1) h

end Engine

theorem Scenario.wf_engine (cfg : BacktestConfig) (strategy : Strategy Nat) (bars : List Bar) :
    (Scenario.engine cfg strategy bars).WF :=
  Engine.wf_add_data _ _ _ (Engine.wf_add_strategy _ _ (Engine.wf_init cfg))


namespace Engine
variable {S : Type}

/-- With strategies whose `on_fill` submits nothing, `process_bar` completes. -/
theorem process_bar_completes (env : Env) (e : Engine S) (bar : Bar)
    (hq : ∀ s ∈ e.strategies_, FillQuiet s) :
    ∃ fuel e', e.process_bar env fuel bar = some e' :=
  ⟨_, execute_pending_terminates env bar _ none _
    (dispatch_bar_quiet env (e.update_portfolio bar) bar hq) (Nat.lt_succ_self _)⟩

end Engine

theorem Scenario.quiet_engine (cfg : BacktestConfig) (strategy : Strategy Nat)
    (bars : List Bar) (h : ∀ st fill v, (strategy.on_fill st fill v).2 = []) :
    ∀ s ∈ (Scenario.engine cfg strategy bars).strategies_, Engine.FillQuiet s := by
  intro s hs
  simp only [Scenario.engine, Engine.add_data, Engine.add_strategy, Engine.init,
    List.nil_append, List.mem_singleton] at hs
  subst hs
  intro st fill v a ha
  rw [h] at ha
  cases ha

theorem Order.SameTerms.terms_refl (o : Order) : o.SameTerms o :=
  ⟨rfl, rfl, rfl, rfl, rfl, rfl, rfl⟩

theorem Order.SameTerms.terms_trans {a b c : Order} (h1 : a.SameTerms b) (h2 : b.SameTerms c) :
    a.SameTerms c :=
  ⟨h2.1.trans h1.1, h2.2.1.trans h1.2.1, h2.2.2.1.trans h1.2.2.1,
    h2.2.2.2.1.trans h1.2.2.2.1, h2.2.2.2.2.1.trans h1.2.2.2.2.1,
    h2.2.2.2.2.2.1.trans h1.2.2.2.2.2.1, h2.2.2.2.2.2.2.trans h1.2.2.2.2.2.2⟩

theorem Order.not_open_of_cancelled (o : Order) (h : o.status = OrderStatus.CANCELLED) :
    o.is_open = false := by
  simp [Order.is_open, h]

theorem Order.not_open_of_filled (o : Order) (h : o.status = OrderStatus.FILLED) :
    o.is_open = false := by
  simp [Order.is_open, h]

theorem Order.is_open_congr (o o' : Order) (h : o'.status = o.status) :
    o'.is_open = o.is_open := by
  simp [Order.is_open, h]

namespace Engine
variable {S : Type}

/-! ## What the engine keeps of the orders it holds -/

theorem Moved.moved_trans {id : OrderID} {s1 s2 : List Event} {a b c : Order}
    (hsym : b.symbol = a.symbol)
    (h1 : Moved id s1 a b) (h2 : Moved id s2 b c) : Moved id (s1 ++ s2) a c := by
  rcases h2 with h2 | ⟨h2, hc⟩ | ⟨hopen, h2, fill, p, hf, hid, hs⟩
  · rcases h1 with h1 | ⟨h1, hc⟩ | ⟨hopen, h1, fill, p, hf, hid, hs⟩
    · exact Or.inl (h2.trans h1)
    · exact Or.inr (Or.inl ⟨h2.trans h1, List.mem_append_left _ hc⟩)
    · exact Or.inr (Or.inr ⟨hopen, h2.trans h1, fill, p, List.mem_append_left _ hf, hid, hs⟩)
  · exact Or.inr (Or.inl ⟨h2, List.mem_append_right _ hc⟩)
  · rcases h1 with h1 | ⟨h1, _⟩ | ⟨_, h1, _⟩
    · refine Or.inr (Or.inr ⟨?_, h2, fill, p, List.mem_append_right _ hf, hid, hs.trans hsym⟩)
      rw [← Order.is_open_congr a b h1]; exact hopen
    · rw [Order.not_open_of_cancelled b h1] at hopen; cases hopen
    · rw [Order.not_open_of_filled b h1] at hopen; cases hopen

theorem Moved.closed {id : OrderID} {s : List Event} {a b : Order}
    (h : Moved id s a b) (ha : a.is_open = false) : b.is_open = false := by
  rcases h with h | ⟨h, _⟩ | ⟨hopen, _⟩
  · rw [Order.is_open_congr a b h]; exact ha
  · exact Order.not_open_of_cancelled b h
  · rw [ha] at hopen; cases hopen

theorem Moved.cancelled {id : OrderID} {s : List Event} {a b : Order}
    (h : Moved id s a b) (ha : a.status = OrderStatus.CANCELLED) :
    b.status = OrderStatus.CANCELLED := by
  rcases h with h | ⟨h, _⟩ | ⟨hopen, _⟩
  · exact h.trans ha
  · exact h
  · rw [Order.not_open_of_cancelled a ha] at hopen; cases hopen

theorem Keeps.keeps_refl (e : Engine S) : Keeps e e [] where
  step := Step.refl e
  orders := fun _ id o h => ⟨o, h, Order.SameTerms.terms_refl o, Or.inl rfl⟩
  fills := fun _ _ _ _ _ _ _ h => by cases h
  after_cancel := fun _ _ L1 L2 h => by
    cases L1 <;> simp at h

theorem Keeps.keeps_trans {e e1 e2 : Engine S} {s1 s2 : List Event}
    (h1 : Keeps e e1 s1) (h2 : Keeps e1 e2 s2) : Keeps e e2 (s1 ++ s2) where
  step := h1.step.trans h2.step
  orders := by
    intro hwf id o h
    obtain ⟨o1, ho1, hs1, hm1⟩ := h1.orders hwf id o h
    obtain ⟨o2, ho2, hs2, hm2⟩ := h2.orders (h1.step.wf hwf) id o1 ho1
    exact ⟨o2, ho2, hs1.terms_trans hs2, Moved.moved_trans hs1.2.1 hm1 hm2⟩
  fills := by
    intro hwf id o h hclosed fill p hf
    rcases List.mem_append.mp hf with hf | hf
    · exact h1.fills hwf id o h hclosed fill p hf
    · obtain ⟨o1, ho1, _, hm1⟩ := h1.orders hwf id o h
      exact h2.fills (h1.step.wf hwf) id o1 ho1 (hm1.closed hclosed) fill p hf
  after_cancel := by
    intro hwf id L1 L2 hsplit hex
    have hwf1 := h1.step.wf hwf
    rcases List.append_eq_append_iff.mp hsplit with ⟨a', hL1, hs2⟩ | ⟨c', hs1, hc⟩
    · -- the cancellation is in the second part
      refine h2.after_cancel hwf1 id a' L2 hs2 ?_
      rcases hex with hex | hex
      · exact Or.inl (h1.step.keys id hex)
      · rw [hL1] at hex
        rcases List.mem_append.mp hex with hex | hex
        · exact Or.inl (h1.step.submitted id hex).1
        · exact Or.inr hex
    · cases c' with
      | nil =>
          simp only [List.nil_append] at hc
          simp only [List.append_nil] at hs1
          refine h2.after_cancel hwf1 id [] L2 (by simpa using hc.symm) ?_
          rcases hex with hex | hex
          · exact Or.inl (h1.step.keys id hex)
          · rw [← hs1] at hex
            exact Or.inl (h1.step.submitted id hex).1
      | cons c c'' =>
          simp only [List.cons_append, List.cons.injEq] at hc
          obtain ⟨hc1, hc2⟩ := hc
          subst hc1
          obtain ⟨⟨o1, ho1, hst1⟩, hnof⟩ := h1.after_cancel hwf id L1 c'' hs1 hex
          obtain ⟨o2, ho2, _, hm2⟩ := h2.orders hwf1 id o1 ho1
          refine ⟨⟨o2, ho2, hm2.cancelled hst1⟩, ?_⟩
          intro fill p hf
          rw [hc2] at hf
          rcases List.mem_append.mp hf with hf | hf
          · exact hnof fill p hf
          · exact h2.fills hwf1 id o1 ho1 (Order.not_open_of_cancelled o1 hst1) fill p hf

end Engine

theorem OrderMap.find_assign_key (m : OrderMap) (k : OrderID) (v : Order) :
    (m.assign k v).find k = some v := by
  induction m with
  | nil => simp [OrderMap.assign, OrderMap.find]
  | cons a m ih =>
      simp only [OrderMap.assign]
      by_cases h1 : k < a.1
      · simp [h1, OrderMap.find]
      · by_cases h2 : k = a.1
        · simp [h1, h2, OrderMap.find]
        · have h3 : ¬ a.1 = k := fun h => h2 h.symm
          simp only [h1, h2, if_false]
          simp only [OrderMap.find] at ih ⊢
          rw [List.find?_cons]
          simp only [beq_false_of_ne h3]
          exact ih

theorem OrderMap.find_modify_self (m : OrderMap) (k : OrderID) (f : Order → Order) :
    (m.modify k f).find k = (m.find k).map f := by
  induction m with
  | nil => rfl
  | cons a m ih =>
      simp only [OrderMap.find, OrderMap.modify] at ih ⊢
      rw [List.map_cons, List.find?_cons, List.find?_cons]
      by_cases ha : a.1 = k
      · simp [ha]
      · have hb : (a.1 == k) = false := beq_false_of_ne ha
        simp only [ha, if_false, hb]
        exact ih
namespace Engine
variable {S : Type}

theorem keeps_submit (e : Engine S) (order : Order) (h : order.id = e.next_order_id_) :
    Keeps e
      { e with
        next_order_id_ := e.next_order_id_ + 1
        orders_ := e.orders_.assign order.id order
        log := e.log ++ [Event.submitted order.id] }
      [Event.submitted order.id] where
  step := step_submit e order h
  orders := by
    intro hwf id o ho
    have hfresh : ∀ en ∈ e.orders_, en.1 < order.id := fun en hen => h ▸ (hwf.2 en hen).1
    refine ⟨o, ?_, Order.SameTerms.terms_refl o, Or.inl rfl⟩
    show (e.orders_.assign order.id order).find id = some o
    rw [OrderMap.assign_fresh _ _ _ hfresh]
    exact OrderMap.find_append_left _ _ _ _ ho
  fills := fun _ _ _ _ _ fill p hf => by simp at hf
  after_cancel := fun _ _ L1 L2 hs => by
    cases L1 with
    | nil => simp at hs
    | cons a L1 => cases L1 <;> simp at hs

theorem keeps_cancel (e : Engine S) (id : OrderID) :
    Keeps e (e.cancel_order id) [Event.cancel_called id] where
  step := step_cancel e id
  orders := by
    intro _ k o ho
    by_cases hk : k = id
    · subst hk
      refine ⟨{ o with status := OrderStatus.CANCELLED }, ?_, Order.SameTerms.terms_refl o,
        Or.inr (Or.inl ⟨rfl, List.mem_singleton.mpr rfl⟩)⟩
      simp [cancel_order, ho, OrderMap.find_modify_self]
    · refine ⟨o, ?_, Order.SameTerms.terms_refl o, Or.inl rfl⟩
      simp only [cancel_order]
      split
      · simp only [OrderMap.find_modify_ne _ _ _ _ hk]; exact ho
      · exact ho
  fills := fun _ _ _ _ _ fill p hf => by simp at hf
  after_cancel := by
    intro _ k L1 L2 hs hex
    cases L1 with
    | nil =>
        simp only [List.nil_append, List.cons.injEq, Event.cancel_called.injEq] at hs
        obtain ⟨hk, hL2⟩ := hs
        subst hk
        subst hL2
        rcases hex with hex | hex
        · obtain ⟨o, ho⟩ := OrderMap.find_of_key _ _ hex
          refine ⟨⟨{ o with status := OrderStatus.CANCELLED }, ?_, rfl⟩, fun _ _ hf => by cases hf⟩
          simp [cancel_order, ho, OrderMap.find_modify_self]
        · cases hex
    | cons a L1 => cases L1 <;> simp at hs

theorem keeps_perform (env : Env) (e : Engine S) (a : Action) :
    ∃ ev, ev.is_context_call = true ∧ Keeps e (e.perform env a) [ev] := by
  cases a with
  | buy symbol quantity price =>
      exact ⟨Event.submitted e.next_order_id_, rfl, keeps_submit e _ rfl⟩
  | sell symbol quantity price =>
      exact ⟨Event.submitted e.next_order_id_, rfl, keeps_submit e _ rfl⟩
  | cancel_order id =>
      exact ⟨Event.cancel_called id, rfl, keeps_cancel e id⟩

theorem keeps_foldl_perform (env : Env) (acts : List Action) (e : Engine S) :
    ∃ calls, (∀ ev ∈ calls, ev.is_context_call = true) ∧
      Keeps e (acts.foldl (perform env) e) calls := by
  induction acts generalizing e with
  | nil => exact ⟨[], by simp, Keeps.keeps_refl e⟩
  | cons a acts ih =>
      obtain ⟨ev, hev, h1⟩ := keeps_perform env e a
      obtain ⟨calls, hcalls, h2⟩ := ih (e.perform env a)
      refine ⟨ev :: calls, ?_, h1.keeps_trans h2⟩
      intro x hx
      rcases List.mem_cons.mp hx with rfl | hx
      · exact hev
      · exact hcalls x hx

theorem submitted_id_of_marker (ev : Event) (h : ev.is_marker = true) :
    ev.submitted_id = none := by
  cases ev <;> simp [Event.is_marker, Event.is_context_call] at h <;> rfl

/-- Appending one marker to the log, and replacing the strategies by as many. -/
theorem keeps_mark (e : Engine S) (strategies : List (Strategy S)) (ev : Event)
    (hlen : strategies.length = e.strategies_.length) (hev : ev.is_marker = true) :
    Keeps e { e with strategies_ := strategies, log := e.log ++ [ev] } [ev] where
  step := step_mark e strategies [ev] hlen (by
    intro x hx
    rw [List.mem_singleton.mp hx]
    exact submitted_id_of_marker ev hev)
  orders := fun _ id o h => ⟨o, h, Order.SameTerms.terms_refl o, Or.inl rfl⟩
  fills := by
    intro _ _ _ _ _ fill p hf
    rw [← List.mem_singleton.mp hf] at hev
    simp [Event.is_marker, Event.is_execution] at hev
  after_cancel := by
    intro _ id L1 L2 hs
    cases L1 with
    | nil =>
        simp only [List.nil_append, List.cons.injEq] at hs
        rw [hs.1] at hev
        simp [Event.is_marker, Event.is_context_call] at hev
    | cons a L1 => cases L1 <;> simp at hs

theorem keeps_call (env : Env) (e : Engine S) (i : Nat)
    (cb : Strategy S → View → S × List Action) (enter leave : Event)
    (hi : i < e.strategies_.length)
    (henter : enter.is_marker = true) (hleave : leave.is_marker = true) :
    ∃ c, CallbackLog enter leave c ∧ Keeps e (e.call env i cb enter leave) c := by
  unfold call
  have hs : e.strategies_[i]? = some e.strategies_[i] := List.getElem?_eq_getElem hi
  rw [hs]
  simp only
  have h1 := keeps_mark e
    (e.strategies_.set i { e.strategies_[i] with state := (cb e.strategies_[i] e.view).1 })
    enter (by simp) henter
  obtain ⟨calls, hcalls, h2⟩ := keeps_foldl_perform env (cb e.strategies_[i] e.view).2
    { e with
      strategies_ :=
        e.strategies_.set i { e.strategies_[i] with state := (cb e.strategies_[i] e.view).1 }
      log := e.log ++ [enter] }
  have h3 := keeps_mark
    (List.foldl (perform env)
      { e with
        strategies_ :=
          e.strategies_.set i { e.strategies_[i] with state := (cb e.strategies_[i] e.view).1 }
        log := e.log ++ [enter] } (cb e.strategies_[i] e.view).2)
    (List.foldl (perform env)
      { e with
        strategies_ :=
          e.strategies_.set i { e.strategies_[i] with state := (cb e.strategies_[i] e.view).1 }
        log := e.log ++ [enter] } (cb e.strategies_[i] e.view).2).strategies_
    leave rfl hleave
  refine ⟨[enter] ++ calls ++ [leave], ⟨calls, by simp, hcalls⟩, ?_⟩
  exact (h1.keeps_trans h2).keeps_trans h3

/-- A loop that runs one callback on each of the first `k` strategies. -/
theorem keeps_dispatch (env : Env)
    (cb : Strategy S → View → S × List Action) (enter leave : Nat → Event)
    (henter : ∀ i, (enter i).is_marker = true)
    (hleave : ∀ i, (leave i).is_marker = true) (k : Nat) :
    ∀ e : Engine S, k ≤ e.strategies_.length →
    ∃ l, DispatchLog enter leave k l ∧
      Keeps e ((List.range k).foldl (fun e i => e.call env i cb (enter i) (leave i)) e) l := by
  induction k with
  | zero => intro e _; exact ⟨[], DispatchLog.none, Keeps.keeps_refl e⟩
  | succ k ih =>
      intro e hk
      obtain ⟨l, hl, h1⟩ := ih e (Nat.le_of_succ_le hk)
      rw [List.range_succ, List.foldl_append]
      simp only [List.foldl_cons, List.foldl_nil]
      obtain ⟨c, hc, h2⟩ := keeps_call env
        ((List.range k).foldl (fun e i => e.call env i cb (enter i) (leave i)) e) k cb
        (enter k) (leave k) (by rw [h1.step.strategies]; exact hk) (henter k) (hleave k)
      exact ⟨l ++ c, DispatchLog.more hl hc, h1.keeps_trans h2⟩

theorem keeps_dispatch_bar (env : Env) (e : Engine S) (bar : Bar) :
    ∃ l, DispatchLog (fun i => Event.bar_enter i bar) (fun i => Event.bar_return i bar)
        e.strategies_.length l ∧
      Keeps e (e.dispatch_bar env bar) l :=
  keeps_dispatch env (fun s v => s.on_bar s.state bar v)
    (fun i => Event.bar_enter i bar) (fun i => Event.bar_return i bar)
    (fun _ => rfl) (fun _ => rfl) e.strategies_.length e (Nat.le_refl _)

theorem keeps_dispatch_fill (env : Env) (e : Engine S) (fill : Fill) :
    ∃ l, DispatchLog (fun i => Event.fill_enter i fill) (fun i => Event.fill_return i fill)
        e.strategies_.length l ∧
      Keeps e (e.dispatch_fill env fill) l :=
  keeps_dispatch env (fun s v => s.on_fill s.state fill v)
    (fun i => Event.fill_enter i fill) (fun i => Event.fill_return i fill)
    (fun _ => rfl) (fun _ => rfl) e.strategies_.length e (Nat.le_refl _)

theorem keeps_dispatch_init (env : Env) (e : Engine S) :
    ∃ l, DispatchLog (fun i => Event.init_enter i) (fun i => Event.init_return i)
        e.strategies_.length l ∧
      Keeps e (e.dispatch_init env) l :=
  keeps_dispatch env (fun s v => s.on_init s.state v)
    (fun i => Event.init_enter i) (fun i => Event.init_return i)
    (fun _ => rfl) (fun _ => rfl) e.strategies_.length e (Nat.le_refl _)

end Engine
namespace Engine
variable {S : Type}

theorem keeps_update_portfolio (e : Engine S) (bar : Bar) :
    Keeps e (e.update_portfolio bar) [] where
  step :=
    { log := by simp [update_portfolio]
      config := rfl
      strategies := rfl
      next_le := Nat.le_refl _
      wf := fun h => h
      keys := fun _ h => h
      submitted := fun _ h => by cases h
      ascending := List.Pairwise.nil
      open_on := fun _ _ _ h => Or.inl h }
  orders := fun _ id o h => ⟨o, h, Order.SameTerms.terms_refl o, Or.inl rfl⟩
  fills := fun _ _ _ _ _ _ _ h => by cases h
  after_cancel := fun _ _ L1 L2 h => by
    cases L1 <;> simp at h

/-- The part of `execute_order` before the fill is handed to the strategies,
for an order that is open. -/
theorem keeps_fill_order (e : Engine S) (k : OrderID) (order : Order) (fill : Fill)
    (hmem : (k, order) ∈ e.orders_) (hopen : order.is_open = true)
    (hfid : fill.order_id = order.id) (hfsym : fill.symbol = order.symbol) :
    Keeps e
      { e with
        next_order_id_ := e.next_order_id_ + 1
        orders_ := e.orders_.modify k (fun o =>
          { o with
            status := OrderStatus.FILLED
            filled_quantity := o.quantity
            avg_fill_price := fill.price })
        portfolio_ := settle e.portfolio_ order fill
        log := e.log ++ [Event.execute_enter order.id e.portfolio_,
          Event.settled fill (settle e.portfolio_ order fill)] }
      [Event.execute_enter order.id e.portfolio_,
        Event.settled fill (settle e.portfolio_ order fill)] where
  step := step_fill_order e k order fill hmem
  orders := by
    intro hwf id o ho
    have hfind : e.orders_.find k = some order := OrderMap.find_of_mem _ _ _ hwf.1 hmem
    by_cases hk : id = k
    · subst hk
      rw [hfind] at ho
      cases ho
      refine ⟨{ order with
                status := OrderStatus.FILLED
                filled_quantity := order.quantity
                avg_fill_price := fill.price }, ?_, Order.SameTerms.terms_refl order, ?_⟩
      · simp [OrderMap.find_modify_self, hfind]
      · refine Or.inr (Or.inr ⟨hopen, rfl, fill, settle e.portfolio_ order fill,
          List.mem_cons_of_mem _ (List.mem_cons_self _ _), ?_, hfsym⟩)
        rw [hfid]; exact (hwf.2 _ hmem).2
    · refine ⟨o, ?_, Order.SameTerms.terms_refl o, Or.inl rfl⟩
      simp only [OrderMap.find_modify_ne _ _ _ _ hk]
      exact ho
  fills := by
    intro hwf id o ho hclosed f p hf
    have hfind : e.orders_.find k = some order := OrderMap.find_of_mem _ _ _ hwf.1 hmem
    have hf1 : f = fill := by
      simp only [List.mem_cons, List.mem_singleton, Event.settled.injEq, List.not_mem_nil,
        or_false] at hf
      rcases hf with hf | hf
      · cases hf
      · exact hf.1
    subst hf1
    intro hid
    have hk : id = k := by rw [← hid, hfid]; exact (hwf.2 _ hmem).2
    subst hk
    rw [hfind] at ho
    cases ho
    rw [hopen] at hclosed
    cases hclosed
  after_cancel := by
    intro _ id L1 L2 hs
    cases L1 with
    | nil => simp at hs
    | cons a L1 =>
        cases L1 with
        | nil => simp at hs
        | cons b L1 => cases L1 <;> simp at hs

theorem keeps_execute_order (env : Env) (e : Engine S) (k : OrderID) (order : Order)
    (price : ℚ) (hmem : (k, order) ∈ e.orders_) (hopen : order.is_open = true) :
    ∃ deliveries,
      DispatchLog (fun i => Event.fill_enter i (e.make_fill env order price))
        (fun i => Event.fill_return i (e.make_fill env order price))
        e.strategies_.length deliveries ∧
      Keeps e (e.execute_order env k order price)
        (Event.execute_enter order.id e.portfolio_ ::
          Event.settled (e.make_fill env order price)
            (settle e.portfolio_ order (e.make_fill env order price)) :: deliveries) := by
  have h1 := keeps_fill_order e k order (e.make_fill env order price) hmem hopen rfl rfl
  obtain ⟨l, hl, h2⟩ := keeps_dispatch_fill env
    { e with
      next_order_id_ := e.next_order_id_ + 1
      orders_ := e.orders_.modify k (fun o =>
        { o with
          status := OrderStatus.FILLED
          filled_quantity := o.quantity
          avg_fill_price := (e.make_fill env order price).price })
      portfolio_ := settle e.portfolio_ order (e.make_fill env order price)
      log := e.log ++ [Event.execute_enter order.id e.portfolio_,
        Event.settled (e.make_fill env order price)
          (settle e.portfolio_ order (e.make_fill env order price))] }
    (e.make_fill env order price)
  exact ⟨l, hl, h1.keeps_trans h2⟩

/-- The facts about the fills of one `process_bar(bar)` that the claims use. -/
theorem keeps_execute_pending (env : Env) (bar : Bar) (fuel : Nat) :
    ∀ (visited : Option OrderID) (e e' : Engine S), e.WF →
      execute_pending env bar fuel visited e = some e' →
      ∃ B, Keeps e e' B ∧
        (∀ fill p, Event.settled fill p ∈ B →
          fill.price = bar.close * (1 + e.config_.slippage_bps / 10000) ∧
          fill.symbol = bar.symbol) ∧
        (∀ id p, Event.execute_enter id p ∈ B →
          ∃ fill p', Event.settled fill p' ∈ B ∧ fill.order_id = id) := by
  induction fuel with
  | zero => intro visited e e' _ h; simp [execute_pending] at h
  | succ fuel ih =>
      intro visited e e' hwf h
      unfold execute_pending at h
      cases hn : e.orders_.next visited with
      | none =>
          rw [hn] at h
          simp only [Option.some.injEq] at h
          subst h
          exact ⟨[], Keeps.keeps_refl e, by simp, by simp⟩
      | some en =>
          obtain ⟨id0, order⟩ := en
          rw [hn] at h
          simp only at h
          have hmem : (id0, order) ∈ e.orders_ := OrderMap.next_mem _ _ _ hn
          split at h
          · rename_i hcond
            simp only [Bool.and_eq_true, beq_iff_eq] at hcond
            obtain ⟨deliveries, hdel, hkeep⟩ :=
              keeps_execute_order env e id0 order bar.close hmem hcond.1
            obtain ⟨B, hB, hfills, hlink⟩ := ih (some id0) _ e' (hkeep.step.wf hwf) h
            have hnoexec := dispatch_log_no_execution
              (fun i => Event.fill_enter i (e.make_fill env order bar.close))
              (fun i => Event.fill_return i (e.make_fill env order bar.close)) _ _
              (fun _ => rfl) (fun _ => rfl) hdel
            refine ⟨_, hkeep.keeps_trans hB, ?_, ?_⟩
            · intro fill p hf
              rcases List.mem_append.mp hf with hf | hf
              · simp only [List.mem_cons, Event.settled.injEq] at hf
                rcases hf with hf | hf | hf
                · cases hf
                · obtain ⟨hf1, _⟩ := hf
                  subst hf1
                  exact ⟨rfl, hcond.2⟩
                · have := hnoexec _ hf
                  simp [Event.is_execution] at this
              · have := hfills fill p hf
                rw [hkeep.step.config] at this
                exact this
            · intro id p hx
              rcases List.mem_append.mp hx with hx | hx
              · simp only [List.mem_cons, Event.execute_enter.injEq] at hx
                rcases hx with hx | hx | hx
                · exact ⟨e.make_fill env order bar.close,
                    settle e.portfolio_ order (e.make_fill env order bar.close),
                    List.mem_append_left _ (List.mem_cons_of_mem _ (List.mem_cons_self _ _)),
                    hx.1.symm⟩
                · cases hx
                · have := hnoexec _ hx
                  simp [Event.is_execution] at this
              · obtain ⟨fill, p', hf, hid⟩ := hlink id p hx
                exact ⟨fill, p', List.mem_append_right _ hf, hid⟩
          · exact ih (some id0) e e' hwf h

end Engine
namespace Engine
variable {S : Type}

theorem keeps_process_bar (env : Env) (fuel : Nat) (e e' : Engine S) (bar : Bar)
    (hwf : e.WF) (h : e.process_bar env fuel bar = some e') :
    ∃ L, Keeps e e' L ∧
      (∀ fill p, Event.settled fill p ∈ L →
        fill.price = bar.close * (1 + e.config_.slippage_bps / 10000) ∧
        fill.symbol = bar.symbol) ∧
      (∀ id, e.OpenOn id bar.symbol →
        Event.cancel_called id ∈ L ∨ ∃ fill p, Event.settled fill p ∈ L ∧ fill.order_id = id) := by
  have h0 := keeps_update_portfolio e bar
  obtain ⟨A, hshape, hA⟩ := keeps_dispatch_bar env (e.update_portfolio bar) bar
  have hwf1 := hA.step.wf (h0.step.wf hwf)
  obtain ⟨B, hB, hfills, hlink⟩ := keeps_execute_pending env bar fuel none _ e' hwf1 h
  obtain ⟨B', _, hB', _, hrest⟩ := execute_pending_log env bar fuel none _ e' hwf1 h
  have hBB : B' = B := by
    have h1 := hB'.log
    rw [hB.step.log] at h1
    exact (List.append_cancel_left h1).symm
  subst hBB
  have hnoexec := dispatch_log_no_execution (fun i => Event.bar_enter i bar)
    (fun i => Event.bar_return i bar) _ _ (fun _ => rfl) (fun _ => rfl) hshape
  refine ⟨([] ++ A) ++ B', (h0.keeps_trans hA).keeps_trans hB, ?_, ?_⟩
  · intro fill p hf
    simp only [List.nil_append] at hf
    rcases List.mem_append.mp hf with hf | hf
    · have := hnoexec _ hf
      simp [Event.is_execution] at this
    · have := hfills fill p hf
      rw [hA.step.config, h0.step.config] at this
      exact this
  · intro id hopen
    simp only [List.nil_append]
    have hopen0 : (e.update_portfolio bar).OpenOn id bar.symbol := hopen
    rcases hA.step.open_on (h0.step.wf hwf) id bar.symbol hopen0 with h1 | h1 | ⟨p, h1⟩
    · rcases hrest id (fun k hk => by cases hk) h1 with h2 | ⟨p, h2⟩
      · exact Or.inl (List.mem_append_right _ h2)
      · obtain ⟨fill, p', hf, hid⟩ := hlink id p h2
        exact Or.inr ⟨fill, p', List.mem_append_right _ hf, hid⟩
    · exact Or.inl (List.mem_append_left _ h1)
    · have := hnoexec _ h1
      simp [Event.is_execution] at this

theorem keeps_run_bars (env : Env) (fuel : Nat) (bars : List Bar) :
    ∀ e e' : Engine S, e.WF → run_bars env fuel bars e = some e' →
    ∃ L, Keeps e e' L ∧
      ∀ fill p, Event.settled fill p ∈ L → ∃ bar ∈ bars, fill.symbol = bar.symbol := by
  induction bars with
  | nil =>
      intro e e' _ h
      cases h
      exact ⟨[], Keeps.keeps_refl e, by simp⟩
  | cons bar bars ih =>
      intro e e' hwf h
      unfold run_bars at h
      cases h1 : e.process_bar env fuel bar with
      | none => rw [h1] at h; cases h
      | some e1 =>
          rw [h1] at h
          obtain ⟨L1, hk1, hf1, _⟩ := keeps_process_bar env fuel e e1 bar hwf h1
          obtain ⟨L2, hk2, hf2⟩ := ih e1 e' (hk1.step.wf hwf) h
          refine ⟨L1 ++ L2, hk1.keeps_trans hk2, ?_⟩
          intro fill p hf
          rcases List.mem_append.mp hf with hf | hf
          · exact ⟨bar, List.mem_cons_self _ _, (hf1 fill p hf).2⟩
          · obtain ⟨b, hb, hs⟩ := hf2 fill p hf
            exact ⟨b, List.mem_cons_of_mem _ hb, hs⟩

theorem keeps_run (env : Env) (fuel : Nat) (e e' : Engine S) (hwf : e.WF)
    (h : e.run env fuel = some e') :
    ∃ L, Keeps e e' L ∧
      ∀ fill p, Event.settled fill p ∈ L → ∃ bar ∈ e.bars_, fill.symbol = bar.symbol := by
  obtain ⟨L0, hshape, h0⟩ := keeps_dispatch_init env e
  obtain ⟨L, hL, hf⟩ := keeps_run_bars env fuel e.bars_ _ e' (h0.step.wf hwf) h
  have hnoexec := dispatch_log_no_execution (fun i => Event.init_enter i)
    (fun i => Event.init_return i) _ _ (fun _ => rfl) (fun _ => rfl) hshape
  refine ⟨L0 ++ L, h0.keeps_trans hL, ?_⟩
  intro fill p hx
  rcases List.mem_append.mp hx with hx | hx
  · have := hnoexec _ hx
    simp [Event.is_execution] at this
  · exact hf fill p hx

theorem keeps_exec (env : Env) (fuel : Nat) (e e' : Engine S) (c : Command) (hwf : e.WF)
    (h : e.exec env fuel c = some e') : ∃ L, Keeps e e' L := by
  cases c with
  | buy symbol quantity price =>
      simp only [exec, Option.some.injEq] at h
      subst h
      exact ⟨_, keeps_submit e _ rfl⟩
  | sell symbol quantity price =>
      simp only [exec, Option.some.injEq] at h
      subst h
      exact ⟨_, keeps_submit e _ rfl⟩
  | cancel_order id =>
      simp only [exec, Option.some.injEq] at h
      subst h
      exact ⟨_, keeps_cancel e id⟩
  | process_bar bar =>
      obtain ⟨L, hL, _⟩ := keeps_process_bar env fuel e e' bar hwf h
      exact ⟨L, hL⟩

theorem keeps_exec_all (env : Env) (fuel : Nat) (cs : List Command) :
    ∀ e e' : Engine S, e.WF → exec_all env fuel cs e = some e' → ∃ L, Keeps e e' L := by
  induction cs with
  | nil =>
      intro e e' _ h
      cases h
      exact ⟨[], Keeps.keeps_refl e⟩
  | cons c cs ih =>
      intro e e' hwf h
      unfold exec_all at h
      cases h1 : e.exec env fuel c with
      | none => rw [h1] at h; cases h
      | some e1 =>
          rw [h1] at h
          obtain ⟨L1, hk1⟩ := keeps_exec env fuel e e1 c hwf h1
          obtain ⟨L2, hk2⟩ := ih e1 e' (hk1.step.wf hwf) h
          exact ⟨L1 ++ L2, hk1.keeps_trans hk2⟩

end Engine

theorem Scenario.wf_holding_engine (cfg : BacktestConfig) (side : OrderSide) (quantity : ℚ) :
    (Scenario.holding_engine cfg side quantity).WF := by
  refine ⟨List.pairwise_singleton _ _, ?_⟩
  intro en hen
  simp only [Scenario.holding_engine, List.mem_singleton] at hen
  subst hen
  exact ⟨Nat.lt_succ_self 1, rfl⟩



/-! ## The bars handed to `on_bar` -/

theorem bars_delivered_append (i : Nat) (l l' : List Event) :
    bars_delivered i (l ++ l') = bars_delivered i l ++ bars_delivered i l' := by
  simp [bars_delivered]

theorem bars_delivered_nil_of (i : Nat) (l : List Event)
    (h : ∀ ev ∈ l, ∀ j b, ev ≠ Event.bar_enter j b) : bars_delivered i l = [] := by
  simp only [bars_delivered, List.filterMap_eq_nil_iff]
  intro ev hev
  cases ev <;> first | rfl | exact absurd rfl (h _ hev _ _)

theorem dispatch_log_events (enter leave : Nat → Event) (n : Nat) (l : List Event)
    (h : DispatchLog enter leave n l) :
    ∀ ev ∈ l, (∃ i, ev = enter i ∨ ev = leave i) ∨ ev.is_context_call = true := by
  induction h with
  | none => intro ev hev; cases hev
  | @more k l c _ hc ih =>
      intro ev hev
      rcases List.mem_append.mp hev with hev | hev
      · exact ih ev hev
      · obtain ⟨calls, rfl, hcalls⟩ := hc
        simp only [List.cons_append, List.mem_cons, List.mem_append, List.mem_singleton,
          List.not_mem_nil, or_false] at hev
        rcases hev with rfl | hev | rfl
        · exact Or.inl ⟨k, Or.inl rfl⟩
        · exact Or.inr (hcalls ev hev)
        · exact Or.inl ⟨k, Or.inr rfl⟩

theorem dispatch_log_no_bar (enter leave : Nat → Event) (n : Nat) (l : List Event)
    (henter : ∀ i j b, enter i ≠ Event.bar_enter j b)
    (hleave : ∀ i j b, leave i ≠ Event.bar_enter j b)
    (h : DispatchLog enter leave n l) : ∀ ev ∈ l, ∀ j b, ev ≠ Event.bar_enter j b := by
  intro ev hev j b heq
  rcases dispatch_log_events enter leave n l h ev hev with ⟨i, h1 | h1⟩ | h1
  · exact henter i j b (h1 ▸ heq)
  · exact hleave i j b (h1 ▸ heq)
  · rw [heq] at h1
    cases h1

theorem exec_phase_no_bar (n : Nat) (B : List Event) (h : ExecPhase n B) :
    ∀ ev ∈ B, ∀ j b, ev ≠ Event.bar_enter j b := by
  induction h with
  | none => intro ev hev; cases hev
  | more hb _ ih =>
      intro ev hev j b heq
      rcases List.mem_append.mp hev with hev | hev
      · obtain ⟨id, before, fill, after, deliveries, rfl, _, hd⟩ := hb
        simp only [List.mem_cons] at hev
        rcases hev with rfl | rfl | hev
        · cases heq
        · cases heq
        · exact dispatch_log_no_bar _ _ _ _ (fun _ _ _ h => by cases h)
            (fun _ _ _ h => by cases h) hd ev hev j b heq
      · exact ih ev hev j b heq

theorem dispatch_log_bars (bar : Bar) (n : Nat) (l : List Event)
    (h : DispatchLog (fun i => Event.bar_enter i bar) (fun i => Event.bar_return i bar) n l)
    (i : Nat) : bars_delivered i l = if i < n then [bar] else [] := by
  induction h with
  | none => simp [bars_delivered]
  | @more k l c _ hc ih =>
      obtain ⟨calls, rfl, hcalls⟩ := hc
      have hcalls' : bars_delivered i calls = [] :=
        bars_delivered_nil_of i calls (fun ev hev j b heq => by
          have := hcalls ev hev
          rw [heq] at this
          cases this)
      rw [bars_delivered_append, ih]
      have hc : bars_delivered i (Event.bar_enter k bar :: calls ++ [Event.bar_return k bar])
          = if k = i then [bar] else [] := by
        rw [List.cons_append, ← List.singleton_append, bars_delivered_append,
          bars_delivered_append, hcalls']
        by_cases hk : k = i <;> simp [bars_delivered, hk]
      rw [hc]
      by_cases h1 : i < k
      · have h2 : ¬ k = i := by omega
        have h3 : i < k + 1 := by omega
        simp [h1, h2, h3]
      · by_cases h2 : k = i
        · subst h2
          simp
        · have h3 : ¬ i < k + 1 := by omega
          simp [h1, h2, h3]

namespace Engine
variable {S : Type}

theorem process_bar_delivers (env : Env) (fuel : Nat) (e e' : Engine S) (bar : Bar)
    (hwf : e.WF) (h : e.process_bar env fuel bar = some e') :
    ∃ L, Step e e' L ∧ ∀ i, i < e.strategies_.length → bars_delivered i L = [bar] := by
  obtain ⟨A, hshape, hA⟩ := step_dispatch_bar env (e.update_portfolio bar) bar
  have hwf1 := hA.wf (wf_update_portfolio e bar hwf)
  obtain ⟨B, hphase, hB, _, _⟩ := execute_pending_log env bar fuel none _ e' hwf1 h
  have h0 : Step e (e.update_portfolio bar) [] := (keeps_update_portfolio e bar).step
  refine ⟨([] ++ A) ++ B, (h0.trans hA).trans hB, ?_⟩
  intro i hi
  have hi' : i < (e.update_portfolio bar).strategies_.length := hi
  rw [List.nil_append, bars_delivered_append, dispatch_log_bars bar _ A hshape i,
    bars_delivered_nil_of i B (exec_phase_no_bar _ B hphase)]
  simp [hi']

theorem run_bars_delivers (env : Env) (fuel : Nat) (bars : List Bar) :
    ∀ e e' : Engine S, e.WF → run_bars env fuel bars e = some e' →
    ∃ L, Step e e' L ∧ ∀ i, i < e.strategies_.length → bars_delivered i L = bars := by
  induction bars with
  | nil =>
      intro e e' _ h
      cases h
      exact ⟨[], Step.refl e, fun _ _ => rfl⟩
  | cons bar bars ih =>
      intro e e' hwf h
      unfold run_bars at h
      cases h1 : e.process_bar env fuel bar with
      | none => rw [h1] at h; cases h
      | some e1 =>
          rw [h1] at h
          obtain ⟨L1, hs1, hd1⟩ := process_bar_delivers env fuel e e1 bar hwf h1
          obtain ⟨L2, hs2, hd2⟩ := ih e1 e' (hs1.wf hwf) h
          refine ⟨L1 ++ L2, hs1.trans hs2, ?_⟩
          intro i hi
          rw [bars_delivered_append, hd1 i hi, hd2 i (by rw [hs1.strategies]; exact hi)]
          rfl

theorem run_delivers (env : Env) (fuel : Nat) (e e' : Engine S) (hwf : e.WF)
    (h : e.run env fuel = some e') :
    ∃ L, Step e e' L ∧ ∀ i, i < e.strategies_.length → bars_delivered i L = e.bars_ := by
  obtain ⟨L0, hshape, h0k⟩ := keeps_dispatch_init env e
  have h0 := h0k.step
  obtain ⟨L, hL, hd⟩ := run_bars_delivers env fuel e.bars_ _ e' (h0.wf hwf) h
  refine ⟨L0 ++ L, h0.trans hL, ?_⟩
  intro i hi
  rw [bars_delivered_append, hd i (by rw [h0.strategies]; exact hi),
    bars_delivered_nil_of i L0 (dispatch_log_no_bar _ _ _ _ (fun _ _ _ h => by cases h)
      (fun _ _ _ h => by cases h) hshape)]
  rfl

end Engine
namespace Engine
variable {S : Type}

/-! ## Completion of a whole run -/

theorem execute_pending_mono (env : Env) (bar : Bar) (fuel : Nat) :
    ∀ (fuel' : Nat) (visited : Option OrderID) (e e' : Engine S), fuel ≤ fuel' →
      execute_pending env bar fuel visited e = some e' →
      execute_pending env bar fuel' visited e = some e' := by
  induction fuel with
  | zero => intro fuel' visited e e' _ h; cases h
  | succ fuel ih =>
      intro fuel' visited e e' hle h
      obtain ⟨g, rfl⟩ : ∃ g, fuel' = g + 1 := ⟨fuel' - 1, by omega⟩
      have hg : fuel ≤ g := by omega
      unfold execute_pending at h ⊢
      cases hn : e.orders_.next visited with
      | none => rw [hn] at h; exact h
      | some en =>
          obtain ⟨id, order⟩ := en
          rw [hn] at h
          simp only at h ⊢
          split
          · rename_i hc
            rw [if_pos hc] at h
            exact ih _ _ _ _ hg h
          · rename_i hc
            rw [if_neg hc] at h
            exact ih _ _ _ _ hg h

theorem execute_pending_quiet (env : Env) (bar : Bar) (fuel : Nat) :
    ∀ (visited : Option OrderID) (e e' : Engine S),
      (∀ s ∈ e.strategies_, FillQuiet s) →
      execute_pending env bar fuel visited e = some e' →
      ∀ s ∈ e'.strategies_, FillQuiet s := by
  induction fuel with
  | zero => intro visited e e' _ h; cases h
  | succ fuel ih =>
      intro visited e e' hq h
      unfold execute_pending at h
      cases hn : e.orders_.next visited with
      | none => rw [hn] at h; cases h; exact hq
      | some en =>
          obtain ⟨id, order⟩ := en
          rw [hn] at h
          simp only at h
          split at h
          · exact ih _ _ _ (execute_order_keys_quiet env e id order bar.close hq).2 h
          · exact ih _ _ _ hq h

theorem process_bar_quiet (env : Env) (fuel : Nat) (e e' : Engine S) (bar : Bar)
    (hq : ∀ s ∈ e.strategies_, FillQuiet s) (h : e.process_bar env fuel bar = some e') :
    ∀ s ∈ e'.strategies_, FillQuiet s :=
  execute_pending_quiet env bar fuel none _ e'
    (dispatch_bar_quiet env (e.update_portfolio bar) bar hq) h

theorem dispatch_init_quiet (env : Env) (e : Engine S)
    (hq : ∀ s ∈ e.strategies_, FillQuiet s) :
    ∀ s ∈ (e.dispatch_init env).strategies_, FillQuiet s := by
  unfold dispatch_init
  generalize List.range e.strategies_.length = is
  induction is generalizing e with
  | nil => exact hq
  | cons i is ih =>
      simp only [List.foldl_cons]
      exact ih _ (call_quiet env e i _ _ _ hq)

theorem run_bars_mono (env : Env) (fuel fuel' : Nat) (hle : fuel ≤ fuel') (bars : List Bar) :
    ∀ e e' : Engine S, run_bars env fuel bars e = some e' →
      run_bars env fuel' bars e = some e' := by
  induction bars with
  | nil => intro e e' h; exact h
  | cons bar bars ih =>
      intro e e' h
      unfold run_bars at h ⊢
      cases h1 : e.process_bar env fuel bar with
      | none => rw [h1] at h; cases h
      | some e1 =>
          rw [h1] at h
          have h2 : e.process_bar env fuel' bar = some e1 :=
            execute_pending_mono env bar fuel fuel' none _ e1 hle h1
          rw [h2]
          exact ih e1 e' h

theorem run_bars_completes (env : Env) (bars : List Bar) :
    ∀ e : Engine S, (∀ s ∈ e.strategies_, FillQuiet s) →
      ∃ fuel e', run_bars env fuel bars e = some e' := by
  induction bars with
  | nil => intro e _; exact ⟨0, e, rfl⟩
  | cons bar bars ih =>
      intro e hq
      obtain ⟨f1, e1, h1⟩ := process_bar_completes env e bar hq
      obtain ⟨f2, e2, h2⟩ := ih e1 (process_bar_quiet env f1 e e1 bar hq h1)
      refine ⟨max f1 f2, e2, ?_⟩
      unfold run_bars
      have h1' : e.process_bar env (max f1 f2) bar = some e1 :=
        execute_pending_mono env bar f1 _ none _ e1 (Nat.le_max_left _ _) h1
      rw [h1']
      exact run_bars_mono env f2 _ (Nat.le_max_right _ _) bars e1 e2 h2

/-- With strategies whose `on_fill` submits nothing, `run` completes. -/
theorem run_completes (env : Env) (e : Engine S)
    (hq : ∀ s ∈ e.strategies_, FillQuiet s) :
    ∃ fuel e', e.run env fuel = some e' :=
  run_bars_completes env e.bars_ _ (dispatch_init_quiet env e hq)

end Engine

theorem sort_contract_insertion :
    SortContract (fun bars : List Bar =>
      bars.insertionSort (fun a b => a.timestamp ≤ b.timestamp)) := by
  intro bars
  haveI : IsTotal Bar (fun a b => a.timestamp ≤ b.timestamp) :=
    ⟨fun a b => le_total a.timestamp b.timestamp⟩
  haveI : IsTrans Bar (fun a b => a.timestamp ≤ b.timestamp) :=
    ⟨fun a b c h1 h2 => le_trans h1 h2⟩
  exact ⟨List.perm_insertionSort _ bars, List.sorted_insertionSort _ bars⟩

/-! ## Blanking the clock readings commutes with every operation -/

theorem OrderMap.find_untimed (m : OrderMap) (k : OrderID) :
    m.untimed.find k = (m.find k).map Order.untimed := by
  induction m with
  | nil => rfl
  | cons en m ih =>
      simp only [OrderMap.untimed, OrderMap.find, List.map_cons, List.find?_cons] at ih ⊢
      by_cases h : (en.1 == k) = true
      · simp [h]
      · simp only [h]
        exact ih

theorem OrderMap.assign_untimed (m : OrderMap) (k : OrderID) (v : Order) :
    (m.assign k v).untimed = m.untimed.assign k v.untimed := by
  induction m with
  | nil => rfl
  | cons en m ih =>
      simp only [OrderMap.untimed, List.map_cons, OrderMap.assign] at ih ⊢
      by_cases h1 : k < en.1
      · simp [h1]
      · by_cases h2 : k = en.1
        · simp [h1, h2]
        · simp [h1, h2, ih]

theorem OrderMap.modify_untimed (m : OrderMap) (k : OrderID) (f f' : Order → Order)
    (h : ∀ o, (f o).untimed = f' o.untimed) :
    (m.modify k f).untimed = m.untimed.modify k f' := by
  simp only [OrderMap.untimed, OrderMap.modify, List.map_map]
  apply List.map_congr_left
  intro en _
  by_cases hk : en.1 = k
  · simp [hk, h]
  · simp [hk]

theorem OrderMap.next_untimed (m : OrderMap) (visited : Option OrderID) :
    m.untimed.next visited = (m.next visited).map (fun en => (en.1, en.2.untimed)) := by
  cases visited with
  | none => cases m <;> rfl
  | some k =>
      simp only [OrderMap.next, OrderMap.untimed]
      induction m with
      | nil => rfl
      | cons en m ih =>
          simp only [List.map_cons, List.find?_cons]
          by_cases h : k < en.1
          · simp [h]
          · simp only [h, decide_False]
            exact ih

theorem fills_of_untimed (log : List Event) :
    fills_of (log.map Event.untimed) = (fills_of log).map Fill.untimed := by
  induction log with
  | nil => rfl
  | cons ev log ih =>
      simp only [fills_of, List.map_cons, List.filterMap_cons] at ih ⊢
      cases ev <;> simp [Event.untimed, ih]

namespace Engine
variable {S : Type}

theorem untimed_strategies (e : Engine S) : e.untimed.strategies_ = e.strategies_ := rfl

theorem untimed_portfolio (e : Engine S) : e.untimed.portfolio_ = e.portfolio_ := rfl

theorem buy_untimed (env : Env) (e : Engine S) (symbol : Symbol) (quantity price : ℚ) :
    (e.buy env symbol quantity price).1.untimed
      = (e.untimed.buy env.untimed symbol quantity price).1 := by
  simp only [buy, Engine.untimed, OrderMap.assign_untimed, List.map_append, List.map_cons,
    List.map_nil, Event.untimed]
  rfl

theorem sell_untimed (env : Env) (e : Engine S) (symbol : Symbol) (quantity price : ℚ) :
    (e.sell env symbol quantity price).1.untimed
      = (e.untimed.sell env.untimed symbol quantity price).1 := by
  simp only [sell, Engine.untimed, OrderMap.assign_untimed, List.map_append, List.map_cons,
    List.map_nil, Event.untimed]
  rfl

theorem cancel_order_untimed (e : Engine S) (id : OrderID) :
    (e.cancel_order id).untimed = e.untimed.cancel_order id := by
  unfold cancel_order
  simp only [Engine.untimed, OrderMap.find_untimed]
  cases h : e.orders_.find id with
  | none =>
      simp only [Option.map_none', List.map_append, List.map_cons, List.map_nil, Event.untimed]
  | some o =>
      simp only [Option.map_some', List.map_append, List.map_cons, List.map_nil, Event.untimed]
      rw [OrderMap.modify_untimed _ _ _ (fun o => { o with status := OrderStatus.CANCELLED })
        (fun _ => rfl)]

theorem perform_untimed (env : Env) (e : Engine S) (a : Action) :
    (e.perform env a).untimed = e.untimed.perform env.untimed a := by
  cases a with
  | buy symbol quantity price => exact buy_untimed env e symbol quantity price
  | sell symbol quantity price => exact sell_untimed env e symbol quantity price
  | cancel_order id => exact cancel_order_untimed e id

theorem foldl_perform_untimed (env : Env) (acts : List Action) :
    ∀ e : Engine S, (acts.foldl (perform env) e).untimed
      = acts.foldl (perform env.untimed) e.untimed := by
  induction acts with
  | nil => intro e; rfl
  | cons a acts ih =>
      intro e
      simp only [List.foldl_cons]
      rw [ih, perform_untimed]

theorem call_untimed (env : Env) (e : Engine S) (i : Nat)
    (cb cb' : Strategy S → View → S × List Action) (enter leave : Event)
    (h : ∀ s ∈ e.strategies_, ∀ v, cb s v = cb' s v) :
    (e.call env i cb enter leave).untimed
      = e.untimed.call env.untimed i cb' enter.untimed leave.untimed := by
  unfold call
  rw [untimed_strategies]
  cases hs : e.strategies_[i]? with
  | none => rfl
  | some strategy =>
      have hmem : strategy ∈ e.strategies_ := List.getElem?_mem hs
      have hv : e.untimed.view = e.view := rfl
      have key : ∀ e2 : Engine S,
          ({ e2 with log := e2.log ++ [leave] } : Engine S).untimed
            = { e2.untimed with log := e2.untimed.log ++ [leave.untimed] } := by
        intro e2
        simp [Engine.untimed]
      have key1 : ({ e with
            strategies_ := e.strategies_.set i { strategy with state := (cb strategy e.view).1 }
            log := e.log ++ [enter] } : Engine S).untimed
          = { e.untimed with
              strategies_ := e.strategies_.set i
                { strategy with state := (cb strategy e.view).1 }
              log := e.untimed.log ++ [enter.untimed] } := by
        simp [Engine.untimed]
      simp only [hv, ← h strategy hmem]
      rw [key, foldl_perform_untimed, key1]

/-- A property of strategies that does not depend on the private state is kept
by every callback. -/
theorem call_inv (P : Strategy S → Prop)
    (hP : ∀ (s : Strategy S) (st : S), P s → P { s with state := st })
    (env : Env) (e : Engine S) (i : Nat)
    (cb : Strategy S → View → S × List Action) (enter leave : Event)
    (hq : ∀ s ∈ e.strategies_, P s) :
    ∀ s ∈ (e.call env i cb enter leave).strategies_, P s := by
  unfold call
  split
  · exact hq
  · rename_i strategy hs
    have hmem : strategy ∈ e.strategies_ := List.getElem?_mem hs
    simp only [foldl_perform_strategies]
    intro s hs'
    rcases List.mem_or_eq_of_mem_set hs' with h | h
    · exact hq s h
    · subst h
      exact hP strategy _ (hq strategy hmem)

theorem call_length (env : Env) (e : Engine S) (i : Nat)
    (cb : Strategy S → View → S × List Action) (enter leave : Event) :
    (e.call env i cb enter leave).strategies_.length = e.strategies_.length := by
  unfold call
  split
  · rfl
  · simp [foldl_perform_strategies]

theorem foldl_call_untimed (P : Strategy S → Prop)
    (hP : ∀ (s : Strategy S) (st : S), P s → P { s with state := st })
    (env : Env) (cb cb' : Strategy S → View → S × List Action) (enter leave : Nat → Event)
    (h : ∀ s, P s → ∀ v, cb s v = cb' s v) (is : List Nat) :
    ∀ e : Engine S, (∀ s ∈ e.strategies_, P s) →
      (is.foldl (fun e i => e.call env i cb (enter i) (leave i)) e).untimed
        = is.foldl (fun e i => e.call env.untimed i cb' (enter i).untimed (leave i).untimed)
            e.untimed ∧
      (∀ s ∈ (is.foldl (fun e i => e.call env i cb (enter i) (leave i)) e).strategies_, P s) ∧
      (is.foldl (fun e i => e.call env i cb (enter i) (leave i)) e).strategies_.length
        = e.strategies_.length := by
  induction is with
  | nil => intro e hq; exact ⟨rfl, hq, rfl⟩
  | cons i is ih =>
      intro e hq
      simp only [List.foldl_cons]
      obtain ⟨h1, h2, h3⟩ := ih _ (call_inv P hP env e i cb (enter i) (leave i) hq)
      refine ⟨?_, h2, h3.trans (call_length env e i cb (enter i) (leave i))⟩
      rw [h1, call_untimed env e i cb cb' (enter i) (leave i) (fun s hs => h s (hq s hs))]

theorem time_blind_state (s : Strategy S) (st : S) (h : TimeBlind s) :
    TimeBlind { s with state := st } := h

theorem dispatch_init_untimed (env : Env) (e : Engine S)
    (hq : ∀ s ∈ e.strategies_, TimeBlind s) :
    (e.dispatch_init env).untimed = e.untimed.dispatch_init env.untimed ∧
    ∀ s ∈ (e.dispatch_init env).strategies_, TimeBlind s := by
  obtain ⟨h1, h2, _⟩ := foldl_call_untimed TimeBlind time_blind_state env
    (fun s v => s.on_init s.state v) (fun s v => s.on_init s.state v)
    (fun i => Event.init_enter i) (fun i => Event.init_return i) (fun _ _ _ => rfl)
    (List.range e.strategies_.length) e hq
  exact ⟨h1, h2⟩

theorem dispatch_bar_untimed (env : Env) (e : Engine S) (bar : Bar)
    (hq : ∀ s ∈ e.strategies_, TimeBlind s) :
    (e.dispatch_bar env bar).untimed = e.untimed.dispatch_bar env.untimed bar ∧
    ∀ s ∈ (e.dispatch_bar env bar).strategies_, TimeBlind s := by
  obtain ⟨h1, h2, _⟩ := foldl_call_untimed TimeBlind time_blind_state env
    (fun s v => s.on_bar s.state bar v) (fun s v => s.on_bar s.state bar v)
    (fun i => Event.bar_enter i bar) (fun i => Event.bar_return i bar) (fun _ _ _ => rfl)
    (List.range e.strategies_.length) e hq
  exact ⟨h1, h2⟩

theorem dispatch_fill_untimed (env : Env) (e : Engine S) (fill : Fill)
    (hq : ∀ s ∈ e.strategies_, TimeBlind s) :
    (e.dispatch_fill env fill).untimed = e.untimed.dispatch_fill env.untimed fill.untimed ∧
    ∀ s ∈ (e.dispatch_fill env fill).strategies_, TimeBlind s := by
  obtain ⟨h1, h2, _⟩ := foldl_call_untimed TimeBlind time_blind_state env
    (fun s v => s.on_fill s.state fill v) (fun s v => s.on_fill s.state fill.untimed v)
    (fun i => Event.fill_enter i fill) (fun i => Event.fill_return i fill)
    (fun s hs v => hs s.state fill v)
    (List.range e.strategies_.length) e hq
  exact ⟨h1, h2⟩

theorem make_fill_untimed (env : Env) (e : Engine S) (order : Order) (price : ℚ) :
    (e.make_fill env order price).untimed
      = e.untimed.make_fill env.untimed order.untimed price := rfl

theorem settle_untimed (p : PortfolioState) (order : Order) (fill : Fill) :
    settle p order.untimed fill.untimed = settle p order fill := rfl

theorem execute_order_untimed (env : Env) (e : Engine S) (k : OrderID) (order : Order)
    (price : ℚ) (hq : ∀ s ∈ e.strategies_, TimeBlind s) :
    (e.execute_order env k order price).untimed
      = e.untimed.execute_order env.untimed k order.untimed price ∧
    ∀ s ∈ (e.execute_order env k order price).strategies_, TimeBlind s := by
  unfold execute_order
  simp only
  have h := dispatch_fill_untimed env
    { e with
      next_order_id_ := e.next_order_id_ + 1
      orders_ := e.orders_.modify k (fun o =>
        { o with
          status := OrderStatus.FILLED
          filled_quantity := o.quantity
          avg_fill_price := (e.make_fill env order price).price })
      portfolio_ := settle e.portfolio_ order (e.make_fill env order price)
      log := e.log ++ [Event.execute_enter order.id e.portfolio_,
        Event.settled (e.make_fill env order price)
          (settle e.portfolio_ order (e.make_fill env order price))] }
    (e.make_fill env order price) hq
  refine ⟨?_, h.2⟩
  rw [h.1, make_fill_untimed]
  congr 1
  simp only [Engine.untimed, List.map_append, List.map_cons, List.map_nil, Event.untimed]
  rw [OrderMap.modify_untimed _ _ _ (fun o =>
        { o with
          status := OrderStatus.FILLED
          filled_quantity := o.quantity
          avg_fill_price := (e.make_fill env order price).price }) (fun _ => rfl)]
  rfl

theorem execute_pending_untimed (env : Env) (bar : Bar) (fuel : Nat) :
    ∀ (visited : Option OrderID) (e : Engine S), (∀ s ∈ e.strategies_, TimeBlind s) →
      (execute_pending env bar fuel visited e).map Engine.untimed
        = execute_pending env.untimed bar fuel visited e.untimed ∧
      ∀ e', execute_pending env bar fuel visited e = some e' →
        ∀ s ∈ e'.strategies_, TimeBlind s := by
  induction fuel with
  | zero => intro visited e _; exact ⟨rfl, fun e' h => by cases h⟩
  | succ fuel ih =>
      intro visited e hq
      unfold execute_pending
      have hn : e.untimed.orders_.next visited
          = (e.orders_.next visited).map (fun en => (en.1, en.2.untimed)) :=
        OrderMap.next_untimed e.orders_ visited
      rw [hn]
      cases h : e.orders_.next visited with
      | none =>
          refine ⟨rfl, ?_⟩
          intro e' he'
          cases he'
          exact hq
      | some en =>
          obtain ⟨id, order⟩ := en
          simp only [Option.map_some']
          have hc : (order.untimed.is_open && order.untimed.symbol == bar.symbol)
              = (order.is_open && order.symbol == bar.symbol) := rfl
          rw [hc]
          by_cases hopen : (order.is_open && order.symbol == bar.symbol) = true
          · simp only [hopen, if_true]
            obtain ⟨h1, h2⟩ := execute_order_untimed env e id order bar.close hq
            rw [← h1]
            exact ih _ _ h2
          · simp only [hopen]
            exact ih _ _ hq

theorem update_portfolio_untimed (e : Engine S) (bar : Bar) :
    (e.update_portfolio bar).untimed = e.untimed.update_portfolio bar := rfl

theorem process_bar_untimed (env : Env) (fuel : Nat) (e : Engine S) (bar : Bar)
    (hq : ∀ s ∈ e.strategies_, TimeBlind s) :
    (e.process_bar env fuel bar).map Engine.untimed
      = e.untimed.process_bar env.untimed fuel bar ∧
    ∀ e', e.process_bar env fuel bar = some e' → ∀ s ∈ e'.strategies_, TimeBlind s := by
  unfold process_bar
  obtain ⟨h1, h2⟩ := dispatch_bar_untimed env (e.update_portfolio bar) bar hq
  rw [← update_portfolio_untimed, ← h1]
  exact execute_pending_untimed env bar fuel none _ h2

theorem run_bars_untimed (env : Env) (fuel : Nat) (bars : List Bar) :
    ∀ e : Engine S, (∀ s ∈ e.strategies_, TimeBlind s) →
      (run_bars env fuel bars e).map Engine.untimed
        = run_bars env.untimed fuel bars e.untimed ∧
      equity_after_each_bar env fuel bars e
        = equity_after_each_bar env.untimed fuel bars e.untimed := by
  induction bars with
  | nil => intro e _; exact ⟨rfl, rfl⟩
  | cons bar bars ih =>
      intro e hq
      unfold run_bars equity_after_each_bar
      obtain ⟨h1, h2⟩ := process_bar_untimed env fuel e bar hq
      rw [← h1]
      cases h : e.process_bar env fuel bar with
      | none => exact ⟨rfl, rfl⟩
      | some e1 =>
          simp only [Option.map_some']
          obtain ⟨h3, h4⟩ := ih e1 (h2 e1 h)
          exact ⟨h3, by rw [h4]; rfl⟩

theorem run_untimed (env : Env) (fuel : Nat) (e : Engine S)
    (hq : ∀ s ∈ e.strategies_, TimeBlind s) :
    (e.run env fuel).map Engine.untimed = e.untimed.run env.untimed fuel ∧
    e.equity_curve env fuel = e.untimed.equity_curve env.untimed fuel := by
  unfold run equity_curve
  obtain ⟨h1, h2⟩ := dispatch_init_untimed env e hq
  have hb : e.untimed.bars_ = e.bars_ := rfl
  rw [hb, ← h1]
  exact run_bars_untimed env fuel e.bars_ _ h2

end Engine

namespace Engine
variable {S : Type}

theorem equity_after_each_bar_some (env : Env) (fuel : Nat) (bars : List Bar) :
    ∀ e e' : Engine S, run_bars env fuel bars e = some e' →
      ∃ curve, equity_after_each_bar env fuel bars e = some curve ∧
        curve.length = bars.length := by
  induction bars with
  | nil => intro e e' _; exact ⟨[], rfl, rfl⟩
  | cons bar bars ih =>
      intro e e' h
      unfold run_bars at h
      unfold equity_after_each_bar
      cases h1 : e.process_bar env fuel bar with
      | none => rw [h1] at h; cases h
      | some e1 =>
          rw [h1] at h
          obtain ⟨curve, hc, hl⟩ := ih e1 e' h
          exact ⟨e1.portfolio_.equity :: curve, by simp [hc], by simp [hl]⟩

theorem runs_agree (env : Env) (now' : Nat → Timestamp) (e : Engine S)
    (hq : ∀ s ∈ e.strategies_, TimeBlind s) (fuel : Nat) (e1 : Engine S)
    (h : e.run env fuel = some e1) :
    ∃ e2, e.run { env with now := now' } fuel = some e2 ∧ e2.untimed = e1.untimed ∧
      e.equity_curve { env with now := now' } fuel = e.equity_curve env fuel := by
  obtain ⟨h1, h2⟩ := run_untimed env fuel e hq
  obtain ⟨h3, h4⟩ := run_untimed { env with now := now' } fuel e hq
  have henv : ({ env with now := now' } : Env).untimed = env.untimed := rfl
  rw [henv] at h3 h4
  have h5 : (e.run { env with now := now' } fuel).map Engine.untimed = some e1.untimed := by
    rw [h3, ← h1, h]
    rfl
  cases h6 : e.run { env with now := now' } fuel with
  | none => rw [h6] at h5; cases h5
  | some e2 =>
      rw [h6] at h5
      exact ⟨e2, rfl, Option.some.inj h5, h4.trans h2.symm⟩

end Engine

/-! ## Marking to market twice -/

theorem Positions.assign_assign (m : Positions) (s : Symbol) (p q : Position) :
    (m.assign s p).assign s q = m.assign s q := by
  induction m with
  | nil => simp [Positions.assign]
  | cons e m ih =>
      by_cases h : e.1 = s
      · simp [Positions.assign, h]
      · simp [Positions.assign, h, ih]

namespace Engine
variable {S : Type}

theorem update_portfolio_idem (e : Engine S) (bar : Bar) :
    (e.update_portfolio bar).update_portfolio bar = e.update_portfolio bar := by
  cases h : e.portfolio_.positions.find bar.symbol with
  | none =>
      have h1 : e.update_portfolio bar
          = { e with portfolio_ := { e.portfolio_ with
                equity := e.portfolio_.positions.foldl
                  (fun total p => total + p.2.market_value) e.portfolio_.cash } } := by
        simp [update_portfolio, h]
      rw [h1]
      simp [update_portfolio, h]
  | some pos =>
      have h1 : e.update_portfolio bar
          = { e with portfolio_ := { e.portfolio_ with
                positions := e.portfolio_.positions.assign bar.symbol
                  { pos with
                    current_price := bar.close
                    unrealized_pnl := (bar.close - pos.avg_entry_price) * pos.quantity }
                equity := (e.portfolio_.positions.assign bar.symbol
                  { pos with
                    current_price := bar.close
                    unrealized_pnl := (bar.close - pos.avg_entry_price) * pos.quantity }).foldl
                  (fun total p => total + p.2.market_value) e.portfolio_.cash } } := by
        simp [update_portfolio, h]
      rw [h1]
      simp [update_portfolio, Positions.find_assign_self, Positions.assign_assign]

end Engine

theorem PortfolioManager.update_prices_idem (state : PortfolioState)
    (prices : List (Symbol × ℚ)) :
    PortfolioManager.update_prices (PortfolioManager.update_prices state prices) prices
      = PortfolioManager.update_prices state prices := by
  have hmap : ∀ (g : Symbol × Position → Symbol × Position) (m : Positions),
      (∀ e, g (g e) = g e) → (m.map g).map g = m.map g := by
    intro g m hg
    rw [List.map_map]
    exact List.map_congr_left (fun e _ => hg e)
  have hg : ∀ e : Symbol × Position,
      (fun e : Symbol × Position =>
        match PortfolioManager.price_of prices e.1 with
        | some price =>
            (e.1, { e.2 with
                    current_price := price
                    unrealized_pnl := (price - e.2.avg_entry_price) * e.2.quantity })
        | none => e)
      ((fun e : Symbol × Position =>
        match PortfolioManager.price_of prices e.1 with
        | some price =>
            (e.1, { e.2 with
                    current_price := price
                    unrealized_pnl := (price - e.2.avg_entry_price) * e.2.quantity })
        | none => e) e)
      = (fun e : Symbol × Position =>
        match PortfolioManager.price_of prices e.1 with
        | some price =>
            (e.1, { e.2 with
                    current_price := price
                    unrealized_pnl := (price - e.2.avg_entry_price) * e.2.quantity })
        | none => e) e := by
    intro e
    obtain ⟨s, p⟩ := e
    cases hp : PortfolioManager.price_of prices s with
    | none => simp [hp]
    | some price => simp [hp]
  unfold PortfolioManager.update_prices
  simp only []
  rw [hmap _ state.positions hg]

/-! ## The orders of `OrderManager` -/

namespace OrderManager

theorem notify_order_orders (m : OrderManager) (o : Order) :
    (m.notify_order o).orders_ = m.orders_ := by
  unfold notify_order
  split <;> rfl

theorem notify_fill_orders (m : OrderManager) (f : Fill) :
    (m.notify_fill f).orders_ = m.orders_ := by
  unfold notify_fill
  split <;> rfl

/-- The calls `cancel_order` and `modify_order` leave an order that is not
open, and so a cancelled one, as it is. -/
theorem cancel_order_closed (now : Timestamp) (m : OrderManager) (id : OrderID) (o : Order)
    (ho : m.orders_.find id = some o) (hc : o.is_open = false) :
    m.cancel_order now id = m := by
  simp [cancel_order, ho, hc]

theorem modify_order_closed (now : Timestamp) (m : OrderManager) (id : OrderID) (o : Order)
    (price quantity : ℚ) (ho : m.orders_.find id = some o) (hc : o.is_open = false) :
    m.modify_order now id price quantity = m := by
  simp [modify_order, ho, hc]

theorem add_fill_find (m : OrderManager) (fill : Fill) (o : Order)
    (ho : m.orders_.find fill.order_id = some o) :
    (m.add_fill fill).orders_.find fill.order_id = some (apply_fill fill o) := by
  simp only [add_fill, notify_fill_orders, ho, notify_order_orders]
  rw [OrderMap.find_modify_self, ho]
  rfl

end OrderManager

/-! ## The figures of `PerformanceAnalyzer` -/

namespace PerformanceAnalyzer

theorem foldl_append_singleton {α : Type} (f : Nat → α) (is : List Nat) (acc : List α) :
    is.foldl (fun l i => l ++ [f i]) acc = acc ++ is.map f := by
  induction is generalizing acc with
  | nil => simp
  | cons i is ih => simp [ih]

theorem returns_of_eq (equity : List ℚ) (h : ∀ x ∈ equity, x ≠ 0) :
    returns_of equity = simple_returns equity := by
  unfold returns_of simple_returns
  rw [foldl_append_singleton
    (fun i => (equity.getD i 0 - equity.getD (i - 1) 0) / equity.getD (i - 1) 0)]
  rw [List.nil_append]
  apply List.map_congr_left
  intro i hi
  rw [List.mem_range'_1] at hi
  have hlt : i - 1 < equity.length := by omega
  have hne : equity.getD (i - 1) 0 ≠ 0 := by
    rw [List.getD_eq_getElem _ _ hlt]
    exact h _ (List.getElem_mem _)
  have key : ∀ a b : ℚ, b ≠ 0 → (a - b) / b = a / b - 1 := fun a b hb => by
    rw [sub_div, div_self hb]
  exact key _ _ hne

theorem foldl_add (xs : List ℚ) (c : ℚ) :
    xs.foldl (fun acc x => acc + x) c = c + xs.sum := by
  induction xs generalizing c with
  | nil => simp
  | cons x xs ih => simp [ih, add_assoc]

theorem foldl_add_map (xs : List ℚ) (g : ℚ → ℚ) (c : ℚ) :
    xs.foldl (fun acc x => acc + g x) c = c + (xs.map g).sum := by
  induction xs generalizing c with
  | nil => simp
  | cons x xs ih => simp [ih, add_assoc]

theorem calculate_sharpe_ratio_eq (sqrt : ℚ → ℚ) (returns : List ℚ) (rf : ℚ) :
    calculate_sharpe_ratio sqrt returns rf
      = if returns = [] ∨ stddev sqrt returns < 1 / 1000000000 then 0
        else (mean returns - rf / 252) / stddev sqrt returns * sqrt 252 := by
  unfold calculate_sharpe_ratio
  cases returns with
  | nil => simp
  | cons r rs =>
      have hm : (r :: rs).foldl (fun acc ret => acc + ret) 0 / ((r :: rs).length : ℚ)
          = mean (r :: rs) := by
        rw [foldl_add, zero_add]
        rfl
      have hs : ∀ m : ℚ, (r :: rs).foldl (fun sq_sum ret => sq_sum + (ret - m) * (ret - m)) 0
          = ((r :: rs).map (fun x => (x - m) ^ 2)).sum := by
        intro m
        rw [foldl_add_map (r :: rs) (fun ret => (ret - m) * (ret - m)), zero_add]
        congr 1
        apply List.map_congr_left
        intro x _
        ring
      simp only [List.isEmpty_cons, Bool.false_eq_true, if_false, hm, hs, false_or,
        reduceCtorEq]
      rfl

end PerformanceAnalyzer

/-! ## The files and the queue of `HistoricalFeed` -/

namespace HistoricalFeed

theorem next_record_times (lines : List CsvLine) :
    (∀ r rest, next_record lines = some (r, rest) →
      record_times lines = r.timestamp :: record_times rest ∧ rest.length < lines.length) ∧
    (next_record lines = none → record_times lines = []) := by
  induction lines with
  | nil =>
      refine ⟨?_, fun _ => rfl⟩
      intro r rest h
      cases h
  | cons l lines ih =>
      cases l with
      | none =>
          refine ⟨?_, ?_⟩
          · intro r rest h
            obtain ⟨h1, h2⟩ := ih.1 r rest h
            exact ⟨by simpa [record_times] using h1, by simp; omega⟩
          · intro h
            have := ih.2 h
            simpa [record_times] using this
      | some r0 =>
          refine ⟨?_, ?_⟩
          · intro r rest h
            simp only [next_record, Option.some.injEq, Prod.mk.injEq] at h
            obtain ⟨rfl, rfl⟩ := h
            exact ⟨by simp [record_times], by simp⟩
          · intro h
            cases h

theorem find_entry_mem (files : List (Symbol × DataFile)) (s : Symbol) (df : DataFile)
    (h : (List.find? (fun e => e.1 == s) files).map Prod.snd = some df) : (s, df) ∈ files := by
  simp only [Option.map_eq_some'] at h
  obtain ⟨a, ha, hp⟩ := h
  have h1 := List.find?_some ha
  have h2 := List.mem_of_find?_eq_some ha
  simp only [beq_iff_eq] at h1
  obtain ⟨k, v⟩ := a
  simp only at h1 hp
  subst h1
  subst hp
  exact h2

theorem replace_file_keys (files : List (Symbol × DataFile)) (s : Symbol) (df : DataFile) :
    (replace_file files s df).map Prod.fst = files.map Prod.fst := by
  induction files with
  | nil => rfl
  | cons e files ih =>
      by_cases h : e.1 = s
      · simp [replace_file, h]
      · simp [replace_file, h, ih]

theorem replace_file_mem (files : List (Symbol × DataFile)) (s : Symbol) (df : DataFile)
    (en : Symbol × DataFile) (h : en ∈ replace_file files s df) :
    en ∈ files ∨ en = (s, df) := by
  induction files with
  | nil => cases h
  | cons e files ih =>
      by_cases hs : e.1 = s
      · simp only [replace_file, hs, beq_self_eq_true, if_true, List.mem_cons] at h
        rcases h with h | h
        · exact Or.inr h
        · exact Or.inl (List.mem_cons_of_mem _ h)
      · have hs' : (e.1 == s) = false := by simpa using hs
        simp only [replace_file, hs', Bool.false_eq_true, if_false, List.mem_cons] at h
        rcases h with h | h
        · exact Or.inl (h ▸ List.mem_cons_self _ _)
        · rcases ih h with h1 | h1
          · exact Or.inl (List.mem_cons_of_mem _ h1)
          · exact Or.inr h1

theorem find_replace_file_self (files : List (Symbol × DataFile)) (s : Symbol)
    (df df0 : DataFile)
    (h : (List.find? (fun e => e.1 == s) files).map Prod.snd = some df0) :
    (List.find? (fun e => e.1 == s) (replace_file files s df)).map Prod.snd = some df := by
  induction files with
  | nil => simp at h
  | cons e files ih =>
      by_cases hs : e.1 = s
      · simp [replace_file, hs]
      · have hs' : (e.1 == s) = false := by simpa using hs
        simp only [replace_file, hs', Bool.false_eq_true, if_false, List.find?_cons] at h ⊢
        exact ih h

theorem find_replace_file_ne (files : List (Symbol × DataFile)) (s t : Symbol)
    (df : DataFile) (h : t ≠ s) :
    (List.find? (fun e => e.1 == t) (replace_file files s df)).map Prod.snd
      = (List.find? (fun e => e.1 == t) files).map Prod.snd := by
  induction files with
  | nil => rfl
  | cons e files ih =>
      by_cases hs : e.1 = s
      · have ht : (e.1 == t) = false := by
          simp only [beq_eq_false_iff_ne]
          intro he
          exact h (he.symm.trans hs)
        simp [replace_file, hs, List.find?_cons, ht]
        have ht' : (s == t) = false := by
          simp only [beq_eq_false_iff_ne]
          exact fun he => h he.symm
        simp [ht']
      · have hs' : (e.1 == s) = false := by simpa using hs
        simp only [replace_file, hs', Bool.false_eq_true, if_false, List.find?_cons]
        by_cases ht : e.1 = t
        · simp [ht]
        · have ht' : (e.1 == t) = false := by simpa using ht
          simp only [ht']
          exact ih

theorem replace_file_backlog (files : List (Symbol × DataFile)) (s : Symbol)
    (df df0 : DataFile) (k : Nat)
    (h : (List.find? (fun e => e.1 == s) files).map Prod.snd = some df0)
    (hk : df.rest.length + k ≤ df0.rest.length) :
    ((replace_file files s df).map (fun en => en.2.rest.length)).sum + k
      ≤ (files.map (fun en => en.2.rest.length)).sum := by
  induction files with
  | nil => simp at h
  | cons e files ih =>
      by_cases hs : e.1 = s
      · simp only [hs, List.find?_cons, beq_self_eq_true, Option.map_some',
          Option.some.injEq] at h
        subst h
        simp only [replace_file, hs, beq_self_eq_true, if_true, List.map_cons, List.sum_cons]
        omega
      · have hs' : (e.1 == s) = false := by simpa using hs
        simp only [hs', List.find?_cons] at h
        have := ih h
        simp only [replace_file, hs', Bool.false_eq_true, if_false, List.map_cons,
          List.sum_cons]
        omega

theorem find_file_mem (f : HistoricalFeed) (s : Symbol) (df : DataFile)
    (h : f.find_file s = some df) : (s, df) ∈ f.data_files_ :=
  find_entry_mem f.data_files_ s df h

theorem find_file_set_file_self (f : HistoricalFeed) (s : Symbol) (df df0 : DataFile)
    (h : f.find_file s = some df0) : (f.set_file s df).find_file s = some df :=
  find_replace_file_self f.data_files_ s df df0 h

theorem find_file_set_file_ne (f : HistoricalFeed) (s t : Symbol) (df : DataFile)
    (h : t ≠ s) : (f.set_file s df).find_file t = f.find_file t :=
  find_replace_file_ne f.data_files_ s t df h

theorem bars_replayed_append (l l' : List FeedEvent) :
    bars_replayed (l ++ l') = bars_replayed l ++ bars_replayed l' := by
  simp [bars_replayed]

theorem pending_append (q : List TimedEvent) (ev : TimedEvent) (s : Symbol) :
    pending (q ++ [ev]) s = pending q s + (if ev.2.symbol = s then 1 else 0) := by
  simp only [pending, List.countP_append, List.countP_cons, List.countP_nil, beq_iff_eq]
  omega

theorem set_file_replaying (f : HistoricalFeed) (s : Symbol) (df df' : DataFile)
    (hf : f.Replaying) (hfind : f.find_file s = some df)
    (hsub : ∀ t ∈ record_times df'.rest, t ∈ record_times df.rest)
    (hsorted : (record_times df'.rest).Pairwise (fun a b => a ≤ b)) :
    (f.set_file s df').Replaying where
  keys := by
    simp only [set_file, replace_file_keys]
    exact hf.keys
  sorted := by
    intro en hen
    rcases replace_file_mem _ _ _ _ hen with h | h
    · exact hf.sorted en h
    · rw [h]
      exact hsorted
  ahead := by
    intro ev hev
    refine ⟨(hf.ahead ev hev).1, ?_⟩
    intro d hd t ht
    by_cases hs : ev.2.symbol = s
    · rw [hs, find_file_set_file_self f s df' df hfind] at hd
      cases hd
      exact (hf.ahead ev hev).2 df (hs ▸ hfind) t (hsub t ht)
    · rw [find_file_set_file_ne f s _ df' hs] at hd
      exact (hf.ahead ev hev).2 d hd t ht
  single := hf.single
  snapshots := hf.snapshots
  delivered_sorted := hf.delivered_sorted
  delivered_before := hf.delivered_before

theorem push_replaying (f : HistoricalFeed) (ev : TimedEvent) (hf : f.Replaying)
    (h0 : pending f.event_queue_ ev.2.symbol = 0) (hts : ev.2.timestamp = ev.1)
    (hahead : ∀ df, f.find_file ev.2.symbol = some df →
      ∀ t ∈ record_times df.rest, ev.1 ≤ t)
    (hd : ∀ b ∈ bars_replayed f.log, b.timestamp ≤ ev.1) :
    ({ f with
       event_queue_ := f.event_queue_ ++ [ev]
       log := f.log ++ [FeedEvent.queued (f.event_queue_ ++ [ev])] } :
      HistoricalFeed).Replaying := by
  have hsingle : ∀ s, pending (f.event_queue_ ++ [ev]) s ≤ 1 := by
    intro s
    rw [pending_append]
    by_cases hs : ev.2.symbol = s
    · rw [if_pos hs, ← hs, h0]
    · rw [if_neg hs]
      exact hf.single s
  have hlog : bars_replayed (f.log ++ [FeedEvent.queued (f.event_queue_ ++ [ev])])
      = bars_replayed f.log := by
    rw [bars_replayed_append]
    simp [bars_replayed]
  exact
    { keys := hf.keys
      sorted := hf.sorted
      ahead := by
        intro e he
        rcases List.mem_append.mp he with he | he
        · exact hf.ahead e he
        · rw [List.mem_singleton] at he
          subst he
          exact ⟨hts, hahead⟩
      single := hsingle
      snapshots := by
        intro q hq
        rcases List.mem_append.mp hq with hq | hq
        · exact hf.snapshots q hq
        · rw [List.mem_singleton] at hq
          cases hq
          exact hsingle
      delivered_sorted := by
        show ((bars_replayed (f.log ++ [FeedEvent.queued (f.event_queue_ ++ [ev])])).map
          (fun b => b.timestamp)).Pairwise (fun a b => a ≤ b)
        rw [hlog]
        exact hf.delivered_sorted
      delivered_before := by
        intro b hb e he
        have hb' : b ∈ bars_replayed f.log := by
          have : b ∈ bars_replayed (f.log ++ [FeedEvent.queued (f.event_queue_ ++ [ev])]) := hb
          rw [hlog] at this
          exact this
        rcases List.mem_append.mp he with he | he
        · exact hf.delivered_before b hb' e he
        · rw [List.mem_singleton] at he
          subst he
          exact hd b hb' }

/-- What one call of `read_next_event(s)` keeps, when no event of `s` is
queued and no bar handed out is later than the unread records of `s`. -/
theorem read_replaying (f : HistoricalFeed) (s : Symbol) (hf : f.Replaying)
    (h0 : pending f.event_queue_ s = 0)
    (hd : ∀ b ∈ bars_replayed f.log, ∀ df, f.find_file s = some df →
      ∀ t ∈ record_times df.rest, b.timestamp ≤ t) :
    (f.read_next_event s).1.Replaying ∧
    (f.read_next_event s).1.backlog ≤ f.backlog ∧
    (f.read_next_event s).1.running_ = f.running_ ∧
    (f.read_next_event s).1.config_ = f.config_ ∧
    (f.read_next_event s).1.bar_callback_ = f.bar_callback_ ∧
    (f.read_next_event s).1.data_files_.map Prod.fst = f.data_files_.map Prod.fst ∧
    (∀ t, t ≠ s → pending (f.read_next_event s).1.event_queue_ t = pending f.event_queue_ t) ∧
    bars_replayed (f.read_next_event s).1.log = bars_replayed f.log := by
  unfold read_next_event
  cases hfind : f.find_file s with
  | none => exact ⟨hf, le_refl _, rfl, rfl, rfl, rfl, fun _ _ => rfl, rfl⟩
  | some df =>
      simp only
      by_cases heof : df.eof = true
      · rw [if_pos heof]
        exact ⟨hf, le_refl _, rfl, rfl, rfl, rfl, fun _ _ => rfl, rfl⟩
      · rw [if_neg heof]
        have hmem := find_file_mem f s df hfind
        have hsorted := hf.sorted (s, df) hmem
        cases hnext : next_record df.rest with
        | none =>
            simp only
            refine ⟨set_file_replaying f s df _ hf hfind (fun t ht => by simp [record_times] at ht)
              (by simp [record_times]), ?_, rfl, rfl, rfl, replace_file_keys _ _ _,
              fun _ _ => rfl, rfl⟩
            have := replace_file_backlog f.data_files_ s { df with rest := [], eof := true } df 0
              hfind (by simp)
            simp only [backlog, set_file]
            omega
        | some p =>
            obtain ⟨r, rest⟩ := p
            obtain ⟨htimes, hlen⟩ := (next_record_times df.rest).1 r rest hnext
            have hsorted' : (record_times rest).Pairwise (fun a b => a ≤ b) := by
              rw [htimes] at hsorted
              exact (List.pairwise_cons.mp hsorted).2
            have hle : ∀ t ∈ record_times rest, r.timestamp ≤ t := by
              rw [htimes] at hsorted
              exact (List.pairwise_cons.mp hsorted).1
            have hsub : ∀ t ∈ record_times rest, t ∈ record_times df.rest := by
              intro t ht
              rw [htimes]
              exact List.mem_cons_of_mem _ ht
            have hf1 := set_file_replaying f s df { df with rest := rest } hf hfind hsub hsorted'
            have hback := replace_file_backlog f.data_files_ s { df with rest := rest } df 1
              hfind (by simp only; omega)
            simp only
            split
            · refine ⟨?_, ?_, rfl, rfl, rfl, replace_file_keys _ _ _, ?_, ?_⟩
              · refine push_replaying (f.set_file s { df with rest := rest })
                  (r.timestamp, _) hf1 h0 rfl ?_ ?_
                · intro d hd' t ht
                  have hd'' : (f.set_file s { df with rest := rest }).find_file s = some d := hd'
                  rw [find_file_set_file_self f s _ df hfind] at hd''
                  cases hd''
                  exact hle t ht
                · intro b hb
                  refine hd b hb df hfind r.timestamp ?_
                  rw [htimes]
                  exact List.mem_cons_self _ _
              · simp only [backlog, set_file, List.length_append, List.length_singleton]
                omega
              · intro t ht
                show pending (f.event_queue_ ++ [_]) t = pending f.event_queue_ t
                rw [pending_append, if_neg (fun h => ht h.symm)]
                rfl
              · show bars_replayed (f.log ++ [_]) = bars_replayed f.log
                rw [bars_replayed_append]
                simp [bars_replayed]
            · refine ⟨hf1, ?_, rfl, rfl, rfl, replace_file_keys _ _ _, fun _ _ => rfl, rfl⟩
              simp only [backlog, set_file]
              omega

theorem countP_erase_mem {α : Type} [BEq α] [LawfulBEq α] (p : α → Bool) (l : List α) (a : α)
    (hmem : a ∈ l) (hp : p a = true) : (l.erase a).countP p + 1 = l.countP p := by
  induction l with
  | nil => cases hmem
  | cons b l ih =>
      by_cases hb : b = a
      · subst hb
        simp [hp]
      · have hmem' : a ∈ l := by
          rcases List.mem_cons.mp hmem with h | h
          · exact absurd h.symm hb
          · exact h
        have hba : (b == a) = false := by simpa using hb
        rw [List.erase_cons, hba]
        simp only [Bool.false_eq_true, if_false, List.countP_cons]
        have := ih hmem'
        omega

/-- What popping the top event and handing its bar out keeps. -/
theorem pop_replaying (top : List TimedEvent → TimedEvent) (htop : TopContract top)
    (f : HistoricalFeed) (hf : f.Replaying) (hq : f.event_queue_ ≠ []) (L : List FeedEvent)
    (hL : L = [] ∨ L = [FeedEvent.delivered (top f.event_queue_).2]) :
    ({ f with
       event_queue_ := f.event_queue_.erase (top f.event_queue_)
       current_time_ := (top f.event_queue_).1
       log := f.log ++ L } : HistoricalFeed).Replaying ∧
    pending (f.event_queue_.erase (top f.event_queue_)) (top f.event_queue_).2.symbol = 0 ∧
    (∀ b ∈ bars_replayed (f.log ++ L), ∀ df,
      f.find_file (top f.event_queue_).2.symbol = some df →
      ∀ t ∈ record_times df.rest, b.timestamp ≤ t) ∧
    (f.event_queue_.erase (top f.event_queue_)).length + 1 = f.event_queue_.length := by
  obtain ⟨hmem, hleast⟩ := htop f.event_queue_ hq
  have hsub : ∀ e ∈ f.event_queue_.erase (top f.event_queue_), e ∈ f.event_queue_ :=
    fun e he => List.mem_of_mem_erase he
  have hev := hf.ahead _ hmem
  have hbars : ∀ b ∈ bars_replayed (f.log ++ L),
      b ∈ bars_replayed f.log ∨ b = (top f.event_queue_).2 := by
    intro b hb
    rw [bars_replayed_append] at hb
    rcases List.mem_append.mp hb with hb | hb
    · exact Or.inl hb
    · rcases hL with rfl | rfl
      · simp [bars_replayed] at hb
      · simp [bars_replayed] at hb
        exact Or.inr hb
  have hold : ∀ b ∈ bars_replayed (f.log ++ L), b.timestamp ≤ (top f.event_queue_).1 := by
    intro b hb
    rcases hbars b hb with hb | hb
    · exact hf.delivered_before b hb _ hmem
    · rw [hb, hev.1]
  have hcount := countP_erase_mem (fun ev : TimedEvent => ev.2.symbol ==
    (top f.event_queue_).2.symbol) f.event_queue_ (top f.event_queue_) hmem (by simp)
  have hone := hf.single (top f.event_queue_).2.symbol
  refine ⟨?_, ?_, ?_, ?_⟩
  · exact
      { keys := hf.keys
        sorted := hf.sorted
        ahead := fun e he => hf.ahead e (hsub e he)
        single := fun s => le_trans
          ((List.erase_sublist _ _).countP_le _) (hf.single s)
        snapshots := by
          intro q hq'
          rcases List.mem_append.mp hq' with h | h
          · exact hf.snapshots q h
          · rcases hL with rfl | rfl
            · cases h
            · simp at h
        delivered_sorted := by
          show ((bars_replayed (f.log ++ L)).map (fun b => b.timestamp)).Pairwise
            (fun a b => a ≤ b)
          rcases hL with rfl | rfl
          · rw [List.append_nil]
            exact hf.delivered_sorted
          · rw [bars_replayed_append, List.map_append, List.pairwise_append]
            refine ⟨hf.delivered_sorted, by simp [bars_replayed], ?_⟩
            intro a ha b hb
            simp only [bars_replayed, List.filterMap_cons, List.filterMap_nil, List.map_cons,
              List.map_nil, List.mem_singleton] at hb
            obtain ⟨x, hx, rfl⟩ := List.mem_map.mp ha
            rw [hb, hev.1]
            exact hf.delivered_before x hx _ hmem
        delivered_before := by
          intro b hb e he
          exact le_trans (hold b hb) (hleast e (hsub e he)) }
  · simp only [pending] at hone ⊢
    omega
  · intro b hb df hdf t ht
    exact le_trans (hold b hb) (hev.2 df hdf t ht)
  · have := List.length_erase_of_mem hmem
    have hpos : 0 < f.event_queue_.length := List.length_pos.mpr hq
    omega

theorem replay_one_replaying (top : List TimedEvent → TimedEvent) (htop : TopContract top)
    (f : HistoricalFeed) (hf : f.Replaying) (hq : f.event_queue_ ≠ []) :
    (f.replay_one top).Replaying ∧ (f.replay_one top).backlog < f.backlog ∧
    (f.replay_one top).running_ = f.running_ ∧ (f.replay_one top).config_ = f.config_ := by
  unfold replay_one
  simp only
  by_cases hcb : f.bar_callback_ = true
  · rw [if_pos hcb]
    obtain ⟨h1, h2, h3, h4⟩ := pop_replaying top htop f hf hq
      [FeedEvent.delivered (top f.event_queue_).2] (Or.inr rfl)
    obtain ⟨r1, r2, r3, r4, _⟩ := read_replaying _ (top f.event_queue_).2.symbol h1 h2 h3
    refine ⟨r1, ?_, r3, r4⟩
    have hb : ({ f with
       event_queue_ := f.event_queue_.erase (top f.event_queue_)
       current_time_ := (top f.event_queue_).1
       log := f.log ++ [FeedEvent.delivered (top f.event_queue_).2] } :
        HistoricalFeed).backlog + 1 = f.backlog := by
      simp only [backlog]
      omega
    exact Nat.lt_of_lt_of_le (Nat.lt_succ_of_le r2) (le_of_eq hb)
  · rw [if_neg hcb]
    obtain ⟨h1, h2, h3, h4⟩ := pop_replaying top htop f hf hq [] (Or.inl rfl)
    have heq : ({ f with
       event_queue_ := f.event_queue_.erase (top f.event_queue_)
       current_time_ := (top f.event_queue_).1
       log := f.log ++ [] } : HistoricalFeed)
        = { f with
            event_queue_ := f.event_queue_.erase (top f.event_queue_)
            current_time_ := (top f.event_queue_).1 } := by
      simp
    rw [heq] at h1
    rw [List.append_nil] at h3
    obtain ⟨r1, r2, r3, r4, _⟩ := read_replaying _ (top f.event_queue_).2.symbol h1 h2 h3
    refine ⟨r1, ?_, r3, r4⟩
    have hb : ({ f with
       event_queue_ := f.event_queue_.erase (top f.event_queue_)
       current_time_ := (top f.event_queue_).1 } : HistoricalFeed).backlog + 1
        = f.backlog := by
      simp only [backlog]
      omega
    exact Nat.lt_of_lt_of_le (Nat.lt_succ_of_le r2) (le_of_eq hb)

theorem replay_events_replaying (top : List TimedEvent → TimedEvent) (htop : TopContract top)
    (fuel : Nat) :
    ∀ f f' : HistoricalFeed, f.Replaying → f.config_.loop = false →
      replay_events top fuel f = some f' → f'.Replaying := by
  induction fuel with
  | zero => intro f f' _ _ h; cases h
  | succ fuel ih =>
      intro f f' hf hloop h
      unfold replay_events at h
      by_cases hc : (f.running_ && !f.event_queue_.isEmpty) = true
      · rw [if_pos hc] at h
        have hq : f.event_queue_ ≠ [] := by
          intro he
          simp [he] at hc
        obtain ⟨h1, _, _, h4⟩ := replay_one_replaying top htop f hf hq
        exact ih _ f' h1 (by rw [h4]; exact hloop) h
      · rw [if_neg hc] at h
        simp only [hloop, Bool.false_and, Bool.false_eq_true, if_false, Option.some.injEq] at h
        rw [← h]
        exact hf

theorem replay_events_completes (top : List TimedEvent → TimedEvent) (htop : TopContract top)
    (fuel : Nat) :
    ∀ f : HistoricalFeed, f.Replaying → f.config_.loop = false → f.backlog < fuel →
      ∃ f', replay_events top fuel f = some f' := by
  induction fuel with
  | zero => intro f _ _ h; omega
  | succ fuel ih =>
      intro f hf hloop hfuel
      unfold replay_events
      by_cases hc : (f.running_ && !f.event_queue_.isEmpty) = true
      · rw [if_pos hc]
        have hq : f.event_queue_ ≠ [] := by
          intro he
          simp [he] at hc
        obtain ⟨h1, h2, _, h4⟩ := replay_one_replaying top htop f hf hq
        exact ih _ h1 (by rw [h4]; exact hloop) (by omega)
      · rw [if_neg hc]
        simp only [hloop, Bool.false_and, Bool.false_eq_true, if_false]
        exact ⟨f, rfl⟩

theorem read_all_replaying (ks : List Symbol) :
    ∀ f : HistoricalFeed, f.Replaying → ks.Nodup →
      (∀ s ∈ ks, pending f.event_queue_ s = 0) → bars_replayed f.log = [] →
      (ks.foldl (fun f symbol => (f.read_next_event symbol).1) f).Replaying ∧
      (ks.foldl (fun f symbol => (f.read_next_event symbol).1) f).config_ = f.config_ := by
  induction ks with
  | nil => intro f hf _ _ _; exact ⟨hf, rfl⟩
  | cons s ks ih =>
      intro f hf hnd h0 hlog
      rw [List.foldl_cons]
      obtain ⟨hs, hks⟩ := List.nodup_cons.mp hnd
      obtain ⟨r1, _, _, r4, _, _, r7, r8⟩ := read_replaying f s hf
        (h0 s (List.mem_cons_self _ _))
        (by
          intro b hb
          rw [hlog] at hb
          cases hb)
      obtain ⟨i1, i2⟩ := ih _ r1 hks
        (by
          intro t ht
          rw [r7 t (fun h => hs (h ▸ ht))]
          exact h0 t (List.mem_cons_of_mem _ ht))
        (r8.trans hlog)
      exact ⟨i1, i2.trans r4⟩

theorem replaying_fresh (f : HistoricalFeed) (hq : f.event_queue_ = []) (hlog : f.log = [])
    (hkeys : (f.data_files_.map Prod.fst).Nodup)
    (hsorted : ∀ en ∈ f.data_files_, (record_times en.2.rest).Pairwise (fun a b => a ≤ b)) :
    f.Replaying where
  keys := hkeys
  sorted := hsorted
  ahead := by intro ev hev; rw [hq] at hev; cases hev
  single := by intro s; rw [hq]; simp [pending]
  snapshots := by intro q hq'; rw [hlog] at hq'; cases hq'
  delivered_sorted := by rw [hlog]; simp [bars_replayed]
  delivered_before := by intro b hb; rw [hlog] at hb; cases hb

theorem start_replaying (top : List TimedEvent → TimedEvent) (htop : TopContract top)
    (f : HistoricalFeed) (hrun : f.running_ = false) (hloop : f.config_.loop = false)
    (hq : f.event_queue_ = []) (hlog : f.log = [])
    (hkeys : (f.data_files_.map Prod.fst).Nodup)
    (hsorted : ∀ en ∈ f.data_files_, (record_times en.2.rest).Pairwise (fun a b => a ≤ b)) :
    (∀ fuel f', f.start top fuel = some f' → f'.Replaying) ∧
    ∃ fuel f', f.start top fuel = some f' := by
  have hfresh : ({ f with running_ := true } : HistoricalFeed).Replaying :=
    replaying_fresh _ hq hlog hkeys hsorted
  obtain ⟨h1, h2⟩ := read_all_replaying (f.data_files_.map Prod.fst) { f with running_ := true }
    hfresh hkeys (by intro s _; simp [hq, pending]) (by rw [hlog]; rfl)
  have hloop' : ((f.data_files_.map Prod.fst).foldl
      (fun f symbol => (f.read_next_event symbol).1)
      ({ f with running_ := true } : HistoricalFeed)).config_.loop = false := by
    rw [h2]
    exact hloop
  constructor
  · intro fuel f' h
    unfold start at h
    simp only [hrun, Bool.false_eq_true, if_false] at h
    exact replay_events_replaying top htop fuel _ f' h1 hloop' h
  · simp only [start, hrun, Bool.false_eq_true, if_false]
    exact ⟨_, replay_events_completes top htop _ _ h1 hloop' (Nat.lt_succ_self _)⟩

end HistoricalFeed

theorem Scenario.top_least (l : List TimedEvent) :
    ∀ b : TimedEvent,
      l.foldl (fun best ev => if ev.1 < best.1 then ev else best) b ∈ b :: l ∧
      (l.foldl (fun best ev => if ev.1 < best.1 then ev else best) b).1 ≤ b.1 ∧
      ∀ ev ∈ l, (l.foldl (fun best ev => if ev.1 < best.1 then ev else best) b).1 ≤ ev.1 := by
  induction l with
  | nil => intro b; exact ⟨List.mem_cons_self _ _, le_refl _, fun _ h => by cases h⟩
  | cons a l ih =>
      intro b
      rw [List.foldl_cons]
      by_cases h : a.1 < b.1
      · rw [if_pos h]
        obtain ⟨h1, h2, h3⟩ := ih a
        refine ⟨List.mem_cons_of_mem _ h1, le_trans h2 (le_of_lt h), ?_⟩
        intro ev hev
        rcases List.mem_cons.mp hev with rfl | hev
        · exact h2
        · exact h3 ev hev
      · rw [if_neg h]
        obtain ⟨h1, h2, h3⟩ := ih b
        refine ⟨?_, h2, ?_⟩
        · rcases List.mem_cons.mp h1 with h1 | h1
          · rw [h1]; exact List.mem_cons_self _ _
          · exact List.mem_cons_of_mem _ (List.mem_cons_of_mem _ h1)
        · intro ev hev
          rcases List.mem_cons.mp hev with rfl | hev
          · exact le_trans h2 (not_lt.mp h)
          · exact h3 ev hev

theorem Scenario.top_contract : TopContract Scenario.top := by
  intro q hq
  cases q with
  | nil => exact absurd rfl hq
  | cons a l =>
      have h := Scenario.top_least (a :: l) a
      simp only [Scenario.top, List.headD_cons]
      refine ⟨?_, h.2.2⟩
      rcases List.mem_cons.mp h.1 with h1 | h1
      · rw [h1]; exact List.mem_cons_self _ _
      · exact h1

/-! ## The trade statistics of `PerformanceAnalyzer` -/

namespace PerformanceAnalyzer

theorem tally_fold (fills : List Fill) :
    ∀ t : Tally,
      (fills.foldl tally_fill t).winning_trades
        = t.winning_trades + (fills.countP (fun f => decide (f.notional > 0)) : Nat) ∧
      (fills.foldl tally_fill t).losing_trades
        = t.losing_trades + (fills.countP (fun f => decide (f.notional < 0)) : Nat) ∧
      (fills.foldl tally_fill t).total_wins
        = t.total_wins
          + ((fills.filter (fun f => decide (f.notional > 0))).map (fun f => f.notional)).sum ∧
      (fills.foldl tally_fill t).total_losses
        = t.total_losses
          + ((fills.filter (fun f => decide (f.notional < 0))).map
              (fun f => |f.notional|)).sum := by
  induction fills with
  | nil => intro t; simp
  | cons f fills ih =>
      intro t
      rw [List.foldl_cons]
      obtain ⟨h1, h2, h3, h4⟩ := ih (tally_fill t f)
      rw [h1, h2, h3, h4]
      by_cases hpos : f.notional > 0
      · have hneg : ¬ f.notional < 0 := not_lt.mpr (le_of_lt hpos)
        simp only [tally_fill, hpos, hneg, if_true, if_false, List.countP_cons, decide_True,
          decide_False, List.filter_cons, List.map_cons, List.sum_cons, Bool.false_eq_true]
        refine ⟨?_, ?_, ?_, ?_⟩
        · omega
        · omega
        · first | rfl | simp only [add_assoc]
        · first | rfl | simp only [add_assoc]
      · by_cases hneg : f.notional < 0
        · simp only [tally_fill, hpos, hneg, if_true, if_false, List.countP_cons, decide_True,
            decide_False, List.filter_cons, List.map_cons, List.sum_cons, Bool.false_eq_true]
          refine ⟨?_, ?_, ?_, ?_⟩
          · omega
          · omega
          · first | rfl | simp only [add_assoc]
          · first | rfl | simp only [add_assoc]
        · simp only [tally_fill, hpos, hneg, if_false, List.countP_cons, decide_False,
            List.filter_cons, Bool.false_eq_true]
          refine ⟨?_, ?_, ?_, ?_⟩
          · omega
          · omega
          · first | rfl | simp only [add_assoc]
          · first | rfl | simp only [add_assoc]

theorem calculate_counts (sqrt : ℚ → ℚ) (equity_curve : List ℚ) (fills : List Fill)
    (initial_capital risk_free_rate : ℚ) (hne : equity_curve ≠ []) :
    (calculate sqrt equity_curve fills initial_capital risk_free_rate).total_trades
      = (fills.length : Int) ∧
    (calculate sqrt equity_curve fills initial_capital risk_free_rate).winning_trades
      = (fills.countP (fun f => decide (f.notional > 0)) : Nat) ∧
    (calculate sqrt equity_curve fills initial_capital risk_free_rate).losing_trades
      = (fills.countP (fun f => decide (f.notional < 0)) : Nat) ∧
    (calculate sqrt equity_curve fills initial_capital risk_free_rate).win_rate
      = (if 0 < fills.length then
          ((fills.countP (fun f => decide (f.notional > 0)) : Nat) : ℚ) / fills.length * 100
        else 0) ∧
    (calculate sqrt equity_curve fills initial_capital risk_free_rate).profit_factor
      = (if 0 < ((fills.filter (fun f => decide (f.notional < 0))).map
              (fun f => |f.notional|)).sum then
          ((fills.filter (fun f => decide (f.notional > 0))).map (fun f => f.notional)).sum
            / ((fills.filter (fun f => decide (f.notional < 0))).map
                (fun f => |f.notional|)).sum
        else 0) := by
  have hemp : equity_curve.isEmpty = false := by
    cases equity_curve with
    | nil => exact absurd rfl hne
    | cons a l => rfl
  obtain ⟨h1, h2, h3, h4⟩ := tally_fold fills
    { total_pnl := 0, total_wins := 0, total_losses := 0, winning_trades := 0,
      losing_trades := 0, total_commission := 0, total_slippage := 0 }
  simp only [zero_add] at h1 h2 h3 h4
  simp only [calculate, hemp, Bool.false_eq_true, if_false, h1, h2, h3, h4]
  refine ⟨trivial, trivial, trivial, ?_, ?_⟩
  · by_cases hlen : 0 < fills.length
    · have : (0 : Int) < (fills.length : Int) := by exact_mod_cast hlen
      simp [hlen, this]
    · have : ¬ (0 : Int) < (fills.length : Int) := by
        intro h
        exact hlen (by exact_mod_cast h)
      simp [hlen, this]
  · trivial

end PerformanceAnalyzer

/-! ## Fills accumulated on one order -/

namespace OrderManager

end OrderManager

/-! ## The ring buffer of `SPSCQueue` -/

namespace SPSCQueue

variable {T : Type}

theorem mod_wrap (cap x : Nat) (hx : x < 2 * cap) :
    x % cap = if x < cap then x else x - cap := by
  by_cases h : x < cap
  · rw [if_pos h, Nat.mod_eq_of_lt h]
  · rw [if_neg h, Nat.mod_eq_sub_mod (Nat.le_of_not_lt h), Nat.mod_eq_of_lt (by omega)]


theorem mask_mod {q : SPSCQueue T} (hq : InBounds q) (x : Nat) :
    x &&& (q.capacity_ - 1) = x % q.capacity_ := by
  obtain ⟨_, ⟨k, hk⟩, _, _⟩ := hq
  rw [hk]
  exact Nat.and_pow_two_sub_one_eq_mod x k

theorem stored_length (q : SPSCQueue T) :
    (stored q).length = (q.tail_ + q.capacity_ - q.head_) % q.capacity_ := by
  simp [stored]

theorem size_eq {q : SPSCQueue T} (hq : InBounds q) :
    (q.tail_ + q.capacity_ - q.head_) % q.capacity_
      = if q.head_ ≤ q.tail_ then q.tail_ - q.head_ else q.tail_ + q.capacity_ - q.head_ := by
  obtain ⟨h2, _, hh, ht⟩ := hq
  rw [mod_wrap _ _ (by omega)]
  split_ifs <;> omega

theorem slot_eq {q : SPSCQueue T} (hq : InBounds q) (i : Nat) (hi : i < q.capacity_) :
    (q.head_ + i) % q.capacity_
      = if q.head_ + i < q.capacity_ then q.head_ + i else q.head_ + i - q.capacity_ := by
  obtain ⟨h2, _, hh, ht⟩ := hq
  exact mod_wrap _ _ (by omega)

theorem next_eq {q : SPSCQueue T} (hq : InBounds q) (x : Nat) (hx : x < q.capacity_) :
    (x + 1) % q.capacity_ = if x + 1 < q.capacity_ then x + 1 else 0 := by
  obtain ⟨h2, _, hh, ht⟩ := hq
  rw [mod_wrap _ _ (by omega)]
  split_ifs <;> omega

theorem push_full {q : SPSCQueue T} (hq : InBounds q) (item : T) :
    ((q.push item).2 = false ↔ (stored q).length = q.capacity_ - 1) := by
  have hn := next_eq hq q.tail_ hq.2.2.2
  have hs := size_eq hq
  obtain ⟨h2, _, hh, ht⟩ := id hq
  rw [stored_length, hs]
  unfold push
  simp only [mask_mod hq, hn]
  split_ifs <;> simp <;> omega

theorem push_rejected (q : SPSCQueue T) (item : T) (h : (q.push item).2 = false) :
    (q.push item).1 = q := by
  unfold push at h ⊢
  dsimp only at h ⊢
  split_ifs at h ⊢ with h1
  rfl

theorem push_accepted {q : SPSCQueue T} (hq : InBounds q) (item : T)
    (h : (q.push item).2 = true) :
    stored (q.push item).1 = stored q ++ [item] ∧ InBounds (q.push item).1 := by
  have hn := next_eq hq q.tail_ hq.2.2.2
  have hs := size_eq hq
  obtain ⟨h2, hk, hh, ht⟩ := id hq
  unfold push at h ⊢
  simp only [mask_mod hq] at h ⊢
  by_cases h1 : (q.tail_ + 1) % q.capacity_ = q.head_
  · rw [if_pos h1] at h
    simp at h
  · rw [if_neg h1]
    have hlt : (q.tail_ + 1) % q.capacity_ < q.capacity_ := Nat.mod_lt _ (by omega)
    refine ⟨?_, h2, hk, hh, hlt⟩
    have hq' : InBounds (⟨q.capacity_, Function.update q.buffer_ q.tail_ item, q.head_,
        (q.tail_ + 1) % q.capacity_⟩ : SPSCQueue T) := ⟨h2, hk, hh, hlt⟩
    have hs' := size_eq hq'
    dsimp only at hs'
    have hlen : ((q.tail_ + 1) % q.capacity_ + q.capacity_ - q.head_) % q.capacity_
        = (q.tail_ + q.capacity_ - q.head_) % q.capacity_ + 1 := by
      rw [hs', hs]
      rw [hn] at h1 ⊢
      split_ifs at h1 ⊢ <;> omega
    unfold stored
    dsimp only
    rw [hlen, List.range_succ, List.map_append, List.map_singleton]
    congr 1
    · apply List.map_congr_left
      intro i hi
      rw [List.mem_range, hs] at hi
      have hne : (q.head_ + i) % q.capacity_ ≠ q.tail_ := by
        rw [slot_eq hq i (by split_ifs at hi <;> omega)]
        split_ifs at hi ⊢ <;> omega
      rw [Function.update_noteq hne]
    · have he : (q.head_ + (q.tail_ + q.capacity_ - q.head_) % q.capacity_) % q.capacity_
          = q.tail_ := by
        rw [hs]
        rw [slot_eq hq _ (by split_ifs <;> omega)]
        split_ifs <;> omega
      rw [he, Function.update_same]

theorem pop_empty {q : SPSCQueue T} (hq : InBounds q) :
    ((q.pop).2 = none ↔ stored q = []) := by
  have hs := size_eq hq
  obtain ⟨h2, _, hh, ht⟩ := id hq
  rw [← List.length_eq_zero, stored_length, hs]
  unfold pop
  dsimp only
  split_ifs <;> simp <;> omega

theorem pop_rejected (q : SPSCQueue T) (h : (q.pop).2 = none) : (q.pop).1 = q := by
  unfold pop at h ⊢
  dsimp only at h ⊢
  split_ifs at h ⊢ with h1
  rfl

theorem pop_returned {q : SPSCQueue T} (hq : InBounds q) (item : T)
    (h : (q.pop).2 = some item) :
    stored q = item :: stored (q.pop).1 ∧ InBounds (q.pop).1 := by
  have hn := next_eq hq q.head_ hq.2.2.1
  have hs := size_eq hq
  obtain ⟨h2, hk, hh, ht⟩ := id hq
  unfold pop at h ⊢
  simp only [mask_mod hq] at h ⊢
  by_cases h1 : q.head_ = q.tail_
  · rw [if_pos h1] at h
    simp at h
  · rw [if_neg h1] at h ⊢
    have hitem : q.buffer_ q.head_ = item := by simpa using h
    have hlt : (q.head_ + 1) % q.capacity_ < q.capacity_ := Nat.mod_lt _ (by omega)
    refine ⟨?_, h2, hk, hlt, ht⟩
    have hq' : InBounds (⟨q.capacity_, q.buffer_, (q.head_ + 1) % q.capacity_,
        q.tail_⟩ : SPSCQueue T) := ⟨h2, hk, hlt, ht⟩
    have hs' := size_eq hq'
    dsimp only at hs'
    have hlen : (q.tail_ + q.capacity_ - q.head_) % q.capacity_
        = (q.tail_ + q.capacity_ - (q.head_ + 1) % q.capacity_) % q.capacity_ + 1 := by
      rw [hs', hs]
      rw [hn]
      split_ifs <;> omega
    unfold stored
    dsimp only
    rw [hlen, List.range_succ_eq_map, List.map_cons, List.map_map]
    congr 1
    · rw [Nat.add_zero, Nat.mod_eq_of_lt hh, hitem]
    · apply List.map_congr_left
      intro i _
      simp only [Function.comp]
      rw [Nat.mod_add_mod, Nat.add_assoc, Nat.add_comm 1 i]

theorem init_inBounds (k : Nat) (hk : 1 ≤ k) (junk : Nat → T) : InBounds (init (2 ^ k) junk) := by
  have h2 : 2 ≤ 2 ^ k := by
    calc 2 = 2 ^ 1 := rfl
      _ ≤ 2 ^ k := Nat.pow_le_pow_right (by decide) hk
  exact ⟨h2, ⟨k, rfl⟩, by show 0 < 2 ^ k; omega, by show 0 < 2 ^ k; omega⟩

theorem init_stored (capacity : Nat) (junk : Nat → T) : stored (init capacity junk) = [] := by
  simp [stored, init]

theorem step_fifo (t : Trace T) (op : Op T) (ht : t.Fifo) : (t.step op).Fifo := by
  obtain ⟨hq, hacc⟩ := ht
  cases op with
  | push item =>
      unfold Trace.step
      dsimp only
      cases hr : (t.queue.push item).2 with
      | false =>
          rw [push_rejected _ _ hr]
          exact ⟨hq, by simpa using hacc⟩
      | true =>
          obtain ⟨hst, hq'⟩ := push_accepted hq item hr
          refine ⟨hq', ?_⟩
          show (if true = true then t.accepted ++ [item] else t.accepted)
            = t.returned ++ stored (t.queue.push item).1
          rw [if_pos rfl, hst, hacc, List.append_assoc]
  | pop =>
      unfold Trace.step
      dsimp only
      cases hr : (t.queue.pop).2 with
      | none =>
          rw [pop_rejected _ hr]
          exact ⟨hq, hacc⟩
      | some item =>
          obtain ⟨hst, hq'⟩ := pop_returned hq item hr
          refine ⟨hq', ?_⟩
          show t.accepted = (t.returned ++ [item]) ++ stored (t.queue.pop).1
          rw [hacc, hst, List.append_assoc, List.singleton_append]

theorem steps_fifo (ops : List (Op T)) : ∀ t : Trace T, t.Fifo → (ops.foldl Trace.step t).Fifo := by
  induction ops with
  | nil => intro t ht; exact ht
  | cons op rest ih => intro t ht; exact ih _ (step_fifo t op ht)

theorem run_fifo (k : Nat) (hk : 1 ≤ k) (junk : Nat → T) (ops : List (Op T)) :
    (run (2 ^ k) junk ops).Fifo := by
  apply steps_fifo
  exact ⟨init_inBounds k hk junk, by simp [init_stored]⟩

theorem steps_capacity (ops : List (Op T)) :
    ∀ t : Trace T, (ops.foldl Trace.step t).queue.capacity_ = t.queue.capacity_ := by
  induction ops with
  | nil => intro t; rfl
  | cons op rest ih =>
      intro t
      rw [List.foldl_cons, ih]
      cases op with
      | push item =>
          unfold Trace.step push
          dsimp only
          split_ifs <;> rfl
      | pop =>
          unfold Trace.step pop
          dsimp only
          split_ifs <;> rfl

end SPSCQueue

/-! ## The series of `MemoryTimeSeriesDB` -/

namespace SeriesMap

theorem series_find_assign_key (m : SeriesMap) (symbol : Symbol) (bars : List Bar) :
    (m.assign symbol bars).find symbol = some bars := by
  induction m with
  | nil => simp [assign, find]
  | cons e rest ih =>
      obtain ⟨k, v⟩ := e
      by_cases h : k = symbol
      · simp [assign, find, h]
      · simp [assign, find, h, ih]

theorem series_find_assign_other (m : SeriesMap) (symbol other : Symbol) (bars : List Bar)
    (h : other ≠ symbol) : (m.assign symbol bars).find other = m.find other := by
  induction m with
  | nil => simp [assign, find, Ne.symm h]
  | cons e rest ih =>
      obtain ⟨k, v⟩ := e
      by_cases hk : k = symbol
      · subst hk
        simp [assign, find, Ne.symm h]
      · by_cases ho : k = other
        · subst ho
          simp [assign, find, hk]
        · simp [assign, find, hk, ho, ih]

theorem series_find_entry (m : SeriesMap) (symbol : Symbol) (bars : List Bar)
    (h : m.find symbol = some bars) : (symbol, bars) ∈ m := by
  induction m with
  | nil => simp [find] at h
  | cons e rest ih =>
      obtain ⟨k, v⟩ := e
      by_cases hk : k = symbol
      · subst hk
        simp [find] at h
        simp [h]
      · simp [find, hk] at h
        exact List.mem_cons_of_mem _ (ih h)

theorem series_get_of_find (m : SeriesMap) (symbol : Symbol) (bars : List Bar)
    (h : m.find symbol = some bars) : m.get symbol = bars := by
  simp [get, h]

theorem series_entry_assign (m : SeriesMap) (symbol : Symbol) (bars : List Bar)
    (e : Symbol × List Bar) (he : e ∈ m.assign symbol bars) : e = (symbol, bars) ∨ e ∈ m := by
  induction m with
  | nil =>
      simp [assign] at he
      exact Or.inl he
  | cons x rest ih =>
      obtain ⟨k, v⟩ := x
      by_cases hk : k = symbol
      · simp only [assign, if_pos hk, List.mem_cons] at he
        rcases he with h1 | h1
        · exact Or.inl (by rw [h1, hk])
        · exact Or.inr (List.mem_cons_of_mem _ h1)
      · simp only [assign, if_neg hk, List.mem_cons] at he
        rcases he with h1 | h1
        · exact Or.inr (h1 ▸ List.mem_cons_self _ _)
        · rcases ih h1 with h | h
          · exact Or.inl h
          · exact Or.inr (List.mem_cons_of_mem _ h)

end SeriesMap

namespace MemoryTimeSeriesDB

theorem increasing_sorted {bars : List Bar} (h : Increasing bars) : Sorted bars :=
  List.Pairwise.imp (fun hab => le_of_lt hab) h

theorem increasing_unique_timestamp {bars : List Bar} (h : Increasing bars) {a b : Bar}
    (ha : a ∈ bars) (hb : b ∈ bars) (hts : a.timestamp = b.timestamp) : a = b := by
  induction bars with
  | nil => simp at ha
  | cons x rest ih =>
      have hx := List.pairwise_cons.mp h
      rcases List.mem_cons.mp ha with ha1 | ha1 <;> rcases List.mem_cons.mp hb with hb1 | hb1
      · rw [ha1, hb1]
      · have := hx.1 b hb1
        rw [← ha1, hts] at this
        exact absurd this (lt_irrefl _)
      · have := hx.1 a ha1
        rw [← hb1, hts] at this
        exact absurd this (lt_irrefl _)
      · exact ih hx.2 ha1 hb1

/-! ### `write_bar` -/

theorem place_nil (bar : Bar) : place [] bar = [bar] := by
  simp [place, lower_bound, insert_at]

theorem place_cons (x : Bar) (rest : List Bar) (bar : Bar) :
    place (x :: rest) bar =
      if x.timestamp < bar.timestamp then x :: place rest bar
      else if x.timestamp = bar.timestamp then bar :: rest
      else bar :: x :: rest := by
  by_cases h : x.timestamp < bar.timestamp
  · rw [if_pos h]
    simp only [place, lower_bound, List.takeWhile_cons, h, decide_True, if_true,
      List.length_cons, List.getElem?_cons_succ, insert_at, List.set_cons_succ,
      List.take_succ_cons, List.drop_succ_cons]
    cases rest[(List.takeWhile (fun b => decide (b.timestamp < bar.timestamp)) rest).length]? with
    | none => simp
    | some found =>
        dsimp only
        split_ifs <;> simp
  · rw [if_neg h]
    simp [place, lower_bound, List.takeWhile_cons, h, insert_at]

theorem mem_place (bars : List Bar) (bar b : Bar) (h : b ∈ place bars bar) :
    b = bar ∨ b ∈ bars := by
  induction bars with
  | nil =>
      rw [place_nil] at h
      exact Or.inl (List.mem_singleton.mp h)
  | cons x rest ih =>
      rw [place_cons] at h
      split_ifs at h with h1 h2
      · rcases List.mem_cons.mp h with h | h
        · exact Or.inr (h ▸ List.mem_cons_self _ _)
        · rcases ih h with h | h
          · exact Or.inl h
          · exact Or.inr (List.mem_cons_of_mem _ h)
      · rcases List.mem_cons.mp h with h | h
        · exact Or.inl h
        · exact Or.inr (List.mem_cons_of_mem _ h)
      · rcases List.mem_cons.mp h with h | h
        · exact Or.inl h
        · exact Or.inr h

theorem place_increasing (bars : List Bar) (bar : Bar) (h : Increasing bars) :
    Increasing (place bars bar) := by
  induction bars with
  | nil =>
      rw [place_nil]
      exact List.pairwise_singleton _ _
  | cons x rest ih =>
      have hx := List.pairwise_cons.mp h
      rw [place_cons]
      split_ifs with h1 h2
      · refine List.pairwise_cons.mpr ⟨?_, ih hx.2⟩
        intro y hy
        rcases mem_place rest bar y hy with hy | hy
        · rw [hy]; exact h1
        · exact hx.1 y hy
      · refine List.pairwise_cons.mpr ⟨?_, hx.2⟩
        intro y hy
        rw [← h2]
        exact hx.1 y hy
      · refine List.pairwise_cons.mpr ⟨?_, h⟩
        intro y hy
        have hlt : bar.timestamp < x.timestamp :=
          lt_of_le_of_ne (not_lt.mp h1) (Ne.symm h2)
        rcases List.mem_cons.mp hy with hy | hy
        · rw [hy]; exact hlt
        · exact lt_trans hlt (hx.1 y hy)

theorem place_same (bars : List Bar) (bar : Bar) (h : Increasing bars) :
    (place bars bar).filter (fun x => decide (x.timestamp = bar.timestamp)) = [bar] := by
  induction bars with
  | nil => simp [place_nil]
  | cons x rest ih =>
      have hx := List.pairwise_cons.mp h
      rw [place_cons]
      split_ifs with h1 h2
      · rw [List.filter_cons_of_neg (by simpa using ne_of_lt h1)]
        exact ih hx.2
      · rw [List.filter_cons_of_pos (by simp)]
        congr 1
        rw [List.filter_eq_nil_iff]
        intro y hy
        have := hx.1 y hy
        rw [h2] at this
        simpa using ne_of_gt this
      · rw [List.filter_cons_of_pos (by simp)]
        congr 1
        rw [List.filter_eq_nil_iff]
        intro y hy
        have hlt : bar.timestamp < x.timestamp :=
          lt_of_le_of_ne (not_lt.mp h1) (Ne.symm h2)
        rcases List.mem_cons.mp hy with hy | hy
        · rw [hy]; simpa using ne_of_gt hlt
        · simpa using ne_of_gt (lt_trans hlt (hx.1 y hy))

theorem place_others (bars : List Bar) (bar : Bar) (h : Increasing bars) :
    (place bars bar).filter (fun x => !decide (x.timestamp = bar.timestamp))
      = bars.filter (fun x => !decide (x.timestamp = bar.timestamp)) := by
  induction bars with
  | nil => simp [place_nil]
  | cons x rest ih =>
      have hx := List.pairwise_cons.mp h
      rw [place_cons]
      split_ifs with h1 h2
      · rw [List.filter_cons, List.filter_cons, ih hx.2]
      · rw [List.filter_cons_of_neg (by simp), List.filter_cons_of_neg (by simp [h2])]
      · rw [List.filter_cons_of_neg (by simp)]

theorem place_length (bars : List Bar) (bar : Bar) (h : Increasing bars) :
    (place bars bar).length
      = bars.length + (if bar.timestamp ∈ bars.map (fun x => x.timestamp) then 0 else 1) := by
  induction bars with
  | nil => simp [place_nil]
  | cons x rest ih =>
      have hx := List.pairwise_cons.mp h
      rw [place_cons]
      split_ifs with h1 h2 h3 h4 h5
      · simp only [List.length_cons, ih hx.2]
        simp only [List.map_cons, List.mem_cons] at h2
        rcases h2 with h2 | h2
        · rw [h2] at h1
          exact absurd h1 (lt_irrefl _)
        · rw [if_pos h2]
      · simp only [List.length_cons, ih hx.2]
        simp only [List.map_cons, List.mem_cons, not_or] at h2
        rw [if_neg h2.2]
      · simp
      · exfalso
        apply h4
        simp [h3]
      · exfalso
        simp only [List.map_cons, List.mem_cons, List.mem_map] at h5
        rcases h5 with h5 | ⟨y, hy, h5⟩
        · exact h3 h5.symm
        · have hlt : bar.timestamp < x.timestamp :=
            lt_of_le_of_ne (not_lt.mp h1) (Ne.symm h3)
          have := lt_trans hlt (hx.1 y hy)
          rw [h5] at this
          exact absurd this (lt_irrefl _)
      · simp


/-! ### `write_batch` -/

theorem merge_nil_right (xs : List Bar) : merge xs [] = xs := by
  induction xs with
  | nil => rfl
  | cons x xs ih => simp [merge, merge_next, ih]

theorem merge_cons_cons (x y : Bar) (xs ys : List Bar) :
    merge (x :: xs) (y :: ys) =
      if y.timestamp < x.timestamp then y :: merge (x :: xs) ys
      else x :: merge xs (y :: ys) := rfl

theorem mem_merge_iff (b : Bar) (xs : List Bar) :
    ∀ ys : List Bar, b ∈ merge xs ys ↔ b ∈ xs ∨ b ∈ ys := by
  induction xs with
  | nil => intro ys; simp [merge]
  | cons x xs ihx =>
      intro ys
      induction ys with
      | nil => simp [merge_nil_right]
      | cons y ys ihy =>
          rw [merge_cons_cons]
          split_ifs with h
          · rw [List.mem_cons, ihy]
            simp only [List.mem_cons]
            tauto
          · rw [List.mem_cons, ihx]
            simp only [List.mem_cons]
            tauto

theorem merge_sorted (xs : List Bar) :
    ∀ ys : List Bar, Sorted xs → Sorted ys → Sorted (merge xs ys) := by
  induction xs with
  | nil => intro ys _ hy; simpa [merge] using hy
  | cons x xs ihx =>
      intro ys
      induction ys with
      | nil => intro hx _; simpa [merge_nil_right] using hx
      | cons y ys ihy =>
          intro hx hy
          have hx1 := List.pairwise_cons.mp hx
          have hy1 := List.pairwise_cons.mp hy
          rw [merge_cons_cons]
          split_ifs with h
          · refine List.pairwise_cons.mpr ⟨?_, ihy hx hy1.2⟩
            intro b hb
            rcases (mem_merge_iff b (x :: xs) ys).mp hb with hb | hb
            · rcases List.mem_cons.mp hb with hb | hb
              · rw [hb]; exact le_of_lt h
              · exact le_trans (le_of_lt h) (hx1.1 b hb)
            · exact hy1.1 b hb
          · refine List.pairwise_cons.mpr ⟨?_, ihx (y :: ys) hx1.2 hy⟩
            intro b hb
            rcases (mem_merge_iff b xs (y :: ys)).mp hb with hb | hb
            · exact hx1.1 b hb
            · rcases List.mem_cons.mp hb with hb | hb
              · rw [hb]; exact not_lt.mp h
              · exact le_trans (not_lt.mp h) (hy1.1 b hb)

theorem unique_nil : unique [] = [] := rfl

theorem unique_cons (b : Bar) (rest : List Bar) :
    unique (b :: rest) = b :: unique_from b rest := rfl

theorem mem_unique_from (b : Bar) (l : List Bar) :
    ∀ kept : Bar, b ∈ unique_from kept l → b ∈ l := by
  induction l with
  | nil => intro kept h; simp [unique_from] at h
  | cons x rest ih =>
      intro kept h
      rw [unique_from] at h
      split_ifs at h with h1
      · exact List.mem_cons_of_mem _ (ih kept h)
      · rcases List.mem_cons.mp h with h | h
        · exact h ▸ List.mem_cons_self _ _
        · exact List.mem_cons_of_mem _ (ih x h)

theorem mem_unique (b : Bar) (l : List Bar) (h : b ∈ unique l) : b ∈ l := by
  cases l with
  | nil => simp [unique] at h
  | cons x rest =>
      rw [unique] at h
      rcases List.mem_cons.mp h with h | h
      · exact h ▸ List.mem_cons_self _ _
      · exact List.mem_cons_of_mem _ (mem_unique_from b rest x h)

theorem unique_from_increasing (l : List Bar) :
    ∀ kept : Bar, Sorted l → (∀ b ∈ l, kept.timestamp ≤ b.timestamp) →
      Increasing (unique_from kept l) ∧
        ∀ b ∈ unique_from kept l, kept.timestamp < b.timestamp := by
  induction l with
  | nil =>
      intro kept _ _
      simp [unique_from, Increasing]
  | cons x rest ih =>
      intro kept hs hk
      have hs1 := List.pairwise_cons.mp hs
      rw [unique_from]
      split_ifs with h1
      · exact ih kept hs1.2 (fun b hb => hk b (List.mem_cons_of_mem _ hb))
      · have hlt : kept.timestamp < x.timestamp :=
          lt_of_le_of_ne (hk x (List.mem_cons_self _ _)) h1
        obtain ⟨hinc, hgt⟩ := ih x hs1.2 hs1.1
        refine ⟨List.pairwise_cons.mpr ⟨hgt, hinc⟩, ?_⟩
        intro b hb
        rcases List.mem_cons.mp hb with hb | hb
        · rw [hb]; exact hlt
        · exact lt_trans hlt (hgt b hb)

theorem unique_increasing (l : List Bar) (h : Sorted l) : Increasing (unique l) := by
  cases l with
  | nil => simp [unique, Increasing]
  | cons x rest =>
      have hs1 := List.pairwise_cons.mp h
      obtain ⟨hinc, hgt⟩ := unique_from_increasing rest x hs1.2 hs1.1
      rw [unique]
      exact List.pairwise_cons.mpr ⟨hgt, hinc⟩

/-- A bar of the first range survives `std::merge` and `std::unique` when
the first range is strictly increasing and starts above the bar kept last. -/
theorem mem_unique_from_merge (xs : List Bar) :
    ∀ (ys : List Bar) (kept : Bar), Increasing xs →
      (∀ x ∈ xs, kept.timestamp < x.timestamp) →
      ∀ x ∈ xs, x ∈ unique_from kept (merge xs ys) := by
  induction xs with
  | nil => intro ys kept _ _ x hx; simp at hx
  | cons a xs ihx =>
      intro ys
      induction ys with
      | nil =>
          intro kept hinc hk x hx
          have ha := List.pairwise_cons.mp hinc
          rw [merge_nil_right, unique_from,
            if_neg (ne_of_lt (hk a (List.mem_cons_self _ _)))]
          rcases List.mem_cons.mp hx with hx | hx
          · rw [hx]; exact List.mem_cons_self _ _
          · have := ihx [] a ha.2 ha.1 x hx
            rw [merge_nil_right] at this
            exact List.mem_cons_of_mem _ this
      | cons y ys ihy =>
          intro kept hinc hk x hx
          have ha := List.pairwise_cons.mp hinc
          rw [merge_cons_cons]
          split_ifs with h
          · rw [unique_from]
            split_ifs with h1
            · exact ihy kept hinc hk x hx
            · refine List.mem_cons_of_mem _ (ihy y hinc ?_ x hx)
              intro z hz
              rcases List.mem_cons.mp hz with hz | hz
              · rw [hz]; exact h
              · exact lt_trans h (ha.1 z hz)
          · rw [unique_from, if_neg (ne_of_lt (hk a (List.mem_cons_self _ _)))]
            rcases List.mem_cons.mp hx with hx | hx
            · rw [hx]; exact List.mem_cons_self _ _
            · exact List.mem_cons_of_mem _ (ihx (y :: ys) a ha.2 ha.1 x hx)

/-- A stored bar survives `std::merge` and `std::unique` with a batch. -/
theorem mem_unique_merge (xs ys : List Bar) (hinc : Increasing xs) :
    ∀ x ∈ xs, x ∈ unique (merge xs ys) := by
  intro x hx
  cases xs with
  | nil => simp at hx
  | cons a xs =>
      have ha := List.pairwise_cons.mp hinc
      cases ys with
      | nil =>
          rw [merge_nil_right, unique]
          rcases List.mem_cons.mp hx with hx | hx
          · rw [hx]; exact List.mem_cons_self _ _
          · have := mem_unique_from_merge xs [] a ha.2 ha.1 x hx
            rw [merge_nil_right] at this
            exact List.mem_cons_of_mem _ this
      | cons y ys =>
          rw [merge_cons_cons]
          split_ifs with h
          · rw [unique]
            refine List.mem_cons_of_mem _ (mem_unique_from_merge (a :: xs) ys y hinc ?_ x hx)
            intro z hz
            rcases List.mem_cons.mp hz with hz | hz
            · rw [hz]; exact h
            · exact lt_trans h (ha.1 z hz)
          · rw [unique]
            rcases List.mem_cons.mp hx with hx | hx
            · rw [hx]; exact List.mem_cons_self _ _
            · exact List.mem_cons_of_mem _ (mem_unique_from_merge xs (y :: ys) a ha.2 ha.1 x hx)

theorem keyed_assign (m : SeriesMap) (symbol : Symbol) (bars : List Bar) (hm : Keyed m)
    (hb : ∀ b ∈ bars, b.symbol = symbol) : Keyed (m.assign symbol bars) := by
  intro e he b hbe
  rcases SeriesMap.series_entry_assign m symbol bars e he with h | h
  · rw [h] at hbe ⊢
    exact hb b hbe
  · exact hm e h b hbe

theorem keyed_get (m : SeriesMap) (symbol : Symbol) (hm : Keyed m) :
    ∀ b ∈ m.get symbol, b.symbol = symbol := by
  intro b hb
  unfold SeriesMap.get at hb
  cases hf : m.find symbol with
  | none => simp [hf] at hb
  | some bars =>
      rw [hf] at hb
      exact hm _ (SeriesMap.series_find_entry m symbol bars hf) b hb

theorem keyed_group_from (bars : List Bar) :
    ∀ grouped : SeriesMap, Keyed grouped →
      Keyed (bars.foldl
        (fun grouped bar => grouped.assign bar.symbol (grouped.get bar.symbol ++ [bar]))
        grouped) := by
  induction bars with
  | nil => intro grouped h; exact h
  | cons bar rest ih =>
      intro grouped h
      rw [List.foldl_cons]
      apply ih
      apply keyed_assign _ _ _ h
      intro b hb
      rcases List.mem_append.mp hb with hb | hb
      · exact keyed_get grouped bar.symbol h b hb
      · rw [List.mem_singleton.mp hb]

theorem keyed_group (bars : List Bar) : Keyed (group bars) :=
  keyed_group_from bars [] (fun e he => by simp at he)

/-! ### The writers keep every series strictly increasing -/

theorem sound_init : Sound init := by
  intro symbol bars h
  simp [init, SeriesMap.find] at h

theorem sound_get (db : MemoryTimeSeriesDB) (hdb : Sound db) (symbol : Symbol) :
    Increasing (db.data_.get symbol) ∧ ∀ b ∈ db.data_.get symbol, b.symbol = symbol := by
  unfold SeriesMap.get
  cases hf : db.data_.find symbol with
  | none => simp [Increasing]
  | some bars => exact hdb symbol bars hf

theorem sound_assign (db : MemoryTimeSeriesDB) (hdb : Sound db) (symbol : Symbol)
    (bars : List Bar) (hinc : Increasing bars) (hsym : ∀ b ∈ bars, b.symbol = symbol) :
    Sound { data_ := db.data_.assign symbol bars } := by
  intro other found hf
  by_cases h : other = symbol
  · subst h
    rw [SeriesMap.series_find_assign_key] at hf
    cases hf
    exact ⟨hinc, hsym⟩
  · rw [SeriesMap.series_find_assign_other _ _ _ _ h] at hf
    exact hdb other found hf

theorem sound_write_bar (db : MemoryTimeSeriesDB) (bar : Bar) (hdb : Sound db) :
    Sound (db.write_bar bar) := by
  obtain ⟨hinc, hsym⟩ := sound_get db hdb bar.symbol
  apply sound_assign db hdb
  · exact place_increasing _ _ hinc
  · intro b hb
    rcases mem_place _ _ _ hb with hb | hb
    · rw [hb]
    · exact hsym b hb

theorem sound_write_group (sort : List Bar → List Bar) (hsort : SortContract sort)
    (db : MemoryTimeSeriesDB) (hdb : Sound db) (entry : Symbol × List Bar)
    (he : ∀ b ∈ entry.2, b.symbol = entry.1) :
    Sound { data_ := write_group sort db.data_ entry } := by
  obtain ⟨hinc, hsym⟩ := sound_get db hdb entry.1
  apply sound_assign db hdb
  · exact unique_increasing _ (merge_sorted _ _ (increasing_sorted hinc) (hsort entry.2).2)
  · intro b hb
    rcases (mem_merge_iff b _ _).mp (mem_unique b _ hb) with hb | hb
    · exact hsym b hb
    · exact he b ((hsort entry.2).1.mem_iff.mp hb)

theorem sound_write_groups (sort : List Bar → List Bar) (hsort : SortContract sort)
    (groups : List (Symbol × List Bar)) :
    ∀ db : MemoryTimeSeriesDB, Sound db → Keyed groups →
      Sound { data_ := groups.foldl (write_group sort) db.data_ } := by
  induction groups with
  | nil => intro db hdb _; exact hdb
  | cons e rest ih =>
      intro db hdb hk
      rw [List.foldl_cons]
      exact ih { data_ := write_group sort db.data_ e }
        (sound_write_group sort hsort db hdb e (hk e (List.mem_cons_self _ _)))
        (fun e2 he2 => hk e2 (List.mem_cons_of_mem _ he2))

theorem sound_write_batch (sort : List Bar → List Bar) (hsort : SortContract sort)
    (db : MemoryTimeSeriesDB) (bars : List Bar) (hdb : Sound db) :
    Sound (db.write_batch sort bars) := by
  unfold write_batch
  split_ifs
  · exact hdb
  · exact sound_write_groups sort hsort (group bars) db hdb (keyed_group bars)

theorem sound_write (sort : List Bar → List Bar) (hsort : SortContract sort)
    (db : MemoryTimeSeriesDB) (call : Write) (hdb : Sound db) : Sound (db.write sort call) := by
  cases call with
  | bar bar => exact sound_write_bar db bar hdb
  | tick tick => exact sound_write_bar db _ hdb
  | batch bars => exact sound_write_batch sort hsort db bars hdb

theorem sound_writes (sort : List Bar → List Bar) (hsort : SortContract sort)
    (calls : List Write) :
    ∀ db : MemoryTimeSeriesDB, Sound db → Sound (db.writes sort calls) := by
  induction calls with
  | nil => intro db hdb; exact hdb
  | cons call rest ih =>
      intro db hdb
      exact ih _ (sound_write sort hsort db call hdb)

/-! ### `write_batch` keeps the bars already stored -/

theorem write_group_keeps (sort : List Bar → List Bar) (db : MemoryTimeSeriesDB)
    (hdb : Sound db) (entry : Symbol × List Bar) (symbol : Symbol) (bars : List Bar)
    (hf : db.data_.find symbol = some bars) :
    ∃ bars2, (write_group sort db.data_ entry).find symbol = some bars2 ∧
      ∀ b ∈ bars, b ∈ bars2 := by
  by_cases h : symbol = entry.1
  · subst h
    refine ⟨_, SeriesMap.series_find_assign_key _ _ _, ?_⟩
    rw [SeriesMap.series_get_of_find _ _ _ hf]
    exact mem_unique_merge bars _ (hdb _ bars hf).1
  · refine ⟨bars, ?_, fun b hb => hb⟩
    unfold write_group
    rw [SeriesMap.series_find_assign_other _ _ _ _ h]
    exact hf

theorem write_groups_keep (sort : List Bar → List Bar) (hsort : SortContract sort)
    (groups : List (Symbol × List Bar)) :
    ∀ (db : MemoryTimeSeriesDB), Sound db → Keyed groups →
      ∀ (symbol : Symbol) (bars : List Bar), db.data_.find symbol = some bars →
      ∃ bars2, (groups.foldl (write_group sort) db.data_).find symbol = some bars2 ∧
        ∀ b ∈ bars, b ∈ bars2 := by
  induction groups with
  | nil => intro db _ _ symbol bars hf; exact ⟨bars, hf, fun b hb => hb⟩
  | cons e rest ih =>
      intro db hdb hk symbol bars hf
      obtain ⟨bars1, hf1, h1⟩ := write_group_keeps sort db hdb e symbol bars hf
      obtain ⟨bars2, hf2, h2⟩ := ih { data_ := write_group sort db.data_ e }
        (sound_write_group sort hsort db hdb e (hk e (List.mem_cons_self _ _)))
        (fun e2 he2 => hk e2 (List.mem_cons_of_mem _ he2)) symbol bars1 hf1
      exact ⟨bars2, hf2, fun b hb => h2 b (h1 b hb)⟩

theorem write_batch_keeps (sort : List Bar → List Bar) (hsort : SortContract sort)
    (db : MemoryTimeSeriesDB) (hdb : Sound db) (batch : List Bar)
    (symbol : Symbol) (bars : List Bar) (hf : db.data_.find symbol = some bars) :
    ∃ bars2, (db.write_batch sort batch).data_.find symbol = some bars2 ∧
      ∀ b ∈ bars, b ∈ bars2 := by
  unfold write_batch
  split_ifs
  · exact ⟨bars, hf, fun b hb => hb⟩
  · exact write_groups_keep sort hsort (group batch) db hdb (keyed_group batch) symbol bars hf


/-! ### The readers -/

theorem take_takeWhile_length (p : Bar → Bool) (l : List Bar) :
    l.take (l.takeWhile p).length = l.takeWhile p := by
  induction l with
  | nil => rfl
  | cons x rest ih =>
      rw [List.takeWhile_cons]
      split_ifs with h
      · rw [List.length_cons, List.take_succ_cons, ih]
      · rfl

theorem drop_takeWhile_length (p : Bar → Bool) (l : List Bar) :
    l.drop (l.takeWhile p).length = l.dropWhile p := by
  induction l with
  | nil => rfl
  | cons x rest ih =>
      rw [List.takeWhile_cons, List.dropWhile_cons]
      split_ifs with h
      · rw [List.length_cons, List.drop_succ_cons, ih]
      · rfl

theorem takeWhile_of_imp (p q : Bar → Bool) (hpq : ∀ b, p b = true → q b = true)
    (l : List Bar) : l.takeWhile q = l.takeWhile p ++ (l.dropWhile p).takeWhile q := by
  induction l with
  | nil => rfl
  | cons x rest ih =>
      by_cases h : p x = true
      · rw [List.takeWhile_cons, if_pos (hpq x h), List.takeWhile_cons, if_pos h,
          List.dropWhile_cons, if_pos h, ih, List.cons_append]
      · rw [List.takeWhile_cons_of_neg h, List.dropWhile_cons_of_neg h, List.nil_append]

theorem takeWhile_sorted (q : Bar → Bool)
    (hq : ∀ a b : Bar, a.timestamp ≤ b.timestamp → q b = true → q a = true)
    (l : List Bar) (h : Sorted l) : l.takeWhile q = l.filter q := by
  induction l with
  | nil => rfl
  | cons x rest ih =>
      have hx := List.pairwise_cons.mp h
      by_cases hqx : q x = true
      · rw [List.takeWhile_cons, if_pos hqx, List.filter_cons_of_pos hqx, ih hx.2]
      · rw [List.takeWhile_cons_of_neg hqx, List.filter_cons_of_neg hqx]
        symm
        rw [List.filter_eq_nil_iff]
        intro y hy hqy
        exact hqx (hq x y (hx.1 y hy) hqy)

theorem dropWhile_sorted (p : Bar → Bool)
    (hp : ∀ a b : Bar, a.timestamp ≤ b.timestamp → p b = true → p a = true)
    (l : List Bar) (h : Sorted l) : l.dropWhile p = l.filter (fun b => !p b) := by
  induction l with
  | nil => rfl
  | cons x rest ih =>
      have hx := List.pairwise_cons.mp h
      by_cases hpx : p x = true
      · rw [List.dropWhile_cons, if_pos hpx, List.filter_cons_of_neg (by simp [hpx]), ih hx.2]
      · rw [List.dropWhile_cons_of_neg hpx, List.filter_cons_of_pos (by simp [hpx])]
        congr 1
        symm
        rw [List.filter_eq_self]
        intro y hy
        cases hpy : p y with
        | false => rfl
        | true => exact absurd (hp x y (hx.1 y hy) hpy) hpx

/-- On a sorted series and `start ≤ end_` the indices of `find_range` are in
order and delimit the bars of the interval. -/
theorem find_range_sorted (bars : List Bar) (start end_ : Timestamp) (h : Sorted bars)
    (hse : start ≤ end_) :
    lower_bound bars start ≤ upper_bound bars end_ ∧
      upper_bound bars end_ ≤ bars.length ∧
      (bars.drop (lower_bound bars start)).take
          (upper_bound bars end_ - lower_bound bars start)
        = bars.filter (fun b => decide (start ≤ b.timestamp ∧ b.timestamp ≤ end_)) := by
  have hsplit := takeWhile_of_imp (fun b => decide (b.timestamp < start))
    (fun b => !decide (end_ < b.timestamp))
    (fun b hb => by
      have h1 : b.timestamp < start := of_decide_eq_true hb
      have h2 : ¬ end_ < b.timestamp := not_lt.mpr (le_trans (le_of_lt h1) hse)
      simp [h2]) bars
  have hdrop := dropWhile_sorted (fun b => decide (b.timestamp < start))
    (fun a b hab hb => by
      have h1 : b.timestamp < start := of_decide_eq_true hb
      exact decide_eq_true (lt_of_le_of_lt hab h1)) bars h
  have hsorted2 : Sorted (bars.dropWhile (fun b => decide (b.timestamp < start))) :=
    List.Pairwise.sublist (List.dropWhile_sublist _) h
  have htake := takeWhile_sorted (fun b => !decide (end_ < b.timestamp))
    (fun a b hab hb => by
      have h1 : ¬ end_ < b.timestamp := by simpa using hb
      have h2 : ¬ end_ < a.timestamp := not_lt.mpr (le_trans hab (not_lt.mp h1))
      simp [h2]) _ hsorted2
  have hub : upper_bound bars end_ = lower_bound bars start
      + ((bars.dropWhile (fun b => decide (b.timestamp < start))).takeWhile
          (fun b => !decide (end_ < b.timestamp))).length := by
    unfold upper_bound lower_bound
    rw [hsplit, List.length_append]
  refine ⟨by rw [hub]; exact Nat.le_add_right _ _, (List.takeWhile_sublist _).length_le, ?_⟩
  rw [hub, Nat.add_sub_cancel_left]
  unfold lower_bound
  rw [drop_takeWhile_length, take_takeWhile_length, htake, hdrop, List.filter_filter]
  apply List.filter_congr
  intro b _
  by_cases h1 : b.timestamp < start <;> by_cases h2 : end_ < b.timestamp <;>
    simp [h1, h2, not_le.mpr, not_lt.mp]

theorem upper_bound_le (bars : List Bar) (ts : Timestamp) : upper_bound bars ts ≤ bars.length :=
  (List.takeWhile_sublist _).length_le

theorem read_bars_sorted (db : MemoryTimeSeriesDB) (symbol : Symbol) (start end_ : Timestamp)
    (h : Sorted (db.data_.get symbol)) (hse : start ≤ end_) :
    db.read_bars symbol start end_
      = some ((db.data_.get symbol).filter
          (fun b => decide (start ≤ b.timestamp ∧ b.timestamp ≤ end_))) := by
  unfold read_bars SeriesMap.get at *
  cases hf : db.data_.find symbol with
  | none => simp
  | some bars =>
      rw [hf] at h
      simp only [Option.getD_some] at h ⊢
      obtain ⟨h1, h2, h3⟩ := find_range_sorted bars start end_ h hse
      simp only [find_range]
      split_ifs with hge
      · rw [← h3, List.drop_of_length_le hge, List.take_nil]
      · rw [Nat.min_eq_left h2, copy_range, if_pos ⟨h1, h2⟩, h3]

theorem getLast_sorted (l : List Bar) (h : Sorted l) (x : Bar) (hx : l.getLast? = some x) :
    x ∈ l ∧ ∀ b ∈ l, b.timestamp ≤ x.timestamp := by
  obtain ⟨ys, rfl⟩ := List.getLast?_eq_some_iff.mp hx
  refine ⟨by simp, ?_⟩
  intro b hb
  rcases List.mem_append.mp hb with hb | hb
  · exact (List.pairwise_append.mp h).2.2 b hb x (List.mem_singleton_self x)
  · rw [List.mem_singleton.mp hb]

theorem read_latest_bar_eq (db : MemoryTimeSeriesDB) (symbol : Symbol) :
    db.read_latest_bar symbol = (db.data_.get symbol).getLast? := by
  unfold read_latest_bar SeriesMap.get
  cases hf : db.data_.find symbol with
  | none => rfl
  | some bars =>
      cases bars with
      | nil => rfl
      | cons x rest => simp

theorem get_bar_count_eq (db : MemoryTimeSeriesDB) (symbol : Symbol) :
    db.get_bar_count symbol = (db.data_.get symbol).length := by
  unfold get_bar_count SeriesMap.get
  cases hf : db.data_.find symbol <;> rfl

end MemoryTimeSeriesDB

/-! ## The order of ties after libstdc++'s `std::sort` -/

namespace Scenario

/-- What libstdc++'s `std::sort` makes of `tied_bars`, whatever its heap sort
does: the median-of-three step swaps the first bar with the middle one and the
partition swaps the bars pairwise from both ends. -/
theorem tied_bars_sorted (partial_sort : List Bar → List Bar) :
    StdSort.sort partial_sort tied_bars
      = some (["B", "S16", "S15", "S14", "S13", "S12", "S11", "S10", "S9", "A", "S7", "S6",
          "S5", "S4", "S3", "S2", "S1"].map (fun symbol => bar_of symbol 100 10)) := by
  rfl

theorem env_libstdcxx_tied_bars (partial_sort : List Bar → List Bar) :
    (env_libstdcxx partial_sort).sort tied_bars
      = ["B", "S16", "S15", "S14", "S13", "S12", "S11", "S10", "S9", "A", "S7", "S6",
          "S5", "S4", "S3", "S2", "S1"].map (fun symbol => bar_of symbol 100 10) := by
  show (StdSort.sort partial_sort tied_bars).getD tied_bars = _
  rw [tied_bars_sorted]
  rfl

theorem quiet_scripted (cfg : BacktestConfig) (script : Nat → List Action) :
    ∀ s ∈ ((Engine.init cfg).add_strategy (scripted script)).strategies_,
      Engine.FillQuiet s := by
  intro s hs
  simp only [Engine.add_strategy, Engine.init, List.nil_append, List.mem_singleton] at hs
  subst hs
  intro st fill v a ha
  simp [scripted] at ha

end Scenario

/-! ## Claims -/

/-- C1 fails as stated: in the buy-and-hold scenario, after `process_bar` of
the first bar the equity is 10000 while cash plus the value of the positions
is 9000. -/
theorem C1_counterexample :
    (((Scenario.engine (Scenario.config 10000 0 0) Scenario.buy_and_hold
        [Scenario.bar 1 100, Scenario.bar 2 110, Scenario.bar 3 120]).process_bar
          Scenario.env 4 (Scenario.bar 1 100)).map
      (fun e => (e.portfolio_.equity,
        e.portfolio_.cash
          + (e.portfolio_.positions.map (fun p => p.2.quantity * p.2.current_price)).sum))
      = some (10000, 9000)) ∧
    ¬ (|(10000 : ℚ) - 9000| < 1 / 1000000 * |(10000 : ℚ)|) := by
  constructor
  · simp [Scenario.engine, Scenario.config, Scenario.buy_and_hold, Scenario.bar, Scenario.env,
      Scenario.blank_order, Scenario.blank_fill,
      Engine.run, Engine.run_bars, Engine.process_bar, Engine.execute_pending, Engine.init,
      Engine.add_strategy, Engine.add_data, Engine.dispatch_init, Engine.dispatch_bar,
      Engine.dispatch_fill, Engine.call, Engine.update_portfolio, Engine.execute_order,
      Engine.view, Engine.perform, Engine.buy, Engine.sell, Engine.settle, Engine.make_fill,
      OrderMap.next, OrderMap.assign, OrderMap.modify, OrderMap.find, Positions.find,
      Positions.get, Positions.assign, Order.is_open, Order.is_buy, Fill.total_cost,
      Fill.notional, Position.market_value, Position.zero, List.range, List.range.loop,
      List.insertionSort, List.orderedInsert]
    norm_num
  · norm_num [abs_of_nonneg]

/-- C1 (amended). When `process_bar(B)` has completed, `portfolio.equity` is
the value the mark-to-market at the start of the call gave it: the cash before
the call plus `Σ quantity * current_price` over the positions as marked.  The
orders executed for `B` change cash and positions and leave equity as it is.
The call completes when no `on_fill` submits an order. -/
theorem C1_equity_after_process_bar {S : Type} (env : Env) (e : Engine S) (bar : Bar) :
    (∀ fuel e', e.process_bar env fuel bar = some e' →
      e'.portfolio_.equity
        = e.portfolio_.cash
          + ((e.update_portfolio bar).portfolio_.positions.map
              (fun p => p.2.quantity * p.2.current_price)).sum) ∧
    ((∀ s ∈ e.strategies_, Engine.FillQuiet s) →
      ∃ fuel e', e.process_bar env fuel bar = some e') := by
  constructor
  · intro fuel e' h
    unfold Engine.process_bar at h
    rw [Engine.execute_pending_equity env bar fuel _ _ _ h, Engine.dispatch_bar_portfolio]
    exact Engine.update_portfolio_equity e bar
  · exact Engine.process_bar_completes env e bar

/-- C1 (amended) in the buy-and-hold scenario: `process_bar` of the first bar
completes and leaves the equity at 10000. -/
theorem C1_equity_after_process_bar_witness :
    ∃ fuel e', (Scenario.engine (Scenario.config 10000 0 0) Scenario.buy_and_hold
        [Scenario.bar 1 100]).process_bar Scenario.env fuel (Scenario.bar 1 100) = some e' ∧
      e'.portfolio_.equity = 10000 := by
  have h := C1_equity_after_process_bar Scenario.env
    (Scenario.engine (Scenario.config 10000 0 0) Scenario.buy_and_hold [Scenario.bar 1 100])
    (Scenario.bar 1 100)
  obtain ⟨fuel, e', he⟩ := h.2 (Scenario.quiet_engine _ _ _ (fun _ _ _ => rfl))
  refine ⟨fuel, e', he, ?_⟩
  rw [h.1 fuel e' he]
  simp [Scenario.engine, Scenario.config, Engine.add_data, Engine.add_strategy, Engine.init,
    Engine.update_portfolio, Positions.find]


/-- C2. Mark-to-market (`BacktestEngine::update_portfolio`, and
`PortfolioManager::update_prices` for the priced symbols) sets the position of
the bar's symbol, if there is one, to `current_price = close` and
`unrealized_pnl = (close - avg_entry_price) * quantity`, leaves cash and every
other position as they were, creates no position, and sets
`equity = cash + Σ quantity * current_price` over all positions. -/
theorem C2_mark_to_market {S : Type} (e : Engine S) (bar : Bar)
    (state : PortfolioState) (prices : List (Symbol × ℚ)) :
    ((e.update_portfolio bar).portfolio_.cash = e.portfolio_.cash ∧
      (∀ pos, e.portfolio_.positions.find bar.symbol = some pos →
        (e.update_portfolio bar).portfolio_.positions.find bar.symbol =
          some { pos with
                 current_price := bar.close
                 unrealized_pnl := (bar.close - pos.avg_entry_price) * pos.quantity }) ∧
      (∀ s, s ≠ bar.symbol →
        (e.update_portfolio bar).portfolio_.positions.find s = e.portfolio_.positions.find s) ∧
      (e.update_portfolio bar).portfolio_.positions.map Prod.fst
        = e.portfolio_.positions.map Prod.fst ∧
      (e.update_portfolio bar).portfolio_.equity
        = (e.update_portfolio bar).portfolio_.cash +
          ((e.update_portfolio bar).portfolio_.positions.map
            (fun p => p.2.quantity * p.2.current_price)).sum) ∧
    ((PortfolioManager.update_prices state prices).cash = state.cash ∧
      (∀ s price pos, PortfolioManager.price_of prices s = some price →
        state.positions.find s = some pos →
        (PortfolioManager.update_prices state prices).positions.find s =
          some { pos with
                 current_price := price
                 unrealized_pnl := (price - pos.avg_entry_price) * pos.quantity }) ∧
      (∀ s, PortfolioManager.price_of prices s = none →
        (PortfolioManager.update_prices state prices).positions.find s
          = state.positions.find s) ∧
      (PortfolioManager.update_prices state prices).positions.map Prod.fst
        = state.positions.map Prod.fst ∧
      (PortfolioManager.update_prices state prices).equity
        = (PortfolioManager.update_prices state prices).cash +
          ((PortfolioManager.update_prices state prices).positions.map
            (fun p => p.2.quantity * p.2.current_price)).sum) := by
  refine ⟨⟨rfl, ?_, ?_, ?_, ?_⟩, ⟨rfl, ?_, ?_, ?_, ?_⟩⟩
  · intro pos h
    simp [Engine.update_portfolio, h, Positions.find_assign_self]
  · intro s hs
    cases h : e.portfolio_.positions.find bar.symbol with
    | none => simp [Engine.update_portfolio, h]
    | some pos => simp [Engine.update_portfolio, h, Positions.find_assign_ne _ _ _ _ hs]
  · cases h : e.portfolio_.positions.find bar.symbol with
    | none => simp [Engine.update_portfolio, h]
    | some pos => simp [Engine.update_portfolio, h, Positions.keys_assign _ _ _ _ h]
  · simp only [Engine.update_portfolio, Positions.foldl_market_value]
    rfl
  · intro s price pos hp hs
    simp only [PortfolioManager.update_prices]
    rw [Positions.find_map_keep _ _ _ s, Positions.find_eq_some _ _ _ hs]
    · simp [hp]
    · intro en; split <;> rfl
  · intro s hp
    simp only [PortfolioManager.update_prices]
    rw [Positions.find_map_keep _ _ _ s]
    · cases hs : state.positions.find s with
      | none => simp [Positions.find_eq_none _ _ hs]
      | some pos => simp [Positions.find_eq_some _ _ _ hs, hp]
    · intro en; split <;> rfl
  · simp only [PortfolioManager.update_prices, List.map_map]
    apply List.map_congr_left
    intro en _
    simp only [Function.comp]
    split <;> rfl
  · simp only [PortfolioManager.update_prices, Positions.foldl_market_value]
    rfl


/-- C3. A BUY fill of quantity `f > 0` at price `p` with commission `c` on a
flat or long position (quantity `q ≥ 0`, average entry `a`) leaves quantity
`q + f` and average entry `(a*q + p*f)/(q + f)`, and lowers cash by exactly
`f*p + c`; both in `PortfolioManager::update_position` and in the position and
cash update of `BacktestEngine::execute_order`. -/
theorem C3_buy_fill {S : Type} (state : PortfolioState) (fill : Fill)
    (env : Env) (e : Engine S) (k : OrderID) (order : Order) (price : ℚ)
    (hside : fill.side = OrderSide.BUY) (hf : 0 < fill.quantity)
    (hq : 0 ≤ (state.positions.get fill.symbol).quantity)
    (hoside : order.side = OrderSide.BUY) (hof : 0 < order.quantity)
    (hoq : 0 ≤ (e.portfolio_.positions.get order.symbol).quantity) :
    (((PortfolioManager.update_position state fill).positions.get fill.symbol).quantity
        = (state.positions.get fill.symbol).quantity + fill.quantity ∧
      ((PortfolioManager.update_position state fill).positions.get fill.symbol).avg_entry_price
        = ((state.positions.get fill.symbol).avg_entry_price
              * (state.positions.get fill.symbol).quantity + fill.price * fill.quantity)
            / ((state.positions.get fill.symbol).quantity + fill.quantity) ∧
      (PortfolioManager.update_position state fill).cash
        = state.cash - (fill.quantity * fill.price + fill.commission)) ∧
    (((e.execute_order env k order price).portfolio_.positions.get order.symbol).quantity
        = (e.portfolio_.positions.get order.symbol).quantity + order.quantity ∧
      ((e.execute_order env k order price).portfolio_.positions.get order.symbol).avg_entry_price
        = ((e.portfolio_.positions.get order.symbol).avg_entry_price
              * (e.portfolio_.positions.get order.symbol).quantity
            + (e.make_fill env order price).price * order.quantity)
            / ((e.portfolio_.positions.get order.symbol).quantity + order.quantity) ∧
      (e.execute_order env k order price).portfolio_.cash
        = e.portfolio_.cash
          - (order.quantity * (e.make_fill env order price).price
              + (e.make_fill env order price).commission)) := by
  have hne : (state.positions.get fill.symbol).quantity + fill.quantity ≠ 0 := by positivity
  have hone : (e.portfolio_.positions.get order.symbol).quantity + order.quantity ≠ 0 := by
    positivity
  have hbuy : order.is_buy = true := by simp [Order.is_buy, hoside]
  refine ⟨⟨?_, ?_, ?_⟩, ⟨?_, ?_, ?_⟩⟩
  · simp [PortfolioManager.update_position, PortfolioManager.fill_position, hside,
      Positions.get_assign_self]
  · simp [PortfolioManager.update_position, PortfolioManager.fill_position, hside,
      Positions.get_assign_self]
  · simp [PortfolioManager.update_position, hside, Fill.total_cost, Fill.notional]
  · simp [Engine.execute_order_portfolio, Engine.settle, hbuy, Positions.get_assign_self]
  · simp [Engine.execute_order_portfolio, Engine.settle, hbuy, Positions.get_assign_self]
  · simp [Engine.execute_order_portfolio, Engine.settle, hbuy, Fill.total_cost, Fill.notional,
      Engine.make_fill]

/-- C3 on a position of 5 units entered at 90: buying 10 at 100 with a
commission of 1. -/
theorem C3_buy_fill_witness :
    ((PortfolioManager.update_position Scenario.long_portfolio
        (Scenario.fill OrderSide.BUY 10 100 1)).positions.get "X").quantity = 5 + 10 ∧
    (PortfolioManager.update_position Scenario.long_portfolio
        (Scenario.fill OrderSide.BUY 10 100 1)).cash = 1000 - (10 * 100 + 1) ∧
    (((Scenario.holding_engine (Scenario.config 10000 0 0) OrderSide.BUY 10).execute_order
        Scenario.env 1 (Scenario.order OrderSide.BUY 10) 100).portfolio_.positions.get
          "X").quantity = 5 + 10 := by
  have h := C3_buy_fill Scenario.long_portfolio (Scenario.fill OrderSide.BUY 10 100 1)
    Scenario.env (Scenario.holding_engine (Scenario.config 10000 0 0) OrderSide.BUY 10) 1
    (Scenario.order OrderSide.BUY 10) 100 rfl
    (by norm_num [Scenario.fill])
    (by norm_num [Scenario.fill, Scenario.long_portfolio, Positions.get, Positions.find,
      Position.zero])
    rfl
    (by norm_num [Scenario.order])
    (by norm_num [Scenario.order, Scenario.holding_engine, Scenario.long_portfolio,
      Positions.get, Positions.find, Position.zero])
  refine ⟨?_, ?_, ?_⟩
  · simpa [Scenario.fill, Scenario.long_portfolio, Positions.get, Positions.find,
      Position.zero] using h.1.1
  · simpa [Scenario.fill, Scenario.long_portfolio] using h.1.2.2
  · simpa [Scenario.order, Scenario.holding_engine, Scenario.long_portfolio, Positions.get,
      Positions.find, Position.zero] using h.2.1

/-- C4. A SELL fill of quantity `f` at price `p` with commission `c`, applied
by `PortfolioManager::update_position` to a position of quantity `q` and
average entry `a`, raises `realized_pnl` by `(p - a) * f`, leaves quantity
`q - f`, raises cash by `f*p - c` and leaves `avg_entry_price` as it was.  This
holds in particular for `0 < f ≤ q` on a long position; the bounds are not
needed. -/
theorem C4_sell_fill (state : PortfolioState) (fill : Fill)
    (hside : fill.side = OrderSide.SELL) :
    ((PortfolioManager.update_position state fill).positions.get fill.symbol).realized_pnl
        = (state.positions.get fill.symbol).realized_pnl
          + (fill.price - (state.positions.get fill.symbol).avg_entry_price) * fill.quantity ∧
    ((PortfolioManager.update_position state fill).positions.get fill.symbol).quantity
        = (state.positions.get fill.symbol).quantity - fill.quantity ∧
    (PortfolioManager.update_position state fill).cash
        = state.cash + (fill.quantity * fill.price - fill.commission) ∧
    ((PortfolioManager.update_position state fill).positions.get fill.symbol).avg_entry_price
        = (state.positions.get fill.symbol).avg_entry_price := by
  refine ⟨?_, ?_, ?_, ?_⟩ <;>
    simp [PortfolioManager.update_position, PortfolioManager.fill_position, hside,
      Positions.get_assign_self, Fill.notional]


/-- C4 on a position of 5 units entered at 90: selling 2 at 100 with a
commission of 1. -/
theorem C4_sell_fill_witness :
    ((PortfolioManager.update_position Scenario.long_portfolio
        (Scenario.fill OrderSide.SELL 2 100 1)).positions.get "X").realized_pnl
      = 0 + (100 - 90) * 2 ∧
    (PortfolioManager.update_position Scenario.long_portfolio
        (Scenario.fill OrderSide.SELL 2 100 1)).cash = 1000 + (2 * 100 - 1) := by
  have h := C4_sell_fill Scenario.long_portfolio (Scenario.fill OrderSide.SELL 2 100 1) rfl
  refine ⟨?_, ?_⟩
  · simpa [Scenario.fill, Scenario.long_portfolio, Positions.get, Positions.find,
      Position.zero] using h.1
  · simpa [Scenario.fill, Scenario.long_portfolio] using h.2.2.1

/-- C5, what the code does.  Every order, buy or sell, is filled at
`p * (1 + slippage_bps/10000)`.  In the scenario of the claim (cash 10000,
slippage 50 bps, no commission, buy 10 at a close of 100, sell 10 at the next
close of 100) both fills are priced at 100.5, the sell too, and the final cash
is 10000, where the claim has the sell at 99.5 and the final cash at 9990. -/
theorem C5_sell_fill_price_in_code :
    (∀ (S : Type) (env : Env) (e : Engine S) (order : Order) (price : ℚ),
      (e.make_fill env order price).price = price * (1 + e.config_.slippage_bps / 10000)) ∧
    ((Scenario.engine (Scenario.config 10000 0 50) Scenario.buy_then_sell
        [Scenario.bar 1 100, Scenario.bar 2 100]).run Scenario.env 4).map
      (fun e => ((fills_of e.log).map (fun f => (f.side, f.price)), e.portfolio_.cash))
      = some ([(OrderSide.BUY, 201 / 2), (OrderSide.SELL, 201 / 2)], 10000) := by
  refine ⟨fun _ _ _ _ _ => rfl, ?_⟩
  simp [Scenario.engine, Scenario.config, Scenario.buy_then_sell, Scenario.bar, Scenario.env,
    Scenario.blank_order, Scenario.blank_fill, fills_of,
    Engine.run, Engine.run_bars, Engine.process_bar, Engine.execute_pending, Engine.init,
    Engine.add_strategy, Engine.add_data, Engine.dispatch_init, Engine.dispatch_bar,
    Engine.dispatch_fill, Engine.call, Engine.update_portfolio, Engine.execute_order,
    Engine.view, Engine.perform, Engine.buy, Engine.sell, Engine.settle, Engine.make_fill,
    OrderMap.next, OrderMap.assign, OrderMap.modify, OrderMap.find, Positions.find,
    Positions.get, Positions.assign, Order.is_open, Order.is_buy, Fill.total_cost,
    Fill.notional, Position.market_value, Position.zero, List.range, List.range.loop,
    List.insertionSort, List.orderedInsert]
  norm_num


/-- C6 fails as stated: an order of quantity 10 executed against a close of
-100 at a commission rate of 0.01 gets `commission = -10`, while
`|quantity * fill_price| * commission_rate = 10`. -/
theorem C6_counterexample :
    0 < (Scenario.order OrderSide.BUY 10).quantity ∧
    ((Engine.init (Scenario.config 10000 (1 / 100) 0) : Engine Nat).make_fill Scenario.env
        (Scenario.order OrderSide.BUY 10) (-100)).commission = -10 ∧
    ((Engine.init (Scenario.config 10000 (1 / 100) 0) : Engine Nat).make_fill Scenario.env
        (Scenario.order OrderSide.BUY 10) (-100)).commission ≠
    |(Scenario.order OrderSide.BUY 10).quantity
        * ((Engine.init (Scenario.config 10000 (1 / 100) 0) : Engine Nat).make_fill
            Scenario.env (Scenario.order OrderSide.BUY 10) (-100)).price|
      * (Engine.init (Scenario.config 10000 (1 / 100) 0) : Engine Nat).config_.commission_rate := by
  refine ⟨?_, ?_, ?_⟩
  · norm_num [Scenario.order]
  · norm_num [Engine.make_fill, Engine.init, Scenario.config, Scenario.order,
      Scenario.blank_order]
  · norm_num [Engine.make_fill, Engine.init, Scenario.config, Scenario.order,
      Scenario.blank_order, abs_of_nonneg]

/-- C6 (amended). For every order of positive quantity that the engine
executes at a fill price that is not negative,
`fill.commission = |quantity * fill_price| * commission_rate`.  With cash 10000,
commission rate 0.01 and no slippage, buying 10 units on a bar closing at 100
leaves cash 8990, and after the bar closing at 120 is marked to market the
equity is 10190. -/
theorem C6_commission :
    (∀ (S : Type) (env : Env) (e : Engine S) (order : Order) (price : ℚ),
      0 < order.quantity → 0 ≤ (e.make_fill env order price).price →
      (e.make_fill env order price).commission
        = |order.quantity * (e.make_fill env order price).price| * e.config_.commission_rate) ∧
    ((Scenario.engine (Scenario.config 10000 (1 / 100) 0) Scenario.buy_and_hold
        [Scenario.bar 1 100]).run Scenario.env 4).map (fun e => e.portfolio_.cash)
      = some 8990 ∧
    ((Scenario.engine (Scenario.config 10000 (1 / 100) 0) Scenario.buy_and_hold
        [Scenario.bar 1 100, Scenario.bar 2 110, Scenario.bar 3 120]).run Scenario.env 4).map
        (fun e => e.portfolio_.equity)
      = some 10190 := by
  refine ⟨?_, ?_, ?_⟩
  · intro S env e order price hq hp
    have h : 0 ≤ order.quantity * (e.make_fill env order price).price :=
      mul_nonneg (le_of_lt hq) hp
    rw [abs_of_nonneg h]
    simp [Engine.make_fill]
  · simp [Scenario.engine, Scenario.config, Scenario.buy_and_hold, Scenario.bar, Scenario.env,
      Scenario.blank_order, Scenario.blank_fill,
      Engine.run, Engine.run_bars, Engine.process_bar, Engine.execute_pending, Engine.init,
      Engine.add_strategy, Engine.add_data, Engine.dispatch_init, Engine.dispatch_bar,
      Engine.dispatch_fill, Engine.call, Engine.update_portfolio, Engine.execute_order,
      Engine.view, Engine.perform, Engine.buy, Engine.sell, Engine.settle, Engine.make_fill,
      OrderMap.next, OrderMap.assign, OrderMap.modify, OrderMap.find, Positions.find,
      Positions.get, Positions.assign, Order.is_open, Order.is_buy, Fill.total_cost,
      Fill.notional, Position.market_value, Position.zero, List.range, List.range.loop,
      List.insertionSort, List.orderedInsert]
    norm_num
  · simp [Scenario.engine, Scenario.config, Scenario.buy_and_hold, Scenario.bar, Scenario.env,
      Scenario.blank_order, Scenario.blank_fill,
      Engine.run, Engine.run_bars, Engine.process_bar, Engine.execute_pending, Engine.init,
      Engine.add_strategy, Engine.add_data, Engine.dispatch_init, Engine.dispatch_bar,
      Engine.dispatch_fill, Engine.call, Engine.update_portfolio, Engine.execute_order,
      Engine.view, Engine.perform, Engine.buy, Engine.sell, Engine.settle, Engine.make_fill,
      OrderMap.next, OrderMap.assign, OrderMap.modify, OrderMap.find, Positions.find,
      Positions.get, Positions.assign, Order.is_open, Order.is_buy, Fill.total_cost,
      Fill.notional, Position.market_value, Position.zero, List.range, List.range.loop,
      List.insertionSort, List.orderedInsert]
    norm_num

/-- C6 (amended) for an order of 10 units executed at 100 with a commission
rate of 0.01. -/
theorem C6_commission_witness :
    ((Engine.init (Scenario.config 10000 (1 / 100) 0) : Engine Nat).make_fill Scenario.env
        (Scenario.order OrderSide.BUY 10) 100).commission
      = |(10 : ℚ) * 100| * (1 / 100) := by
  have h := C6_commission.1 Nat Scenario.env (Engine.init (Scenario.config 10000 (1 / 100) 0))
    (Scenario.order OrderSide.BUY 10) 100 (by norm_num [Scenario.order])
    (by norm_num [Engine.make_fill, Engine.init, Scenario.config])
  simpa [Engine.make_fill, Engine.init, Scenario.config, Scenario.order,
    Scenario.blank_order] using h


/-- C7 (amended). A position opened from flat by a buy of `q > 0` at `b` and
closed by a sell of the same `q` at `s` ends with quantity 0.  Under
`PortfolioManager::update_position` its `realized_pnl` has grown by exactly
`(s - b) * q`: commissions are not deducted from it, they are added to
`total_commission`.  Under `BacktestEngine::execute_order` the quantity ends
at 0 as well. -/
theorem C7_round_trip {S : Type} (state : PortfolioState) (buy sell : Fill)
    (env : Env) (e : Engine S) (k1 k2 : OrderID) (o1 o2 : Order) (p1 p2 : ℚ)
    (hbuy : buy.side = OrderSide.BUY) (hsell : sell.side = OrderSide.SELL)
    (hsym : sell.symbol = buy.symbol) (hqty : sell.quantity = buy.quantity)
    (hpos : 0 < buy.quantity)
    (hflat : (state.positions.get buy.symbol).quantity = 0)
    (ho1 : o1.side = OrderSide.BUY) (ho2 : o2.side = OrderSide.SELL)
    (hosym : o2.symbol = o1.symbol) (hoqty : o2.quantity = o1.quantity)
    (hopos : 0 < o1.quantity)
    (hoflat : (e.portfolio_.positions.get o1.symbol).quantity = 0) :
    (((PortfolioManager.update_position (PortfolioManager.update_position state buy)
          sell).positions.get buy.symbol).quantity = 0 ∧
      ((PortfolioManager.update_position (PortfolioManager.update_position state buy)
          sell).positions.get buy.symbol).realized_pnl
        = (state.positions.get buy.symbol).realized_pnl
          + (sell.price - buy.price) * buy.quantity ∧
      ((PortfolioManager.update_position (PortfolioManager.update_position state buy)
          sell).positions.get buy.symbol).total_commission
        = (state.positions.get buy.symbol).total_commission
          + buy.commission + sell.commission) ∧
    (((e.execute_order env k1 o1 p1).execute_order env k2 o2 p2).portfolio_.positions.get
        o1.symbol).quantity = 0 := by
  have hq : buy.quantity ≠ 0 := ne_of_gt hpos
  have _hoq : o1.quantity ≠ 0 := ne_of_gt hopos
  have hb2 : o2.is_buy = false := by simp [Order.is_buy, ho2]
  have hb1 : o1.is_buy = true := by simp [Order.is_buy, ho1]
  refine ⟨⟨?_, ?_, ?_⟩, ?_⟩
  · simp [PortfolioManager.update_position, PortfolioManager.fill_position, hbuy, hsell, hsym,
      hqty, hflat, Positions.get_assign_self]
  · simp [PortfolioManager.update_position, PortfolioManager.fill_position, hbuy, hsell, hsym,
      hqty, hflat, Positions.get_assign_self, hq]
  · simp [PortfolioManager.update_position, PortfolioManager.fill_position, hbuy, hsell, hsym,
      hqty, hflat, Positions.get_assign_self]
  · simp [Engine.execute_order_portfolio, Engine.settle, hb1, hb2, hosym, hoqty, hoflat,
      Positions.get_assign_self]

/-- C7 (amended) for 10 units bought at 100 and sold at 110, each fill paying
a commission of 1. -/
theorem C7_round_trip_witness :
    ((PortfolioManager.update_position
        (PortfolioManager.update_position (PortfolioManager.init 10000)
          (Scenario.fill OrderSide.BUY 10 100 1))
        (Scenario.fill OrderSide.SELL 10 110 1)).positions.get "X").realized_pnl
      = 0 + (110 - 100) * 10 := by
  have h := C7_round_trip (PortfolioManager.init 10000)
    (Scenario.fill OrderSide.BUY 10 100 1) (Scenario.fill OrderSide.SELL 10 110 1)
    Scenario.env (Engine.init (Scenario.config 10000 0 0) : Engine Nat) 1 3
    (Scenario.order OrderSide.BUY 10) (Scenario.order OrderSide.SELL 10) 100 110
    rfl rfl rfl rfl (by norm_num [Scenario.fill])
    (by simp [PortfolioManager.init, Positions.get, Positions.find, Position.zero])
    rfl rfl rfl rfl (by norm_num [Scenario.order])
    (by simp [Engine.init, Positions.get, Positions.find, Position.zero])
  simpa [Scenario.fill, PortfolioManager.init, Positions.get, Positions.find,
    Position.zero] using h.1.2.1

/-- C7 fails as stated: with `PortfolioManager::update_position`, buying 10 at
100 and selling 10 at 110, each fill paying a commission of 1, leaves quantity 0
and `realized_pnl = 100`, so `|realized_pnl - (s - b)*q + commissions| = 2`. -/
theorem C7_counterexample :
    ((PortfolioManager.update_position
        (PortfolioManager.update_position (PortfolioManager.init 10000)
          (Scenario.fill OrderSide.BUY 10 100 1))
        (Scenario.fill OrderSide.SELL 10 110 1)).positions.get "X").quantity = 0 ∧
    ¬ (|((PortfolioManager.update_position
        (PortfolioManager.update_position (PortfolioManager.init 10000)
          (Scenario.fill OrderSide.BUY 10 100 1))
        (Scenario.fill OrderSide.SELL 10 110 1)).positions.get "X").realized_pnl
        - (110 - 100) * 10 + (1 + 1)| < 1 / 1000000000) := by
  constructor
  · simp [PortfolioManager.update_position, PortfolioManager.fill_position, Scenario.fill,
      Scenario.blank_fill, PortfolioManager.init, Positions.get, Positions.find,
      Positions.assign, Position.zero]
  · simp [PortfolioManager.update_position, PortfolioManager.fill_position, Scenario.fill,
      Scenario.blank_fill, PortfolioManager.init, Positions.get, Positions.find,
      Positions.assign, Position.zero]
    norm_num


/-- C8 fails as stated: the equity after the three bars of the buy-and-hold
scenario is 10000, 10100, 10200, not 10000, 11000, 12000. -/
theorem C8_counterexample :
    (Scenario.engine (Scenario.config 10000 0 0) Scenario.buy_and_hold
        [Scenario.bar 1 100, Scenario.bar 2 110, Scenario.bar 3 120]).equity_curve
          Scenario.env 4
      ≠ some [10000, 11000, 12000] := by
  simp [Scenario.engine, Scenario.config, Scenario.buy_and_hold, Scenario.bar, Scenario.env,
    Scenario.blank_order, Scenario.blank_fill, Engine.equity_curve,
    Engine.equity_after_each_bar,
    Engine.run, Engine.run_bars, Engine.process_bar, Engine.execute_pending, Engine.init,
    Engine.add_strategy, Engine.add_data, Engine.dispatch_init, Engine.dispatch_bar,
    Engine.dispatch_fill, Engine.call, Engine.update_portfolio, Engine.execute_order,
    Engine.view, Engine.perform, Engine.buy, Engine.sell, Engine.settle, Engine.make_fill,
    OrderMap.next, OrderMap.assign, OrderMap.modify, OrderMap.find, Positions.find,
    Positions.get, Positions.assign, Order.is_open, Order.is_buy, Fill.total_cost,
    Fill.notional, Position.market_value, Position.zero, List.range, List.range.loop,
    List.insertionSort, List.orderedInsert]
  norm_num

/-- C8 (amended). In the buy-and-hold scenario (cash 10000, no commission,
no slippage, symbol "X" closing at 100, 110, 120 at timestamps 1, 2, 3, a
strategy that buys 10 units on the first bar) the equity after each of the
three bars is 10000, 10100, 10200, and the final position of "X" has quantity
10, `avg_entry_price` 100 and `unrealized_pnl` 200. -/
theorem C8_buy_and_hold :
    (Scenario.engine (Scenario.config 10000 0 0) Scenario.buy_and_hold
        [Scenario.bar 1 100, Scenario.bar 2 110, Scenario.bar 3 120]).equity_curve
          Scenario.env 4
      = some [10000, 10100, 10200] ∧
    ((Scenario.engine (Scenario.config 10000 0 0) Scenario.buy_and_hold
        [Scenario.bar 1 100, Scenario.bar 2 110, Scenario.bar 3 120]).run Scenario.env 4).map
      (fun e => (e.portfolio_.positions.find "X").map
        (fun p => (p.quantity, p.avg_entry_price, p.unrealized_pnl)))
      = some (some (10, 100, 200)) := by
  constructor
  · simp [Scenario.engine, Scenario.config, Scenario.buy_and_hold, Scenario.bar, Scenario.env,
      Scenario.blank_order, Scenario.blank_fill, Engine.equity_curve,
      Engine.equity_after_each_bar,
      Engine.run, Engine.run_bars, Engine.process_bar, Engine.execute_pending, Engine.init,
      Engine.add_strategy, Engine.add_data, Engine.dispatch_init, Engine.dispatch_bar,
      Engine.dispatch_fill, Engine.call, Engine.update_portfolio, Engine.execute_order,
      Engine.view, Engine.perform, Engine.buy, Engine.sell, Engine.settle, Engine.make_fill,
      OrderMap.next, OrderMap.assign, OrderMap.modify, OrderMap.find, Positions.find,
      Positions.get, Positions.assign, Order.is_open, Order.is_buy, Fill.total_cost,
      Fill.notional, Position.market_value, Position.zero, List.range, List.range.loop,
      List.insertionSort, List.orderedInsert]
    norm_num
  · simp [Scenario.engine, Scenario.config, Scenario.buy_and_hold, Scenario.bar, Scenario.env,
      Scenario.blank_order, Scenario.blank_fill,
      Engine.run, Engine.run_bars, Engine.process_bar, Engine.execute_pending, Engine.init,
      Engine.add_strategy, Engine.add_data, Engine.dispatch_init, Engine.dispatch_bar,
      Engine.dispatch_fill, Engine.call, Engine.update_portfolio, Engine.execute_order,
      Engine.view, Engine.perform, Engine.buy, Engine.sell, Engine.settle, Engine.make_fill,
      OrderMap.next, OrderMap.assign, OrderMap.modify, OrderMap.find, Positions.find,
      Positions.get, Positions.assign, Order.is_open, Order.is_buy, Fill.total_cost,
      Fill.notional, Position.market_value, Position.zero, List.range, List.range.loop,
      List.insertionSort, List.orderedInsert]
    norm_num


/-- C9. For every bar `B`, what a completed `process_bar(B)` has appended to
the log is first the `on_bar(B)` callbacks of all strategies in registration
order, with the submissions they make, and only then the executions.  Every
order submitted during `on_bar(B)` is in the order map when the last
`on_bar(B)` has returned, hence before any execution attempt for `B`; if it is
on `B.symbol` and still open then, it is executed in this call, unless a
callback cancels it first.  Every execution hands its fill to `on_fill` of all
strategies in registration order.  The call completes when no `on_fill`
submits an order. -/
theorem C9_fills_follow_on_bar {S : Type} (env : Env) (e : Engine S) (bar : Bar)
    (hwf : e.WF) :
    (∀ fuel e', e.process_bar env fuel bar = some e' →
      ∃ A B,
        ((e.update_portfolio bar).dispatch_bar env bar).log = e.log ++ A ∧
        e'.log = e.log ++ A ++ B ∧
        DispatchLog (fun i => Event.bar_enter i bar) (fun i => Event.bar_return i bar)
          e.strategies_.length A ∧
        ExecPhase e.strategies_.length B ∧
        ∀ id, Event.submitted id ∈ A →
          ∃ o, ((e.update_portfolio bar).dispatch_bar env bar).orders_.find id = some o ∧
            (o.is_open = true → o.symbol = bar.symbol →
              Event.cancel_called id ∈ B ∨ ∃ p, Event.execute_enter id p ∈ B)) ∧
    ((∀ s ∈ e.strategies_, Engine.FillQuiet s) →
      ∃ fuel e', e.process_bar env fuel bar = some e') := by
  refine ⟨?_, Engine.process_bar_completes env e bar⟩
  intro fuel e' h
  obtain ⟨A, hshape, hA⟩ := Engine.step_dispatch_bar env (e.update_portfolio bar) bar
  have hwf1 := hA.wf (Engine.wf_update_portfolio e bar hwf)
  obtain ⟨B, hphase, hB, _, hrest⟩ := Engine.execute_pending_log env bar fuel none _ e' hwf1 h
  refine ⟨A, B, hA.log, ?_, hshape, ?_, ?_⟩
  · rw [hB.log, hA.log]; rfl
  · rw [hA.strategies] at hphase
    exact hphase
  · intro id hid
    obtain ⟨o, ho⟩ := OrderMap.find_of_key _ _ (hA.submitted id hid).1
    refine ⟨o, ho, ?_⟩
    intro hopen hsym
    exact hrest id (fun k hk => by cases hk) ⟨o, ho, hopen, hsym⟩

/-- C9 in the buy-and-hold scenario: `process_bar` of the first bar completes
and its log is the `on_bar` phase followed by the execution phase. -/
theorem C9_fills_follow_on_bar_witness :
    ∃ fuel e' A B,
      (Scenario.engine (Scenario.config 10000 0 0) Scenario.buy_and_hold
        [Scenario.bar 1 100]).process_bar Scenario.env fuel (Scenario.bar 1 100) = some e' ∧
      e'.log = A ++ B ∧
      DispatchLog (fun i => Event.bar_enter i (Scenario.bar 1 100))
        (fun i => Event.bar_return i (Scenario.bar 1 100)) 1 A ∧
      ExecPhase 1 B := by
  have h := C9_fills_follow_on_bar Scenario.env
    (Scenario.engine (Scenario.config 10000 0 0) Scenario.buy_and_hold [Scenario.bar 1 100])
    (Scenario.bar 1 100) (Scenario.wf_engine _ _ _)
  obtain ⟨fuel, e', he⟩ := h.2 (Scenario.quiet_engine _ _ _ (fun _ _ _ => rfl))
  obtain ⟨A, B, _, hlog, hA, hB, _⟩ := h.1 fuel e' he
  refine ⟨fuel, e', A, B, he, ?_, ?_, ?_⟩
  · simpa [Scenario.engine, Engine.add_data, Engine.add_strategy, Engine.init] using hlog
  · simpa [Scenario.engine, Engine.add_data, Engine.add_strategy, Engine.init] using hA
  · simpa [Scenario.engine, Engine.add_data, Engine.add_strategy, Engine.init] using hB

/-- C10. Within one completed `process_bar` call the executions come after
the `on_bar` callbacks and read as a sequence: every order taken up has a
larger id than the one taken up before it and sees the portfolio exactly as the
fill before it left it (the first one sees the portfolio as marked to market),
and every fill has moved cash and its position by then.  The ids handed out by
`buy` and `sell` during the call are ascending in submission order and above
every id handed out before.  The call completes when no `on_fill` submits an
order. -/
theorem C10_orders_execute_in_id_order {S : Type} (env : Env) (e : Engine S) (bar : Bar)
    (hwf : e.WF) :
    (∀ fuel e', e.process_bar env fuel bar = some e' →
      ∃ A B,
        e'.log = e.log ++ A ++ B ∧
        (∀ ev ∈ A, ev.is_execution = false) ∧
        Sequential (e.update_portfolio bar).portfolio_ none B e'.portfolio_ ∧
        (submitted_ids (A ++ B)).Pairwise (fun a b => a < b) ∧
        ∀ id ∈ submitted_ids (A ++ B),
          e.next_order_id_ ≤ id ∧ ∀ en ∈ e.orders_, en.1 < id) ∧
    ((∀ s ∈ e.strategies_, Engine.FillQuiet s) →
      ∃ fuel e', e.process_bar env fuel bar = some e') := by
  refine ⟨?_, Engine.process_bar_completes env e bar⟩
  intro fuel e' h
  obtain ⟨A, hshape, hA⟩ := Engine.step_dispatch_bar env (e.update_portfolio bar) bar
  have hwf1 := hA.wf (Engine.wf_update_portfolio e bar hwf)
  obtain ⟨B, _, hB, hseq, _⟩ := Engine.execute_pending_log env bar fuel none _ e' hwf1 h
  have hAB := hA.trans hB
  refine ⟨A, B, ?_, ?_, ?_, hAB.ascending, ?_⟩
  · rw [hAB.log, List.append_assoc]; rfl
  · exact dispatch_log_no_execution (fun i => Event.bar_enter i bar)
      (fun i => Event.bar_return i bar) _ _ (fun _ => rfl) (fun _ => rfl) hshape
  · rw [Engine.dispatch_bar_portfolio] at hseq
    exact hseq
  · intro id hid
    have hle := (hAB.submitted id ((mem_submitted_ids _ _).mp hid)).2.1
    refine ⟨hle, fun en hen => Nat.lt_of_lt_of_le (hwf.2 en hen).1 hle⟩

/-- C10 for a strategy that calls `sell("X", 3)` and then `buy("X", 10)` in
`on_bar` of the first bar, closing at 100, with 10000 in cash: `process_bar`
completes; order 1 (the sell) is taken up first, with cash 10000, and its fill
has id 3; order 2 (the buy) is taken up second and sees cash 10300 and the
position -3 the first fill left; its fill has id 4 and leaves cash 9300 and a
position of 7. -/
theorem C10_orders_execute_in_id_order_witness :
    ∃ e' A B,
      (Scenario.engine (Scenario.config 10000 0 0)
        (Scenario.scripted (fun n =>
          if n = 0 then [Action.sell "X" 3 0, Action.buy "X" 10 0] else []))
        [Scenario.bar 1 100]).process_bar Scenario.env 3 (Scenario.bar 1 100) = some e' ∧
      e'.log = A ++ B ∧
      (∀ ev ∈ A, ev.is_execution = false) ∧
      Sequential (Scenario.engine (Scenario.config 10000 0 0)
        (Scenario.scripted (fun n =>
          if n = 0 then [Action.sell "X" 3 0, Action.buy "X" 10 0] else []))
        [Scenario.bar 1 100]).portfolio_ none B e'.portfolio_ ∧
      submitted_ids (A ++ B) = [1, 2] ∧
      e'.log.filterMap (fun ev => match ev with
        | Event.execute_enter id before =>
            some (id, before.cash, (before.positions.get "X").quantity)
        | _ => none) = [(1, 10000, 0), (2, 10300, -3)] ∧
      (fills_of e'.log).map (fun f => (f.id, f.order_id, f.side, f.quantity))
        = [(3, 1, OrderSide.SELL, 3), (4, 2, OrderSide.BUY, 10)] ∧
      e'.portfolio_.cash = 9300 ∧
      (e'.portfolio_.positions.get "X").quantity = 7 ∧
      e'.next_order_id_ = 5 := by
  have heval : ((Scenario.engine (Scenario.config 10000 0 0)
        (Scenario.scripted (fun n =>
          if n = 0 then [Action.sell "X" 3 0, Action.buy "X" 10 0] else []))
        [Scenario.bar 1 100]).process_bar Scenario.env 3 (Scenario.bar 1 100)).map
      (fun e => (submitted_ids e.log,
        e.log.filterMap (fun ev => match ev with
          | Event.execute_enter id before =>
              some (id, before.cash, (before.positions.get "X").quantity)
          | _ => none),
        (fills_of e.log).map (fun f => (f.id, f.order_id, f.side, f.quantity)),
        e.portfolio_.cash, (e.portfolio_.positions.get "X").quantity, e.next_order_id_))
      = some ([1, 2], [(1, 10000, 0), (2, 10300, -3)],
          [(3, 1, OrderSide.SELL, 3), (4, 2, OrderSide.BUY, 10)], 9300, 7, 5) := by
    simp [Scenario.engine, Scenario.config, Scenario.scripted, Scenario.buy_and_hold,
    Scenario.buy_then_sell, Scenario.bar, Scenario.bar_of, Scenario.ohlc, Scenario.env,
    Scenario.env_at, Scenario.env_junk,
    Scenario.blank_order, Scenario.blank_fill, fills_of, bars_delivered,
    Engine.equity_curve, Engine.equity_after_each_bar,
    Engine.run, Engine.run_bars, Engine.process_bar, Engine.execute_pending, Engine.init,
    Engine.add_strategy, Engine.add_data, Engine.dispatch_init, Engine.dispatch_bar,
    Engine.dispatch_fill, Engine.call, Engine.update_portfolio, Engine.execute_order,
    Engine.view, Engine.perform, Engine.buy, Engine.sell, Engine.cancel_order, Engine.settle,
    Engine.make_fill, OrderMap.next, OrderMap.assign, OrderMap.modify, OrderMap.find,
    Positions.find, Positions.get, Positions.assign, Order.is_open, Order.is_buy,
    Fill.total_cost, Fill.notional, Position.market_value, Position.zero, List.range,
    List.range.loop, List.insertionSort, List.orderedInsert, submitted_ids, Event.submitted_id]
    norm_num
  obtain ⟨e', he, hval⟩ := Option.map_eq_some'.mp heval
  simp only [Prod.mk.injEq] at hval
  obtain ⟨hids, henter, hfills, hcash, hpos, hnext⟩ := hval
  obtain ⟨A, B, hlog, hA, hseq, _⟩ := (C10_orders_execute_in_id_order Scenario.env
    (Scenario.engine (Scenario.config 10000 0 0)
      (Scenario.scripted (fun n =>
        if n = 0 then [Action.sell "X" 3 0, Action.buy "X" 10 0] else []))
      [Scenario.bar 1 100])
    (Scenario.bar 1 100) (Scenario.wf_engine _ _ _)).1 3 e' he
  have hlog' : e'.log = A ++ B := by
    simpa [Scenario.engine, Engine.add_data, Engine.add_strategy, Engine.init] using hlog
  refine ⟨e', A, B, he, hlog', hA, ?_, ?_, henter, hfills, hcash, hpos, hnext⟩
  · simpa [Scenario.engine, Engine.add_data, Engine.add_strategy, Engine.init,
      Engine.update_portfolio, Positions.find] using hseq
  · rw [← hlog']
    exact hids

/-- C14. Once `cancel_order(id)` has been called for an order the engine
holds, whatever runs afterwards (any sequence of `buy`, `sell`, `cancel_order`
and completed `process_bar`, with the calls the strategies make from their
callbacks) leaves its status at CANCELLED and emits no fill with
`order_id = id`.  This holds for a call made from outside and for a call made
from a callback in the middle of a `process_bar`. -/
theorem C14_cancelled_orders_stay_cancelled {S : Type} (env : Env) (e : Engine S)
    (id : OrderID) (o : Order) (hwf : e.WF) (ho : e.orders_.find id = some o) :
    (∀ cmds fuel e', (e.cancel_order id).exec_all env fuel cmds = some e' →
      (∃ o', e'.orders_.find id = some o' ∧ o'.status = OrderStatus.CANCELLED) ∧
      ∃ L, e'.log = (e.cancel_order id).log ++ L ∧
        ∀ fill p, Event.settled fill p ∈ L → fill.order_id ≠ id) ∧
    (∀ cmds fuel e' L1 L2, e.exec_all env fuel cmds = some e' →
      e'.log = e.log ++ (L1 ++ Event.cancel_called id :: L2) →
      (∃ o', e'.orders_.find id = some o' ∧ o'.status = OrderStatus.CANCELLED) ∧
      ∀ fill p, Event.settled fill p ∈ L2 → fill.order_id ≠ id) := by
  constructor
  · intro cmds fuel e' h
    have hc := Engine.keeps_cancel e id
    obtain ⟨o1, ho1, _, hm1⟩ := hc.orders hwf id o ho
    have hst1 : o1.status = OrderStatus.CANCELLED := by
      rcases hm1 with h1 | ⟨h1, _⟩ | ⟨_, _, fill, p, hf, _⟩
      · have := (Engine.keeps_cancel e id).after_cancel hwf id [] [] rfl
          (Or.inl (OrderMap.find_keys _ _ _ ho))
        obtain ⟨⟨o2, ho2, hst2⟩, _⟩ := this
        rw [ho1] at ho2
        cases ho2
        exact hst2
      · exact h1
      · simp at hf
    obtain ⟨L, hL⟩ := Engine.keeps_exec_all env fuel cmds _ e' (hc.step.wf hwf) h
    obtain ⟨o2, ho2, _, hm2⟩ := hL.orders (hc.step.wf hwf) id o1 ho1
    refine ⟨⟨o2, ho2, hm2.cancelled hst1⟩, L, hL.step.log, ?_⟩
    exact hL.fills (hc.step.wf hwf) id o1 ho1 (Order.not_open_of_cancelled o1 hst1)
  · intro cmds fuel e' L1 L2 h hlog
    obtain ⟨L, hL⟩ := Engine.keeps_exec_all env fuel cmds e e' hwf h
    have hsplit : L = L1 ++ Event.cancel_called id :: L2 := by
      have h1 := hL.step.log
      rw [hlog] at h1
      exact (List.append_cancel_left h1).symm
    exact hL.after_cancel hwf id L1 L2 hsplit (Or.inl (OrderMap.find_keys _ _ _ ho))

/-- C14 for the order an engine holds under id 1: it is cancelled, then a bar
of its symbol is processed. -/
theorem C14_cancelled_orders_stay_cancelled_witness :
    ∃ e',
      ((Scenario.holding_engine (Scenario.config 10000 0 0) OrderSide.BUY 10).cancel_order
          1).exec_all Scenario.env 4 [Engine.Command.process_bar (Scenario.bar 1 100)]
        = some e' ∧
      (∃ o', e'.orders_.find 1 = some o' ∧ o'.status = OrderStatus.CANCELLED) := by
  have hq : ∀ s ∈ ((Scenario.holding_engine (Scenario.config 10000 0 0) OrderSide.BUY
      10).cancel_order 1).strategies_, Engine.FillQuiet s := by
    intro s hs
    simp [Scenario.holding_engine, Engine.init, Engine.cancel_order, OrderMap.find,
      Scenario.order] at hs
  obtain ⟨e', he⟩ := Engine.execute_pending_terminates Scenario.env (Scenario.bar 1 100) 4 none
    ((((Scenario.holding_engine (Scenario.config 10000 0 0) OrderSide.BUY 10).cancel_order
      1).update_portfolio (Scenario.bar 1 100)).dispatch_bar Scenario.env (Scenario.bar 1 100))
    (Engine.dispatch_bar_quiet _ _ _ hq)
    (by simp [Scenario.holding_engine, Engine.init, Engine.cancel_order, OrderMap.find,
      OrderMap.modify, Scenario.order, Engine.update_portfolio, Engine.dispatch_bar,
      OrderMap.remaining, List.range, List.range.loop])
  have hexec : ((Scenario.holding_engine (Scenario.config 10000 0 0) OrderSide.BUY
      10).cancel_order 1).exec_all Scenario.env 4
        [Engine.Command.process_bar (Scenario.bar 1 100)] = some e' := by
    simp only [Engine.exec_all, Engine.exec, Engine.process_bar]
    rw [he]
  exact ⟨e', hexec,
    ((C14_cancelled_orders_stay_cancelled Scenario.env
      (Scenario.holding_engine (Scenario.config 10000 0 0) OrderSide.BUY 10) 1
      (Scenario.order OrderSide.BUY 10) (Scenario.wf_holding_engine _ _ _)
      (by simp [Scenario.holding_engine, OrderMap.find])).1 _ 4 e' hexec).1⟩

/-- C16 fails as stated: with cash 100, a buy of 10 units at a close of 100
(cost 1000) is FILLED, its fill is emitted and cash ends at -900. -/
theorem C16_counterexample :
    ((Scenario.engine (Scenario.config 100 0 0) Scenario.buy_and_hold
        [Scenario.bar 1 100]).run Scenario.env 4).map
      (fun e => ((e.orders_.find 1).map (fun o => o.status),
                 (fills_of e.log).map (fun f => (f.order_id, f.quantity, f.price)),
                 e.portfolio_.cash))
      = some (some OrderStatus.FILLED, [(1, 10, 100)], -900) ∧
    (-900 : ℚ) < 0 := by
  constructor
  · simp [Scenario.engine, Scenario.config, Scenario.scripted, Scenario.buy_and_hold,
    Scenario.buy_then_sell, Scenario.bar, Scenario.bar_of, Scenario.ohlc, Scenario.env,
    Scenario.env_at, Scenario.env_junk,
    Scenario.blank_order, Scenario.blank_fill, fills_of, bars_delivered,
    Engine.equity_curve, Engine.equity_after_each_bar,
    Engine.run, Engine.run_bars, Engine.process_bar, Engine.execute_pending, Engine.init,
    Engine.add_strategy, Engine.add_data, Engine.dispatch_init, Engine.dispatch_bar,
    Engine.dispatch_fill, Engine.call, Engine.update_portfolio, Engine.execute_order,
    Engine.view, Engine.perform, Engine.buy, Engine.sell, Engine.cancel_order, Engine.settle,
    Engine.make_fill, OrderMap.next, OrderMap.assign, OrderMap.modify, OrderMap.find,
    Positions.find, Positions.get, Positions.assign, Order.is_open, Order.is_buy,
    Fill.total_cost, Fill.notional, Position.market_value, Position.zero, List.range,
    List.range.loop, List.insertionSort, List.orderedInsert]
    norm_num
  · norm_num

/-- C16 (amended). `execute_order` makes no check of the cash: every open buy
order it is given, also one whose cost `quantity * fill_price + commission`
exceeds the cash, has its fill emitted and ends FILLED (or CANCELLED, when an
`on_fill` cancels it), never REJECTED; cash is lowered by the cost, below
zero when the cost exceeds it; and the position of the order's symbol is
updated: its quantity grows by the order quantity and its average entry price
is recomputed, the positions of the other symbols staying as they are. -/
theorem C16_buy_is_filled_whatever_the_cash {S : Type} (env : Env) (e : Engine S)
    (k : OrderID) (order : Order) (price : ℚ) (hwf : e.WF)
    (hfind : e.orders_.find k = some order) (hopen : order.is_open = true)
    (hbuy : order.is_buy = true) :
    (e.execute_order env k order price).portfolio_.cash
      = e.portfolio_.cash
        - (order.quantity * (e.make_fill env order price).price
            + (e.make_fill env order price).commission) ∧
    (∃ p, Event.settled (e.make_fill env order price) p
      ∈ (e.execute_order env k order price).log) ∧
    (∃ o', (e.execute_order env k order price).orders_.find k = some o' ∧
      (o'.status = OrderStatus.FILLED ∨ o'.status = OrderStatus.CANCELLED)) ∧
    (e.portfolio_.cash
        < order.quantity * (e.make_fill env order price).price
          + (e.make_fill env order price).commission →
      (e.execute_order env k order price).portfolio_.cash < 0) ∧
    ((e.execute_order env k order price).portfolio_.positions.get order.symbol).quantity
      = (e.portfolio_.positions.get order.symbol).quantity + order.quantity ∧
    ((e.execute_order env k order price).portfolio_.positions.get order.symbol).avg_entry_price
      = ((e.portfolio_.positions.get order.symbol).avg_entry_price
            * ((e.portfolio_.positions.get order.symbol).quantity + order.quantity
                - order.quantity)
          + (e.make_fill env order price).price * order.quantity)
        / ((e.portfolio_.positions.get order.symbol).quantity + order.quantity) ∧
    (∀ symbol, symbol ≠ order.symbol →
      (e.execute_order env k order price).portfolio_.positions.find symbol
        = e.portfolio_.positions.find symbol) := by
  have hmem := OrderMap.find_mem _ _ _ hfind
  have hcash : (e.execute_order env k order price).portfolio_.cash
      = e.portfolio_.cash
        - (order.quantity * (e.make_fill env order price).price
            + (e.make_fill env order price).commission) := by
    simp [Engine.execute_order_portfolio, Engine.settle, hbuy, Fill.total_cost, Fill.notional,
      Engine.make_fill]
  refine ⟨hcash, ?_, ?_, ?_, ?_, ?_, ?_⟩
  · obtain ⟨deliveries, _, hk⟩ := Engine.keeps_execute_order env e k order price hmem hopen
    refine ⟨Engine.settle e.portfolio_ order (e.make_fill env order price), ?_⟩
    rw [hk.step.log]
    exact List.mem_append_right _ (List.mem_cons_of_mem _ (List.mem_cons_self _ _))
  · have h1 := Engine.keeps_fill_order e k order (e.make_fill env order price) hmem hopen
      rfl rfl
    obtain ⟨l, _, h2⟩ := Engine.keeps_dispatch_fill env
      { e with
        next_order_id_ := e.next_order_id_ + 1
        orders_ := e.orders_.modify k (fun o =>
          { o with
            status := OrderStatus.FILLED
            filled_quantity := o.quantity
            avg_fill_price := (e.make_fill env order price).price })
        portfolio_ := Engine.settle e.portfolio_ order (e.make_fill env order price)
        log := e.log ++ [Event.execute_enter order.id e.portfolio_,
          Event.settled (e.make_fill env order price)
            (Engine.settle e.portfolio_ order (e.make_fill env order price))] }
      (e.make_fill env order price)
    obtain ⟨o', ho', _, hm⟩ := h2.orders (h1.step.wf hwf) k
      { order with
        status := OrderStatus.FILLED
        filled_quantity := order.quantity
        avg_fill_price := (e.make_fill env order price).price }
      (by simp [OrderMap.find_modify_self, hfind])
    refine ⟨o', ho', ?_⟩
    rcases hm with h | ⟨h, _⟩ | ⟨h, _⟩
    · exact Or.inl h
    · exact Or.inr h
    · simp [Order.is_open] at h
  · intro hlt
    rw [hcash]
    linarith
  · simp [Engine.execute_order_portfolio, Engine.settle, hbuy, Positions.get_assign_self]
  · simp [Engine.execute_order_portfolio, Engine.settle, hbuy, Positions.get_assign_self]
  · intro symbol hne
    simp [Engine.execute_order_portfolio, Engine.settle, hbuy,
      Positions.find_assign_ne _ _ _ _ hne]

/-- C16 (amended) for a buy of 20 units at 100 by an engine that holds 1000 in
cash, 5 units of "X" and no strategy: cash ends at -1000 and the position at
25 units. -/
theorem C16_buy_is_filled_whatever_the_cash_witness :
    ((Scenario.holding_engine (Scenario.config 10000 0 0) OrderSide.BUY 20).execute_order
        Scenario.env 1 (Scenario.order OrderSide.BUY 20) 100).portfolio_.cash = -1000 ∧
    (((Scenario.holding_engine (Scenario.config 10000 0 0) OrderSide.BUY 20).execute_order
        Scenario.env 1 (Scenario.order OrderSide.BUY 20) 100).portfolio_.positions.get
          "X").quantity = 25 := by
  have h := C16_buy_is_filled_whatever_the_cash Scenario.env
    (Scenario.holding_engine (Scenario.config 10000 0 0) OrderSide.BUY 20) 1
    (Scenario.order OrderSide.BUY 20) 100 (Scenario.wf_holding_engine _ _ _)
    (by simp [Scenario.holding_engine, OrderMap.find])
    (by simp [Scenario.order, Order.is_open])
    (by simp [Scenario.order, Order.is_buy])
  constructor
  · rw [h.1]
    norm_num [Scenario.holding_engine, Scenario.long_portfolio, Scenario.order,
      Scenario.blank_order, Engine.make_fill, Engine.init, Scenario.config]
  · have hq := h.2.2.2.2.1
    simp only [Scenario.order] at hq ⊢
    rw [hq]
    norm_num [Scenario.holding_engine, Scenario.long_portfolio, Scenario.order,
      Scenario.blank_order, Engine.make_fill, Engine.init, Scenario.config, Positions.get,
      Positions.find, Position.zero]

/-- C17 fails as stated: a LIMIT buy at 95 submitted on a bar with low 96 and
close 97 does not stay open; the same bar fills it, at 97. -/
theorem C17_counterexample :
    ((Scenario.engine (Scenario.config 10000 0 0)
        (Scenario.scripted (fun n => if n = 0 then [Action.buy "X" 10 95] else []))
        [Scenario.ohlc 1 97 98 96 97]).run Scenario.env 4).map
      (fun e => ((e.orders_.find 1).map (fun o => (o.type, o.price, o.status, o.is_open)),
                 (fills_of e.log).map (fun f => (f.order_id, f.price))))
      = some (some (OrderType.LIMIT, 95, OrderStatus.FILLED, false), [(1, 97)]) := by
  simp [Scenario.engine, Scenario.config, Scenario.scripted, Scenario.buy_and_hold,
    Scenario.buy_then_sell, Scenario.bar, Scenario.bar_of, Scenario.ohlc, Scenario.env,
    Scenario.env_at, Scenario.env_junk,
    Scenario.blank_order, Scenario.blank_fill, fills_of, bars_delivered,
    Engine.equity_curve, Engine.equity_after_each_bar,
    Engine.run, Engine.run_bars, Engine.process_bar, Engine.execute_pending, Engine.init,
    Engine.add_strategy, Engine.add_data, Engine.dispatch_init, Engine.dispatch_bar,
    Engine.dispatch_fill, Engine.call, Engine.update_portfolio, Engine.execute_order,
    Engine.view, Engine.perform, Engine.buy, Engine.sell, Engine.cancel_order, Engine.settle,
    Engine.make_fill, OrderMap.next, OrderMap.assign, OrderMap.modify, OrderMap.find,
    Positions.find, Positions.get, Positions.assign, Order.is_open, Order.is_buy,
    Fill.total_cost, Fill.notional, Position.market_value, Position.zero, List.range,
    List.range.loop, List.insertionSort, List.orderedInsert]

/-- C17 (amended). `buy` with `price = L > 0` stores an order of type LIMIT
with price `L`.  The engine then treats it as any other order: a completed
`process_bar` of a bar of its symbol that finds it open fills it, unless a
callback cancels it first, and every fill of that call is priced at
`bar.close * (1 + slippage_bps/10000)`, whatever `L`, `bar.low` and `bar.open`
are.  The call completes when no `on_fill` submits an order. -/
theorem C17_limit_orders_fill_at_close {S : Type} (env : Env) (e : Engine S) (bar : Bar)
    (id : OrderID) (hwf : e.WF) (hopen : e.OpenOn id bar.symbol) :
    (∀ (symbol : Symbol) (qty L : ℚ), 0 < L →
      ∃ o, (e.buy env symbol qty L).1.orders_.find e.next_order_id_ = some o ∧
        o.type = OrderType.LIMIT ∧ o.price = L ∧ o.status = OrderStatus.SUBMITTED) ∧
    (∀ fuel e', e.process_bar env fuel bar = some e' →
      ∃ L, e'.log = e.log ++ L ∧
        (Event.cancel_called id ∈ L ∨
          ∃ fill p, Event.settled fill p ∈ L ∧ fill.order_id = id) ∧
        ∀ fill p, Event.settled fill p ∈ L →
          fill.price = bar.close * (1 + e.config_.slippage_bps / 10000)) ∧
    ((∀ s ∈ e.strategies_, Engine.FillQuiet s) →
      ∃ fuel e', e.process_bar env fuel bar = some e') := by
  refine ⟨?_, ?_, Engine.process_bar_completes env e bar⟩
  · intro symbol qty L hL
    refine ⟨_, OrderMap.find_assign_key _ _ _, ?_, rfl, rfl⟩
    simp [hL]
  · intro fuel e' h
    obtain ⟨L, hk, hfills, hrest⟩ := Engine.keeps_process_bar env fuel e e' bar hwf h
    exact ⟨L, hk.step.log, hrest id hopen, fun fill p hf => (hfills fill p hf).1⟩

/-- C17 (amended) for the order an engine holds under id 1 and a bar with low
96 and close 97. -/
theorem C17_limit_orders_fill_at_close_witness :
    ∃ fuel e' L,
      (Scenario.holding_engine (Scenario.config 10000 0 0) OrderSide.BUY 1).process_bar
        Scenario.env fuel (Scenario.ohlc 1 97 98 96 97) = some e' ∧
      e'.log = L ∧
      ∀ fill p, Event.settled fill p ∈ L → fill.price = 97 := by
  have h := C17_limit_orders_fill_at_close Scenario.env
    (Scenario.holding_engine (Scenario.config 10000 0 0) OrderSide.BUY 1)
    (Scenario.ohlc 1 97 98 96 97) 1 (Scenario.wf_holding_engine _ _ _)
    ⟨Scenario.order OrderSide.BUY 1, by simp [Scenario.holding_engine, OrderMap.find],
      by simp [Scenario.order, Order.is_open], rfl⟩
  obtain ⟨fuel, e', he⟩ := h.2.2 (by
    intro s hs
    simp [Scenario.holding_engine, Engine.init] at hs)
  obtain ⟨L, hlog, _, hprice⟩ := h.2.1 fuel e' he
  refine ⟨fuel, e', L, he, by simpa [Scenario.holding_engine, Engine.init] using hlog, ?_⟩
  intro fill p hf
  have := hprice fill p hf
  simpa [Scenario.holding_engine, Engine.init, Scenario.config, Scenario.ohlc] using this

/-- C19 fails as stated: an order for "Y" submitted on the only bar, a bar of
"X", is still SUBMITTED, hence open, when `run` returns. -/
theorem C19_counterexample :
    ((Scenario.engine (Scenario.config 10000 0 0)
        (Scenario.scripted (fun n => if n = 0 then [Action.buy "Y" 10 0] else []))
        [Scenario.bar 1 100]).run Scenario.env 4).map
      (fun e => (e.orders_.find 1).map (fun o => (o.symbol, o.status, o.is_open)))
      = some (some ("Y", OrderStatus.SUBMITTED, true)) := by
  simp [Scenario.engine, Scenario.config, Scenario.scripted, Scenario.buy_and_hold,
    Scenario.buy_then_sell, Scenario.bar, Scenario.bar_of, Scenario.ohlc, Scenario.env,
    Scenario.env_at, Scenario.env_junk,
    Scenario.blank_order, Scenario.blank_fill, fills_of, bars_delivered,
    Engine.equity_curve, Engine.equity_after_each_bar,
    Engine.run, Engine.run_bars, Engine.process_bar, Engine.execute_pending, Engine.init,
    Engine.add_strategy, Engine.add_data, Engine.dispatch_init, Engine.dispatch_bar,
    Engine.dispatch_fill, Engine.call, Engine.update_portfolio, Engine.execute_order,
    Engine.view, Engine.perform, Engine.buy, Engine.sell, Engine.cancel_order, Engine.settle,
    Engine.make_fill, OrderMap.next, OrderMap.assign, OrderMap.modify, OrderMap.find,
    Positions.find, Positions.get, Positions.assign, Order.is_open, Order.is_buy,
    Fill.total_cost, Fill.notional, Position.market_value, Position.zero, List.range,
    List.range.loop, List.insertionSort, List.orderedInsert]

/-- C19 (amended). `run` cancels nothing at the end of the stream: it is
`on_init` followed by `process_bar` of every bar.  An order that is open and on
a symbol of which no bar is left to process is still open when the loop over
the bars, and so `run`, returns, unless a strategy has cancelled it; and
`run` does return when no `on_fill` submits an order. -/
theorem C19_open_orders_stay_open {S : Type} (env : Env) (e : Engine S)
    (id : OrderID) (symbol : Symbol) (hwf : e.WF) (hopen : e.OpenOn id symbol) :
    (∀ bars fuel e', (∀ bar ∈ bars, bar.symbol ≠ symbol) →
      Engine.run_bars env fuel bars e = some e' →
      ∃ L, e'.log = e.log ++ L ∧ (e'.OpenOn id symbol ∨ Event.cancel_called id ∈ L)) ∧
    (∀ fuel e', (∀ bar ∈ e.bars_, bar.symbol ≠ symbol) → e.run env fuel = some e' →
      ∃ L, e'.log = e.log ++ L ∧ (e'.OpenOn id symbol ∨ Event.cancel_called id ∈ L)) ∧
    ((∀ s ∈ e.strategies_, Engine.FillQuiet s) → ∃ fuel e', e.run env fuel = some e') := by
  obtain ⟨o, ho, hop, hsym⟩ := hopen
  have key : ∀ (e' : Engine S) (L : List Event) (bars : List Bar), Engine.Keeps e e' L →
      (∀ bar ∈ bars, bar.symbol ≠ symbol) →
      (∀ fill p, Event.settled fill p ∈ L → ∃ bar ∈ bars, fill.symbol = bar.symbol) →
      e'.OpenOn id symbol ∨ Event.cancel_called id ∈ L := by
    intro e' L bars hk hno hf
    obtain ⟨o', ho', hterms, hm⟩ := hk.orders hwf id o ho
    rcases hm with h1 | ⟨_, h1⟩ | ⟨_, _, fill, p, hfl, _, hfs⟩
    · refine Or.inl ⟨o', ho', ?_, hterms.2.1.trans hsym⟩
      rw [Order.is_open_congr o o' h1]; exact hop
    · exact Or.inr h1
    · obtain ⟨b, hb, hbs⟩ := hf fill p hfl
      exact absurd (hbs.symm.trans (hfs.trans hsym)) (hno b hb)
  refine ⟨?_, ?_, Engine.run_completes env e⟩
  · intro bars fuel e' hno h
    obtain ⟨L, hk, hf⟩ := Engine.keeps_run_bars env fuel bars e e' hwf h
    exact ⟨L, hk.step.log, key e' L bars hk hno hf⟩
  · intro fuel e' hno h
    obtain ⟨L, hk, hf⟩ := Engine.keeps_run env fuel e e' hwf h
    exact ⟨L, hk.step.log, key e' L e.bars_ hk hno hf⟩

/-- C19 (amended) for the order for "X" an engine holds under id 1 and a
stream of one bar of "Y". -/
theorem C19_open_orders_stay_open_witness :
    ∃ e',
      Engine.run_bars Scenario.env 4 [Scenario.bar_of "Y" 1 100]
        (Scenario.holding_engine (Scenario.config 10000 0 0) OrderSide.BUY 10) = some e' ∧
      e'.OpenOn 1 "X" := by
  have hrun : ∃ e', Engine.run_bars Scenario.env 4 [Scenario.bar_of "Y" 1 100]
      (Scenario.holding_engine (Scenario.config 10000 0 0) OrderSide.BUY 10) = some e' := by
    simp [Scenario.engine, Scenario.config, Scenario.scripted, Scenario.buy_and_hold,
    Scenario.buy_then_sell, Scenario.bar, Scenario.bar_of, Scenario.ohlc, Scenario.env,
    Scenario.env_at, Scenario.env_junk,
    Scenario.blank_order, Scenario.blank_fill, fills_of, bars_delivered,
    Engine.equity_curve, Engine.equity_after_each_bar,
    Engine.run, Engine.run_bars, Engine.process_bar, Engine.execute_pending, Engine.init,
    Engine.add_strategy, Engine.add_data, Engine.dispatch_init, Engine.dispatch_bar,
    Engine.dispatch_fill, Engine.call, Engine.update_portfolio, Engine.execute_order,
    Engine.view, Engine.perform, Engine.buy, Engine.sell, Engine.cancel_order, Engine.settle,
    Engine.make_fill, OrderMap.next, OrderMap.assign, OrderMap.modify, OrderMap.find,
    Positions.find, Positions.get, Positions.assign, Order.is_open, Order.is_buy,
    Fill.total_cost, Fill.notional, Position.market_value, Position.zero, List.range,
    List.range.loop, List.insertionSort, List.orderedInsert, Scenario.holding_engine, Scenario.order, Scenario.long_portfolio]
  obtain ⟨e', he⟩ := hrun
  obtain ⟨L, hlog, hres⟩ := (C19_open_orders_stay_open Scenario.env
    (Scenario.holding_engine (Scenario.config 10000 0 0) OrderSide.BUY 10) 1 "X"
    (Scenario.wf_holding_engine _ _ _)
    ⟨Scenario.order OrderSide.BUY 10, by simp [Scenario.holding_engine, OrderMap.find],
      by simp [Scenario.order, Order.is_open], rfl⟩).1 [Scenario.bar_of "Y" 1 100] 4 e'
    (by simp [Scenario.bar_of]) he
  refine ⟨e', he, ?_⟩
  rcases hres with h | h
  · exact h
  · exfalso
    have hlog' : e'.log = L := by
      simpa [Scenario.holding_engine, Engine.init] using hlog
    have hl : (Engine.run_bars Scenario.env 4 [Scenario.bar_of "Y" 1 100]
      (Scenario.holding_engine (Scenario.config 10000 0 0) OrderSide.BUY 10)).map
        (fun e => e.log) = some [] := by
      simp [Scenario.engine, Scenario.config, Scenario.scripted, Scenario.buy_and_hold,
    Scenario.buy_then_sell, Scenario.bar, Scenario.bar_of, Scenario.ohlc, Scenario.env,
    Scenario.env_at, Scenario.env_junk,
    Scenario.blank_order, Scenario.blank_fill, fills_of, bars_delivered,
    Engine.equity_curve, Engine.equity_after_each_bar,
    Engine.run, Engine.run_bars, Engine.process_bar, Engine.execute_pending, Engine.init,
    Engine.add_strategy, Engine.add_data, Engine.dispatch_init, Engine.dispatch_bar,
    Engine.dispatch_fill, Engine.call, Engine.update_portfolio, Engine.execute_order,
    Engine.view, Engine.perform, Engine.buy, Engine.sell, Engine.cancel_order, Engine.settle,
    Engine.make_fill, OrderMap.next, OrderMap.assign, OrderMap.modify, OrderMap.find,
    Positions.find, Positions.get, Positions.assign, Order.is_open, Order.is_buy,
    Fill.total_cost, Fill.notional, Position.market_value, Position.zero, List.range,
    List.range.loop, List.insertionSort, List.orderedInsert, Scenario.holding_engine, Scenario.order, Scenario.long_portfolio]
    rw [he] at hl
    simp only [Option.map_some', Option.some.injEq] at hl
    rw [← hlog', hl] at h
    cases h

/-- C15, what the code does.  `cancel_order(id)` sets the status of every
order stored under `id` to CANCELLED, whatever its status was, and leaves the
engine as it is (up to the log) when there is no such order.  In particular an
order that was FILLED on the first bar and is cancelled on the second ends up
CANCELLED. -/
theorem C15_cancel_overwrites_terminal_status :
    (∀ (S : Type) (e : Engine S) (id : OrderID) (o : Order),
      e.orders_.find id = some o →
      (e.cancel_order id).orders_.find id
        = some { o with status := OrderStatus.CANCELLED }) ∧
    (∀ (S : Type) (e : Engine S) (id : OrderID),
      e.orders_.find id = none →
      e.cancel_order id = { e with log := e.log ++ [Event.cancel_called id] }) ∧
    ((Scenario.engine (Scenario.config 10000 0 0)
        (Scenario.scripted (fun n => if n = 0 then [Action.buy "X" 10 0] else []))
        [Scenario.bar 1 100]).run Scenario.env 4).map
      (fun e => (e.orders_.find 1).map (fun o => o.status))
      = some (some OrderStatus.FILLED) ∧
    ((Scenario.engine (Scenario.config 10000 0 0)
        (Scenario.scripted (fun n =>
          if n = 0 then [Action.buy "X" 10 0] else [Action.cancel_order 1]))
        [Scenario.bar 1 100, Scenario.bar 2 100]).run Scenario.env 4).map
      (fun e => (e.orders_.find 1).map (fun o => (o.status, o.status.is_terminal)))
      = some (some (OrderStatus.CANCELLED, true)) := by
  refine ⟨?_, ?_, ?_, ?_⟩
  · intro S e id o h
    simp [Engine.cancel_order, h, OrderMap.find_modify_self]
  · intro S e id h
    simp [Engine.cancel_order, h]
  · simp [Scenario.engine, Scenario.config, Scenario.scripted, Scenario.buy_and_hold,
    Scenario.buy_then_sell, Scenario.bar, Scenario.bar_of, Scenario.ohlc, Scenario.env,
    Scenario.env_at, Scenario.env_junk,
    Scenario.blank_order, Scenario.blank_fill, fills_of, bars_delivered,
    Engine.equity_curve, Engine.equity_after_each_bar,
    Engine.run, Engine.run_bars, Engine.process_bar, Engine.execute_pending, Engine.init,
    Engine.add_strategy, Engine.add_data, Engine.dispatch_init, Engine.dispatch_bar,
    Engine.dispatch_fill, Engine.call, Engine.update_portfolio, Engine.execute_order,
    Engine.view, Engine.perform, Engine.buy, Engine.sell, Engine.cancel_order, Engine.settle,
    Engine.make_fill, OrderMap.next, OrderMap.assign, OrderMap.modify, OrderMap.find,
    Positions.find, Positions.get, Positions.assign, Order.is_open, Order.is_buy,
    Fill.total_cost, Fill.notional, Position.market_value, Position.zero, List.range,
    List.range.loop, List.insertionSort, List.orderedInsert]
  · simp [Scenario.engine, Scenario.config, Scenario.scripted, Scenario.buy_and_hold,
    Scenario.buy_then_sell, Scenario.bar, Scenario.bar_of, Scenario.ohlc, Scenario.env,
    Scenario.env_at, Scenario.env_junk,
    Scenario.blank_order, Scenario.blank_fill, fills_of, bars_delivered,
    Engine.equity_curve, Engine.equity_after_each_bar,
    Engine.run, Engine.run_bars, Engine.process_bar, Engine.execute_pending, Engine.init,
    Engine.add_strategy, Engine.add_data, Engine.dispatch_init, Engine.dispatch_bar,
    Engine.dispatch_fill, Engine.call, Engine.update_portfolio, Engine.execute_order,
    Engine.view, Engine.perform, Engine.buy, Engine.sell, Engine.cancel_order, Engine.settle,
    Engine.make_fill, OrderMap.next, OrderMap.assign, OrderMap.modify, OrderMap.find,
    Positions.find, Positions.get, Positions.assign, Order.is_open, Order.is_buy,
    Fill.total_cost, Fill.notional, Position.market_value, Position.zero, List.range,
    List.range.loop, List.insertionSort, List.orderedInsert, OrderStatus.is_terminal]

/-- C18 fails as stated: `buy("X", -5)` during the first bar creates order 1
with quantity -5, and the bar fills it with a fill of quantity -5. -/
theorem C18_counterexample :
    ((Scenario.engine (Scenario.config 10000 0 0)
        (Scenario.scripted (fun n => if n = 0 then [Action.buy "X" (-5) 0] else []))
        [Scenario.bar 1 100]).run Scenario.env 4).map
      (fun e => ((e.orders_.find 1).map (fun o => o.quantity),
                 (fills_of e.log).map (fun f => (f.order_id, f.quantity))))
      = some (some (-5), [(1, -5)]) ∧ ¬ ((0 : ℚ) < -5) := by
  constructor
  · simp [Scenario.engine, Scenario.config, Scenario.scripted, Scenario.buy_and_hold,
    Scenario.buy_then_sell, Scenario.bar, Scenario.bar_of, Scenario.ohlc, Scenario.env,
    Scenario.env_at, Scenario.env_junk,
    Scenario.blank_order, Scenario.blank_fill, fills_of, bars_delivered,
    Engine.equity_curve, Engine.equity_after_each_bar,
    Engine.run, Engine.run_bars, Engine.process_bar, Engine.execute_pending, Engine.init,
    Engine.add_strategy, Engine.add_data, Engine.dispatch_init, Engine.dispatch_bar,
    Engine.dispatch_fill, Engine.call, Engine.update_portfolio, Engine.execute_order,
    Engine.view, Engine.perform, Engine.buy, Engine.sell, Engine.cancel_order, Engine.settle,
    Engine.make_fill, OrderMap.next, OrderMap.assign, OrderMap.modify, OrderMap.find,
    Positions.find, Positions.get, Positions.assign, Order.is_open, Order.is_buy,
    Fill.total_cost, Fill.notional, Position.market_value, Position.zero, List.range,
    List.range.loop, List.insertionSort, List.orderedInsert]
  · norm_num

/-- C18 (amended). `buy` and `sell` make no check of the quantity: for every
`qty`, positive or not, the call stores under the next id an order with that
quantity, status SUBMITTED, and returns the id. -/
theorem C18_buy_sell_accept_any_quantity {S : Type} (env : Env) (e : Engine S)
    (symbol : Symbol) (qty price : ℚ) :
    ((e.buy env symbol qty price).2 = e.next_order_id_ ∧
      ∃ o, (e.buy env symbol qty price).1.orders_.find e.next_order_id_ = some o ∧
        o.quantity = qty ∧ o.side = OrderSide.BUY ∧ o.symbol = symbol ∧
        o.status = OrderStatus.SUBMITTED) ∧
    ((e.sell env symbol qty price).2 = e.next_order_id_ ∧
      ∃ o, (e.sell env symbol qty price).1.orders_.find e.next_order_id_ = some o ∧
        o.quantity = qty ∧ o.side = OrderSide.SELL ∧ o.symbol = symbol ∧
        o.status = OrderStatus.SUBMITTED) := by
  refine ⟨⟨rfl, ?_⟩, ⟨rfl, ?_⟩⟩
  · exact ⟨_, OrderMap.find_assign_key _ _ _, rfl, rfl, rfl, rfl⟩
  · exact ⟨_, OrderMap.find_assign_key _ _ _, rfl, rfl, rfl, rfl⟩

/-- C20, what the code does.  `buy` and `sell` write neither
`filled_quantity` nor `remaining_quantity`: the order keeps what the
uninitialised local held.  `execute_order` writes `filled_quantity` and leaves
`remaining_quantity` as it was.  With zeroed memory an order for 10 units has
`filled + remaining = 0` right after creation; with memory holding 7 it has
`filled + remaining = 17` after execution. -/
theorem C20_filled_plus_remaining_in_code :
    (∀ (S : Type) (env : Env) (e : Engine S) (symbol : Symbol) (qty price : ℚ),
      ∃ o, (e.buy env symbol qty price).1.orders_.find e.next_order_id_ = some o ∧
        o.quantity = qty ∧
        o.filled_quantity = (env.junk_order e.next_order_id_).filled_quantity ∧
        o.remaining_quantity = (env.junk_order e.next_order_id_).remaining_quantity) ∧
    (((Engine.init (Scenario.config 10000 0 0) : Engine Nat).buy Scenario.env "X" 10 0).1.orders_.find
        1).map (fun o => (o.filled_quantity, o.remaining_quantity, o.quantity))
      = some (0, 0, 10) ∧
    ((Scenario.engine (Scenario.config 10000 0 0) Scenario.buy_and_hold
        [Scenario.bar 1 100]).run (Scenario.env_junk 7) 4).map
      (fun e => (e.orders_.find 1).map
        (fun o => (o.status, o.filled_quantity, o.remaining_quantity, o.quantity)))
      = some (some (OrderStatus.FILLED, 10, 7, 10)) := by
  refine ⟨?_, ?_, ?_⟩
  · intro S env e symbol qty price
    exact ⟨_, OrderMap.find_assign_key _ _ _, rfl, rfl, rfl⟩
  · simp [Scenario.engine, Scenario.config, Scenario.scripted, Scenario.buy_and_hold,
    Scenario.buy_then_sell, Scenario.bar, Scenario.bar_of, Scenario.ohlc, Scenario.env,
    Scenario.env_at, Scenario.env_junk,
    Scenario.blank_order, Scenario.blank_fill, fills_of, bars_delivered,
    Engine.equity_curve, Engine.equity_after_each_bar,
    Engine.run, Engine.run_bars, Engine.process_bar, Engine.execute_pending, Engine.init,
    Engine.add_strategy, Engine.add_data, Engine.dispatch_init, Engine.dispatch_bar,
    Engine.dispatch_fill, Engine.call, Engine.update_portfolio, Engine.execute_order,
    Engine.view, Engine.perform, Engine.buy, Engine.sell, Engine.cancel_order, Engine.settle,
    Engine.make_fill, OrderMap.next, OrderMap.assign, OrderMap.modify, OrderMap.find,
    Positions.find, Positions.get, Positions.assign, Order.is_open, Order.is_buy,
    Fill.total_cost, Fill.notional, Position.market_value, Position.zero, List.range,
    List.range.loop, List.insertionSort, List.orderedInsert]
  · simp [Scenario.engine, Scenario.config, Scenario.scripted, Scenario.buy_and_hold,
    Scenario.buy_then_sell, Scenario.bar, Scenario.bar_of, Scenario.ohlc, Scenario.env,
    Scenario.env_at, Scenario.env_junk,
    Scenario.blank_order, Scenario.blank_fill, fills_of, bars_delivered,
    Engine.equity_curve, Engine.equity_after_each_bar,
    Engine.run, Engine.run_bars, Engine.process_bar, Engine.execute_pending, Engine.init,
    Engine.add_strategy, Engine.add_data, Engine.dispatch_init, Engine.dispatch_bar,
    Engine.dispatch_fill, Engine.call, Engine.update_portfolio, Engine.execute_order,
    Engine.view, Engine.perform, Engine.buy, Engine.sell, Engine.cancel_order, Engine.settle,
    Engine.make_fill, OrderMap.next, OrderMap.assign, OrderMap.modify, OrderMap.find,
    Positions.find, Positions.get, Positions.assign, Order.is_open, Order.is_buy,
    Fill.total_cost, Fill.notional, Position.market_value, Position.zero, List.range,
    List.range.loop, List.insertionSort, List.orderedInsert]

/-- C11. Under what the C++ standard promises of `std::sort`, the bars that a
completed `run` hands to `on_bar` of each registered strategy are, in order of
delivery, a rearrangement of the list given to `add_data` in which no bar
follows a bar with a larger timestamp; and with strategies whose `on_fill`
submits nothing `run` completes. -/
theorem C11_bars_delivered_in_timestamp_order {S : Type} (env : Env) (e : Engine S)
    (bars : List Bar) (hsort : SortContract env.sort) (hwf : e.WF) :
    (∀ fuel e', (e.add_data env bars).run env fuel = some e' →
      ∃ L, e'.log = e.log ++ L ∧
        ∀ i, i < e.strategies_.length →
          (bars_delivered i L).Perm bars ∧
          (bars_delivered i L).Pairwise (fun a b => a.timestamp ≤ b.timestamp)) ∧
    ((∀ s ∈ e.strategies_, Engine.FillQuiet s) →
      ∃ fuel e', (e.add_data env bars).run env fuel = some e') := by
  refine ⟨?_, fun hq => Engine.run_completes env (e.add_data env bars) hq⟩
  intro fuel e' h
  obtain ⟨L, hstep, hd⟩ :=
    Engine.run_delivers env fuel _ e' (Engine.wf_add_data env e bars hwf) h
  refine ⟨L, hstep.log, ?_⟩
  intro i hi
  have hi' : bars_delivered i L = env.sort bars := hd i hi
  rw [hi']
  exact hsort bars

/-- C11 for three bars given out of order to an engine with one strategy and
an insertion sort for `std::sort`. -/
theorem C11_bars_delivered_in_timestamp_order_witness :
    SortContract Scenario.env.sort ∧
    ((Engine.init (Scenario.config 10000 0 0)).add_strategy Scenario.buy_and_hold).WF ∧
    ((∀ fuel e',
      ((((Engine.init (Scenario.config 10000 0 0)).add_strategy Scenario.buy_and_hold).add_data
        Scenario.env [Scenario.bar 3 30, Scenario.bar 1 10, Scenario.bar 2 20]).run
          Scenario.env fuel = some e') →
      ∃ L, e'.log =
          ((Engine.init (Scenario.config 10000 0 0)).add_strategy Scenario.buy_and_hold).log
            ++ L ∧
        ∀ i, i < ((Engine.init (Scenario.config 10000 0 0)).add_strategy
            Scenario.buy_and_hold).strategies_.length →
          (bars_delivered i L).Perm
            [Scenario.bar 3 30, Scenario.bar 1 10, Scenario.bar 2 20] ∧
          (bars_delivered i L).Pairwise (fun a b => a.timestamp ≤ b.timestamp)) ∧
    ((∀ s ∈ ((Engine.init (Scenario.config 10000 0 0)).add_strategy
        Scenario.buy_and_hold).strategies_, Engine.FillQuiet s) →
      ∃ fuel e',
        (((Engine.init (Scenario.config 10000 0 0)).add_strategy Scenario.buy_and_hold).add_data
          Scenario.env [Scenario.bar 3 30, Scenario.bar 1 10, Scenario.bar 2 20]).run
            Scenario.env fuel = some e')) :=
  ⟨sort_contract_insertion,
    Engine.wf_add_strategy _ _ (Engine.wf_init _),
    C11_bars_delivered_in_timestamp_order Scenario.env
      ((Engine.init (Scenario.config 10000 0 0)).add_strategy Scenario.buy_and_hold)
      [Scenario.bar 3 30, Scenario.bar 1 10, Scenario.bar 2 20]
      sort_contract_insertion (Engine.wf_add_strategy _ _ (Engine.wf_init _))⟩

/-- C12 fails as stated.  Seventeen bars with the timestamp 100 are given to
`add_data` in the order "A", "S1", ..., "S7", "B", "S9", ..., "S16"; with the
`std::sort` of libstdc++ (whatever its heap sort does, which this input does
not reach) `run` completes and `on_bar` sees them in the order "B", "S16",
"S15", ..., "S9", "A", "S7", ..., "S1": the bar of "A" precedes the bar of "B"
in the input and is delivered after it. -/
theorem C12_counterexample :
    Scenario.tied_bars.map (fun b => (b.symbol, b.timestamp))
      = [("A", 100), ("S1", 100), ("S2", 100), ("S3", 100), ("S4", 100), ("S5", 100),
          ("S6", 100), ("S7", 100), ("B", 100), ("S9", 100), ("S10", 100), ("S11", 100),
          ("S12", 100), ("S13", 100), ("S14", 100), ("S15", 100), ("S16", 100)] ∧
    ∀ partial_sort : List Bar → List Bar, ∃ fuel e',
      (((Engine.init (Scenario.config 10000 0 0)).add_strategy
          (Scenario.scripted (fun _ => []))).add_data (Scenario.env_libstdcxx partial_sort)
            Scenario.tied_bars).run (Scenario.env_libstdcxx partial_sort) fuel = some e' ∧
      (bars_delivered 0 e'.log).map (fun b => b.symbol)
        = ["B", "S16", "S15", "S14", "S13", "S12", "S11", "S10", "S9", "A", "S7", "S6",
            "S5", "S4", "S3", "S2", "S1"] := by
  refine ⟨by decide, ?_⟩
  intro partial_sort
  obtain ⟨fuel, e', he⟩ := Engine.run_completes (Scenario.env_libstdcxx partial_sort)
    (((Engine.init (Scenario.config 10000 0 0)).add_strategy
      (Scenario.scripted (fun _ => []))).add_data (Scenario.env_libstdcxx partial_sort)
        Scenario.tied_bars) (Scenario.quiet_scripted _ _)
  obtain ⟨L, hstep, hd⟩ := Engine.run_delivers _ fuel _ e'
    (Engine.wf_add_data _ _ _ (Engine.wf_add_strategy _ _ (Engine.wf_init _))) he
  refine ⟨fuel, e', he, ?_⟩
  have hlog : e'.log = L := by
    simpa [Engine.add_data, Engine.add_strategy, Engine.init] using hstep.log
  have h0 := hd 0 (by simp [Engine.add_data, Engine.add_strategy, Engine.init])
  rw [hlog, h0]
  show ((Scenario.env_libstdcxx partial_sort).sort Scenario.tied_bars).map _ = _
  rw [Scenario.env_libstdcxx_tied_bars]
  rfl

/-- C12 (amended). The bars reach `on_bar` of every registered strategy in
exactly the order in which `std::sort` left them in `add_data`: when that
order is sorted by timestamp, as the standard promises, a bar never follows a
bar with a strictly larger timestamp, and among bars of equal timestamp the
order is the one `std::sort` produced, whatever the order of insertion; and
with strategies whose `on_fill` submits nothing `run` completes. -/
theorem C12_equal_timestamps_in_sort_order {S : Type} (env : Env) (e : Engine S)
    (bars : List Bar)
    (hsort : (env.sort bars).Pairwise (fun a b => a.timestamp ≤ b.timestamp))
    (hwf : e.WF) :
    (∀ fuel e', (e.add_data env bars).run env fuel = some e' →
      ∃ L, e'.log = e.log ++ L ∧
        ∀ i, i < e.strategies_.length →
          bars_delivered i L = env.sort bars ∧
          ∀ a b : Bar, a.timestamp < b.timestamp →
            ¬ List.Sublist [b, a] (bars_delivered i L)) ∧
    ((∀ s ∈ e.strategies_, Engine.FillQuiet s) →
      ∃ fuel e', (e.add_data env bars).run env fuel = some e') := by
  refine ⟨?_, fun hq => Engine.run_completes env (e.add_data env bars) hq⟩
  intro fuel e' h
  obtain ⟨L, hstep, hd⟩ :=
    Engine.run_delivers env fuel _ e' (Engine.wf_add_data env e bars hwf) h
  refine ⟨L, hstep.log, ?_⟩
  intro i hi
  have hi' : bars_delivered i L = env.sort bars := hd i hi
  refine ⟨hi', ?_⟩
  intro a b hab hsub
  rw [hi'] at hsub
  have hp := List.Pairwise.sublist hsub hsort
  have hba : b.timestamp ≤ a.timestamp := by
    simpa using hp
  exact absurd hab (not_lt.mpr hba)

/-- C12 (amended) with the `std::sort` of libstdc++: the two bars "A", "B" of
timestamp 100 are sorted, and delivered, in the order given; the seventeen
bars of timestamp 100 of the counterexample are delivered in the order the
sort leaves them, "B" first and "A" tenth. -/
theorem C12_equal_timestamps_in_sort_order_witness :
    (Scenario.env_libstdcxx (fun bars => bars)).sort
        [Scenario.bar_of "A" 100 10, Scenario.bar_of "B" 100 20]
      = [Scenario.bar_of "A" 100 10, Scenario.bar_of "B" 100 20] ∧
    ((Scenario.env_libstdcxx (fun bars => bars)).sort Scenario.tied_bars).Pairwise
      (fun a b => a.timestamp ≤ b.timestamp) ∧
    ((Engine.init (Scenario.config 10000 0 0)).add_strategy
      (Scenario.scripted (fun _ => []))).WF ∧
    ∃ fuel e' L,
      ((((Engine.init (Scenario.config 10000 0 0)).add_strategy
        (Scenario.scripted (fun _ => []))).add_data (Scenario.env_libstdcxx (fun bars => bars))
          Scenario.tied_bars).run (Scenario.env_libstdcxx (fun bars => bars)) fuel
            = some e') ∧
      e'.log = L ∧
      bars_delivered 0 L
        = ["B", "S16", "S15", "S14", "S13", "S12", "S11", "S10", "S9", "A", "S7", "S6",
            "S5", "S4", "S3", "S2", "S1"].map (fun symbol => Scenario.bar_of symbol 100 10) := by
  have hsorted : ((Scenario.env_libstdcxx (fun bars => bars)).sort
      Scenario.tied_bars).Pairwise (fun a b => a.timestamp ≤ b.timestamp) := by
    rw [Scenario.env_libstdcxx_tied_bars]
    simp [Scenario.bar_of]
  have h := C12_equal_timestamps_in_sort_order (Scenario.env_libstdcxx (fun bars => bars))
    ((Engine.init (Scenario.config 10000 0 0)).add_strategy (Scenario.scripted (fun _ => [])))
    Scenario.tied_bars hsorted (Engine.wf_add_strategy _ _ (Engine.wf_init _))
  refine ⟨rfl, hsorted, Engine.wf_add_strategy _ _ (Engine.wf_init _), ?_⟩
  obtain ⟨fuel, e', he⟩ := h.2 (Scenario.quiet_scripted _ _)
  obtain ⟨L, hlog, hd⟩ := h.1 fuel e' he
  refine ⟨fuel, e', L, he, by simpa [Engine.add_strategy, Engine.init] using hlog, ?_⟩
  have h0 := (hd 0 (by simp [Engine.add_strategy, Engine.init])).1
  rw [h0, Scenario.env_libstdcxx_tied_bars]

/-- C13 fails as stated: the buy-and-hold scenario run with the wall clock at
0 and run again with the wall clock at 5, same configuration, strategy and
bars, emits a fill with timestamp 0 in the first run and a fill with timestamp
5 in the second. -/
theorem C13_counterexample :
    (((Scenario.engine (Scenario.config 10000 0 0) Scenario.buy_and_hold
        [Scenario.bar 1 100, Scenario.bar 2 110]).run (Scenario.env_at 0) 5).map
      (fun e => (fills_of e.log).map (fun f => f.timestamp))) = some [0] ∧
    (((Scenario.engine (Scenario.config 10000 0 0) Scenario.buy_and_hold
        [Scenario.bar 1 100, Scenario.bar 2 110]).run (Scenario.env_at 5) 5).map
      (fun e => (fills_of e.log).map (fun f => f.timestamp))) = some [5] := by
  constructor <;> simp [Scenario.engine, Scenario.config, Scenario.scripted, Scenario.buy_and_hold,
    Scenario.buy_then_sell, Scenario.bar, Scenario.bar_of, Scenario.ohlc, Scenario.env,
    Scenario.env_at, Scenario.env_junk,
    Scenario.blank_order, Scenario.blank_fill, fills_of, bars_delivered,
    Engine.equity_curve, Engine.equity_after_each_bar,
    Engine.run, Engine.run_bars, Engine.process_bar, Engine.execute_pending, Engine.init,
    Engine.add_strategy, Engine.add_data, Engine.dispatch_init, Engine.dispatch_bar,
    Engine.dispatch_fill, Engine.call, Engine.update_portfolio, Engine.execute_order,
    Engine.view, Engine.perform, Engine.buy, Engine.sell, Engine.cancel_order, Engine.settle,
    Engine.make_fill, OrderMap.next, OrderMap.assign, OrderMap.modify, OrderMap.find,
    Positions.find, Positions.get, Positions.assign, Order.is_open, Order.is_buy,
    Fill.total_cost, Fill.notional, Position.market_value, Position.zero, List.range,
    List.range.loop, List.insertionSort, List.orderedInsert]

/-- C13 (amended). Two runs of `run` from the same engine (same configuration,
strategies and bars) that read different wall clocks, with strategies whose
`on_fill` does not read the timestamp of the fill: whenever the first run
completes so does the second, and they emit the same fills in every member but
`timestamp`, leave the same orders in every member but `created_at`, the same
portfolio, and the same equity after every bar.  With strategies whose
`on_fill` submits nothing the runs complete. -/
theorem C13_runs_agree_up_to_timestamps {S : Type} (env : Env) (now' : Nat → Timestamp)
    (e : Engine S) (hblind : ∀ s ∈ e.strategies_, Engine.TimeBlind s) :
    (∀ fuel e1, e.run env fuel = some e1 →
      ∃ e2 curve, e.run { env with now := now' } fuel = some e2 ∧
        (fills_of e2.log).map Fill.untimed = (fills_of e1.log).map Fill.untimed ∧
        e2.orders_.untimed = e1.orders_.untimed ∧
        e2.portfolio_ = e1.portfolio_ ∧
        e.equity_curve env fuel = some curve ∧
        e.equity_curve { env with now := now' } fuel = some curve ∧
        curve.length = e.bars_.length) ∧
    ((∀ s ∈ e.strategies_, Engine.FillQuiet s) →
      ∃ fuel e1, e.run env fuel = some e1) := by
  refine ⟨?_, Engine.run_completes env e⟩
  intro fuel e1 h
  obtain ⟨e2, h2, hsame, hcurve⟩ := Engine.runs_agree env now' e hblind fuel e1 h
  obtain ⟨curve, hc, hl⟩ := Engine.equity_after_each_bar_some env fuel e.bars_ _ e1 h
  have hport : e2.untimed.portfolio_ = e1.untimed.portfolio_ :=
    congrArg Engine.portfolio_ hsame
  have hord : e2.untimed.orders_ = e1.untimed.orders_ := congrArg Engine.orders_ hsame
  refine ⟨e2, curve, h2, ?_, hord, hport, hc, hcurve.trans hc, hl⟩
  have hlog : e2.log.map Event.untimed = e1.log.map Event.untimed := congrArg Engine.log hsame
  rw [← fills_of_untimed, ← fills_of_untimed, hlog]

/-- C13 (amended) for the buy-and-hold scenario run with the wall clock at 0
and at 5. -/
theorem C13_runs_agree_up_to_timestamps_witness :
    ∃ fuel e1 e2,
      (Scenario.engine (Scenario.config 10000 0 0) Scenario.buy_and_hold
        [Scenario.bar 1 100, Scenario.bar 2 110]).run (Scenario.env_at 0) fuel = some e1 ∧
      (Scenario.engine (Scenario.config 10000 0 0) Scenario.buy_and_hold
        [Scenario.bar 1 100, Scenario.bar 2 110]).run
          { Scenario.env_at 0 with now := fun _ => 5 } fuel = some e2 ∧
      (fills_of e2.log).map Fill.untimed = (fills_of e1.log).map Fill.untimed ∧
      e2.orders_.untimed = e1.orders_.untimed ∧
      e2.portfolio_ = e1.portfolio_ := by
  have h := C13_runs_agree_up_to_timestamps (Scenario.env_at 0) (fun _ => 5)
    (Scenario.engine (Scenario.config 10000 0 0) Scenario.buy_and_hold
      [Scenario.bar 1 100, Scenario.bar 2 110])
    (by
      intro s hs
      simp only [Scenario.engine, Engine.add_data, Engine.add_strategy, Engine.init,
        List.nil_append, List.mem_singleton] at hs
      subst hs
      intro st fill v
      rfl)
  obtain ⟨fuel, e1, h1⟩ := h.2
    (Scenario.quiet_engine _ _ _ (fun _ _ _ => rfl))
  obtain ⟨e2, curve, h2, hf, ho, hp, _⟩ := h.1 fuel e1 h1
  exact ⟨fuel, e1, e2, h1, h2, hf, ho, hp⟩

/-- C25. Applying `BacktestEngine::update_portfolio` twice with the same bar
leaves exactly the state that applying it once leaves, and so does
`PortfolioManager::update_prices` with the same price map. -/
theorem C25_mark_to_market_idempotent :
    (∀ (S : Type) (e : Engine S) (bar : Bar),
      (e.update_portfolio bar).update_portfolio bar = e.update_portfolio bar) ∧
    (∀ (state : PortfolioState) (prices : List (Symbol × ℚ)),
      PortfolioManager.update_prices (PortfolioManager.update_prices state prices) prices
        = PortfolioManager.update_prices state prices) :=
  ⟨fun _ e bar => Engine.update_portfolio_idem e bar,
   PortfolioManager.update_prices_idem⟩

/-- C23 fails as stated: selling all 5 units of a position entered at 90
leaves the position in the portfolio with quantity 0 and `avg_entry_price`
still 90, under `update_position` and under the engine. -/
theorem C23_counterexample :
    ((PortfolioManager.update_position Scenario.long_portfolio
        (Scenario.fill OrderSide.SELL 5 120 0)).positions.find "X").map
      (fun p => (p.quantity, p.avg_entry_price)) = some (0, 90) ∧
    (((Scenario.holding_engine (Scenario.config 10000 0 0) OrderSide.SELL 5).process_bar
        Scenario.env 4 (Scenario.bar 1 120)).map
      (fun e => (e.portfolio_.positions.find "X").map
        (fun p => (p.quantity, p.avg_entry_price)))) = some (some (0, 90)) ∧
    (90 : ℚ) ≠ 0 := by
  refine ⟨?_, ?_, by norm_num⟩
  · simp [PortfolioManager.update_position, PortfolioManager.fill_position,
      Scenario.long_portfolio, Scenario.fill, Scenario.blank_fill, Positions.get,
      Positions.find, Positions.assign, Position.zero]
  · simp [Scenario.engine, Scenario.config, Scenario.scripted, Scenario.buy_and_hold,
    Scenario.buy_then_sell, Scenario.bar, Scenario.bar_of, Scenario.ohlc, Scenario.env,
    Scenario.env_at, Scenario.env_junk,
    Scenario.blank_order, Scenario.blank_fill, fills_of, bars_delivered,
    Engine.equity_curve, Engine.equity_after_each_bar,
    Engine.run, Engine.run_bars, Engine.process_bar, Engine.execute_pending, Engine.init,
    Engine.add_strategy, Engine.add_data, Engine.dispatch_init, Engine.dispatch_bar,
    Engine.dispatch_fill, Engine.call, Engine.update_portfolio, Engine.execute_order,
    Engine.view, Engine.perform, Engine.buy, Engine.sell, Engine.cancel_order, Engine.settle,
    Engine.make_fill, OrderMap.next, OrderMap.assign, OrderMap.modify, OrderMap.find,
    Positions.find, Positions.get, Positions.assign, Order.is_open, Order.is_buy,
    Fill.total_cost, Fill.notional, Position.market_value, Position.zero, List.range,
    List.range.loop, List.insertionSort, List.orderedInsert, Scenario.holding_engine, Scenario.order, Scenario.long_portfolio]

/-- C23 (amended). A sell fill for the whole quantity of a position leaves the
position in the portfolio, with quantity 0 and with the `avg_entry_price` it
had: neither `PortfolioManager::update_position` nor `execute_order` clears
it. -/
theorem C23_flat_position_keeps_entry_price {S : Type} (state : PortfolioState) (fill : Fill)
    (env : Env) (e : Engine S) (k : OrderID) (order : Order) (price : ℚ) (pos : Position)
    (hside : fill.side = OrderSide.SELL)
    (hpos : state.positions.find fill.symbol = some pos)
    (hq : fill.quantity = pos.quantity)
    (hsell : order.is_buy = false)
    (hpos' : e.portfolio_.positions.find order.symbol = some pos)
    (hq' : order.quantity = pos.quantity) :
    (∃ pos1, (PortfolioManager.update_position state fill).positions.find fill.symbol
        = some pos1 ∧
      pos1.quantity = 0 ∧ pos1.avg_entry_price = pos.avg_entry_price) ∧
    (∃ pos1, (e.execute_order env k order price).portfolio_.positions.find order.symbol
        = some pos1 ∧
      pos1.quantity = 0 ∧ pos1.avg_entry_price = pos.avg_entry_price) := by
  constructor
  · refine ⟨_, Positions.find_assign_self _ _ _, ?_, ?_⟩
    · simp [PortfolioManager.fill_position, hside, Positions.get, hpos, hq]
    · simp [PortfolioManager.fill_position, hside, Positions.get, hpos]
  · rw [Engine.execute_order_portfolio]
    simp only [Engine.settle, hsell]
    refine ⟨_, Positions.find_assign_self _ _ _, ?_, ?_⟩
    · simp [Positions.get, hpos', hq']
    · simp [Positions.get, hpos']

/-- C23 (amended) for the position of 5 units of "X" entered at 90, sold
whole at 120. -/
theorem C23_flat_position_keeps_entry_price_witness :
    (∃ pos1, (PortfolioManager.update_position Scenario.long_portfolio
        (Scenario.fill OrderSide.SELL 5 120 0)).positions.find "X" = some pos1 ∧
      pos1.quantity = 0 ∧ pos1.avg_entry_price = 90) ∧
    (∃ pos1, ((Scenario.holding_engine (Scenario.config 10000 0 0) OrderSide.SELL
        5).execute_order Scenario.env 1 (Scenario.order OrderSide.SELL 5)
          120).portfolio_.positions.find "X" = some pos1 ∧
      pos1.quantity = 0 ∧ pos1.avg_entry_price = 90) :=
  C23_flat_position_keeps_entry_price Scenario.long_portfolio
    (Scenario.fill OrderSide.SELL 5 120 0) Scenario.env
    (Scenario.holding_engine (Scenario.config 10000 0 0) OrderSide.SELL 5) 1
    (Scenario.order OrderSide.SELL 5) 120
    { Position.zero with quantity := 5, avg_entry_price := 90, current_price := 90 }
    rfl (by simp [Scenario.long_portfolio, Scenario.fill, Positions.find]) rfl
    (by simp [Scenario.order, Order.is_buy, Scenario.blank_order])
    (by simp [Scenario.holding_engine, Scenario.long_portfolio, Scenario.order,
      Positions.find]) rfl

/-- C24, what the code does.  `PortfolioManager::update_position` tests
`fill.side == BUY` only, so a COVER fill takes the sell branch: the quantity
goes down by `f` and cash goes up by `f*p - c`, while `execute_order`, which
asks `is_buy()`, raises the quantity by `f` and lowers cash by `f*p + c`.  A
SHORT fill lowers the quantity by `f` and raises cash by `f*p - c`, as
claimed.  Covering 10 units of a position of -10 at 100 leaves -20 units and
cash 1000 higher. -/
theorem C24_cover_fill_in_code :
    (∀ (state : PortfolioState) (fill : Fill),
      ((PortfolioManager.update_position state
          { fill with side := OrderSide.COVER }).positions.get fill.symbol).quantity
        = (state.positions.get fill.symbol).quantity - fill.quantity ∧
      (PortfolioManager.update_position state { fill with side := OrderSide.COVER }).cash
        = state.cash + (fill.quantity * fill.price - fill.commission)) ∧
    (∀ (p : PortfolioState) (order : Order) (fill : Fill),
      ((Engine.settle p { order with side := OrderSide.COVER } fill).positions.get
          order.symbol).quantity
        = (p.positions.get order.symbol).quantity + order.quantity ∧
      (Engine.settle p { order with side := OrderSide.COVER } fill).cash
        = p.cash - (fill.quantity * fill.price + fill.commission)) ∧
    (∀ (state : PortfolioState) (fill : Fill),
      ((PortfolioManager.update_position state
          { fill with side := OrderSide.SHORT }).positions.get fill.symbol).quantity
        = (state.positions.get fill.symbol).quantity - fill.quantity ∧
      (PortfolioManager.update_position state { fill with side := OrderSide.SHORT }).cash
        = state.cash + (fill.quantity * fill.price - fill.commission)) ∧
    (((PortfolioManager.update_position
        { cash := 1000, equity := 0, buying_power := 1000,
          positions := [("X", { Position.zero with quantity := -10, avg_entry_price := 100 })] }
        (Scenario.fill OrderSide.COVER 10 100 0)).positions.get "X").quantity,
      (PortfolioManager.update_position
        { cash := 1000, equity := 0, buying_power := 1000,
          positions := [("X", { Position.zero with quantity := -10, avg_entry_price := 100 })] }
        (Scenario.fill OrderSide.COVER 10 100 0)).cash) = (-20, 2000) := by
  refine ⟨?_, ?_, ?_, ?_⟩
  · intro state fill
    constructor <;>
      simp [PortfolioManager.update_position, PortfolioManager.fill_position,
        Positions.get_assign_self, Fill.notional]
  · intro p order fill
    constructor <;>
      simp [Engine.settle, Order.is_buy, Positions.get_assign_self, Fill.total_cost,
        Fill.notional]
  · intro state fill
    constructor <;>
      simp [PortfolioManager.update_position, PortfolioManager.fill_position,
        Positions.get_assign_self, Fill.notional]
  · simp [PortfolioManager.update_position, PortfolioManager.fill_position,
      Scenario.fill, Scenario.blank_fill, Positions.get, Positions.find, Positions.assign,
      Position.zero, Fill.notional]
    norm_num

/-- C22, what the code does.  `cancel_order` and `modify_order` leave an order
that is not open, hence a cancelled order, untouched; `add_fill` does not look
at the status: it adds the fill to the order whatever its status, and sets the
status to FILLED or PARTIALLY_FILLED.  An order for 10 units that is
submitted, cancelled and then receives a fill of 4 ends PARTIALLY_FILLED, so
open, with 4 filled and 6 remaining. -/
theorem C22_fill_reopens_cancelled_order :
    (∀ (now : Timestamp) (m : OrderManager) (id : OrderID) (o : Order) (price quantity : ℚ),
      m.orders_.find id = some o → o.status = OrderStatus.CANCELLED →
      m.cancel_order now id = m ∧ m.modify_order now id price quantity = m) ∧
    (∀ (m : OrderManager) (fill : Fill) (o : Order),
      m.orders_.find fill.order_id = some o → o.status = OrderStatus.CANCELLED →
      ∃ o', (m.add_fill fill).orders_.find fill.order_id = some o' ∧
        o'.filled_quantity = o.filled_quantity + fill.quantity ∧
        o'.remaining_quantity = o.quantity - (o.filled_quantity + fill.quantity) ∧
        (o'.status = OrderStatus.FILLED ∨ o'.status = OrderStatus.PARTIALLY_FILLED)) ∧
    ((OrderManager.init.calls
        [OrderManager.Call.submit_order 0 (Scenario.order OrderSide.BUY 10),
         OrderManager.Call.cancel_order 0 1]).orders_.find 1).map
      (fun o => (o.status, o.filled_quantity, o.remaining_quantity))
      = some (OrderStatus.CANCELLED, 0, 10) ∧
    ((OrderManager.init.calls
        [OrderManager.Call.submit_order 0 (Scenario.order OrderSide.BUY 10),
         OrderManager.Call.cancel_order 0 1,
         OrderManager.Call.add_fill (Scenario.fill OrderSide.BUY 4 100 0)]).orders_.find 1).map
      (fun o => (o.status, o.is_open, o.filled_quantity, o.remaining_quantity,
        o.avg_fill_price))
      = some (OrderStatus.PARTIALLY_FILLED, true, 4, 6, 100) := by
  refine ⟨?_, ?_, ?_, ?_⟩
  · intro now m id o price quantity ho hs
    have hc : o.is_open = false := Order.not_open_of_cancelled o hs
    exact ⟨OrderManager.cancel_order_closed now m id o ho hc,
      OrderManager.modify_order_closed now m id o price quantity ho hc⟩
  · intro m fill o ho _
    refine ⟨_, OrderManager.add_fill_find m fill o ho, ?_, ?_, ?_⟩
    · simp only [OrderManager.apply_fill]
      split <;> rfl
    · simp only [OrderManager.apply_fill]
      split <;> rfl
    · simp only [OrderManager.apply_fill]
      split
      · exact Or.inl rfl
      · exact Or.inr rfl
  · simp [OrderManager.calls, OrderManager.call, OrderManager.init, OrderManager.submit_order,
      OrderManager.cancel_order, OrderManager.notify_order, OrderMap.assign, OrderMap.find,
      OrderMap.modify, Scenario.order, Scenario.blank_order, Order.is_open]
  · simp [OrderManager.calls, OrderManager.call, OrderManager.init, OrderManager.submit_order,
      OrderManager.cancel_order, OrderManager.add_fill, OrderManager.notify_order,
      OrderManager.notify_fill, OrderManager.apply_fill, OrderMap.assign, OrderMap.find,
      OrderMap.modify, Scenario.order, Scenario.fill, Scenario.blank_order,
      Scenario.blank_fill, Order.is_open]
    norm_num

/-- C30. For an equity curve whose samples are not zero, `calculate` reports as
`sharpe_ratio` the figure `(mean(returns) - rf/252) / stddev(returns) * sqrt(252)`
over `returns[i] = equity[i]/equity[i-1] - 1`, with the population standard
deviation, and 0 when there are no returns or `stddev(returns) < 1e-9`; a
curve of fewer than two samples has no returns. -/
theorem C30_sharpe_ratio (sqrt : ℚ → ℚ) (equity_curve : List ℚ) (fills : List Fill)
    (initial_capital risk_free_rate : ℚ) (hnz : ∀ x ∈ equity_curve, x ≠ 0) :
    (PerformanceAnalyzer.calculate sqrt equity_curve fills initial_capital
        risk_free_rate).sharpe_ratio
      = PerformanceAnalyzer.sharpe sqrt equity_curve risk_free_rate ∧
    (equity_curve.length < 2 →
      PerformanceAnalyzer.simple_returns equity_curve = [] ∧
      (PerformanceAnalyzer.calculate sqrt equity_curve fills initial_capital
        risk_free_rate).sharpe_ratio = 0) ∧
    (PerformanceAnalyzer.stddev sqrt (PerformanceAnalyzer.simple_returns equity_curve)
        < 1 / 1000000000 →
      (PerformanceAnalyzer.calculate sqrt equity_curve fills initial_capital
        risk_free_rate).sharpe_ratio = 0) := by
  have hmain : (PerformanceAnalyzer.calculate sqrt equity_curve fills initial_capital
      risk_free_rate).sharpe_ratio
        = PerformanceAnalyzer.sharpe sqrt equity_curve risk_free_rate := by
    cases equity_curve with
    | nil =>
        simp [PerformanceAnalyzer.calculate, PerformanceAnalyzer.no_metrics,
          PerformanceAnalyzer.sharpe, PerformanceAnalyzer.simple_returns]
    | cons first rest =>
        have hcalc : (PerformanceAnalyzer.calculate sqrt (first :: rest) fills initial_capital
            risk_free_rate).sharpe_ratio
              = PerformanceAnalyzer.calculate_sharpe_ratio sqrt
                  (PerformanceAnalyzer.returns_of (first :: rest)) risk_free_rate := by
          simp [PerformanceAnalyzer.calculate]
        rw [hcalc, PerformanceAnalyzer.returns_of_eq _ hnz,
          PerformanceAnalyzer.calculate_sharpe_ratio_eq]
        rfl
  refine ⟨hmain, ?_, ?_⟩
  · intro hlen
    have hr : PerformanceAnalyzer.simple_returns equity_curve = [] := by
      have h0 : equity_curve.length - 1 = 0 := by omega
      simp [PerformanceAnalyzer.simple_returns, h0]
    refine ⟨hr, ?_⟩
    rw [hmain]
    simp [PerformanceAnalyzer.sharpe, hr]
  · intro hs
    rw [hmain]
    unfold PerformanceAnalyzer.sharpe
    rw [if_pos (Or.inr hs)]

/-- C30 on the curve 100, 110, 99, whose returns are 1/10 and -1/10, with a
risk-free rate of 2.52 percent and the identity standing in for `sqrt`: the
figure is `(0 - 1/10000) / (1/100) * 252`. -/
theorem C30_sharpe_ratio_witness :
    (∀ x ∈ ([100, 110, 99] : List ℚ), x ≠ 0) ∧
    PerformanceAnalyzer.simple_returns [100, 110, 99] = [1 / 10, -1 / 10] ∧
    (PerformanceAnalyzer.calculate (fun x => x) [100, 110, 99] [] 100
      (252 / 10000)).sharpe_ratio = -63 / 25 := by
  have hnz : ∀ x ∈ ([100, 110, 99] : List ℚ), x ≠ 0 := by
    intro x hx
    simp only [List.mem_cons, List.mem_singleton, List.not_mem_nil, or_false] at hx
    rcases hx with rfl | rfl | rfl <;> norm_num
  have hr : PerformanceAnalyzer.simple_returns [100, 110, 99] = [1 / 10, -1 / 10] := by
    simp [PerformanceAnalyzer.simple_returns, List.range']
    norm_num
  have h := C30_sharpe_ratio (fun x => x) [100, 110, 99] [] 100 (252 / 10000) hnz
  refine ⟨hnz, hr, h.1.trans ?_⟩
  unfold PerformanceAnalyzer.sharpe
  rw [hr]
  norm_num [PerformanceAnalyzer.stddev, PerformanceAnalyzer.mean]
  exact List.cons_ne_nil _ _

/-- C26. A feed that has not been started, with an empty queue, files of
distinct symbols whose unread records are each in non-decreasing timestamp
order, and `loop = false`: the replay that `start` launches hands the bars to
the bar callback in non-decreasing timestamp order, the queue holds at most
one event per symbol after every push and at the end, and the replay ends. -/
theorem C26_replay_in_timestamp_order (top : List TimedEvent → TimedEvent)
    (f : HistoricalFeed) (htop : TopContract top)
    (hrun : f.running_ = false) (hloop : f.config_.loop = false)
    (hq : f.event_queue_ = []) (hlog : f.log = [])
    (hkeys : (f.data_files_.map Prod.fst).Nodup)
    (hsorted : ∀ en ∈ f.data_files_, (record_times en.2.rest).Pairwise (fun a b => a ≤ b)) :
    (∀ fuel f', f.start top fuel = some f' →
      ((bars_replayed f'.log).map (fun b => b.timestamp)).Pairwise (fun a b => a ≤ b) ∧
      (∀ q, FeedEvent.queued q ∈ f'.log → ∀ s, pending q s ≤ 1) ∧
      ∀ s, pending f'.event_queue_ s ≤ 1) ∧
    ∃ fuel f', f.start top fuel = some f' := by
  obtain ⟨h1, h2⟩ := HistoricalFeed.start_replaying top htop f hrun hloop hq hlog hkeys hsorted
  refine ⟨?_, h2⟩
  intro fuel f' h
  have hr := h1 fuel f' h
  exact ⟨hr.delivered_sorted, hr.snapshots, hr.single⟩

/-- C26 for two files, "A" with records at 1 and 3 and "B" with records at 2
and 4: the bars come out at 1, 2, 3, 4. -/
theorem C26_replay_in_timestamp_order_witness :
    TopContract Scenario.top ∧
    (∃ fuel f',
      (Scenario.feed 0 10
        [("A", [Scenario.record 1 10, Scenario.record 3 10]),
         ("B", [Scenario.record 2 20, Scenario.record 4 20])]).start Scenario.top fuel
        = some f' ∧
      ((bars_replayed f'.log).map (fun b => b.timestamp)).Pairwise (fun a b => a ≤ b)) ∧
    ((Scenario.feed 0 10
        [("A", [Scenario.record 1 10, Scenario.record 3 10]),
         ("B", [Scenario.record 2 20, Scenario.record 4 20])]).start Scenario.top 10).map
      (fun f => (bars_replayed f.log).map (fun b => (b.symbol, b.timestamp)))
      = some [("A", 1), ("B", 2), ("A", 3), ("B", 4)] := by
  have h := C26_replay_in_timestamp_order Scenario.top
    (Scenario.feed 0 10
      [("A", [Scenario.record 1 10, Scenario.record 3 10]),
       ("B", [Scenario.record 2 20, Scenario.record 4 20])])
    Scenario.top_contract
    (by simp [Scenario.feed, Scenario.record, Scenario.top, Scenario.bar, Scenario.bar_of,
      HistoricalFeed.start, HistoricalFeed.replay_events, HistoricalFeed.replay_one,
      HistoricalFeed.read_next_event, HistoricalFeed.next_record, HistoricalFeed.find_file,
      HistoricalFeed.set_file, HistoricalFeed.replace_file, HistoricalFeed.subscribe,
      HistoricalFeed.load_data_file, HistoricalFeed.on_bar, HistoricalFeed.init,
      HistoricalFeed.seek, HistoricalFeed.seek_file, HistoricalFeed.rewind, bars_replayed,
      pending])
    (by simp [Scenario.feed, Scenario.record, Scenario.top, Scenario.bar, Scenario.bar_of,
      HistoricalFeed.start, HistoricalFeed.replay_events, HistoricalFeed.replay_one,
      HistoricalFeed.read_next_event, HistoricalFeed.next_record, HistoricalFeed.find_file,
      HistoricalFeed.set_file, HistoricalFeed.replace_file, HistoricalFeed.subscribe,
      HistoricalFeed.load_data_file, HistoricalFeed.on_bar, HistoricalFeed.init,
      HistoricalFeed.seek, HistoricalFeed.seek_file, HistoricalFeed.rewind, bars_replayed,
      pending])
    (by simp [Scenario.feed, Scenario.record, Scenario.top, Scenario.bar, Scenario.bar_of,
      HistoricalFeed.start, HistoricalFeed.replay_events, HistoricalFeed.replay_one,
      HistoricalFeed.read_next_event, HistoricalFeed.next_record, HistoricalFeed.find_file,
      HistoricalFeed.set_file, HistoricalFeed.replace_file, HistoricalFeed.subscribe,
      HistoricalFeed.load_data_file, HistoricalFeed.on_bar, HistoricalFeed.init,
      HistoricalFeed.seek, HistoricalFeed.seek_file, HistoricalFeed.rewind, bars_replayed,
      pending])
    (by simp [Scenario.feed, Scenario.record, Scenario.top, Scenario.bar, Scenario.bar_of,
      HistoricalFeed.start, HistoricalFeed.replay_events, HistoricalFeed.replay_one,
      HistoricalFeed.read_next_event, HistoricalFeed.next_record, HistoricalFeed.find_file,
      HistoricalFeed.set_file, HistoricalFeed.replace_file, HistoricalFeed.subscribe,
      HistoricalFeed.load_data_file, HistoricalFeed.on_bar, HistoricalFeed.init,
      HistoricalFeed.seek, HistoricalFeed.seek_file, HistoricalFeed.rewind, bars_replayed,
      pending])
    (by simp [Scenario.feed, Scenario.record, Scenario.top, Scenario.bar, Scenario.bar_of,
      HistoricalFeed.start, HistoricalFeed.replay_events, HistoricalFeed.replay_one,
      HistoricalFeed.read_next_event, HistoricalFeed.next_record, HistoricalFeed.find_file,
      HistoricalFeed.set_file, HistoricalFeed.replace_file, HistoricalFeed.subscribe,
      HistoricalFeed.load_data_file, HistoricalFeed.on_bar, HistoricalFeed.init,
      HistoricalFeed.seek, HistoricalFeed.seek_file, HistoricalFeed.rewind, bars_replayed,
      pending])
    (by simp [Scenario.feed, Scenario.record, Scenario.top, Scenario.bar, Scenario.bar_of,
      HistoricalFeed.start, HistoricalFeed.replay_events, HistoricalFeed.replay_one,
      HistoricalFeed.read_next_event, HistoricalFeed.next_record, HistoricalFeed.find_file,
      HistoricalFeed.set_file, HistoricalFeed.replace_file, HistoricalFeed.subscribe,
      HistoricalFeed.load_data_file, HistoricalFeed.on_bar, HistoricalFeed.init,
      HistoricalFeed.seek, HistoricalFeed.seek_file, HistoricalFeed.rewind, bars_replayed,
      pending, record_times])
  refine ⟨Scenario.top_contract, ?_, ?_⟩
  · obtain ⟨fuel, f', hf'⟩ := h.2
    exact ⟨fuel, f', hf', (h.1 fuel f' hf').1⟩
  · simp [Scenario.feed, Scenario.record, Scenario.top, Scenario.bar, Scenario.bar_of,
      HistoricalFeed.start, HistoricalFeed.replay_events, HistoricalFeed.replay_one,
      HistoricalFeed.read_next_event, HistoricalFeed.next_record, HistoricalFeed.find_file,
      HistoricalFeed.set_file, HistoricalFeed.replace_file, HistoricalFeed.subscribe,
      HistoricalFeed.load_data_file, HistoricalFeed.on_bar, HistoricalFeed.init,
      HistoricalFeed.seek, HistoricalFeed.seek_file, HistoricalFeed.rewind, bars_replayed,
      pending]

/-- C27, what the code does.  A call of `read_next_event` consumes one record
and queues it only when it lies in the window; the replay reads the next
record of a symbol only after handing out a bar of that symbol.  So a file
whose first record is before `start_time` never gets an event into the queue:
with the window `[3, 10]` and records at 1 and 5, the bar at 5 is not handed
out, while with the window `[0, 10]` both bars are. -/
theorem C27_stream_stalls_in_code :
    ((Scenario.feed 3 10 [("X", [Scenario.record 1 100, Scenario.record 5 110])]).start
        Scenario.top 10).map (fun f => (bars_replayed f.log).map (fun b => b.timestamp))
      = some [] ∧
    ((Scenario.feed 0 10 [("X", [Scenario.record 1 100, Scenario.record 5 110])]).start
        Scenario.top 10).map (fun f => (bars_replayed f.log).map (fun b => b.timestamp))
      = some [1, 5] ∧
    ((Scenario.feed 3 10
        [("X", [Scenario.record 1 100, Scenario.record 5 110]),
         ("Y", [Scenario.record 4 50, Scenario.record 6 60])]).start
        Scenario.top 10).map
      (fun f => (bars_replayed f.log).map (fun b => (b.symbol, b.timestamp)))
      = some [("Y", 4), ("Y", 6)] := by
  refine ⟨?_, ?_, ?_⟩ <;> simp [Scenario.feed, Scenario.record, Scenario.top, Scenario.bar, Scenario.bar_of,
      HistoricalFeed.start, HistoricalFeed.replay_events, HistoricalFeed.replay_one,
      HistoricalFeed.read_next_event, HistoricalFeed.next_record, HistoricalFeed.find_file,
      HistoricalFeed.set_file, HistoricalFeed.replace_file, HistoricalFeed.subscribe,
      HistoricalFeed.load_data_file, HistoricalFeed.on_bar, HistoricalFeed.init,
      HistoricalFeed.seek, HistoricalFeed.seek_file, HistoricalFeed.rewind, bars_replayed,
      pending]

/-- C28, what the code does.  `seek(ts)` empties the queue, then reads every
file from its first record and queues each record of the window, stopping at
a file only once the least timestamp in the queue is at least `ts`.  With
records at 1, 2, 3 in the window and a stale event at 9 in the queue,
`seek(3)` drops the stale event and leaves the events at 1, 2, 3 queued; the
top of the queue, which is handed out next, is the event at 1.  Likewise a
replay that follows `seek(2)` over records at 1 and 2 hands out the bar at 1
first. -/
theorem C28_seek_queues_earlier_events :
    (({ Scenario.feed 0 10
          [("X", [Scenario.record 1 10, Scenario.record 2 10, Scenario.record 3 10])] with
        event_queue_ := [(9, Scenario.bar_of "Z" 9 1)] } : HistoricalFeed).seek
        Scenario.top 4 3).map
      (fun f => (f.event_queue_.map (fun ev => (ev.2.symbol, ev.1)),
                 (Scenario.top f.event_queue_).1, f.current_time_))
      = some ([("X", 1), ("X", 2), ("X", 3)], 1, 3) ∧
    ((({ Scenario.feed 0 10 [("X", [Scenario.record 1 10, Scenario.record 2 10])] with
        running_ := true } : HistoricalFeed).seek Scenario.top 3 2).bind
          (HistoricalFeed.replay_events Scenario.top 3)).map
      (fun f => (bars_replayed f.log).map (fun b => b.timestamp))
      = some [1, 2] := by
  constructor
  · simp [Scenario.feed, Scenario.record, Scenario.top, Scenario.bar, Scenario.bar_of,
      HistoricalFeed.start, HistoricalFeed.replay_events, HistoricalFeed.replay_one,
      HistoricalFeed.read_next_event, HistoricalFeed.next_record, HistoricalFeed.find_file,
      HistoricalFeed.set_file, HistoricalFeed.replace_file, HistoricalFeed.subscribe,
      HistoricalFeed.load_data_file, HistoricalFeed.on_bar, HistoricalFeed.init,
      HistoricalFeed.seek, HistoricalFeed.seek_file, HistoricalFeed.rewind, bars_replayed,
      pending]
  · simp [Scenario.feed, Scenario.record, Scenario.top, Scenario.bar, Scenario.bar_of,
      HistoricalFeed.start, HistoricalFeed.replay_events, HistoricalFeed.replay_one,
      HistoricalFeed.read_next_event, HistoricalFeed.next_record, HistoricalFeed.find_file,
      HistoricalFeed.set_file, HistoricalFeed.replace_file, HistoricalFeed.subscribe,
      HistoricalFeed.load_data_file, HistoricalFeed.on_bar, HistoricalFeed.init,
      HistoricalFeed.seek, HistoricalFeed.seek_file, HistoricalFeed.rewind, bars_replayed,
      pending]

/-- C31 fails as stated: for the fill log [BUY 10 @ 100.5, SELL 10 @ 99.5]
`calculate` reports 2 trades, 2 winning trades and no losing trade. -/
theorem C31_counterexample :
    ((PerformanceAnalyzer.calculate (fun x => x) [100000]
        [Scenario.fill OrderSide.BUY 10 (201 / 2) 0, Scenario.fill OrderSide.SELL 10 (199 / 2) 0]
        100000 0).total_trades,
     (PerformanceAnalyzer.calculate (fun x => x) [100000]
        [Scenario.fill OrderSide.BUY 10 (201 / 2) 0, Scenario.fill OrderSide.SELL 10 (199 / 2) 0]
        100000 0).winning_trades,
     (PerformanceAnalyzer.calculate (fun x => x) [100000]
        [Scenario.fill OrderSide.BUY 10 (201 / 2) 0, Scenario.fill OrderSide.SELL 10 (199 / 2) 0]
        100000 0).losing_trades) = (2, 2, 0) := by
  simp [PerformanceAnalyzer.calculate, PerformanceAnalyzer.tally_fill,
      PerformanceAnalyzer.no_metrics, Scenario.fill, Scenario.blank_fill, Fill.notional]

/-- C31 (amended). For a non-empty equity curve `calculate` counts every fill
as a trade and pairs no fills: `total_trades` is the number of fills,
`winning_trades` the number of fills whose notional `quantity * price` is
positive, `losing_trades` the number whose notional is negative, and a fill of
notional 0 is counted in neither. -/
theorem C31_trades_are_fills (sqrt : ℚ → ℚ) (equity_curve : List ℚ) (fills : List Fill)
    (initial_capital risk_free_rate : ℚ) (hne : equity_curve ≠ []) :
    (PerformanceAnalyzer.calculate sqrt equity_curve fills initial_capital
        risk_free_rate).total_trades = (fills.length : Int) ∧
    (PerformanceAnalyzer.calculate sqrt equity_curve fills initial_capital
        risk_free_rate).winning_trades
      = (fills.countP (fun f => decide (f.quantity * f.price > 0)) : Nat) ∧
    (PerformanceAnalyzer.calculate sqrt equity_curve fills initial_capital
        risk_free_rate).losing_trades
      = (fills.countP (fun f => decide (f.quantity * f.price < 0)) : Nat) := by
  obtain ⟨h1, h2, h3, _⟩ := PerformanceAnalyzer.calculate_counts sqrt equity_curve fills
    initial_capital risk_free_rate hne
  exact ⟨h1, h2, h3⟩

/-- C31 (amended) for the fill log [BUY 10 @ 100.5, SELL 10 @ 99.5]. -/
theorem C31_trades_are_fills_witness :
    (PerformanceAnalyzer.calculate (fun x => x) [100000]
        [Scenario.fill OrderSide.BUY 10 (201 / 2) 0, Scenario.fill OrderSide.SELL 10 (199 / 2) 0]
        100000 0).total_trades = 2 ∧
    (PerformanceAnalyzer.calculate (fun x => x) [100000]
        [Scenario.fill OrderSide.BUY 10 (201 / 2) 0, Scenario.fill OrderSide.SELL 10 (199 / 2) 0]
        100000 0).losing_trades = 0 := by
  have h := C31_trades_are_fills (fun x => x) [100000]
    [Scenario.fill OrderSide.BUY 10 (201 / 2) 0, Scenario.fill OrderSide.SELL 10 (199 / 2) 0]
    100000 0 (by simp)
  refine ⟨h.1, h.2.2.trans ?_⟩
  simp [Scenario.fill, Scenario.blank_fill]
  norm_num

/-- C32 fails as stated: for one fill of positive notional `win_rate` is 100,
not a fraction; and for a fill of positive notional followed by a fill of
notional 0 it is 50, while winners / (winners + losers) is 1. -/
theorem C32_counterexample :
    (PerformanceAnalyzer.calculate (fun x => x) [100000]
        [Scenario.fill OrderSide.BUY 10 100 0] 100000 0).win_rate = 100 ∧
    ¬ ((100 : ℚ) ≤ 1) ∧
    ((PerformanceAnalyzer.calculate (fun x => x) [100000]
        [Scenario.fill OrderSide.BUY 10 100 0, Scenario.fill OrderSide.BUY 10 0 0]
        100000 0).win_rate,
     (PerformanceAnalyzer.calculate (fun x => x) [100000]
        [Scenario.fill OrderSide.BUY 10 100 0, Scenario.fill OrderSide.BUY 10 0 0]
        100000 0).winning_trades,
     (PerformanceAnalyzer.calculate (fun x => x) [100000]
        [Scenario.fill OrderSide.BUY 10 100 0, Scenario.fill OrderSide.BUY 10 0 0]
        100000 0).losing_trades) = (50, 1, 0) := by
  refine ⟨?_, by norm_num, ?_⟩
  · simp [PerformanceAnalyzer.calculate, PerformanceAnalyzer.tally_fill,
      PerformanceAnalyzer.no_metrics, Scenario.fill, Scenario.blank_fill, Fill.notional]
  · simp [PerformanceAnalyzer.calculate, PerformanceAnalyzer.tally_fill,
      PerformanceAnalyzer.no_metrics, Scenario.fill, Scenario.blank_fill, Fill.notional]
    norm_num

/-- C32 (amended). For a non-empty equity curve, `win_rate` is the
percentage `winning_trades / total_trades * 100` of all fills (0 when there is
no fill), a number between 0 and 100; `profit_factor` is the sum of the
positive notionals over the sum of the absolute values of the negative ones,
and 0 when the latter sum is not positive. -/
theorem C32_win_rate_is_a_percentage (sqrt : ℚ → ℚ) (equity_curve : List ℚ)
    (fills : List Fill) (initial_capital risk_free_rate : ℚ) (hne : equity_curve ≠ []) :
    (PerformanceAnalyzer.calculate sqrt equity_curve fills initial_capital
        risk_free_rate).win_rate
      = (if 0 < fills.length then
          ((PerformanceAnalyzer.calculate sqrt equity_curve fills initial_capital
              risk_free_rate).winning_trades : ℚ)
            / (PerformanceAnalyzer.calculate sqrt equity_curve fills initial_capital
              risk_free_rate).total_trades * 100
        else 0) ∧
    0 ≤ (PerformanceAnalyzer.calculate sqrt equity_curve fills initial_capital
        risk_free_rate).win_rate ∧
    (PerformanceAnalyzer.calculate sqrt equity_curve fills initial_capital
        risk_free_rate).win_rate ≤ 100 ∧
    (PerformanceAnalyzer.calculate sqrt equity_curve fills initial_capital
        risk_free_rate).profit_factor
      = (if 0 < ((fills.filter (fun f => decide (f.notional < 0))).map
              (fun f => |f.notional|)).sum then
          ((fills.filter (fun f => decide (f.notional > 0))).map (fun f => f.notional)).sum
            / ((fills.filter (fun f => decide (f.notional < 0))).map
                (fun f => |f.notional|)).sum
        else 0) := by
  obtain ⟨h1, h2, _, h4, h5⟩ := PerformanceAnalyzer.calculate_counts sqrt equity_curve fills
    initial_capital risk_free_rate hne
  have hle : fills.countP (fun f => decide (f.notional > 0)) ≤ fills.length :=
    List.countP_le_length _
  have hrate : (PerformanceAnalyzer.calculate sqrt equity_curve fills initial_capital
        risk_free_rate).win_rate
      = (if 0 < fills.length then
          ((fills.countP (fun f => decide (f.notional > 0)) : Nat) : ℚ) / fills.length * 100
        else 0) := h4
  refine ⟨?_, ?_, ?_, h5⟩
  · rw [hrate, h1, h2]
    push_cast
    rfl
  · rw [hrate]
    split
    · positivity
    · exact le_refl _
  · rw [hrate]
    split
    · rename_i hlen
      have hpos : (0 : ℚ) < fills.length := by exact_mod_cast hlen
      have hle' : ((fills.countP (fun f => decide (f.notional > 0)) : Nat) : ℚ)
          ≤ fills.length := by exact_mod_cast hle
      rw [div_mul_eq_mul_div, div_le_iff₀ hpos]
      linarith
    · norm_num

/-- C32 (amended) for one fill of positive notional. -/
theorem C32_win_rate_is_a_percentage_witness :
    (PerformanceAnalyzer.calculate (fun x => x) [100000]
        [Scenario.fill OrderSide.BUY 10 100 0] 100000 0).win_rate ≤ 100 ∧
    (PerformanceAnalyzer.calculate (fun x => x) [100000]
        [Scenario.fill OrderSide.BUY 10 100 0] 100000 0).profit_factor = 0 := by
  have h := C32_win_rate_is_a_percentage (fun x => x) [100000]
    [Scenario.fill OrderSide.BUY 10 100 0] 100000 0 (by simp)
  refine ⟨h.2.2.1, h.2.2.2.trans ?_⟩
  simp [Scenario.fill, Scenario.blank_fill, Fill.notional]

/-- C33 fails as stated: for one fill of 10 units at 100.5 the record has
`win_rate` 100, `avg_win` 1005, `avg_loss` 0 and `expectancy` 0, while
`win_rate * avg_win - (1 - win_rate) * avg_loss` is 100500 (and 1005 with the
win rate taken as the fraction 1). -/
theorem C33_counterexample :
    ((PerformanceAnalyzer.calculate (fun x => x) [100000]
        [Scenario.fill OrderSide.BUY 10 (201 / 2) 0] 100000 0).win_rate,
     (PerformanceAnalyzer.calculate (fun x => x) [100000]
        [Scenario.fill OrderSide.BUY 10 (201 / 2) 0] 100000 0).avg_win,
     (PerformanceAnalyzer.calculate (fun x => x) [100000]
        [Scenario.fill OrderSide.BUY 10 (201 / 2) 0] 100000 0).avg_loss,
     (PerformanceAnalyzer.calculate (fun x => x) [100000]
        [Scenario.fill OrderSide.BUY 10 (201 / 2) 0] 100000 0).expectancy)
      = (100, 1005, 0, 0) ∧
    (100 : ℚ) * 1005 - (1 - 100) * 0 ≠ 0 ∧ (1 : ℚ) * 1005 - (1 - 1) * 0 ≠ 0 := by
  refine ⟨?_, by norm_num, by norm_num⟩
  simp [PerformanceAnalyzer.calculate, PerformanceAnalyzer.tally_fill,
      PerformanceAnalyzer.no_metrics, Scenario.fill, Scenario.blank_fill, Fill.notional]
  norm_num

/-- C33 (amended). Method `calculate` never assigns `expectancy`: the record
it returns has `expectancy = 0` for every equity curve and fill log, whatever
`win_rate`, `avg_win` and `avg_loss` it reports. -/
theorem C33_expectancy_is_never_computed (sqrt : ℚ → ℚ) (equity_curve : List ℚ)
    (fills : List Fill) (initial_capital risk_free_rate : ℚ) :
    (PerformanceAnalyzer.calculate sqrt equity_curve fills initial_capital
        risk_free_rate).expectancy = 0 := by
  unfold PerformanceAnalyzer.calculate
  split <;> rfl

/-- C36: on a queue built with a capacity `2 ^ k ≥ 2`, after every sequence
of `push` and `pop` calls the items accepted by the successful pushes are the
items returned by the successful pops followed by the items still stored, so
the pops returned a prefix of the accepted items in the same order.  The next
`pop` fails exactly when nothing is stored, and otherwise returns the oldest
stored item and removes it; the next `push` fails exactly when
`capacity - 1` items are stored, and otherwise appends its item; a failing
call leaves the queue unchanged. -/
theorem C36_queue_is_fifo {T : Type} (k : Nat) (hk : 1 ≤ k) (junk : Nat → T)
    (ops : List (SPSCQueue.Op T)) :
    let t := SPSCQueue.run (2 ^ k) junk ops
    t.queue.capacity_ = 2 ^ k ∧
    t.accepted = t.returned ++ t.queue.stored ∧
    t.returned <+: t.accepted ∧
    t.queue.stored.length ≤ 2 ^ k - 1 ∧
    (t.queue.empty = true ↔ t.queue.stored = []) ∧
    ((t.queue.pop).2 = none ↔ t.queue.stored = []) ∧
    ((t.queue.pop).2 = none → (t.queue.pop).1 = t.queue) ∧
    (∀ item, (t.queue.pop).2 = some item →
      t.queue.stored = item :: (t.queue.pop).1.stored) ∧
    (∀ item, ((t.queue.push item).2 = false ↔ t.queue.stored.length = 2 ^ k - 1) ∧
      ((t.queue.push item).2 = false → (t.queue.push item).1 = t.queue) ∧
      ((t.queue.push item).2 = true →
        (t.queue.push item).1.stored = t.queue.stored ++ [item])) := by
  intro t
  obtain ⟨hq, hacc⟩ := SPSCQueue.run_fifo k hk junk ops
  have hcap : t.queue.capacity_ = 2 ^ k := SPSCQueue.steps_capacity ops _
  have hempty : (t.queue.pop).2 = none ↔ t.queue.stored = [] := SPSCQueue.pop_empty hq
  refine ⟨hcap, hacc, ⟨_, hacc.symm⟩, ?_, ?_, hempty, SPSCQueue.pop_rejected _, ?_, ?_⟩
  · rw [SPSCQueue.stored_length, ← hcap]
    exact Nat.le_sub_one_of_lt (Nat.mod_lt _ (Nat.lt_of_lt_of_le (by decide) hq.1))
  · rw [← hempty]
    unfold SPSCQueue.empty SPSCQueue.pop
    dsimp only
    split_ifs with h <;> simp [h]
  · intro item h
    exact (SPSCQueue.pop_returned hq item h).1
  · intro item
    refine ⟨?_, SPSCQueue.push_rejected _ _, fun h => (SPSCQueue.push_accepted hq item h).1⟩
    rw [← hcap]
    exact SPSCQueue.push_full hq item

/-- C36 at a queue of capacity 4 holding naturals: three pushes are accepted
and the fourth is refused, two pops return the two oldest items, and a push
then wraps around the end of the array. -/
theorem C36_queue_is_fifo_witness :
    (1 ≤ 2) ∧
    (SPSCQueue.run (2 ^ 2) (fun _ => 0)
      [SPSCQueue.Op.push 11, SPSCQueue.Op.push 12, SPSCQueue.Op.push 13, SPSCQueue.Op.push 14,
       SPSCQueue.Op.pop, SPSCQueue.Op.pop, SPSCQueue.Op.push 15]).accepted = [11, 12, 13, 15] ∧
    (SPSCQueue.run (2 ^ 2) (fun _ => 0)
      [SPSCQueue.Op.push 11, SPSCQueue.Op.push 12, SPSCQueue.Op.push 13, SPSCQueue.Op.push 14,
       SPSCQueue.Op.pop, SPSCQueue.Op.pop, SPSCQueue.Op.push 15]).returned = [11, 12] ∧
    (SPSCQueue.run (2 ^ 2) (fun _ => 0)
      [SPSCQueue.Op.push 11, SPSCQueue.Op.push 12, SPSCQueue.Op.push 13, SPSCQueue.Op.push 14,
       SPSCQueue.Op.pop, SPSCQueue.Op.pop, SPSCQueue.Op.push 15]).queue.stored = [13, 15] ∧
    (SPSCQueue.run (2 ^ 2) (fun _ => 0)
      [SPSCQueue.Op.push 11, SPSCQueue.Op.push 12, SPSCQueue.Op.push 13, SPSCQueue.Op.push 14,
       SPSCQueue.Op.pop, SPSCQueue.Op.pop, SPSCQueue.Op.push 15]).returned
      <+: (SPSCQueue.run (2 ^ 2) (fun _ => 0)
      [SPSCQueue.Op.push 11, SPSCQueue.Op.push 12, SPSCQueue.Op.push 13, SPSCQueue.Op.push 14,
       SPSCQueue.Op.pop, SPSCQueue.Op.pop, SPSCQueue.Op.push 15]).accepted :=
  ⟨by decide, by decide, by decide, by decide,
   (C36_queue_is_fifo 2 (by decide) (fun _ => 0)
      [SPSCQueue.Op.push 11, SPSCQueue.Op.push 12, SPSCQueue.Op.push 13, SPSCQueue.Op.push 14,
       SPSCQueue.Op.pop, SPSCQueue.Op.pop, SPSCQueue.Op.push 15]).2.2.1⟩

/-- C34: `write_batch` does not replace a stored bar.  On a store whose
series are strictly increasing, with any `std::sort` that meets its
contract, every bar stored for a symbol before `write_batch` is stored after
it, the series stays strictly increasing, and so no bar of the batch that
has the timestamp of a stored bar and differs from it is stored: the first
write wins. -/
theorem C34_write_batch_keeps_stored_bars (sort : List Bar → List Bar)
    (hsort : SortContract sort) (db : MemoryTimeSeriesDB) (hdb : db.Sound)
    (batch : List Bar) (symbol : Symbol) (bars : List Bar)
    (hf : db.data_.find symbol = some bars) :
    ∃ after, (db.write_batch sort batch).data_.find symbol = some after ∧
      after.Pairwise (fun a b => a.timestamp < b.timestamp) ∧
      (∀ b ∈ bars, b ∈ after) ∧
      (∀ b ∈ bars, ∀ x ∈ batch, x.timestamp = b.timestamp → x ≠ b → x ∉ after) := by
  obtain ⟨after, hafter, hkeep⟩ :=
    MemoryTimeSeriesDB.write_batch_keeps sort hsort db hdb batch symbol bars hf
  have hsound := MemoryTimeSeriesDB.sound_write_batch sort hsort db batch hdb symbol after hafter
  refine ⟨after, hafter, hsound.1, hkeep, ?_⟩
  intro b hb x _ hts hne hx
  exact hne (MemoryTimeSeriesDB.increasing_unique_timestamp hsound.1 hx (hkeep b hb) hts)

/-- C34 at a store holding the bar of "X" at timestamp 1 with close 100 and
the batch of one bar of "X" at timestamp 1 with close 200: after
`write_batch` the series still is the bar with close 100, while `write_bar`
of the same bar stores the bar with close 200. -/
theorem C34_write_batch_keeps_stored_bars_witness :
    ((MemoryTimeSeriesDB.init.write_bar (Scenario.bar 1 100)).write_batch Scenario.env.sort
        [Scenario.bar 1 200]).data_.find "X" = some [Scenario.bar 1 100] ∧
    ((MemoryTimeSeriesDB.init.write_bar (Scenario.bar 1 100)).write_bar
        (Scenario.bar 1 200)).data_.find "X" = some [Scenario.bar 1 200] ∧
    ∃ after, ((MemoryTimeSeriesDB.init.write_bar (Scenario.bar 1 100)).write_batch
        Scenario.env.sort [Scenario.bar 1 200]).data_.find "X" = some after ∧
      after.Pairwise (fun a b => a.timestamp < b.timestamp) ∧
      (∀ b ∈ [Scenario.bar 1 100], b ∈ after) ∧
      (∀ b ∈ [Scenario.bar 1 100], ∀ x ∈ [Scenario.bar 1 200],
        x.timestamp = b.timestamp → x ≠ b → x ∉ after) :=
  ⟨by simp [MemoryTimeSeriesDB.init, MemoryTimeSeriesDB.writes, MemoryTimeSeriesDB.write, MemoryTimeSeriesDB.write_bar, MemoryTimeSeriesDB.write_tick, MemoryTimeSeriesDB.write_batch, MemoryTimeSeriesDB.write_group, MemoryTimeSeriesDB.group, MemoryTimeSeriesDB.merge, MemoryTimeSeriesDB.merge_next, MemoryTimeSeriesDB.unique_nil, MemoryTimeSeriesDB.unique_cons, MemoryTimeSeriesDB.unique_from, MemoryTimeSeriesDB.place, MemoryTimeSeriesDB.lower_bound, MemoryTimeSeriesDB.upper_bound, MemoryTimeSeriesDB.insert_at, MemoryTimeSeriesDB.find_range, MemoryTimeSeriesDB.copy_range, MemoryTimeSeriesDB.read_bars, MemoryTimeSeriesDB.read_latest_bar, MemoryTimeSeriesDB.get_bar_count, NANOSECONDS_PER_SECOND, SeriesMap.find, SeriesMap.get, SeriesMap.assign, Scenario.bar, Scenario.bar_of, Scenario.env, List.insertionSort, List.orderedInsert, List.takeWhile], by simp [MemoryTimeSeriesDB.init, MemoryTimeSeriesDB.writes, MemoryTimeSeriesDB.write, MemoryTimeSeriesDB.write_bar, MemoryTimeSeriesDB.write_tick, MemoryTimeSeriesDB.write_batch, MemoryTimeSeriesDB.write_group, MemoryTimeSeriesDB.group, MemoryTimeSeriesDB.merge, MemoryTimeSeriesDB.merge_next, MemoryTimeSeriesDB.unique_nil, MemoryTimeSeriesDB.unique_cons, MemoryTimeSeriesDB.unique_from, MemoryTimeSeriesDB.place, MemoryTimeSeriesDB.lower_bound, MemoryTimeSeriesDB.upper_bound, MemoryTimeSeriesDB.insert_at, MemoryTimeSeriesDB.find_range, MemoryTimeSeriesDB.copy_range, MemoryTimeSeriesDB.read_bars, MemoryTimeSeriesDB.read_latest_bar, MemoryTimeSeriesDB.get_bar_count, NANOSECONDS_PER_SECOND, SeriesMap.find, SeriesMap.get, SeriesMap.assign, Scenario.bar, Scenario.bar_of, Scenario.env, List.insertionSort, List.orderedInsert, List.takeWhile],
   C34_write_batch_keeps_stored_bars Scenario.env.sort sort_contract_insertion
     (MemoryTimeSeriesDB.init.write_bar (Scenario.bar 1 100))
     (MemoryTimeSeriesDB.sound_write_bar _ _ MemoryTimeSeriesDB.sound_init)
     [Scenario.bar 1 200] "X" [Scenario.bar 1 100] (by simp [MemoryTimeSeriesDB.init, MemoryTimeSeriesDB.writes, MemoryTimeSeriesDB.write, MemoryTimeSeriesDB.write_bar, MemoryTimeSeriesDB.write_tick, MemoryTimeSeriesDB.write_batch, MemoryTimeSeriesDB.write_group, MemoryTimeSeriesDB.group, MemoryTimeSeriesDB.merge, MemoryTimeSeriesDB.merge_next, MemoryTimeSeriesDB.unique_nil, MemoryTimeSeriesDB.unique_cons, MemoryTimeSeriesDB.unique_from, MemoryTimeSeriesDB.place, MemoryTimeSeriesDB.lower_bound, MemoryTimeSeriesDB.upper_bound, MemoryTimeSeriesDB.insert_at, MemoryTimeSeriesDB.find_range, MemoryTimeSeriesDB.copy_range, MemoryTimeSeriesDB.read_bars, MemoryTimeSeriesDB.read_latest_bar, MemoryTimeSeriesDB.get_bar_count, NANOSECONDS_PER_SECOND, SeriesMap.find, SeriesMap.get, SeriesMap.assign, Scenario.bar, Scenario.bar_of, Scenario.env, List.insertionSort, List.orderedInsert, List.takeWhile])⟩

/-- C35: when the series of `b.symbol` is sorted the way the writers keep
every series, strictly increasing by timestamp, after `write_bar(b)` the
series holds exactly one bar with the timestamp of `b`, which is `b`; the
bars with another timestamp are the ones
stored before, in the same order; the series is strictly increasing; the bar
count of the symbol grows by 1 if the timestamp was new and by 0 otherwise;
and the series of every other symbol is unchanged. -/
theorem C35_write_bar_last_write_wins (db : MemoryTimeSeriesDB) (b : Bar)
    (hinc : (db.data_.get b.symbol).Pairwise (fun x y => x.timestamp < y.timestamp)) :
    ∃ after, (db.write_bar b).data_.find b.symbol = some after ∧
      after.filter (fun x => decide (x.timestamp = b.timestamp)) = [b] ∧
      after.filter (fun x => !decide (x.timestamp = b.timestamp))
        = (db.data_.get b.symbol).filter (fun x => !decide (x.timestamp = b.timestamp)) ∧
      after.Pairwise (fun x y => x.timestamp < y.timestamp) ∧
      (db.write_bar b).get_bar_count b.symbol
        = db.get_bar_count b.symbol
          + (if b.timestamp ∈ (db.data_.get b.symbol).map (fun x => x.timestamp)
              then 0 else 1) ∧
      ∀ other, other ≠ b.symbol → (db.write_bar b).data_.find other = db.data_.find other := by
  have hfind : (db.write_bar b).data_.find b.symbol
      = some (MemoryTimeSeriesDB.place (db.data_.get b.symbol) b) :=
    SeriesMap.series_find_assign_key _ _ _
  refine ⟨_, hfind, MemoryTimeSeriesDB.place_same _ _ hinc,
    MemoryTimeSeriesDB.place_others _ _ hinc, MemoryTimeSeriesDB.place_increasing _ _ hinc,
    ?_, ?_⟩
  · rw [MemoryTimeSeriesDB.get_bar_count_eq, MemoryTimeSeriesDB.get_bar_count_eq,
      SeriesMap.series_get_of_find _ _ _ hfind]
    exact MemoryTimeSeriesDB.place_length _ _ hinc
  · intro other hne
    exact SeriesMap.series_find_assign_other _ _ _ _ hne

/-- C35 at the store built from the empty one by `write_bar` of bars of "X"
at timestamps 1, 2 and 4: writing a bar at timestamp 2 replaces the bar
stored there, and writing a bar at timestamp 3 inserts it between the bars at
2 and 4. -/
theorem C35_write_bar_last_write_wins_witness :
    ((((MemoryTimeSeriesDB.init.write_bar (Scenario.bar 1 100)).write_bar
        (Scenario.bar 2 100)).write_bar (Scenario.bar 4 100)).write_bar
          (Scenario.bar 2 300)).data_.find "X"
        = some [Scenario.bar 1 100, Scenario.bar 2 300, Scenario.bar 4 100] ∧
    ((((MemoryTimeSeriesDB.init.write_bar (Scenario.bar 1 100)).write_bar
        (Scenario.bar 2 100)).write_bar (Scenario.bar 4 100)).write_bar
          (Scenario.bar 3 300)).data_.find "X"
        = some [Scenario.bar 1 100, Scenario.bar 2 100, Scenario.bar 3 300,
            Scenario.bar 4 100] ∧
    ∃ after, ((((MemoryTimeSeriesDB.init.write_bar (Scenario.bar 1 100)).write_bar
        (Scenario.bar 2 100)).write_bar (Scenario.bar 4 100)).write_bar
          (Scenario.bar 2 300)).data_.find (Scenario.bar 2 300).symbol = some after ∧
      after.filter (fun x => decide (x.timestamp = (Scenario.bar 2 300).timestamp))
        = [Scenario.bar 2 300] :=
  ⟨by simp [MemoryTimeSeriesDB.init, MemoryTimeSeriesDB.write_bar, MemoryTimeSeriesDB.place,
      MemoryTimeSeriesDB.lower_bound, MemoryTimeSeriesDB.insert_at, SeriesMap.find,
      SeriesMap.get, SeriesMap.assign, Scenario.bar],
   by simp [MemoryTimeSeriesDB.init, MemoryTimeSeriesDB.write_bar, MemoryTimeSeriesDB.place,
      MemoryTimeSeriesDB.lower_bound, MemoryTimeSeriesDB.insert_at, SeriesMap.find,
      SeriesMap.get, SeriesMap.assign, Scenario.bar],
   (C35_write_bar_last_write_wins
      (((MemoryTimeSeriesDB.init.write_bar (Scenario.bar 1 100)).write_bar
        (Scenario.bar 2 100)).write_bar (Scenario.bar 4 100))
      (Scenario.bar 2 300)
      (MemoryTimeSeriesDB.sound_get _
        (MemoryTimeSeriesDB.sound_write_bar _ _ (MemoryTimeSeriesDB.sound_write_bar _ _
          (MemoryTimeSeriesDB.sound_write_bar _ _ MemoryTimeSeriesDB.sound_init))) _).1).imp
      (fun _ h => ⟨h.1, h.2.1⟩)⟩

/-- C37: starting from the empty store, with any `std::sort` that meets its
contract, after every sequence of `write_bar`, `write_tick` and `write_batch`
calls every stored series is strictly increasing by timestamp and holds only
bars that carry the symbol the series is stored under. -/
theorem C37_series_strictly_increasing (sort : List Bar → List Bar)
    (hsort : SortContract sort) (calls : List MemoryTimeSeriesDB.Write)
    (symbol : Symbol) (bars : List Bar)
    (h : (MemoryTimeSeriesDB.init.writes sort calls).data_.find symbol = some bars) :
    bars.Pairwise (fun a b => a.timestamp < b.timestamp) ∧ ∀ b ∈ bars, b.symbol = symbol :=
  MemoryTimeSeriesDB.sound_writes sort hsort calls MemoryTimeSeriesDB.init
    MemoryTimeSeriesDB.sound_init symbol bars h

/-- C37 at a bar of "X" at timestamp 2, then a batch with bars of "X" at
timestamps 3, 1 and 2 and a bar of "Y", then a tick of "X" at timestamp 3:
the series of "X" holds one bar for each of the timestamps 1, 2 and 3. -/
theorem C37_series_strictly_increasing_witness :
    SortContract Scenario.env.sort ∧
    (MemoryTimeSeriesDB.init.writes Scenario.env.sort
      [MemoryTimeSeriesDB.Write.bar (Scenario.bar 2 100),
       MemoryTimeSeriesDB.Write.batch [Scenario.bar 3 200, Scenario.bar 1 200,
         Scenario.bar_of "Y" 5 200, Scenario.bar 2 200],
       MemoryTimeSeriesDB.Write.tick
         { symbol := "X", timestamp := 3, last := 300, bid := 299, ask := 301, volume := 7,
           bid_size := 1, ask_size := 1, exchange_id := 0 }]).data_.find "X"
      = some [Scenario.bar 1 200, Scenario.bar 2 100,
          { symbol := "X", timestamp := 3, open_ := 300, high := 300, low := 300,
            close := 300, volume := 7, period := 1000000000 }] ∧
    ([Scenario.bar 1 200, Scenario.bar 2 100,
        ({ symbol := "X", timestamp := 3, open_ := 300, high := 300, low := 300,
            close := 300, volume := 7, period := 1000000000 } : Bar)].Pairwise
        (fun a b => a.timestamp < b.timestamp) ∧
      ∀ b ∈ [Scenario.bar 1 200, Scenario.bar 2 100,
        ({ symbol := "X", timestamp := 3, open_ := 300, high := 300, low := 300,
            close := 300, volume := 7, period := 1000000000 } : Bar)], b.symbol = "X") := by
  have heval : (MemoryTimeSeriesDB.init.writes Scenario.env.sort
      [MemoryTimeSeriesDB.Write.bar (Scenario.bar 2 100),
       MemoryTimeSeriesDB.Write.batch [Scenario.bar 3 200, Scenario.bar 1 200,
         Scenario.bar_of "Y" 5 200, Scenario.bar 2 200],
       MemoryTimeSeriesDB.Write.tick
         { symbol := "X", timestamp := 3, last := 300, bid := 299, ask := 301, volume := 7,
           bid_size := 1, ask_size := 1, exchange_id := 0 }]).data_.find "X"
      = some [Scenario.bar 1 200, Scenario.bar 2 100,
          { symbol := "X", timestamp := 3, open_ := 300, high := 300, low := 300,
            close := 300, volume := 7, period := 1000000000 }] := by
    simp [MemoryTimeSeriesDB.init, MemoryTimeSeriesDB.writes, MemoryTimeSeriesDB.write, MemoryTimeSeriesDB.write_bar, MemoryTimeSeriesDB.write_tick, MemoryTimeSeriesDB.write_batch, MemoryTimeSeriesDB.write_group, MemoryTimeSeriesDB.group, MemoryTimeSeriesDB.merge, MemoryTimeSeriesDB.merge_next, MemoryTimeSeriesDB.unique_nil, MemoryTimeSeriesDB.unique_cons, MemoryTimeSeriesDB.unique_from, MemoryTimeSeriesDB.place, MemoryTimeSeriesDB.lower_bound, MemoryTimeSeriesDB.upper_bound, MemoryTimeSeriesDB.insert_at, MemoryTimeSeriesDB.find_range, MemoryTimeSeriesDB.copy_range, MemoryTimeSeriesDB.read_bars, MemoryTimeSeriesDB.read_latest_bar, MemoryTimeSeriesDB.get_bar_count, NANOSECONDS_PER_SECOND, SeriesMap.find, SeriesMap.get, SeriesMap.assign, Scenario.bar, Scenario.bar_of, Scenario.env, List.insertionSort, List.orderedInsert, List.takeWhile]
  exact ⟨sort_contract_insertion, heval,
    C37_series_strictly_increasing Scenario.env.sort sort_contract_insertion _ "X" _ heval⟩

/-- C38: when the series of `symbol` is sorted by timestamp and
`start ≤ end_`, `read_bars` returns the stored bars of the symbol with
`start ≤ timestamp ≤ end_`, in the stored (ascending) order, and the empty
list for an unknown symbol; `read_latest_bar` returns the last stored bar,
whose timestamp no stored bar of the symbol exceeds, and nothing exactly
when the symbol has no bars. -/
theorem C38_readers (db : MemoryTimeSeriesDB) (symbol : Symbol) (start end_ : Timestamp)
    (hsorted : (db.data_.get symbol).Pairwise (fun a b => a.timestamp ≤ b.timestamp))
    (hse : start ≤ end_) :
    db.read_bars symbol start end_
      = some ((db.data_.get symbol).filter
          (fun b => decide (start ≤ b.timestamp ∧ b.timestamp ≤ end_))) ∧
    ((db.data_.get symbol).filter
        (fun b => decide (start ≤ b.timestamp ∧ b.timestamp ≤ end_))).Pairwise
      (fun a b => a.timestamp ≤ b.timestamp) ∧
    (db.data_.find symbol = none → db.read_bars symbol start end_ = some []) ∧
    (∀ latest, db.read_latest_bar symbol = some latest →
      latest ∈ db.data_.get symbol ∧
        ∀ b ∈ db.data_.get symbol, b.timestamp ≤ latest.timestamp) ∧
    (db.read_latest_bar symbol = none ↔ db.data_.get symbol = []) := by
  refine ⟨MemoryTimeSeriesDB.read_bars_sorted db symbol start end_ hsorted hse,
    List.Pairwise.sublist (List.filter_sublist _) hsorted, ?_, ?_, ?_⟩
  · intro hnone
    simp [MemoryTimeSeriesDB.read_bars, hnone]
  · intro latest hlatest
    rw [MemoryTimeSeriesDB.read_latest_bar_eq] at hlatest
    exact MemoryTimeSeriesDB.getLast_sorted _ hsorted latest hlatest
  · rw [MemoryTimeSeriesDB.read_latest_bar_eq]
    exact List.getLast?_eq_none_iff

/-- C38 at the series of "X" with bars at timestamps 1, 2, 2 and 4:
`read_bars` from 2 to 4 returns the three bars at 2, 2 and 4, from 3 to 3
the empty list, and `read_latest_bar` the bar at 4. -/
theorem C38_readers_witness :
    MemoryTimeSeriesDB.read_bars
      { data_ := [("X", [Scenario.bar 1 100, Scenario.bar 2 100, Scenario.bar 2 200,
          Scenario.bar 4 100])] } "X" 2 4
      = some [Scenario.bar 2 100, Scenario.bar 2 200, Scenario.bar 4 100] ∧
    MemoryTimeSeriesDB.read_bars
      { data_ := [("X", [Scenario.bar 1 100, Scenario.bar 2 100, Scenario.bar 2 200,
          Scenario.bar 4 100])] } "X" 3 3 = some [] ∧
    MemoryTimeSeriesDB.read_latest_bar
      { data_ := [("X", [Scenario.bar 1 100, Scenario.bar 2 100, Scenario.bar 2 200,
          Scenario.bar 4 100])] } "X" = some (Scenario.bar 4 100) ∧
    MemoryTimeSeriesDB.read_bars
      { data_ := [("X", [Scenario.bar 1 100, Scenario.bar 2 100, Scenario.bar 2 200,
          Scenario.bar 4 100])] } "X" 2 4
      = some ((SeriesMap.get [("X", [Scenario.bar 1 100, Scenario.bar 2 100,
          Scenario.bar 2 200, Scenario.bar 4 100])] "X").filter
          (fun b => decide ((2 : Timestamp) ≤ b.timestamp ∧ b.timestamp ≤ 4))) :=
  ⟨by simp [MemoryTimeSeriesDB.init, MemoryTimeSeriesDB.writes, MemoryTimeSeriesDB.write, MemoryTimeSeriesDB.write_bar, MemoryTimeSeriesDB.write_tick, MemoryTimeSeriesDB.write_batch, MemoryTimeSeriesDB.write_group, MemoryTimeSeriesDB.group, MemoryTimeSeriesDB.merge, MemoryTimeSeriesDB.merge_next, MemoryTimeSeriesDB.unique_nil, MemoryTimeSeriesDB.unique_cons, MemoryTimeSeriesDB.unique_from, MemoryTimeSeriesDB.place, MemoryTimeSeriesDB.lower_bound, MemoryTimeSeriesDB.upper_bound, MemoryTimeSeriesDB.insert_at, MemoryTimeSeriesDB.find_range, MemoryTimeSeriesDB.copy_range, MemoryTimeSeriesDB.read_bars, MemoryTimeSeriesDB.read_latest_bar, MemoryTimeSeriesDB.get_bar_count, NANOSECONDS_PER_SECOND, SeriesMap.find, SeriesMap.get, SeriesMap.assign, Scenario.bar, Scenario.bar_of, Scenario.env, List.insertionSort, List.orderedInsert, List.takeWhile], by simp [MemoryTimeSeriesDB.init, MemoryTimeSeriesDB.writes, MemoryTimeSeriesDB.write, MemoryTimeSeriesDB.write_bar, MemoryTimeSeriesDB.write_tick, MemoryTimeSeriesDB.write_batch, MemoryTimeSeriesDB.write_group, MemoryTimeSeriesDB.group, MemoryTimeSeriesDB.merge, MemoryTimeSeriesDB.merge_next, MemoryTimeSeriesDB.unique_nil, MemoryTimeSeriesDB.unique_cons, MemoryTimeSeriesDB.unique_from, MemoryTimeSeriesDB.place, MemoryTimeSeriesDB.lower_bound, MemoryTimeSeriesDB.upper_bound, MemoryTimeSeriesDB.insert_at, MemoryTimeSeriesDB.find_range, MemoryTimeSeriesDB.copy_range, MemoryTimeSeriesDB.read_bars, MemoryTimeSeriesDB.read_latest_bar, MemoryTimeSeriesDB.get_bar_count, NANOSECONDS_PER_SECOND, SeriesMap.find, SeriesMap.get, SeriesMap.assign, Scenario.bar, Scenario.bar_of, Scenario.env, List.insertionSort, List.orderedInsert, List.takeWhile], by simp [MemoryTimeSeriesDB.init, MemoryTimeSeriesDB.writes, MemoryTimeSeriesDB.write, MemoryTimeSeriesDB.write_bar, MemoryTimeSeriesDB.write_tick, MemoryTimeSeriesDB.write_batch, MemoryTimeSeriesDB.write_group, MemoryTimeSeriesDB.group, MemoryTimeSeriesDB.merge, MemoryTimeSeriesDB.merge_next, MemoryTimeSeriesDB.unique_nil, MemoryTimeSeriesDB.unique_cons, MemoryTimeSeriesDB.unique_from, MemoryTimeSeriesDB.place, MemoryTimeSeriesDB.lower_bound, MemoryTimeSeriesDB.upper_bound, MemoryTimeSeriesDB.insert_at, MemoryTimeSeriesDB.find_range, MemoryTimeSeriesDB.copy_range, MemoryTimeSeriesDB.read_bars, MemoryTimeSeriesDB.read_latest_bar, MemoryTimeSeriesDB.get_bar_count, NANOSECONDS_PER_SECOND, SeriesMap.find, SeriesMap.get, SeriesMap.assign, Scenario.bar, Scenario.bar_of, Scenario.env, List.insertionSort, List.orderedInsert, List.takeWhile],
   (C38_readers
      { data_ := [("X", [Scenario.bar 1 100, Scenario.bar 2 100, Scenario.bar 2 200,
          Scenario.bar 4 100])] } "X" 2 4 (by simp [MemoryTimeSeriesDB.init, MemoryTimeSeriesDB.writes, MemoryTimeSeriesDB.write, MemoryTimeSeriesDB.write_bar, MemoryTimeSeriesDB.write_tick, MemoryTimeSeriesDB.write_batch, MemoryTimeSeriesDB.write_group, MemoryTimeSeriesDB.group, MemoryTimeSeriesDB.merge, MemoryTimeSeriesDB.merge_next, MemoryTimeSeriesDB.unique_nil, MemoryTimeSeriesDB.unique_cons, MemoryTimeSeriesDB.unique_from, MemoryTimeSeriesDB.place, MemoryTimeSeriesDB.lower_bound, MemoryTimeSeriesDB.upper_bound, MemoryTimeSeriesDB.insert_at, MemoryTimeSeriesDB.find_range, MemoryTimeSeriesDB.copy_range, MemoryTimeSeriesDB.read_bars, MemoryTimeSeriesDB.read_latest_bar, MemoryTimeSeriesDB.get_bar_count, NANOSECONDS_PER_SECOND, SeriesMap.find, SeriesMap.get, SeriesMap.assign, Scenario.bar, Scenario.bar_of, Scenario.env, List.insertionSort, List.orderedInsert, List.takeWhile]) (by decide)).1⟩

/-- C39: the indices of `find_range` can be reversed.  On the strictly
increasing series of "X" with bars at timestamps 1, 2 and 3, written by
`write_bar`, `find_range` with `start = 3` and `end_ = 1` gives
`start_idx = 2` and `end_idx = 1`; `start_idx` is below the size 3, so
`read_bars` goes on to copy the range from index 2 to index 1, which is
undefined. -/
theorem C39_reversed_range :
    (((MemoryTimeSeriesDB.init.write_bar (Scenario.bar 1 100)).write_bar
        (Scenario.bar 2 100)).write_bar (Scenario.bar 3 100)).data_.find "X"
      = some [Scenario.bar 1 100, Scenario.bar 2 100, Scenario.bar 3 100] ∧
    [Scenario.bar 1 100, Scenario.bar 2 100, Scenario.bar 3 100].Pairwise
      (fun a b => a.timestamp < b.timestamp) ∧
    MemoryTimeSeriesDB.find_range
      [Scenario.bar 1 100, Scenario.bar 2 100, Scenario.bar 3 100] 3 1 = (2, 1) ∧
    (((MemoryTimeSeriesDB.init.write_bar (Scenario.bar 1 100)).write_bar
        (Scenario.bar 2 100)).write_bar (Scenario.bar 3 100)).read_bars "X" 3 1 = none := by
  refine ⟨by simp [MemoryTimeSeriesDB.init, MemoryTimeSeriesDB.writes, MemoryTimeSeriesDB.write, MemoryTimeSeriesDB.write_bar, MemoryTimeSeriesDB.write_tick, MemoryTimeSeriesDB.write_batch, MemoryTimeSeriesDB.write_group, MemoryTimeSeriesDB.group, MemoryTimeSeriesDB.merge, MemoryTimeSeriesDB.merge_next, MemoryTimeSeriesDB.unique_nil, MemoryTimeSeriesDB.unique_cons, MemoryTimeSeriesDB.unique_from, MemoryTimeSeriesDB.place, MemoryTimeSeriesDB.lower_bound, MemoryTimeSeriesDB.upper_bound, MemoryTimeSeriesDB.insert_at, MemoryTimeSeriesDB.find_range, MemoryTimeSeriesDB.copy_range, MemoryTimeSeriesDB.read_bars, MemoryTimeSeriesDB.read_latest_bar, MemoryTimeSeriesDB.get_bar_count, NANOSECONDS_PER_SECOND, SeriesMap.find, SeriesMap.get, SeriesMap.assign, Scenario.bar, Scenario.bar_of, Scenario.env, List.insertionSort, List.orderedInsert, List.takeWhile], by simp [Scenario.bar], by simp [MemoryTimeSeriesDB.init, MemoryTimeSeriesDB.writes, MemoryTimeSeriesDB.write, MemoryTimeSeriesDB.write_bar, MemoryTimeSeriesDB.write_tick, MemoryTimeSeriesDB.write_batch, MemoryTimeSeriesDB.write_group, MemoryTimeSeriesDB.group, MemoryTimeSeriesDB.merge, MemoryTimeSeriesDB.merge_next, MemoryTimeSeriesDB.unique_nil, MemoryTimeSeriesDB.unique_cons, MemoryTimeSeriesDB.unique_from, MemoryTimeSeriesDB.place, MemoryTimeSeriesDB.lower_bound, MemoryTimeSeriesDB.upper_bound, MemoryTimeSeriesDB.insert_at, MemoryTimeSeriesDB.find_range, MemoryTimeSeriesDB.copy_range, MemoryTimeSeriesDB.read_bars, MemoryTimeSeriesDB.read_latest_bar, MemoryTimeSeriesDB.get_bar_count, NANOSECONDS_PER_SECOND, SeriesMap.find, SeriesMap.get, SeriesMap.assign, Scenario.bar, Scenario.bar_of, Scenario.env, List.insertionSort, List.orderedInsert, List.takeWhile], by simp [MemoryTimeSeriesDB.init, MemoryTimeSeriesDB.writes, MemoryTimeSeriesDB.write, MemoryTimeSeriesDB.write_bar, MemoryTimeSeriesDB.write_tick, MemoryTimeSeriesDB.write_batch, MemoryTimeSeriesDB.write_group, MemoryTimeSeriesDB.group, MemoryTimeSeriesDB.merge, MemoryTimeSeriesDB.merge_next, MemoryTimeSeriesDB.unique_nil, MemoryTimeSeriesDB.unique_cons, MemoryTimeSeriesDB.unique_from, MemoryTimeSeriesDB.place, MemoryTimeSeriesDB.lower_bound, MemoryTimeSeriesDB.upper_bound, MemoryTimeSeriesDB.insert_at, MemoryTimeSeriesDB.find_range, MemoryTimeSeriesDB.copy_range, MemoryTimeSeriesDB.read_bars, MemoryTimeSeriesDB.read_latest_bar, MemoryTimeSeriesDB.get_bar_count, NANOSECONDS_PER_SECOND, SeriesMap.find, SeriesMap.get, SeriesMap.assign, Scenario.bar, Scenario.bar_of, Scenario.env, List.insertionSort, List.orderedInsert, List.takeWhile]⟩

end QuantFlow
